import Mathlib

set_option linter.unusedTactic false
set_option linter.unreachableTactic false
set_option linter.unnecessarySeqFocus false

/-!
# Mycelia-CSS i18n engine: a shallow embedding of `i18n_engine.cpp`

Strings of the program are byte strings (`std::string`); they are modelled as
lists of byte values.  `std::unordered_map` is modelled as an association list
with distinct keys whose list order stands for the (unspecified) iteration
order, `std::unordered_set` as a list without duplicates.
-/

namespace I18n

/-- A byte string (`std::string`, `std::vector<uint8_t>`). -/
abbrev Str := List Nat

/-- UTF-8 encoding of one code point. -/
def utf8EncodeNat (c : Nat) : List Nat :=
  if c < 0x80 then [c]
  else if c < 0x800 then [0xC0 + c / 64, 0x80 + c % 64]
  else if c < 0x10000 then [0xE0 + c / 4096, 0x80 + (c / 64) % 64, 0x80 + c % 64]
  else [0xF0 + c / 262144, 0x80 + (c / 4096) % 64, 0x80 + (c / 64) % 64, 0x80 + c % 64]

/-- The bytes of a source-code string literal (the sources are UTF-8). -/
def utf8 (s : String) : Str := s.data.flatMap (fun c => utf8EncodeNat c.toNat)

/-! ## Character classes of the "C" locale -/

/-- `std::isspace`: space, `\t \n \v \f \r`. -/
def is_ws (c : Nat) : Bool := c == 32 || (9 ≤ c && c ≤ 13)

/-- `std::isdigit`. -/
def is_digit (c : Nat) : Bool := 48 ≤ c && c ≤ 57

/-- `std::isxdigit`. -/
def is_xdigit (c : Nat) : Bool :=
  (48 ≤ c && c ≤ 57) || (65 ≤ c && c ≤ 70) || (97 ≤ c && c ≤ 102)

/-- `std::islower`. -/
def is_lower (c : Nat) : Bool := 97 ≤ c && c ≤ 122

/-- `std::isupper`. -/
def is_upper (c : Nat) : Bool := 65 ≤ c && c ≤ 90

/-- `std::isalnum`. -/
def is_alnum (c : Nat) : Bool := is_digit c || is_upper c || is_lower c

/-- `std::tolower` on one byte. -/
def tolower (c : Nat) : Nat := if is_upper c then c + 32 else c

/-- `std::toupper` on one byte. -/
def toupper (c : Nat) : Nat := if is_lower c then c - 32 else c

/-- `I18nEngine::to_lower_ascii`. -/
def to_lower_ascii (s : Str) : Str := s.map tolower

/-- Upper-casing of every ASCII letter (used by the case-folding law). -/
def to_upper_ascii (s : Str) : Str := s.map toupper

/-- `I18nEngine::trim_inplace`: drop white space at both ends. -/
def trim (s : Str) : Str := (s.dropWhile is_ws).rdropWhile is_ws

/-- `std::string::find(c, pos)`; `none` is `npos`. -/
def find_char (s : Str) (c : Nat) (pos : Nat) : Option Nat :=
  let r := s.drop pos
  let k := r.indexOf c
  if k < r.length then some (pos + k) else none

/-- `std::string::substr(pos, len)`. -/
def substr (s : Str) (pos len : Nat) : Str := (s.drop pos).take len

/-- `I18nEngine::starts_with`. -/
def starts_with (s pref : Str) : Bool := pref.isPrefixOf s

/-- `I18nEngine::is_hex_token`. -/
def is_hex_token (s : Str) : Bool :=
  if s.length < 6 || s.length > 32 then false else s.all is_xdigit

/-- `I18nEngine::is_variant_valid`. -/
def is_variant_valid (variant : Str) : Bool :=
  if variant.isEmpty || variant.length > 16 then false
  else variant.all (fun c => is_lower c || is_digit c || c == 95 || c == 45)

/-- `I18nEngine::parse_variant_suffix`; `none` is `false`, `some (base, variant)` are
the two out-parameters on `true`. -/
def parse_variant_suffix (token : Str) : Option (Str × Str) :=
  match find_char token 123 0 with
  | none => none
  | some opn =>
    match find_char token 125 (opn + 1) with
    | none => none
    | some close =>
      if close ≠ token.length - 1 then none
      else
        let out_base := substr token 0 opn
        let out_variant := substr token (opn + 1) (close - opn - 1)
        if out_variant.isEmpty then none
        else
          let out_base := to_lower_ascii out_base
          let out_variant := to_lower_ascii out_variant
          if is_variant_valid out_variant && !out_base.isEmpty then some (out_base, out_variant)
          else none

/-- The style prefix `"style_"`. -/
def STYLE_PREFIX : Str := [115, 116, 121, 108, 101, 95]

/-- `I18nEngine::is_style_token`. -/
def is_style_token (token : Str) : Bool :=
  let base := match parse_variant_suffix token with
    | some (b, _) => b
    | none => token
  if base.length ≤ 6 then false else starts_with base STYLE_PREFIX

/-! ## Plural rules -/

/-- `I18nEngine::PluralRule`. -/
inductive PluralRule
  | DEFAULT
  | SLAVIC
  | ARABIC
  deriving DecidableEq, Repr

/-- `I18nEngine::pick_variant_name`; `count` is a C++ `int`, `%` is the truncating
remainder of C++. -/
def pick_variant_name (rule : PluralRule) (count : Int) : Str :=
  if count < 0 then utf8 "other"
  else
    match rule with
    | .DEFAULT =>
      if count = 0 then utf8 "zero"
      else if count = 1 then utf8 "one"
      else utf8 "other"
    | .SLAVIC =>
      let mod10 := count.tmod 10
      let mod100 := count.tmod 100
      if mod10 = 1 ∧ mod100 ≠ 11 then utf8 "one"
      else if mod10 ≥ 2 ∧ mod10 ≤ 4 ∧ ¬ (mod100 ≥ 12 ∧ mod100 ≤ 14) then utf8 "few"
      else if mod10 = 0 ∨ (mod10 ≥ 5 ∧ mod10 ≤ 9) ∨ (mod100 ≥ 11 ∧ mod100 ≤ 14) then utf8 "many"
      else utf8 "other"
    | .ARABIC =>
      let mod100 := count.tmod 100
      if count = 0 then utf8 "zero"
      else if count = 1 then utf8 "one"
      else if count = 2 then utf8 "two"
      else if mod100 ≥ 3 ∧ mod100 ≤ 10 then utf8 "few"
      else if mod100 ≥ 11 ∧ mod100 ≤ 99 then utf8 "many"
      else utf8 "other"

/-- The variant naming of the specification, section 4.4 (`pick`), written from its
words: `%` is the mathematical remainder and `x ∈ [a,b]` an interval test. -/
def pick_spec (rule : PluralRule) (count : Int) : Str :=
  if count < 0 then utf8 "other"
  else
    match rule with
    | .DEFAULT =>
      if count = 0 then utf8 "zero" else if count = 1 then utf8 "one" else utf8 "other"
    | .SLAVIC =>
      let m10 := count % 10
      let m100 := count % 100
      if m10 = 1 ∧ m100 ≠ 11 then utf8 "one"
      else if m10 ∈ Set.Icc (2 : Int) 4 ∧ ¬ (m100 ∈ Set.Icc (12 : Int) 14) then utf8 "few"
      else if m10 = 0 ∨ m10 ∈ Set.Icc (5 : Int) 9 ∨ m100 ∈ Set.Icc (11 : Int) 14 then utf8 "many"
      else utf8 "other"
    | .ARABIC =>
      let m100 := count % 100
      if count = 0 then utf8 "zero"
      else if count = 1 then utf8 "one"
      else if count = 2 then utf8 "two"
      else if m100 ∈ Set.Icc (3 : Int) 10 then utf8 "few"
      else if m100 ∈ Set.Icc (11 : Int) 99 then utf8 "many"
      else utf8 "other"

/-! ## Data model -/

/-- `I18nEngine::StyleProperty`. -/
structure StyleProperty where
  prop_hash : Nat
  prop_name : Str
  value : Str
  deriving DecidableEq, Repr

/-- `I18nEngine::CatalogSnapshot` together with its derived class
`StyleCatalogSnapshot`: `style_registry` is `none` for a plain `CatalogSnapshot`
(the `dynamic_cast` to `StyleCatalogSnapshot` fails) and `some registry` for a
`StyleCatalogSnapshot`. -/
structure CatalogSnapshot where
  catalog : List (Str × Str)
  labels : List (Str × Str)
  plural_variants : List (Str × List Str)
  meta_locale : Str
  meta_fallback : Str
  meta_note : Str
  meta_plural : PluralRule
  style_registry : Option (List (Str × List StyleProperty))
  deriving DecidableEq, Repr

/-- `unordered_map::find`: the value stored under a key, if any. -/
def map_find {β : Type} : List (Str × β) → Str → Option β
  | [], _ => none
  | (k', v) :: m, k => if k' = k then some v else map_find m k

/-- The set of tokens on the expansion stack (`std::unordered_set<std::string>`). -/
abbrev Seen := List Str

/-! ## Inline references -/

/-- The `while` loop of `parse_style_inline` over the name characters; `rest` is the
text from `pos` on.  `none` is the `return false` inside the loop. -/
def style_name_end (BASE_POS : Nat) : Str → Nat → Option Nat
  | [], pos => some pos
  | c :: rest, pos =>
    if is_alnum c || c == 95 || c == 45 then
      if pos - BASE_POS > 64 then none else style_name_end BASE_POS rest (pos + 1)
    else some pos

/-- The `while` loop of `parse_style_inline` that collects the variant; `rest` is the
text from `brace_start` on.  `none` is the `return false` inside the loop. -/
def style_variant_scan : Str → Nat → Str → Option (Nat × Str)
  | [], brace_start, variant => some (brace_start, variant)
  | c :: rest, brace_start, variant =>
    if c ≠ 125 then
      let variant := variant ++ [tolower c]
      if variant.length > 16 then none else style_variant_scan rest (brace_start + 1) variant
    else some (brace_start, variant)

/-- The lambda `parse_style_inline` of `try_parse_inline_token`: on success the token
and the advance. -/
def parse_style_inline (s : Str) (at_pos : Nat) : Option (Str × Nat) :=
  let BASE_POS := at_pos + 1
  if BASE_POS + 6 ≥ s.length then none
  else if (List.range 6).any (fun i => tolower (s.getD (BASE_POS + i) 0) != STYLE_PREFIX.getD i 0) then none
  else
    match style_name_end BASE_POS (s.drop (BASE_POS + 6)) (BASE_POS + 6) with
    | none => none
    | some pos =>
      let token := substr s BASE_POS (pos - BASE_POS)
      if pos < s.length ∧ s.getD pos 0 = 123 then
        match style_variant_scan (s.drop (pos + 1)) (pos + 1) [] with
        | none => none
        | some (brace_start, variant) =>
          if brace_start ≥ s.length ∨ s.getD brace_start 0 ≠ 125 ∨ variant.isEmpty then none
          else if !is_variant_valid variant then none
          else
            let token := token ++ [123] ++ variant ++ [125]
            let pos := brace_start + 1
            if token.length ≤ 6 then none else some (token, pos - at_pos)
      else
        if token.length ≤ 6 then none else some (token, pos - at_pos)

/-- The `while` loop of the hex branch that collects the variant; `rest` is the text
from `k` on.  The result is `k` and the variant at loop exit. -/
def hex_variant_scan : Str → Nat → Str → Nat × Str
  | [], k, variant => (k, variant)
  | c :: rest, k, variant =>
    if c ≠ 125 then
      let variant := variant ++ [c]
      if variant.length > 16 then (k + 1, variant) else hex_variant_scan rest (k + 1) variant
    else (k, variant)

/-- `I18nEngine::try_parse_inline_token`: the return value, `out_token` and
`out_advance`. -/
def try_parse_inline_token (s : Str) (at_pos : Nat) : Bool × Str × Nat :=
  if at_pos ≥ s.length ∨ s.getD at_pos 0 ≠ 64 then (false, [], 1)
  else if at_pos + 1 ≥ s.length then (false, [], 1)
  else if s.getD (at_pos + 1) 0 = 64 then (false, [], 2)
  else
    match parse_style_inline s at_pos with
    | some (token, advance) => (true, token, advance)
    | none =>
      let n := (((s.drop (at_pos + 1)).take 32).takeWhile is_xdigit).length
      let j := at_pos + 1 + n
      if n < 6 then (false, [], 1)
      else
        let out_token := to_lower_ascii (substr s (at_pos + 1) n)
        if j < s.length ∧ s.getD j 0 = 123 then
          let (k, variant) := hex_variant_scan (s.drop (j + 1)) (j + 1) []
          if k ≥ s.length ∨ s.getD k 0 ≠ 125 ∨ variant.isEmpty then (false, out_token, 1)
          else
            let variant := to_lower_ascii variant
            if !is_variant_valid variant then (false, out_token, 1)
            else (true, out_token ++ [123] ++ variant ++ [125], (k + 1) - at_pos)
        else (true, out_token, 1 + n)

/-! ## Resolver -/

/-- Two's-complement wrap-around of a C++ `int`. -/
def wrap_int32 (x : Int) : Int := (x + 2147483648) % 4294967296 - 2147483648

/-- `std::to_string(int)`. -/
def int_to_string (x : Int) : Str :=
  if x < 0 then 45 :: (Nat.toDigits 10 x.natAbs).map Char.toNat
  else (Nat.toDigits 10 x.natAbs).map Char.toNat

/-- The digit loop of a placeholder `%N`: the index read from the digits at
`raw[start..]` and the position after the last digit. -/
def parse_placeholder_index (raw : Str) (start : Nat) : Int × Nat :=
  let digits := (raw.drop start).takeWhile is_digit
  (digits.foldl (fun idx c => wrap_int32 (idx * 10 + ((c : Int) - 48))) 0, start + digits.length)

/-- The sentinel `⟦RECURSION_LIMIT⟧`. -/
def S_RECURSION_LIMIT : Str := utf8 "⟦RECURSION_LIMIT⟧"

/-- The sentinel `⟦NO_CATALOG⟧`. -/
def S_NO_CATALOG : Str := utf8 "⟦NO_CATALOG⟧"

/-- The sentinel `⟦CYCLE:<token>⟧`. -/
def S_CYCLE (token : Str) : Str := utf8 "⟦CYCLE:" ++ token ++ utf8 "⟧"

/-- The sentinel `⟦<token>⟧` of a plain miss. -/
def S_MISS (token : Str) : Str := utf8 "⟦" ++ token ++ utf8 "⟧"

/-- The sentinel `⟦MISSING:@<token>⟧`. -/
def S_MISSING (token : Str) : Str := utf8 "⟦MISSING:@" ++ token ++ utf8 "⟧"

/-- The sentinel `⟦arg:<idx>⟧`. -/
def S_ARG (idx : Int) : Str := utf8 "⟦arg:" ++ int_to_string idx ++ utf8 "⟧"

/-! ### Every successful parse of an inline reference advances the scan

These facts are what the scanning loops of the resolver terminate by. -/

theorem style_name_end_ge (B : Nat) (rest : Str) (pos p : Nat)
    (h : style_name_end B rest pos = some p) : pos ≤ p := by
  induction rest generalizing pos with
  | nil => simp [style_name_end] at h; omega
  | cons c rest ih =>
    simp only [style_name_end] at h
    split at h
    · split at h
      · simp at h
      · have := ih _ h; omega
    · simp at h; omega

theorem style_variant_scan_ge (rest : Str) (bs : Nat) (v : Str) (r : Nat × Str)
    (h : style_variant_scan rest bs v = some r) : bs ≤ r.1 := by
  induction rest generalizing bs v with
  | nil => simp [style_variant_scan] at h; subst h; simp
  | cons c rest ih =>
    simp only [style_variant_scan] at h
    split at h
    · split at h
      · simp at h
      · have := ih _ _ h; omega
    · simp at h; subst h; simp

theorem hex_variant_scan_ge (rest : Str) (k : Nat) (v : Str) :
    k ≤ (hex_variant_scan rest k v).1 := by
  induction rest generalizing k v with
  | nil => simp [hex_variant_scan]
  | cons c rest ih =>
    simp only [hex_variant_scan]
    split
    · split
      · simp
      · have := ih (k + 1) (v ++ [c]); omega
    · simp

theorem parse_style_inline_adv (s : Str) (i : Nat) (tok : Str) (adv : Nat)
    (h : parse_style_inline s i = some (tok, adv)) : 1 ≤ adv := by
  unfold parse_style_inline at h
  simp only at h
  split at h
  · simp at h
  split at h
  · simp at h
  split at h
  · simp at h
  rename_i pos hpos
  have hp := style_name_end_ge _ _ _ _ hpos
  split at h
  · split at h
    · simp at h
    rename_i bs variant hv
    have hb := style_variant_scan_ge _ _ _ _ hv
    simp only at hb
    split at h
    · simp at h
    split at h
    · simp at h
    split at h
    · simp at h
    simp only [Option.some.injEq, Prod.mk.injEq] at h
    omega
  · split at h
    · simp at h
    simp only [Option.some.injEq, Prod.mk.injEq] at h
    omega

theorem try_parse_adv_pos (s : Str) (i : Nat) (tok : Str) (adv : Nat)
    (h : try_parse_inline_token s i = (true, tok, adv)) : 1 ≤ adv := by
  unfold try_parse_inline_token at h
  split at h
  · simp at h
  split at h
  · simp at h
  split at h
  · simp at h
  split at h
  · rename_i t a hs
    simp only [Prod.mk.injEq, true_and] at h
    have := parse_style_inline_adv _ _ _ _ hs
    omega
  · simp only at h
    split at h
    · simp at h
    split at h
    · have hge := hex_variant_scan_ge (s.drop (i + 1 + (((s.drop (i + 1)).take 32).takeWhile is_xdigit).length + 1)) (i + 1 + (((s.drop (i + 1)).take 32).takeWhile is_xdigit).length + 1) []
      split at h
      · simp at h
      split at h
      · simp at h
      simp only [Prod.mk.injEq, true_and] at h
      omega
    · simp only [Prod.mk.injEq, true_and] at h
      omega

theorem parse_placeholder_index_gt (raw : Str) (start : Nat) :
    start ≤ (parse_placeholder_index raw start).2 := by
  simp [parse_placeholder_index]

/-! ### The mutually recursive resolver -/

/-- Append with the separating blank of `try_build_style_string`:
`if (!builder.empty() && builder.back() != ' ') builder += ' '`. -/
def space_guard (builder : Str) : Str :=
  if !builder.isEmpty ∧ builder.getLast? ≠ some 32 then builder ++ [32] else builder

/-- Rank of a resolver call in the termination order: the levels left below the
recursion cap, then the position of the function in the call chain. -/
def lvl (depth rank : Nat) : Nat := 8 * (40 - depth) + rank

/-- Rank of a call of a function that starts with the guard `depth > 32`. -/
def lvl_guarded (depth rank : Nat) : Nat := if depth > 32 then 0 else lvl depth rank

mutual

/-- `I18nEngine::resolve_arg`. -/
def resolve_arg (state : CatalogSnapshot) (arg : Str) (seen : Seen) (depth : Nat) : Str × Seen :=
  if arg.head? = some 61 then (arg.drop 1, seen)
  else
    let normalized := to_lower_ascii arg
    let base := match parse_variant_suffix normalized with
      | some (base, _) => base
      | none => normalized
    let lookup := match parse_variant_suffix normalized with
      | some (base, variant) => base ++ [123] ++ variant ++ [125]
      | none => normalized
    if !is_hex_token base then (arg, seen)
    else if (map_find state.catalog lookup).isNone then (arg, seen)
    else translate_impl state lookup [] seen (depth + 1)
termination_by (lvl depth 1, 0)
decreasing_by
  all_goals simp_wf
  all_goals first
    | (apply Prod.Lex.left; simp only [lvl, lvl_guarded]; first | omega | (split_ifs <;> omega))
    | (apply Prod.Lex.right; have := try_parse_adv_pos _ _ _ _ hp; omega)
    | (apply Prod.Lex.right; have := parse_placeholder_index_gt raw (i + 1); omega)
    | (apply Prod.Lex.right; simp)

/-- `I18nEngine::translate_impl`. -/
def translate_impl (state : CatalogSnapshot) (token : Str) (args : List Str) (seen : Seen)
    (depth : Nat) : Str × Seen :=
  if depth > 32 then (S_RECURSION_LIMIT, seen)
  else if token ∈ seen then (S_CYCLE token, seen)
  else
    let seen := token :: seen
    match try_build_style_string state token args seen depth with
    | (some style_out, seen) => (style_out, seen.erase token)
    | (none, seen) =>
      match map_find state.catalog token with
      | none => (S_MISS token, seen.erase token)
      | some raw =>
        let r := translate_impl_loop state raw args depth 0 [] seen
        (r.1, r.2.erase token)
termination_by (lvl_guarded depth 7, 0)
decreasing_by
  all_goals simp_wf
  all_goals first
    | (apply Prod.Lex.left; simp only [lvl, lvl_guarded]; first | omega | (split_ifs <;> omega))
    | (apply Prod.Lex.right; have := try_parse_adv_pos _ _ _ _ hp; omega)
    | (apply Prod.Lex.right; have := parse_placeholder_index_gt raw (i + 1); omega)
    | (apply Prod.Lex.right; simp)

/-- The `for` loop of `translate_impl` over the template `raw`, from index `i` with
the output `out` so far. -/
def translate_impl_loop (state : CatalogSnapshot) (raw : Str) (args : List Str) (depth : Nat)
    (i : Nat) (out : Str) (seen : Seen) : Str × Seen :=
  if i < raw.length then
    if raw.getD i 0 = 64 then
      match hp : try_parse_inline_token raw i with
      | (true, ref_tok, adv) =>
        if (map_find state.catalog ref_tok).isNone then
          translate_impl_loop state raw args depth (i + adv) (out ++ S_MISSING ref_tok) seen
        else
          let r := translate_impl state ref_tok args seen (depth + 1)
          translate_impl_loop state raw args depth (i + adv) (out ++ r.1) r.2
      | (false, _, _) =>
        if i + 1 < raw.length ∧ raw.getD (i + 1) 0 = 64 then
          translate_impl_loop state raw args depth (i + 2) (out ++ [64]) seen
        else
          translate_impl_loop state raw args depth (i + 1) (out ++ [64]) seen
    else if raw.getD i 0 = 37 ∧ i + 1 < raw.length ∧ is_digit (raw.getD (i + 1) 0) then
      let idx := (parse_placeholder_index raw (i + 1)).1
      let j := (parse_placeholder_index raw (i + 1)).2
      if idx ≥ 0 ∧ idx.toNat < args.length then
        let r := resolve_arg state (args.getD idx.toNat []) seen depth
        translate_impl_loop state raw args depth j (out ++ r.1) r.2
      else
        translate_impl_loop state raw args depth j (out ++ S_ARG idx) seen
    else
      translate_impl_loop state raw args depth (i + 1) (out ++ [raw.getD i 0]) seen
  else (out, seen)
termination_by (lvl depth 6, raw.length - i)
decreasing_by
  all_goals simp_wf
  all_goals first
    | (apply Prod.Lex.left; simp only [lvl, lvl_guarded]; first | omega | (split_ifs <;> omega))
    | (apply Prod.Lex.right; have := try_parse_adv_pos _ _ _ _ hp; omega)
    | (apply Prod.Lex.right; have := parse_placeholder_index_gt raw (i + 1); omega)
    | (apply Prod.Lex.right; simp)

/-- `I18nEngine::resolve_plain_text`. -/
def resolve_plain_text (state : CatalogSnapshot) (raw : Str) (args : List Str) (seen : Seen)
    (depth : Nat) : Str × Seen :=
  if depth > 32 then (S_RECURSION_LIMIT, seen)
  else resolve_plain_text_loop state raw args depth 0 [] seen
termination_by (lvl_guarded depth 3, 0)
decreasing_by
  all_goals simp_wf
  all_goals first
    | (apply Prod.Lex.left; simp only [lvl, lvl_guarded]; first | omega | (split_ifs <;> omega))
    | (apply Prod.Lex.right; have := try_parse_adv_pos _ _ _ _ hp; omega)
    | (apply Prod.Lex.right; have := parse_placeholder_index_gt raw (i + 1); omega)
    | (apply Prod.Lex.right; simp)

/-- The `for` loop of `resolve_plain_text`. -/
def resolve_plain_text_loop (state : CatalogSnapshot) (raw : Str) (args : List Str) (depth : Nat)
    (i : Nat) (out : Str) (seen : Seen) : Str × Seen :=
  if i < raw.length then
    if raw.getD i 0 = 64 then
      match hp : try_parse_inline_token raw i with
      | (true, ref_tok, adv) =>
        if (map_find state.catalog ref_tok).isNone then
          resolve_plain_text_loop state raw args depth (i + adv) (out ++ S_MISSING ref_tok) seen
        else
          let r := translate_impl state ref_tok args seen (depth + 1)
          resolve_plain_text_loop state raw args depth (i + adv) (out ++ r.1) r.2
      | (false, _, _) =>
        if i + 1 < raw.length ∧ raw.getD (i + 1) 0 = 64 then
          resolve_plain_text_loop state raw args depth (i + 2) (out ++ [64]) seen
        else
          resolve_plain_text_loop state raw args depth (i + 1) (out ++ [64]) seen
    else if raw.getD i 0 = 37 ∧ i + 1 < raw.length ∧ is_digit (raw.getD (i + 1) 0) then
      let idx := (parse_placeholder_index raw (i + 1)).1
      let j := (parse_placeholder_index raw (i + 1)).2
      if idx ≥ 0 ∧ idx.toNat < args.length then
        let r := resolve_arg state (args.getD idx.toNat []) seen (depth + 1)
        resolve_plain_text_loop state raw args depth j (out ++ r.1) r.2
      else
        resolve_plain_text_loop state raw args depth j (out ++ S_ARG idx) seen
    else
      resolve_plain_text_loop state raw args depth (i + 1) (out ++ [raw.getD i 0]) seen
  else (out, seen)
termination_by (lvl depth 2, raw.length - i)
decreasing_by
  all_goals simp_wf
  all_goals first
    | (apply Prod.Lex.left; simp only [lvl, lvl_guarded]; first | omega | (split_ifs <;> omega))
    | (apply Prod.Lex.right; have := try_parse_adv_pos _ _ _ _ hp; omega)
    | (apply Prod.Lex.right; have := parse_placeholder_index_gt raw (i + 1); omega)
    | (apply Prod.Lex.right; simp)

/-- `I18nEngine::try_build_style_string`: `none` is `false`, `some out_style` is `true`. -/
def try_build_style_string (state : CatalogSnapshot) (token : Str) (args : List Str)
    (seen : Seen) (depth : Nat) : Option Str × Seen :=
  match state.style_registry with
  | none => (none, seen)
  | some registry =>
    match map_find registry token with
    | none => (none, seen)
    | some props =>
      if props.isEmpty then (none, seen)
      else
        let r := try_build_style_loop state args depth props [] seen
        let builder := r.1.rdropWhile (fun c => c == 32)
        if builder.isEmpty then (none, r.2) else (some builder, r.2)
termination_by (lvl depth 5, 0)
decreasing_by
  all_goals simp_wf
  all_goals first
    | (apply Prod.Lex.left; simp only [lvl, lvl_guarded]; first | omega | (split_ifs <;> omega))
    | (apply Prod.Lex.right; have := try_parse_adv_pos _ _ _ _ hp; omega)
    | (apply Prod.Lex.right; have := parse_placeholder_index_gt raw (i + 1); omega)
    | (apply Prod.Lex.right; simp)

/-- The `for` loop of `try_build_style_string` over the properties. -/
def try_build_style_loop (state : CatalogSnapshot) (args : List Str) (depth : Nat)
    (props : List StyleProperty) (builder : Str) (seen : Seen) : Str × Seen :=
  match props with
  | [] => (builder, seen)
  | prop :: rest =>
    if prop.prop_name.isEmpty then
      let r := resolve_plain_text state prop.value args seen (depth + 1)
      if !r.1.isEmpty then
        try_build_style_loop state args depth rest (space_guard builder ++ r.1 ++ [32]) r.2
      else
        try_build_style_loop state args depth rest builder r.2
    else
      let r := resolve_plain_text state prop.value args seen (depth + 1)
      try_build_style_loop state args depth rest
        (space_guard builder ++ prop.prop_name ++ [58, 32] ++ r.1 ++ [59]) r.2
termination_by (lvl depth 4, props.length)
decreasing_by
  all_goals simp_wf
  all_goals first
    | (apply Prod.Lex.left; simp only [lvl, lvl_guarded]; first | omega | (split_ifs <;> omega))
    | (apply Prod.Lex.right; have := try_parse_adv_pos _ _ _ _ hp; omega)
    | (apply Prod.Lex.right; have := parse_placeholder_index_gt raw (i + 1); omega)
    | (apply Prod.Lex.right; simp)

end



/-! ### Fuel-bounded mirror of the resolver

The same seven functions by structural recursion on a fuel counter that every call
decrements, so that closed instances reduce by evaluation; `fuel_sound` below shows
that whenever the mirror returns a result it is the result of the resolver. -/

mutual

/-- Fuel-bounded mirror of `resolve_arg`, for evaluation by reduction. -/
def resolve_arg_fuel : Nat → CatalogSnapshot → Str → Seen → Nat → Option (Str × Seen)
  | 0, _, _, _, _ => none
  | fuel + 1, state, arg, seen, depth =>
    if arg.head? = some 61 then some (arg.drop 1, seen)
    else
      let normalized := to_lower_ascii arg
      let base := match parse_variant_suffix normalized with
        | some (base, _) => base
        | none => normalized
      let lookup := match parse_variant_suffix normalized with
        | some (base, variant) => base ++ [123] ++ variant ++ [125]
        | none => normalized
      if !is_hex_token base then some (arg, seen)
      else if (map_find state.catalog lookup).isNone then some (arg, seen)
      else translate_impl_fuel fuel state lookup [] seen (depth + 1)
termination_by structural fuel => fuel

/-- Fuel-bounded mirror of `translate_impl`. -/
def translate_impl_fuel : Nat → CatalogSnapshot → Str → List Str → Seen → Nat → Option (Str × Seen)
  | 0, _, _, _, _, _ => none
  | fuel + 1, state, token, args, seen, depth =>
    if depth > 32 then some (S_RECURSION_LIMIT, seen)
    else if token ∈ seen then some (S_CYCLE token, seen)
    else
      match try_build_style_string_fuel fuel state token args (token :: seen) depth with
      | none => none
      | some (some style_out, seen) => some (style_out, seen.erase token)
      | some (none, seen) =>
        match map_find state.catalog token with
        | none => some (S_MISS token, seen.erase token)
        | some raw =>
          match translate_impl_loop_fuel fuel state raw args depth 0 [] seen with
          | none => none
          | some r => some (r.1, r.2.erase token)
termination_by structural fuel => fuel

/-- Fuel-bounded mirror of `translate_impl_loop`. -/
def translate_impl_loop_fuel : Nat → CatalogSnapshot → Str → List Str → Nat → Nat → Str → Seen →
    Option (Str × Seen)
  | 0, _, _, _, _, _, _, _ => none
  | fuel + 1, state, raw, args, depth, i, out, seen =>
    if i < raw.length then
      if raw.getD i 0 = 64 then
        match try_parse_inline_token raw i with
        | (true, ref_tok, adv) =>
          if (map_find state.catalog ref_tok).isNone then
            translate_impl_loop_fuel fuel state raw args depth (i + adv) (out ++ S_MISSING ref_tok) seen
          else
            match translate_impl_fuel fuel state ref_tok args seen (depth + 1) with
            | none => none
            | some r => translate_impl_loop_fuel fuel state raw args depth (i + adv) (out ++ r.1) r.2
        | (false, _, _) =>
          if i + 1 < raw.length ∧ raw.getD (i + 1) 0 = 64 then
            translate_impl_loop_fuel fuel state raw args depth (i + 2) (out ++ [64]) seen
          else
            translate_impl_loop_fuel fuel state raw args depth (i + 1) (out ++ [64]) seen
      else if raw.getD i 0 = 37 ∧ i + 1 < raw.length ∧ is_digit (raw.getD (i + 1) 0) then
        let idx := (parse_placeholder_index raw (i + 1)).1
        let j := (parse_placeholder_index raw (i + 1)).2
        if idx ≥ 0 ∧ idx.toNat < args.length then
          match resolve_arg_fuel fuel state (args.getD idx.toNat []) seen depth with
          | none => none
          | some r => translate_impl_loop_fuel fuel state raw args depth j (out ++ r.1) r.2
        else
          translate_impl_loop_fuel fuel state raw args depth j (out ++ S_ARG idx) seen
      else
        translate_impl_loop_fuel fuel state raw args depth (i + 1) (out ++ [raw.getD i 0]) seen
    else some (out, seen)
termination_by structural fuel => fuel

/-- Fuel-bounded mirror of `resolve_plain_text`. -/
def resolve_plain_text_fuel : Nat → CatalogSnapshot → Str → List Str → Seen → Nat → Option (Str × Seen)
  | 0, _, _, _, _, _ => none
  | fuel + 1, state, raw, args, seen, depth =>
    if depth > 32 then some (S_RECURSION_LIMIT, seen)
    else resolve_plain_text_loop_fuel fuel state raw args depth 0 [] seen
termination_by structural fuel => fuel

/-- Fuel-bounded mirror of `resolve_plain_text_loop`. -/
def resolve_plain_text_loop_fuel : Nat → CatalogSnapshot → Str → List Str → Nat → Nat → Str → Seen →
    Option (Str × Seen)
  | 0, _, _, _, _, _, _, _ => none
  | fuel + 1, state, raw, args, depth, i, out, seen =>
    if i < raw.length then
      if raw.getD i 0 = 64 then
        match try_parse_inline_token raw i with
        | (true, ref_tok, adv) =>
          if (map_find state.catalog ref_tok).isNone then
            resolve_plain_text_loop_fuel fuel state raw args depth (i + adv) (out ++ S_MISSING ref_tok) seen
          else
            match translate_impl_fuel fuel state ref_tok args seen (depth + 1) with
            | none => none
            | some r => resolve_plain_text_loop_fuel fuel state raw args depth (i + adv) (out ++ r.1) r.2
        | (false, _, _) =>
          if i + 1 < raw.length ∧ raw.getD (i + 1) 0 = 64 then
            resolve_plain_text_loop_fuel fuel state raw args depth (i + 2) (out ++ [64]) seen
          else
            resolve_plain_text_loop_fuel fuel state raw args depth (i + 1) (out ++ [64]) seen
      else if raw.getD i 0 = 37 ∧ i + 1 < raw.length ∧ is_digit (raw.getD (i + 1) 0) then
        let idx := (parse_placeholder_index raw (i + 1)).1
        let j := (parse_placeholder_index raw (i + 1)).2
        if idx ≥ 0 ∧ idx.toNat < args.length then
          match resolve_arg_fuel fuel state (args.getD idx.toNat []) seen (depth + 1) with
          | none => none
          | some r => resolve_plain_text_loop_fuel fuel state raw args depth j (out ++ r.1) r.2
        else
          resolve_plain_text_loop_fuel fuel state raw args depth j (out ++ S_ARG idx) seen
      else
        resolve_plain_text_loop_fuel fuel state raw args depth (i + 1) (out ++ [raw.getD i 0]) seen
    else some (out, seen)
termination_by structural fuel => fuel

/-- Fuel-bounded mirror of `try_build_style_string`. -/
def try_build_style_string_fuel : Nat → CatalogSnapshot → Str → List Str → Seen → Nat →
    Option (Option Str × Seen)
  | 0, _, _, _, _, _ => none
  | fuel + 1, state, token, args, seen, depth =>
    match state.style_registry with
    | none => some (none, seen)
    | some registry =>
      match map_find registry token with
      | none => some (none, seen)
      | some props =>
        if props.isEmpty then some (none, seen)
        else
          match try_build_style_loop_fuel fuel state args depth props [] seen with
          | none => none
          | some r =>
            let builder := r.1.rdropWhile (fun c => c == 32)
            if builder.isEmpty then some (none, r.2) else some (some builder, r.2)
termination_by structural fuel => fuel

/-- Fuel-bounded mirror of `try_build_style_loop`. -/
def try_build_style_loop_fuel : Nat → CatalogSnapshot → List Str → Nat → List StyleProperty → Str →
    Seen → Option (Str × Seen)
  | 0, _, _, _, _, _, _ => none
  | fuel + 1, state, args, depth, props, builder, seen =>
    match props with
    | [] => some (builder, seen)
    | prop :: rest =>
      match resolve_plain_text_fuel fuel state prop.value args seen (depth + 1) with
      | none => none
      | some r =>
        if prop.prop_name.isEmpty then
          if !r.1.isEmpty then
            try_build_style_loop_fuel fuel state args depth rest (space_guard builder ++ r.1 ++ [32]) r.2
          else
            try_build_style_loop_fuel fuel state args depth rest builder r.2
        else
          try_build_style_loop_fuel fuel state args depth rest
            (space_guard builder ++ prop.prop_name ++ [58, 32] ++ r.1 ++ [59]) r.2
termination_by structural fuel => fuel

end

/-! ## Style parser -/

/-- `I18nEngine::fnv1a32_append` (FNV-1a over 32 bits, continuing from `hash`). -/
def fnv1a32_append (hash : Nat) (data : List Nat) : Nat :=
  data.foldl (fun h b => ((h ^^^ b) * 16777619) % 4294967296) hash

/-- `I18nEngine::fnv1a32`. -/
def fnv1a32 (data : List Nat) : Nat := fnv1a32_append 2166136261 data

/-- The pieces of `s` between occurrences of `sep`, scanned as the loops
`while (pos < text.size()) { end = text.find(sep, pos); ...; pos = end + 1; }` do: a
separator at the very end does not open a further (empty) piece.  `cur` is the piece
collected so far. -/
def split_on_aux (sep : Nat) : Str → Str → List Str
  | [], cur => [cur]
  | c :: rest, cur =>
    if c = sep then
      cur :: (match rest with
        | [] => []
        | c' :: rest' => split_on_aux sep (c' :: rest') [])
    else split_on_aux sep rest (cur ++ [c])

/-- The pieces of `s` between occurrences of `sep`; none for the empty string. -/
def split_on (sep : Nat) (s : Str) : List Str :=
  match s with
  | [] => []
  | _ => split_on_aux sep s []

/-- The body of the loop of `parse_style_properties` for one segment: the property it
appends, if any. -/
def parse_style_segment (segment_in : Str) : Option StyleProperty :=
  let segment := trim segment_in
  if segment.isEmpty then none
  else
    match find_char segment 58 0 with
    | none =>
      if segment.head? = some 64 then some { prop_hash := 0, prop_name := [], value := segment }
      else none
    | some colon =>
      let name := trim (substr segment 0 colon)
      let value := trim (segment.drop (colon + 1))
      if name.isEmpty || value.isEmpty then none
      else
        let prop_name := to_lower_ascii name
        some { prop_hash := fnv1a32 prop_name, prop_name := prop_name, value := value }

/-- `I18nEngine::parse_style_properties`: the list `out_props`; the return value is
whether it is non-empty. -/
def parse_style_properties (text : Str) : List StyleProperty :=
  (split_on 59 text).filterMap parse_style_segment

/-- `I18nEngine::populate_style_registry`: the registry built from a catalog. -/
def populate_style_registry (catalog : List (Str × Str)) : List (Str × List StyleProperty) :=
  catalog.filterMap (fun kv =>
    if !is_style_token kv.1 then none
    else if (parse_style_properties kv.2).isEmpty then none
    else some (kv.1, parse_style_properties kv.2))

/-! ## Text parser -/

/-- `I18nEngine::unescape_txt_min`. -/
def unescape_txt_min : Str → Str
  | [] => []
  | [c] => [c]
  | c :: c' :: rest =>
    if c = 92 then
      (if c' = 110 then 10
       else if c' = 116 then 9
       else if c' = 114 then 13
       else c') :: unescape_txt_min rest
    else c :: unescape_txt_min (c' :: rest)

/-- Outcome of `parse_line`: `ok token label text` is `true`; `skip` is `false` with an
empty `out_err` (blank line or comment); `err msg` is `false` with `out_err = msg`. -/
inductive ParsedLine
  | ok (token label text : Str)
  | skip
  | err (msg : Str)
  deriving DecidableEq, Repr

/-- `I18nEngine::parse_line`. -/
def parse_line (line_in : Str) : ParsedLine :=
  let line := trim line_in
  if line.isEmpty then .skip
  else if line.head? = some 35 then .skip
  else
    match find_char line 58 0 with
    | none => .err (utf8 "Kein ':' gefunden.")
    | some colon =>
      let head := trim (substr line 0 colon)
      let text := (line.drop (colon + 1)).dropWhile is_ws
      let parsed_head : Option (Str × Str) :=
        match find_char head 40 0 with
        | none => some (head, [])
        | some paren_open =>
          match find_char head 41 (paren_open + 1) with
          | none => none
          | some paren_close =>
            some (trim (substr head 0 paren_open),
                  trim (substr head (paren_open + 1) (paren_close - (paren_open + 1))))
      match parsed_head with
      | none => .err (utf8 "Label '(' ohne schließende ')'.")
      | some (token, label) =>
        let parsed_token : Option (Str × Str) :=
          if (find_char token 123 0).isSome then
            match parse_variant_suffix token with
            | none => none
            | some (base_token, variant_token) =>
              some (base_token ++ [123] ++ variant_token ++ [125], base_token)
          else some (to_lower_ascii token, to_lower_ascii token)
        match parsed_token with
        | none => .err (utf8 "Token-Variante ist ungültig.")
        | some (token, base_token) =>
          if !is_hex_token base_token && !is_style_token base_token then
            .err (utf8 "Token ist kein gültiger Hex-String (6–32 Zeichen).")
          else .ok token label (unescape_txt_min text)

/-- `I18nEngine::parse_meta_line`: on `true` the key and the value. -/
def parse_meta_line (line : Str) : Option (Str × Str) :=
  let s := trim line
  if !starts_with s (utf8 "@meta") then none
  else
    let s := trim (s.drop 5)
    if s.isEmpty then none
    else
      match find_char s 61 0 with
      | none => none
      | some eq =>
        let key := to_lower_ascii (trim (substr s 0 eq))
        let value := trim (s.drop (eq + 1))
        if !key.isEmpty && !value.isEmpty then some (key, value) else none

/-- `I18nEngine::parse_plural_rule_name`: the rule and the flag `ok`. -/
def parse_plural_rule_name (v : Str) : PluralRule × Bool :=
  let v := to_lower_ascii v
  if v = utf8 "default" then (.DEFAULT, true)
  else if v = utf8 "slavic" then (.SLAVIC, true)
  else if v = utf8 "arabic" then (.ARABIC, true)
  else (.DEFAULT, false)

/-- `std::set<std::string>::insert` on a set kept as a list of distinct elements. -/
def set_insert (s : List Str) (x : Str) : List Str := if x ∈ s then s else s ++ [x]

/-- `*set.begin()`: the smallest element in the order of `std::string` (byte-wise
lexicographic), `none` for the empty set. -/
def set_begin : List Str → Option Str
  | [] => none
  | x :: xs =>
    match set_begin xs with
    | none => some x
    | some m => if x < m then some x else some m

/-- `plural_variants[base].insert(variant)`. -/
def plural_insert : List (Str × List Str) → Str → Str → List (Str × List Str)
  | [], base, variant => [(base, [variant])]
  | (b, vs) :: m, base, variant =>
    if b = base then (b, set_insert vs variant) :: m
    else (b, vs) :: plural_insert m base variant

/-- The lines that the lambda `next_line` of `build_snapshot_from_text` yields in turn:
the pieces between `\n`, each without one trailing `\r`. -/
def text_lines (src : Str) : List Str :=
  (split_on 10 src).map (fun l => if l.getLast? = some 13 then l.dropLast else l)

/-- The empty `StyleCatalogSnapshot` that both loaders start from. -/
def empty_snapshot : CatalogSnapshot :=
  { catalog := [], labels := [], plural_variants := [], meta_locale := [], meta_fallback := [],
    meta_note := [], meta_plural := .DEFAULT, style_registry := some [] }

/-- The entry part of the loop body of `build_snapshot_from_text` (from `parse_line`
on): `none` is `continue` without a change. -/
def text_entry_step (strict : Bool) (line : Str) (line_no : Nat) (snapshot : CatalogSnapshot) :
    Except Str (Option CatalogSnapshot) :=
  match parse_line line with
  | .skip => .ok none
  | .err parse_err =>
    if strict then
      .error (utf8 "Parse-Fehler in Zeile " ++ int_to_string line_no ++ utf8 ": " ++ parse_err)
    else .ok none
  | .ok token label text =>
    let plural_variants :=
      match parse_variant_suffix token with
      | some (base_token, variant_token) =>
        if !variant_token.isEmpty then plural_insert snapshot.plural_variants base_token variant_token
        else snapshot.plural_variants
      | none => snapshot.plural_variants
    if (map_find snapshot.catalog token).isSome then
      .error (utf8 "Doppelter Token in Zeile " ++ int_to_string line_no ++ utf8 ": " ++ token)
    else
      .ok (some { snapshot with
        plural_variants := plural_variants
        catalog := snapshot.catalog ++ [(token, text)]
        labels := if !label.isEmpty then snapshot.labels ++ [(token, label)] else snapshot.labels })

/-- The `while (next_line(line))` loop of `build_snapshot_from_text` over the remaining
lines, with the loop variables `line_no`, `meta_phase`, `seen_any_entry`, `loaded` and
the snapshot under construction. -/
def text_loop (strict : Bool) : List Str → Nat → Bool → Bool → Nat → CatalogSnapshot →
    Except Str (Nat × CatalogSnapshot)
  | [], _, _, _, loaded, snapshot => .ok (loaded, snapshot)
  | line :: rest, line_no, meta_phase, seen_any_entry, loaded, snapshot =>
    let line_no := line_no + 1
    let raw := trim line
    if raw.isEmpty then text_loop strict rest line_no meta_phase seen_any_entry loaded snapshot
    else if raw.head? = some 35 then
      text_loop strict rest line_no meta_phase seen_any_entry loaded snapshot
    else
      let entry (_ : Unit) : Except Str (Nat × CatalogSnapshot) :=
        match text_entry_step strict line line_no snapshot with
        | .error e => .error e
        | .ok none => text_loop strict rest line_no false seen_any_entry loaded snapshot
        | .ok (some snapshot) => text_loop strict rest line_no false true (loaded + 1) snapshot
      if meta_phase then
        match parse_meta_line raw with
        | some (key, value) =>
          if seen_any_entry then
            if strict then
              .error (utf8 "Meta-Zeile nach Einträgen in Zeile " ++ int_to_string line_no)
            else text_loop strict rest line_no meta_phase seen_any_entry loaded snapshot
          else if key = utf8 "locale" then
            text_loop strict rest line_no meta_phase seen_any_entry loaded
              { snapshot with meta_locale := value }
          else if key = utf8 "fallback" then
            text_loop strict rest line_no meta_phase seen_any_entry loaded
              { snapshot with meta_fallback := value }
          else if key = utf8 "note" then
            text_loop strict rest line_no meta_phase seen_any_entry loaded
              { snapshot with meta_note := value }
          else if key = utf8 "plural" then
            if !(parse_plural_rule_name value).2 && strict then
              .error (utf8 "Unbekannte Plural-Rule '" ++ value ++ utf8 "' in Zeile " ++
                int_to_string line_no)
            else
              text_loop strict rest line_no meta_phase seen_any_entry loaded
                { snapshot with meta_plural := (parse_plural_rule_name value).1 }
          else if strict then
            .error (utf8 "Unbekannter Meta-Key '" ++ key ++ utf8 "' in Zeile " ++
              int_to_string line_no)
          else text_loop strict rest line_no meta_phase seen_any_entry loaded snapshot
        | none => entry ()
      else entry ()

/-- `I18nEngine::build_snapshot_from_text`: the snapshot, or the error message `err`. -/
def build_snapshot_from_text (src : Str) (strict : Bool) : Except Str CatalogSnapshot :=
  match text_loop strict (text_lines src) 0 true false 0 empty_snapshot with
  | .error e => .error e
  | .ok (loaded, snapshot) =>
    if loaded = 0 then .error (utf8 "Kein einziger gültiger Eintrag geladen (leerer Katalog?).")
    else .ok { snapshot with style_registry := some (populate_style_registry snapshot.catalog) }

/-! ## Binary codec -/

/-- The magic `"I18N"`. -/
def BINARY_MAGIC : List Nat := [73, 49, 56, 78]

/-- The constant `BINARY_HEADER_SIZE_V1`. -/
def BINARY_HEADER_SIZE_V1 : Nat := 20

/-- The constant `BINARY_HEADER_SIZE_V2`. -/
def BINARY_HEADER_SIZE_V2 : Nat := 24

/-- The constant `METADATA_HEADER_SIZE`. -/
def METADATA_HEADER_SIZE : Nat := 6

/-- Failure of the binary reader: an error message (`return {}` with `err` set), or a
read of a byte outside the input buffer, which is undefined behaviour in the program. -/
inductive BinError
  | msg (err : Str)
  | out_of_bounds
  deriving DecidableEq, Repr

/-- The read `data[i]` of one byte of the input buffer. -/
def read_u8 (data : List Nat) (i : Nat) : Except BinError Nat :=
  match data[i]? with
  | some b => .ok b
  | none => .error .out_of_bounds

/-- `read_le_u16(data + off)`. -/
def read_le_u16 (data : List Nat) (off : Nat) : Except BinError Nat :=
  (read_u8 data off).bind fun b0 =>
  (read_u8 data (off + 1)).bind fun b1 =>
  .ok (b0 ||| (b1 <<< 8))

/-- `read_le_u32(data + off)`. -/
def read_le_u32 (data : List Nat) (off : Nat) : Except BinError Nat :=
  (read_u8 data off).bind fun b0 =>
  (read_u8 data (off + 1)).bind fun b1 =>
  (read_u8 data (off + 2)).bind fun b2 =>
  (read_u8 data (off + 3)).bind fun b3 =>
  .ok (b0 ||| (b1 <<< 8) ||| (b2 <<< 16) ||| (b3 <<< 24))

/-- `append_le_u16`: the two bytes appended. -/
def le_u16 (value : Nat) : List Nat := [value &&& 255, (value >>> 8) &&& 255]

/-- `append_le_u32`: the four bytes appended. -/
def le_u32 (value : Nat) : List Nat :=
  [value &&& 255, (value >>> 8) &&& 255, (value >>> 16) &&& 255, (value >>> 24) &&& 255]

/-- The local `struct EntryInfo` of `build_snapshot_from_binary`. -/
structure EntryInfo where
  base : Str
  variant : Str
  text_offset : Nat
  text_length : Nat
  deriving DecidableEq, Repr

/-- The body of the first `for` loop of `build_snapshot_from_binary`: reads the entry
record at `offset`; the result is the entry and the offset after the record. -/
def read_entry (data : List Nat) (offset : Nat) : Except BinError (EntryInfo × Nat) :=
  let size := data.length
  if offset ≥ size then .error (.msg (utf8 "Binär-Format: Eintragstabelle zu kurz.")) else
  (read_u8 data offset).bind fun token_len =>
  let offset := offset + 1
  if token_len < 6 ∨ token_len > 32 then
    .error (.msg (utf8 "Binär-Format: Ungültige Token-Länge.")) else
  if offset + token_len > size then
    .error (.msg (utf8 "Binär-Format: Token-Länge überschreitet Daten.")) else
  let base := to_lower_ascii (substr data offset token_len)
  let offset := offset + token_len
  (read_u8 data offset).bind fun variant_len =>
  let offset := offset + 1
  if variant_len > 0 ∧ offset + variant_len > size then
    .error (.msg (utf8 "Binär-Format: Variant-Länge überschreitet Daten.")) else
  let variant := if variant_len > 0 then to_lower_ascii (substr data offset variant_len) else []
  let offset := if variant_len > 0 then offset + variant_len else offset
  if variant_len > 0 ∧ !is_variant_valid variant then
    .error (.msg (utf8 "Binär-Format: Variant enthält ungültige Zeichen.")) else
  if !is_hex_token base then .error (.msg (utf8 "Binär-Format: Token ist kein Hex-String.")) else
  if offset + 8 > size then .error (.msg (utf8 "Binär-Format: Eintrag zu kurz.")) else
  (read_le_u32 data offset).bind fun text_offset =>
  (read_le_u32 data (offset + 4)).bind fun text_length =>
  .ok ({ base := base, variant := variant, text_offset := text_offset,
         text_length := text_length }, offset + 8)

/-- The first `for` loop of `build_snapshot_from_binary`: reads `count` entry records
from `offset` on; the result is the list `entries` and the final `offset`. -/
def read_entries (data : List Nat) : Nat → Nat → List EntryInfo →
    Except BinError (List EntryInfo × Nat)
  | 0, offset, entries => .ok (entries, offset)
  | count + 1, offset, entries =>
    match read_entry data offset with
    | .error e => .error e
    | .ok (entry, offset) => read_entries data count offset (entries ++ [entry])

/-- The second `for` loop of `build_snapshot_from_binary`: fills the catalog and the
plural variants from the entries. -/
def fill_entries (data : List Nat) (strings_base string_table_size : Nat) :
    List EntryInfo → CatalogSnapshot → Except BinError CatalogSnapshot
  | [], snapshot => .ok snapshot
  | entry :: rest, snapshot =>
    if entry.text_offset + entry.text_length > string_table_size then
      .error (.msg (utf8 "Binär-Format: Text-Offset außerhalb der String-Table."))
    else
      let value := substr data (strings_base + entry.text_offset) entry.text_length
      let key := if !entry.variant.isEmpty then entry.base ++ [123] ++ entry.variant ++ [125]
                 else entry.base
      let plural_variants :=
        if !entry.variant.isEmpty then plural_insert snapshot.plural_variants entry.base entry.variant
        else snapshot.plural_variants
      if (map_find snapshot.catalog key).isSome then
        .error (.msg (utf8 "Binär-Format: Doppelte Einträge."))
      else
        fill_entries data strings_base string_table_size rest
          { snapshot with plural_variants := plural_variants
                          catalog := snapshot.catalog ++ [(key, value)] }

/-- The plural rule stored as the byte `plural_rule` of the header. -/
def plural_rule_of_byte (b : Nat) : PluralRule :=
  if b = 1 then .SLAVIC else if b = 2 then .ARABIC else .DEFAULT

/-- `static_cast<uint8_t>(rule)`. -/
def plural_rule_to_byte : PluralRule → Nat
  | .DEFAULT => 0
  | .SLAVIC => 1
  | .ARABIC => 2

/-- The fields of the binary header, as `build_snapshot_from_binary` reads them. -/
structure BinHeader where
  version : Nat
  plural_rule : Nat
  metadata_size : Nat
  entry_count : Nat
  string_table_size : Nat
  checksum : Nat
  deriving DecidableEq, Repr

/-- The size of the header for a version (`header_size`). -/
def header_size_of (version : Nat) : Nat :=
  if version = 1 then BINARY_HEADER_SIZE_V1 else BINARY_HEADER_SIZE_V2

/-- The first part of `build_snapshot_from_binary`: the checks and reads of the header,
up to `checksum`. -/
def read_header (data : List Nat) : Except BinError BinHeader :=
  let size := data.length
  if size < BINARY_HEADER_SIZE_V1 then .error (.msg (utf8 "Binär-Format: Header zu kurz.")) else
  if data.take 4 ≠ BINARY_MAGIC then .error (.msg (utf8 "Unbekanntes Binär-Format.")) else
  (read_u8 data 4).bind fun version =>
  if version ≠ 1 ∧ version ≠ 2 then
    .error (.msg (utf8 "Binär-Format-Version nicht unterstützt.")) else
  let header_size := header_size_of version
  (if version ≥ 2 then read_u8 data 6 else .ok 0).bind fun plural_rule =>
  (if version ≥ 2 then read_le_u32 data 20 else .ok 0).bind fun metadata_size =>
  if version ≥ 2 ∧ metadata_size > size - header_size then
    .error (.msg (utf8 "Binär-Format: Metadata block zu groß.")) else
  if version ≥ 2 ∧ metadata_size > 0 ∧ metadata_size < METADATA_HEADER_SIZE then
    .error (.msg (utf8 "Binär-Format: Metadata block zu kurz.")) else
  (read_le_u32 data 8).bind fun entry_count =>
  (read_le_u32 data 12).bind fun string_table_size =>
  (read_le_u32 data 16).bind fun checksum =>
  .ok { version := version, plural_rule := plural_rule, metadata_size := metadata_size,
        entry_count := entry_count, string_table_size := string_table_size,
        checksum := checksum }

/-- The part of `build_snapshot_from_binary` that reads the metadata block: locale,
fallback and note (all empty when there is no block). -/
def read_metadata (data : List Nat) (h : BinHeader) : Except BinError (Str × Str × Str) :=
  let size := data.length
  let metadata_block_offset := header_size_of h.version
  if h.version ≥ 2 ∧ h.metadata_size > 0 then
    if metadata_block_offset + h.metadata_size > size then
      .error (.msg (utf8 "Binär-Format: Metadata block überläuft.")) else
    (read_le_u16 data metadata_block_offset).bind fun locale_len =>
    (read_le_u16 data (metadata_block_offset + 2)).bind fun fallback_len =>
    (read_le_u16 data (metadata_block_offset + 4)).bind fun note_len =>
    if METADATA_HEADER_SIZE + locale_len + fallback_len + note_len ≠ h.metadata_size then
      .error (.msg (utf8 "Binär-Format: Metadata-Länge inkonsistent.")) else
    let cursor := metadata_block_offset + METADATA_HEADER_SIZE
    .ok (substr data cursor locale_len, substr data (cursor + locale_len) fallback_len,
         substr data (cursor + locale_len + fallback_len) note_len)
  else .ok ([], [], [])

/-- The value `computed_checksum` of `build_snapshot_from_binary`. -/
def computed_checksum (data : List Nat) (h : BinHeader) (strings_base : Nat) : Nat :=
  let metadata_block_offset := header_size_of h.version
  let entry_table_offset := metadata_block_offset + h.metadata_size
  if h.version = 1 then fnv1a32 (substr data strings_base h.string_table_size)
  else
    let c := 2166136261
    let c := if h.metadata_size > 0 then
        fnv1a32_append c (substr data metadata_block_offset h.metadata_size) else c
    let c := fnv1a32_append c (substr data entry_table_offset (strings_base - entry_table_offset))
    fnv1a32_append c (substr data strings_base h.string_table_size)

/-- `I18nEngine::build_snapshot_from_binary` on the buffer `data` (with
`size = data.length`; `size_t` is taken to be 64 bits wide, so that no sum of an offset
and a 32-bit length wraps around). -/
def build_snapshot_from_binary (data : List Nat) (strict : Bool) : Except BinError CatalogSnapshot :=
  let size := data.length
  (read_header data).bind fun h =>
  (read_metadata data h).bind fun mdata =>
  let snapshot := { empty_snapshot with
    meta_plural := plural_rule_of_byte h.plural_rule
    meta_locale := mdata.1
    meta_fallback := mdata.2.1
    meta_note := mdata.2.2 }
  let entry_table_offset := header_size_of h.version + h.metadata_size
  (read_entries data h.entry_count entry_table_offset []).bind fun r =>
  let entries := r.1
  let strings_base := r.2
  if strings_base + h.string_table_size > size then
    .error (.msg (utf8 "Binär-Format: String-Table zu kurz.")) else
  if computed_checksum data h strings_base ≠ h.checksum ∧ strict then
    .error (.msg (utf8 "Binär-Format: Checksum stimmt nicht.")) else
  (fill_entries data strings_base h.string_table_size entries snapshot).bind fun snapshot =>
  if snapshot.catalog.isEmpty then
    .error (.msg (utf8 "Binär-Format: Kein Eintrag enthalten.")) else
  .ok { snapshot with style_registry := some (populate_style_registry snapshot.catalog) }

/-! ## The engine -/

/-- The data members of `I18nEngine`. -/
structure I18nEngine where
  active_snapshot : Option CatalogSnapshot
  last_error : Str
  current_path : Str
  current_strict : Bool
  meta_locale : Str
  meta_fallback : Str
  meta_note : Str
  meta_plural : PluralRule
  deriving DecidableEq, Repr

/-- A freshly constructed engine. -/
def I18nEngine.init : I18nEngine :=
  { active_snapshot := none, last_error := [], current_path := [], current_strict := false,
    meta_locale := [], meta_fallback := [], meta_note := [], meta_plural := .DEFAULT }

/-- `I18nEngine::install_snapshot` (for a non-null snapshot). -/
def install_snapshot (eng : I18nEngine) (snapshot : CatalogSnapshot) : I18nEngine :=
  { eng with
    meta_locale := snapshot.meta_locale
    meta_fallback := snapshot.meta_fallback
    meta_note := snapshot.meta_note
    meta_plural := snapshot.meta_plural
    active_snapshot := some snapshot }

/-- `I18nEngine::looks_like_binary_catalog`. -/
def looks_like_binary_catalog (data : Str) : Bool :=
  if data.length < BINARY_HEADER_SIZE_V1 then false
  else if data.take 4 ≠ BINARY_MAGIC then false
  else data.getD 4 0 = 1 || data.getD 4 0 = 2

/-- `I18nEngine::strip_utf8_bom`. -/
def strip_utf8_bom (s : Str) : Str :=
  if s.length ≥ 3 ∧ s.getD 0 0 = 239 ∧ s.getD 1 0 = 187 ∧ s.getD 2 0 = 191 then s.drop 3 else s

/-- Outcome of a call of `load_txt_catalog`: the return value and the engine after the
call, or undefined behaviour (the binary reader read outside its input). -/
inductive LoadOutcome
  | done (ok : Bool) (eng : I18nEngine)
  | undefined
  deriving DecidableEq, Repr

/-- `I18nEngine::load_txt_catalog`. -/
def load_txt_catalog (eng : I18nEngine) (src : Str) (strict : Bool) : LoadOutcome :=
  let eng := { eng with last_error := [] }
  if src.isEmpty then .done false { eng with last_error := utf8 "src is empty" }
  else
    let fail (err : Str) : LoadOutcome :=
      .done false { eng with
        last_error := if err.isEmpty then utf8 "Katalog konnte nicht geladen werden." else err }
    if looks_like_binary_catalog src then
      match build_snapshot_from_binary src strict with
      | .ok snapshot => .done true (install_snapshot eng snapshot)
      | .error (.msg err) => fail err
      | .error .out_of_bounds => .undefined
    else
      match build_snapshot_from_text (strip_utf8_bom src) strict with
      | .ok snapshot => .done true (install_snapshot eng snapshot)
      | .error err => fail err

/-- `I18nEngine::translate`. -/
def translate (eng : I18nEngine) (token_in : Str) (args : List Str) : Str :=
  match eng.active_snapshot with
  | none => S_NO_CATALOG
  | some snapshot => (translate_impl snapshot (to_lower_ascii token_in) args [] 0).1

/-- The token `lookup` that `translate_plural` resolves. -/
def translate_plural_lookup (snapshot : CatalogSnapshot) (meta_plural : PluralRule)
    (token_in : Str) (count : Int) : Str :=
  let normalized := to_lower_ascii token_in
  let fallback (_ : Unit) : Str :=
    let base := normalized
    let desired := base ++ [123] ++ pick_variant_name meta_plural count ++ [125]
    if (map_find snapshot.catalog desired).isSome then desired
    else if (map_find snapshot.catalog (base ++ utf8 "{other}")).isSome then base ++ utf8 "{other}"
    else
      match map_find snapshot.plural_variants base with
      | some variants =>
        match set_begin variants with
        | some first => base ++ [123] ++ first ++ [125]
        | none => base
      | none => base
  match parse_variant_suffix normalized with
  | some (base, variant) =>
    if !variant.isEmpty then base ++ [123] ++ variant ++ [125] else fallback ()
  | none => fallback ()

/-- `I18nEngine::translate_plural`. -/
def translate_plural (eng : I18nEngine) (token_in : Str) (count : Int) (args : List Str) : Str :=
  match eng.active_snapshot with
  | none => S_NO_CATALOG
  | some snapshot =>
    (translate_impl snapshot (translate_plural_lookup snapshot eng.meta_plural token_in count)
      args [] 0).1

/-! ## Binary export -/

/-- The local `struct ExportEntry` of `export_binary_catalog`. -/
structure ExportEntry where
  base : Str
  variant : Str
  text : Str
  text_offset : Nat
  text_length : Nat
  deriving DecidableEq, Repr

/-- The comparison of the `std::sort` call of `export_binary_catalog`, as a total
preorder: by `base`, then by `variant`. -/
def export_le (a b : ExportEntry) : Prop :=
  a.base < b.base ∨ (a.base = b.base ∧ ¬ (b.variant < a.variant))

instance : DecidableRel export_le := fun a b => by
  unfold export_le
  exact inferInstance

/-- The `base` and `variant` that the first loop of `export_binary_catalog` computes for
a catalog key. -/
def key_parts (key : Str) : Str × Str :=
  match parse_variant_suffix key with
  | some (base, variant) => (base, variant)
  | none => (key, [])

/-- The first loop of `export_binary_catalog`: one entry per catalog pair; `none` is
`return false`. -/
def export_entries : List (Str × Str) → Option (List ExportEntry)
  | [] => some []
  | kv :: rest =>
    let bv : Str × Str := key_parts kv.1
    if bv.1.isEmpty || !is_hex_token bv.1 then none
    else
      match export_entries rest with
      | none => none
      | some entries =>
        some ({ base := bv.1, variant := bv.2, text := kv.2, text_offset := 0, text_length := 0 }
          :: entries)

/-- The loop of `export_binary_catalog` that assigns `text_offset` and `text_length`
(32-bit unsigned arithmetic), from `current_offset` on. -/
def assign_offsets : List ExportEntry → Nat → List ExportEntry
  | [], _ => []
  | entry :: rest, current_offset =>
    let text_length := entry.text.length % 4294967296
    { entry with text_offset := current_offset, text_length := text_length }
      :: assign_offsets rest ((current_offset + text_length) % 4294967296)

/-- The record of one entry in the entry table. -/
def encode_entry (entry : ExportEntry) : List Nat :=
  [entry.base.length % 256] ++ entry.base ++ [entry.variant.length % 256] ++ entry.variant ++
    le_u32 entry.text_offset ++ le_u32 entry.text_length

/-- `I18nEngine::export_binary_catalog`: the bytes of `buffer` that are written to the
file, or `none` where the function returns `false` before it opens the file (the file
system is outside the model; `path` is non-null). -/
def export_binary_catalog (eng : I18nEngine) : Option (List Nat) :=
  match eng.active_snapshot with
  | none => none
  | some snapshot =>
    if snapshot.catalog.isEmpty then none
    else
      match export_entries snapshot.catalog with
      | none => none
      | some entries =>
        let entries := assign_offsets (entries.insertionSort export_le) 0
        let entry_table := entries.flatMap encode_entry
        let string_table := entries.flatMap (fun e => e.text)
        let locale_len := min eng.meta_locale.length 65535
        let fallback_len := min eng.meta_fallback.length 65535
        let note_len := min eng.meta_note.length 65535
        let metadata_block := le_u16 locale_len ++ le_u16 fallback_len ++ le_u16 note_len ++
          eng.meta_locale.take locale_len ++ eng.meta_fallback.take fallback_len ++
          eng.meta_note.take note_len
        let metadata_size := metadata_block.length % 4294967296
        let checksum := 2166136261
        let checksum := if metadata_size > 0 then fnv1a32_append checksum metadata_block else checksum
        let checksum := fnv1a32_append checksum entry_table
        let checksum := fnv1a32_append checksum string_table
        let header := BINARY_MAGIC ++ [2, 0, plural_rule_to_byte eng.meta_plural, 0] ++
          le_u32 (entries.length % 4294967296) ++ le_u32 (string_table.length % 4294967296) ++
          le_u32 checksum ++ le_u32 metadata_size
        some (header ++ (if metadata_size > 0 then metadata_block else []) ++ entry_table ++
          string_table)

/-! ## Integrity checker: inline references of a template -/

/-- The `for` loop of `scan_inline_refs` from index `i`, with the references collected
so far.  Every iteration advances `i`, so `fuel = text.length` iterations suffice. -/
def scan_inline_refs_loop (text : Str) : Nat → Nat → List Str → List Str
  | 0, _, out_refs => out_refs
  | fuel + 1, i, out_refs =>
    if i < text.length then
      if text.getD i 0 ≠ 64 then scan_inline_refs_loop text fuel (i + 1) out_refs
      else if i + 1 < text.length ∧ text.getD (i + 1) 0 = 64 then
        scan_inline_refs_loop text fuel (i + 2) out_refs
      else
        match try_parse_inline_token text i with
        | (true, tok, adv) => scan_inline_refs_loop text fuel (i + adv) (out_refs ++ [tok])
        | (false, _, _) => scan_inline_refs_loop text fuel (i + 1) out_refs
    else out_refs

/-- `I18nEngine::scan_inline_refs`: the references of `text`, sorted and without
duplicates. -/
def scan_inline_refs (text : Str) : List Str :=
  ((scan_inline_refs_loop text text.length 0 []).insertionSort (fun a b => ¬ b < a)).dedup

/-! ## The lexical items of a template

The scanning loops of `translate_impl` and `resolve_plain_text` decide at every index,
from the template alone, which production applies and where the scan continues; what
they emit for it depends on the snapshot.  `lex_template` is the list of productions;
`translate_impl_loop_eq` and `resolve_plain_text_loop_eq` below show that the loops
emit exactly these items in turn. -/

/-- A production of the template scan. -/
inductive Item
  | ref (token : Str)
  | at_sign
  | placeholder (idx : Int)
  | byte (c : Nat)
  deriving DecidableEq, Repr

/-- The production at index `i` of `raw` (for `i < raw.length`) and the index at which
the scan continues. -/
def lex_step (raw : Str) (i : Nat) : Item × Nat :=
  if raw.getD i 0 = 64 then
    match try_parse_inline_token raw i with
    | (true, ref_tok, adv) => (.ref ref_tok, i + adv)
    | (false, _, _) =>
      if i + 1 < raw.length ∧ raw.getD (i + 1) 0 = 64 then (.at_sign, i + 2)
      else (.at_sign, i + 1)
  else if raw.getD i 0 = 37 ∧ i + 1 < raw.length ∧ is_digit (raw.getD (i + 1) 0) then
    (.placeholder (parse_placeholder_index raw (i + 1)).1, (parse_placeholder_index raw (i + 1)).2)
  else (.byte (raw.getD i 0), i + 1)

/-- The productions of `raw` from index `i` on, at most `fuel` of them. -/
def lex_fuel (raw : Str) : Nat → Nat → List Item
  | 0, _ => []
  | fuel + 1, i =>
    if i < raw.length then (lex_step raw i).1 :: lex_fuel raw fuel (lex_step raw i).2 else []

/-- The productions of the template `raw`. -/
def lex_template (raw : Str) : List Item := lex_fuel raw raw.length 0

/-- What the scanning loops append for one production; nested references are resolved
at depth `depth_ref`, arguments at depth `depth_arg`. -/
def emit_item (state : CatalogSnapshot) (args : List Str) (depth_ref depth_arg : Nat)
    (acc : Str × Seen) (item : Item) : Str × Seen :=
  match item with
  | .ref ref_tok =>
    if (map_find state.catalog ref_tok).isNone then (acc.1 ++ S_MISSING ref_tok, acc.2)
    else
      (acc.1 ++ (translate_impl state ref_tok args acc.2 depth_ref).1,
       (translate_impl state ref_tok args acc.2 depth_ref).2)
  | .at_sign => (acc.1 ++ [64], acc.2)
  | .placeholder idx =>
    if idx ≥ 0 ∧ idx.toNat < args.length then
      (acc.1 ++ (resolve_arg state (args.getD idx.toNat []) acc.2 depth_arg).1,
       (resolve_arg state (args.getD idx.toNat []) acc.2 depth_arg).2)
    else (acc.1 ++ S_ARG idx, acc.2)
  | .byte c => (acc.1 ++ [c], acc.2)

/-- The engine after the call, for an outcome of `load_txt_catalog`. -/
def LoadOutcome.engine : LoadOutcome → I18nEngine
  | .done _ eng => eng
  | .undefined => I18nEngine.init

/-- Fuel-bounded mirror of `translate`, for evaluation by reduction. -/
def translate_fuel (fuel : Nat) (eng : I18nEngine) (token_in : Str) (args : List Str) : Option Str :=
  match eng.active_snapshot with
  | none => some S_NO_CATALOG
  | some snapshot =>
    (translate_impl_fuel fuel snapshot (to_lower_ascii token_in) args [] 0).map Prod.fst

/-- Fuel-bounded mirror of `translate_plural`, for evaluation by reduction. -/
def translate_plural_fuel (fuel : Nat) (eng : I18nEngine) (token_in : Str) (count : Int)
    (args : List Str) : Option Str :=
  match eng.active_snapshot with
  | none => some S_NO_CATALOG
  | some snapshot =>
    (translate_impl_fuel fuel snapshot
      (translate_plural_lookup snapshot eng.meta_plural token_in count) args [] 0).map Prod.fst

/-! ## Well-formed snapshots and the snapshot of the witnesses -/

/-- The invariants of a published snapshot that the data model states: tokens are
unique, and the style registry is the one derived from the catalog. -/
def CatalogSnapshot.WellFormed (s : CatalogSnapshot) : Prop :=
  (s.catalog.map Prod.fst).Nodup ∧ s.style_registry = some (populate_style_registry s.catalog)

instance (s : CatalogSnapshot) : Decidable s.WellFormed := by
  unfold CatalogSnapshot.WellFormed
  exact inferInstance

/-- A snapshot for the witnesses, loaded from the text catalog
`abcdef: %0`, `bbbbbb: hello`, `cccccc{one}: 1 apple`, `cccccc{other}: %0 apples`. -/
def witness_engine : I18nEngine :=
  (load_txt_catalog I18nEngine.init
    (utf8 "abcdef: %0\nbbbbbb: hello\ncccccc{one}: 1 apple\ncccccc{other}: %0 apples") true).engine

/-- The snapshot of `witness_engine`. -/
def witness_snapshot : CatalogSnapshot := witness_engine.active_snapshot.getD empty_snapshot

/-! ## Reference items and the snapshots of the cycle examples -/

/-- The reference tokens among lexical items, in order. -/
def item_refs (items : List Item) : List Str :=
  items.filterMap (fun item => match item with
    | .ref token => some token
    | _ => none)

/-- The engine after loading the text catalog `style_a: color: red; x @style_a`. -/
def style_cycle_engine : I18nEngine :=
  (load_txt_catalog I18nEngine.init (utf8 "style_a: color: red; x @style_a") true).engine

/-- The engine after loading the text catalog `aaaaaa: x @AAAAAA y %0`. -/
def self_ref_engine : I18nEngine :=
  (load_txt_catalog I18nEngine.init (utf8 "aaaaaa: x @AAAAAA y %0") true).engine

/-- The snapshot of `self_ref_engine`. -/
def self_ref_snapshot : CatalogSnapshot := self_ref_engine.active_snapshot.getD empty_snapshot

/-! ## A binary catalog whose checksum misses a changed length byte -/

/-- A version 2 binary catalog with the single entry `aaaaaa{-}` (empty text), six bytes
of metadata and a string table of 48 bytes, whose checksum field holds the FNV-1a value
of its metadata block, entry table and string table. -/
def collision_file : List Nat :=
  [73, 49, 56, 78, 2, 0, 0, 0, 1, 0, 0, 0, 48, 0, 0, 0, 138, 254, 97, 239, 6, 0, 0, 0,
   0, 0, 0, 0, 0, 0,
   6, 97, 97, 97, 97, 97, 97, 1, 45, 0, 0, 0, 0, 0, 0, 0, 0,
   120, 120, 120, 120, 120, 120, 120, 120, 120, 120, 120, 120, 120, 120, 120, 120, 120, 120, 120,
   120, 120, 120, 120, 120, 120, 120, 120, 120, 120, 120, 120, 120, 120, 120, 120, 120, 120, 120,
   120, 120, 120, 120, 120, 63, 123, 69, 91, 179]

/-- The header of `collision_file`. -/
def collision_header : BinHeader :=
  { version := 2, plural_rule := 0, metadata_size := 6, entry_count := 1,
    string_table_size := 48, checksum := 4016176778 }

/-- The snapshot that strict loading builds from `collision_file`. -/
def collision_snapshot : CatalogSnapshot :=
  { empty_snapshot with
    catalog := [(utf8 "aaaaaa{-}", [])]
    plural_variants := [(utf8 "aaaaaa", [utf8 "-"])] }

deriving instance DecidableEq for Except

/-! ## Entries of the binary export, for the round trip -/

/-- The entry that the first loop of `export_binary_catalog` pushes for a catalog pair. -/
def entry_of_pair (kv : Str × Str) : ExportEntry :=
  { base := (key_parts kv.1).1, variant := (key_parts kv.1).2, text := kv.2,
    text_offset := 0, text_length := 0 }

/-- The `EntryInfo` that the reader builds from the record of an exported entry. -/
def entry_info (e : ExportEntry) : EntryInfo :=
  { base := e.base, variant := e.variant, text_offset := e.text_offset,
    text_length := e.text_length }

/-- The catalog key that the reader builds for an entry (`key` in the second loop of
`build_snapshot_from_binary`). -/
def entry_key (base variant : Str) : Str :=
  if !variant.isEmpty then base ++ [123] ++ variant ++ [125] else base

/-- An entry whose record the reader accepts: the base is a lower-case hex token and the
variant is empty or a valid lower-case variant. -/
def entry_ok (e : ExportEntry) : Prop :=
  is_hex_token e.base = true ∧ to_lower_ascii e.base = e.base ∧
    to_lower_ascii e.variant = e.variant ∧ (e.variant = [] ∨ is_variant_valid e.variant = true)

/-- The engine after strict loading of the text catalog `style_a: color: red`. -/
def style_only_engine : I18nEngine :=
  (load_txt_catalog I18nEngine.init (utf8 "style_a: color: red") true).engine

/-! ## Call log of the resolver

The four resolver functions by structural recursion on a fuel counter, as the mirror
above, with every call among them recorded: the result comes with the list of the calls
made, each with the depth argument of the caller and of the callee. -/

/-- The four functions of the resolver that call one another. -/
inductive Fn
  | resolve_arg
  | translate_impl
  | resolve_plain_text
  | try_build_style_string
  deriving DecidableEq, Repr

/-- One call among the resolver functions: the calling function and its `depth`, the
called function and the `depth` that it is passed. -/
structure CallRecord where
  caller : Fn
  caller_depth : Nat
  callee : Fn
  callee_depth : Nat
  deriving DecidableEq, Repr

/-- A call and what follows it: `x` is the run of the callee, `call` the record of the
call (empty where the step is not a call among the four functions) and `k` the rest of
the caller, which gets the result of the callee.  The log is the record, the log of the
callee and the log of the rest, in this order. -/
def log_bind {α β : Type} (x : Option (α × List CallRecord)) (call : List CallRecord)
    (k : α → Option (β × List CallRecord)) : Option (β × List CallRecord) :=
  match x with
  | none => none
  | some (r, log) =>
    match k r with
    | none => none
    | some (r_rest, log_rest) => some (r_rest, call ++ log ++ log_rest)

mutual

/-- Run of `resolve_arg` with the log of the calls made. -/
def resolve_arg_log : Nat → CatalogSnapshot → Str → Seen → Nat →
    Option ((Str × Seen) × List CallRecord)
  | 0, _, _, _, _ => none
  | fuel + 1, state, arg, seen, depth =>
    if arg.head? = some 61 then some ((arg.drop 1, seen), [])
    else
      let normalized := to_lower_ascii arg
      let base := match parse_variant_suffix normalized with
        | some (base, _) => base
        | none => normalized
      let lookup := match parse_variant_suffix normalized with
        | some (base, variant) => base ++ [123] ++ variant ++ [125]
        | none => normalized
      if !is_hex_token base then some ((arg, seen), [])
      else if (map_find state.catalog lookup).isNone then some ((arg, seen), [])
      else
        log_bind (translate_impl_log fuel state lookup [] seen (depth + 1))
          [{ caller := .resolve_arg, caller_depth := depth,
             callee := .translate_impl, callee_depth := depth + 1 }]
          (fun r => some (r, []))
termination_by structural fuel => fuel

/-- Run of `translate_impl` with the log of the calls made.  The call of
`try_build_style_string` happens when the `dynamic_cast` succeeds, that is when the
snapshot has a style registry. -/
def translate_impl_log : Nat → CatalogSnapshot → Str → List Str → Seen → Nat →
    Option ((Str × Seen) × List CallRecord)
  | 0, _, _, _, _, _ => none
  | fuel + 1, state, token, args, seen, depth =>
    if depth > 32 then some ((S_RECURSION_LIMIT, seen), [])
    else if token ∈ seen then some ((S_CYCLE token, seen), [])
    else
      log_bind (try_build_style_string_log fuel state token args (token :: seen) depth)
        (if state.style_registry.isSome then
          [{ caller := .translate_impl, caller_depth := depth,
             callee := .try_build_style_string, callee_depth := depth }]
        else [])
        (fun style =>
          match style with
          | (some style_out, seen) => some ((style_out, seen.erase token), [])
          | (none, seen) =>
            match map_find state.catalog token with
            | none => some ((S_MISS token, seen.erase token), [])
            | some raw =>
              log_bind (translate_impl_loop_log fuel state raw args depth 0 [] seen) []
                (fun r => some ((r.1, r.2.erase token), [])))
termination_by structural fuel => fuel

/-- Run of the `for` loop of `translate_impl` with the log of the calls made. -/
def translate_impl_loop_log : Nat → CatalogSnapshot → Str → List Str → Nat → Nat → Str → Seen →
    Option ((Str × Seen) × List CallRecord)
  | 0, _, _, _, _, _, _, _ => none
  | fuel + 1, state, raw, args, depth, i, out, seen =>
    if i < raw.length then
      if raw.getD i 0 = 64 then
        match try_parse_inline_token raw i with
        | (true, ref_tok, adv) =>
          if (map_find state.catalog ref_tok).isNone then
            translate_impl_loop_log fuel state raw args depth (i + adv) (out ++ S_MISSING ref_tok) seen
          else
            log_bind (translate_impl_log fuel state ref_tok args seen (depth + 1))
              [{ caller := .translate_impl, caller_depth := depth,
                 callee := .translate_impl, callee_depth := depth + 1 }]
              (fun r => translate_impl_loop_log fuel state raw args depth (i + adv) (out ++ r.1) r.2)
        | (false, _, _) =>
          if i + 1 < raw.length ∧ raw.getD (i + 1) 0 = 64 then
            translate_impl_loop_log fuel state raw args depth (i + 2) (out ++ [64]) seen
          else
            translate_impl_loop_log fuel state raw args depth (i + 1) (out ++ [64]) seen
      else if raw.getD i 0 = 37 ∧ i + 1 < raw.length ∧ is_digit (raw.getD (i + 1) 0) then
        let idx := (parse_placeholder_index raw (i + 1)).1
        let j := (parse_placeholder_index raw (i + 1)).2
        if idx ≥ 0 ∧ idx.toNat < args.length then
          log_bind (resolve_arg_log fuel state (args.getD idx.toNat []) seen depth)
            [{ caller := .translate_impl, caller_depth := depth,
               callee := .resolve_arg, callee_depth := depth }]
            (fun r => translate_impl_loop_log fuel state raw args depth j (out ++ r.1) r.2)
        else
          translate_impl_loop_log fuel state raw args depth j (out ++ S_ARG idx) seen
      else
        translate_impl_loop_log fuel state raw args depth (i + 1) (out ++ [raw.getD i 0]) seen
    else some ((out, seen), [])
termination_by structural fuel => fuel

/-- Run of `resolve_plain_text` with the log of the calls made. -/
def resolve_plain_text_log : Nat → CatalogSnapshot → Str → List Str → Seen → Nat →
    Option ((Str × Seen) × List CallRecord)
  | 0, _, _, _, _, _ => none
  | fuel + 1, state, raw, args, seen, depth =>
    if depth > 32 then some ((S_RECURSION_LIMIT, seen), [])
    else resolve_plain_text_loop_log fuel state raw args depth 0 [] seen
termination_by structural fuel => fuel

/-- Run of the `for` loop of `resolve_plain_text` with the log of the calls made. -/
def resolve_plain_text_loop_log : Nat → CatalogSnapshot → Str → List Str → Nat → Nat → Str →
    Seen → Option ((Str × Seen) × List CallRecord)
  | 0, _, _, _, _, _, _, _ => none
  | fuel + 1, state, raw, args, depth, i, out, seen =>
    if i < raw.length then
      if raw.getD i 0 = 64 then
        match try_parse_inline_token raw i with
        | (true, ref_tok, adv) =>
          if (map_find state.catalog ref_tok).isNone then
            resolve_plain_text_loop_log fuel state raw args depth (i + adv)
              (out ++ S_MISSING ref_tok) seen
          else
            log_bind (translate_impl_log fuel state ref_tok args seen (depth + 1))
              [{ caller := .resolve_plain_text, caller_depth := depth,
                 callee := .translate_impl, callee_depth := depth + 1 }]
              (fun r =>
                resolve_plain_text_loop_log fuel state raw args depth (i + adv) (out ++ r.1) r.2)
        | (false, _, _) =>
          if i + 1 < raw.length ∧ raw.getD (i + 1) 0 = 64 then
            resolve_plain_text_loop_log fuel state raw args depth (i + 2) (out ++ [64]) seen
          else
            resolve_plain_text_loop_log fuel state raw args depth (i + 1) (out ++ [64]) seen
      else if raw.getD i 0 = 37 ∧ i + 1 < raw.length ∧ is_digit (raw.getD (i + 1) 0) then
        let idx := (parse_placeholder_index raw (i + 1)).1
        let j := (parse_placeholder_index raw (i + 1)).2
        if idx ≥ 0 ∧ idx.toNat < args.length then
          log_bind (resolve_arg_log fuel state (args.getD idx.toNat []) seen (depth + 1))
            [{ caller := .resolve_plain_text, caller_depth := depth,
               callee := .resolve_arg, callee_depth := depth + 1 }]
            (fun r => resolve_plain_text_loop_log fuel state raw args depth j (out ++ r.1) r.2)
        else
          resolve_plain_text_loop_log fuel state raw args depth j (out ++ S_ARG idx) seen
      else
        resolve_plain_text_loop_log fuel state raw args depth (i + 1) (out ++ [raw.getD i 0]) seen
    else some ((out, seen), [])
termination_by structural fuel => fuel

/-- Run of `try_build_style_string` with the log of the calls made. -/
def try_build_style_string_log : Nat → CatalogSnapshot → Str → List Str → Seen → Nat →
    Option ((Option Str × Seen) × List CallRecord)
  | 0, _, _, _, _, _ => none
  | fuel + 1, state, token, args, seen, depth =>
    match state.style_registry with
    | none => some ((none, seen), [])
    | some registry =>
      match map_find registry token with
      | none => some ((none, seen), [])
      | some props =>
        if props.isEmpty then some ((none, seen), [])
        else
          log_bind (try_build_style_loop_log fuel state args depth props [] seen) []
            (fun r =>
              if (r.1.rdropWhile (fun c => c == 32)).isEmpty then some ((none, r.2), [])
              else some ((some (r.1.rdropWhile (fun c => c == 32)), r.2), []))
termination_by structural fuel => fuel

/-- Run of the `for` loop of `try_build_style_string` with the log of the calls made. -/
def try_build_style_loop_log : Nat → CatalogSnapshot → List Str → Nat → List StyleProperty → Str →
    Seen → Option ((Str × Seen) × List CallRecord)
  | 0, _, _, _, _, _, _ => none
  | fuel + 1, state, args, depth, props, builder, seen =>
    match props with
    | [] => some ((builder, seen), [])
    | prop :: rest =>
      log_bind (resolve_plain_text_log fuel state prop.value args seen (depth + 1))
        [{ caller := .try_build_style_string, caller_depth := depth,
           callee := .resolve_plain_text, callee_depth := depth + 1 }]
        (fun r =>
          if prop.prop_name.isEmpty then
            if !r.1.isEmpty then
              try_build_style_loop_log fuel state args depth rest
                (space_guard builder ++ r.1 ++ [32]) r.2
            else
              try_build_style_loop_log fuel state args depth rest builder r.2
          else
            try_build_style_loop_log fuel state args depth rest
              (space_guard builder ++ prop.prop_name ++ [58, 32] ++ r.1 ++ [59]) r.2)
termination_by structural fuel => fuel

end

/-- Run of `translate` with the log of the calls made among the resolver functions. -/
def translate_log (fuel : Nat) (eng : I18nEngine) (token_in : Str) (args : List Str) :
    Option (Str × List CallRecord) :=
  match eng.active_snapshot with
  | none => some (S_NO_CATALOG, [])
  | some snapshot =>
    log_bind (translate_impl_log fuel snapshot (to_lower_ascii token_in) args [] 0) []
      (fun r => some (r.1, []))

/-- Run of `translate_plural` with the log of the calls made among the resolver
functions. -/
def translate_plural_log (fuel : Nat) (eng : I18nEngine) (token_in : Str) (count : Int)
    (args : List Str) : Option (Str × List CallRecord) :=
  match eng.active_snapshot with
  | none => some (S_NO_CATALOG, [])
  | some snapshot =>
    log_bind (translate_impl_log fuel snapshot
      (translate_plural_lookup snapshot eng.meta_plural token_in count) args [] 0) []
      (fun r => some (r.1, []))

/-- The depth discipline of one call: the callee gets the depth of the caller plus one,
except for the calls from `translate_impl` to `try_build_style_string` and to
`resolve_arg`, which pass the depth on unchanged; a function with the guard
`depth > 32` makes calls only at a depth of at most 32; and no call passes a depth
above 34. -/
def call_ok (c : CallRecord) : Prop :=
  (c.callee_depth = c.caller_depth + 1 ∨
    (c.caller = .translate_impl ∧ c.callee_depth = c.caller_depth ∧
      (c.callee = .resolve_arg ∨ c.callee = .try_build_style_string))) ∧
  ((c.caller = .translate_impl ∨ c.caller = .resolve_plain_text) → c.caller_depth ≤ 32) ∧
  c.callee_depth ≤ 34

instance (c : CallRecord) : Decidable (call_ok c) := by
  unfold call_ok
  exact inferInstance

/-- With enough fuel the run `run` returns the result `r`, and every call in its log
obeys the depth discipline. -/
def runs_to {α : Type} (run : Nat → Option (α × List CallRecord)) (r : α) : Prop :=
  ∃ N, ∀ fuel, N ≤ fuel → ∃ log, run fuel = some (r, log) ∧ ∀ c ∈ log, call_ok c

/-- The engine after strict loading of the text catalog `abcdef: %0`. -/
def placeholder_engine : I18nEngine :=
  (load_txt_catalog I18nEngine.init (utf8 "abcdef: %0") true).engine

/-! ## The style scenario -/

/-- The engine after strict loading of the text catalog
`style_box: color: #fff; @utility; mass: 2.5`. -/
def style_box_engine : I18nEngine :=
  (load_txt_catalog I18nEngine.init (utf8 "style_box: color: #fff; @utility; mass: 2.5")
    true).engine

/-! ## Getters, the export call and the two ways of loading -/

/-- `I18nEngine::get_last_error`. -/
def get_last_error (eng : I18nEngine) : Str := eng.last_error

/-- `I18nEngine::get_meta_locale`. -/
def get_meta_locale (eng : I18nEngine) : Str := eng.meta_locale

/-- `I18nEngine::get_meta_fallback`. -/
def get_meta_fallback (eng : I18nEngine) : Str := eng.meta_fallback

/-- `I18nEngine::get_meta_note`. -/
def get_meta_note (eng : I18nEngine) : Str := eng.meta_note

/-- `I18nEngine::get_meta_plural_rule`. -/
def get_meta_plural_rule (eng : I18nEngine) : PluralRule := eng.meta_plural

/-- A call `export_binary_catalog(path)`: the return value and the engine after the
call.  The member function is `const` and assigns to no data member, so the engine
after the call is the engine before it.  `path_null` says whether `path` is the null
pointer, `file_ok` whether the file could be opened and written (the file system is
outside the model). -/
def export_binary_catalog_call (eng : I18nEngine) (path_null file_ok : Bool) :
    Bool × I18nEngine :=
  if path_null then (false, eng)
  else
    match export_binary_catalog eng with
    | none => (false, eng)
    | some _ => (file_ok, eng)

/-- The part of `load_txt_catalog` after a loader returned no snapshot. -/
def load_failed (eng : I18nEngine) (err : Str) : LoadOutcome :=
  .done false { eng with
    last_error := if err.isEmpty then utf8 "Katalog konnte nicht geladen werden." else err }

/-- Loading of `src` as a binary catalog: `load_txt_catalog` on its branch through
`build_snapshot_from_binary`. -/
def load_as_binary (eng : I18nEngine) (src : Str) (strict : Bool) : LoadOutcome :=
  match build_snapshot_from_binary src strict with
  | .ok snapshot => .done true (install_snapshot { eng with last_error := [] } snapshot)
  | .error (.msg err) => load_failed { eng with last_error := [] } err
  | .error .out_of_bounds => .undefined

/-- Loading of `src` as text: `load_txt_catalog` on its branch through `strip_utf8_bom`
and `build_snapshot_from_text`. -/
def load_as_text (eng : I18nEngine) (src : Str) (strict : Bool) : LoadOutcome :=
  match build_snapshot_from_text (strip_utf8_bom src) strict with
  | .ok snapshot => .done true (install_snapshot { eng with last_error := [] } snapshot)
  | .error err => load_failed { eng with last_error := [] } err

/-! ## Engines of the reference scenarios -/

/-- The engine after strict loading of the text catalog `aaaaaa: hello @bbbbbb`,
`bbbbbb: world`. -/
def inline_ref_engine : I18nEngine :=
  (load_txt_catalog I18nEngine.init (utf8 "aaaaaa: hello @bbbbbb\nbbbbbb: world") true).engine

/-- The snapshot of `inline_ref_engine`. -/
def inline_ref_snapshot : CatalogSnapshot :=
  inline_ref_engine.active_snapshot.getD empty_snapshot

/-- The engine after strict loading of the text catalog `aaaaaa: @bbbbbb`,
`bbbbbb: @aaaaaa`. -/
def mutual_cycle_engine : I18nEngine :=
  (load_txt_catalog I18nEngine.init (utf8 "aaaaaa: @bbbbbb\nbbbbbb: @aaaaaa") true).engine

/-- The snapshot of `mutual_cycle_engine`. -/
def mutual_cycle_snapshot : CatalogSnapshot :=
  mutual_cycle_engine.active_snapshot.getD empty_snapshot

/-! ## Placeholder substitution, in the words of the specification -/

/-- The number that a run of ASCII digits denotes. -/
def placeholder_number (digits : Str) : Nat := digits.foldl (fun n c => 10 * n + (c - 48)) 0

/-- The sentinel `⟦arg:N⟧` for a natural number `N`, in decimal. -/
def arg_sentinel (n : Nat) : Str :=
  utf8 "⟦arg:" ++ (Nat.toDigits 10 n).map Char.toNat ++ utf8 "⟧"

/-- Placeholder substitution as the specification words it, from index `i` of the
template on (at most `fuel` steps): a `%` followed by one or more ASCII digits is the
placeholder `%N`; it is replaced by `args[N]` when `N < |args|` and by `⟦arg:N⟧`
otherwise; every other byte is copied. -/
def substitute_from (raw : Str) (args : List Str) : Nat → Nat → Str
  | 0, _ => []
  | fuel + 1, i =>
    if i < raw.length then
      if raw.getD i 0 = 37 ∧ i + 1 < raw.length ∧ is_digit (raw.getD (i + 1) 0) then
        (if placeholder_number ((raw.drop (i + 1)).takeWhile is_digit) < args.length then
          args.getD (placeholder_number ((raw.drop (i + 1)).takeWhile is_digit)) []
        else arg_sentinel (placeholder_number ((raw.drop (i + 1)).takeWhile is_digit))) ++
          substitute_from raw args fuel (i + 1 + ((raw.drop (i + 1)).takeWhile is_digit).length)
      else raw.getD i 0 :: substitute_from raw args fuel (i + 1)
    else []

/-- Placeholder substitution on the whole template, as the specification words it. -/
def substitute_spec (raw : Str) (args : List Str) : Str :=
  substitute_from raw args raw.length 0

/-- The engine after strict loading of the text catalog `abcdef: %0 + %1`. -/
def two_placeholder_engine : I18nEngine :=
  (load_txt_catalog I18nEngine.init (utf8 "abcdef: %0 + %1") true).engine

/-- The snapshot of `two_placeholder_engine`. -/
def two_placeholder_snapshot : CatalogSnapshot :=
  two_placeholder_engine.active_snapshot.getD empty_snapshot

/-- The engine after strict loading of the text catalog `abcdef: %4294967296`. -/
def long_index_engine : I18nEngine :=
  (load_txt_catalog I18nEngine.init (utf8 "abcdef: %4294967296") true).engine

/-- The comparison lambda of the `std::sort` call of `export_binary_catalog`: strictly
ascending by `base`, then by `variant` (byte-wise lexicographic order of `std::string`). -/
def export_lt (a b : ExportEntry) : Prop :=
  if a.base ≠ b.base then a.base < b.base else a.variant < b.variant

instance : DecidableRel export_lt := fun a b => by
  unfold export_lt
  exact inferInstance

/-- The engine after strict loading of the text catalog `bbbbbb: world`,
`aaaaaa: hello @bbbbbb`: the entries of `inline_ref_engine` in the other order. -/
def reordered_engine : I18nEngine :=
  (load_txt_catalog I18nEngine.init (utf8 "bbbbbb: world\naaaaaa: hello @bbbbbb") true).engine

/-- The snapshot of `reordered_engine`. -/
def reordered_snapshot : CatalogSnapshot :=
  reordered_engine.active_snapshot.getD empty_snapshot

/-! ## Text unescape, in the words of the specification -/

/-- The byte that the two-byte sequence backslash, `x` stands for: `\n`, `\t`, `\r`,
`\\` and `\:` stand for LF, HT, CR, backslash and colon; every other `\x` for `x`. -/
def escape_value (x : Nat) : Nat :=
  if x = 110 then 10
  else if x = 116 then 9
  else if x = 114 then 13
  else if x = 92 then 92
  else if x = 58 then 58
  else x

/-- The scan of the specification from index `i`, left to right: a backslash that is
followed by a byte yields the value of the escape and the scan goes on after that byte;
every other byte is copied. -/
def unescape_scan (s : Str) : Nat → Nat → Str
  | 0, _ => []
  | fuel + 1, i =>
    if i < s.length then
      if s.getD i 0 = 92 ∧ i + 1 < s.length then
        escape_value (s.getD (i + 1) 0) :: unescape_scan s fuel (i + 2)
      else s.getD i 0 :: unescape_scan s fuel (i + 1)
    else []

/-- Text unescape as the specification words it. -/
def unescape_spec (s : Str) : Str := unescape_scan s s.length 0

/-! ## A chain of references, for the recursion cap -/

/-- The hex token number `i` of the chain: `aaaa` and the two decimal digits of `i`. -/
def chain_token (i : Nat) : Str := utf8 "aaaa" ++ [48 + i / 10 % 10, 48 + i % 10]

/-- The catalog with the chain `t0 → t1 → … → tn`: the template of `ti` is `@t(i+1)` for
`i < n`, the template of `tn` is `x`. -/
def chain_catalog (n : Nat) (x : Str) : List (Str × Str) :=
  (List.range n).map (fun i => (chain_token i, 64 :: chain_token (i + 1))) ++
    [(chain_token n, x)]

/-- The snapshot that holds `chain_catalog n x`. -/
def chain_snapshot (n : Nat) (x : Str) : CatalogSnapshot :=
  { empty_snapshot with
    catalog := chain_catalog n x
    style_registry := some (populate_style_registry (chain_catalog n x)) }

/-! ## Engines of the sibling and argument scenarios -/

/-- The engine after strict loading of the text catalog `aaaaaa: @bbbbbb @bbbbbb`,
`bbbbbb: x`: one template with the same reference twice. -/
def sibling_engine : I18nEngine :=
  (load_txt_catalog I18nEngine.init (utf8 "aaaaaa: @bbbbbb @bbbbbb\nbbbbbb: x") true).engine

/-- The snapshot of `sibling_engine`. -/
def sibling_snapshot : CatalogSnapshot :=
  sibling_engine.active_snapshot.getD empty_snapshot

/-- The buffer `data` with the header bytes 16..19, the stored checksum, replaced by the
little-endian bytes of `c` (a buffer that ends before byte 19 is not made longer). -/
def with_checksum (data : List Nat) (c : Nat) : List Nat :=
  (((data.set 16 (c &&& 255)).set 17 ((c >>> 8) &&& 255)).set 18 ((c >>> 16) &&& 255)).set 19
    ((c >>> 24) &&& 255)

/-! ## Tokens of the data model -/

/-- A character of `[a-z0-9_-]`. -/
def is_ident_char (c : Nat) : Bool := is_lower c || is_digit c || c == 95 || c == 45

/-- A lower-case hex string of 6 to 32 characters. -/
def is_lower_hex (b : Str) : Bool :=
  decide (6 ≤ b.length ∧ b.length ≤ 32) && b.all (fun c => is_digit c || (97 ≤ c && c ≤ 102))

/-- A style identifier of the data model: `style_` followed by one or more characters
from `[a-z0-9_-]`. -/
def is_style_ident (b : Str) : Bool :=
  starts_with b STYLE_PREFIX && decide (b.length > 6) && (b.drop 6).all is_ident_char

/-- A variant of the data model: 1 to 16 characters from `[a-z0-9_-]`. -/
def is_variant_ident (v : Str) : Bool :=
  decide (1 ≤ v.length ∧ v.length ≤ 16) && v.all is_ident_char

/-- A token built from a base that satisfies `base_ok`, optionally followed by
`{variant}`: the text before the first `{` is the base, the text between that `{` and a
final `}` is the variant. -/
def token_with (base_ok : Str → Bool) (key : Str) : Bool :=
  match find_char key 123 0 with
  | none => base_ok key
  | some i =>
    base_ok (key.take i) && decide (key.getLast? = some 125) &&
      is_variant_ident (substr key (i + 1) (key.length - (i + 2)))

/-- A valid token of the data model. -/
def is_valid_token (key : Str) : Bool :=
  token_with (fun b => is_lower_hex b || is_style_ident b) key

/-- The style bases that the loader lets pass: more than six bytes, the first six
`style_`, no ASCII upper-case letter and no `{`. -/
def is_style_like (b : Str) : Bool :=
  starts_with b STYLE_PREFIX && decide (b.length > 6) && b.all (fun c => !is_upper c && c != 123)

/-- The tokens that the text loader lets pass. -/
def is_loader_token (key : Str) : Bool :=
  token_with (fun b => is_lower_hex b || is_style_like b) key

/-! ## Listing and search -/

/-- The order of `std::string` that `std::sort` uses on the keys, as a total preorder:
byte-wise lexicographic. -/
def str_le (a b : Str) : Prop := ¬ b < a

instance : DecidableRel str_le := fun a b => by
  unfold str_le
  exact inferInstance

/-- The vector `keys` of `dump_table` and `find_any` after `std::sort`. -/
def sorted_keys (catalog : List (Str × Str)) : List Str :=
  (catalog.map Prod.fst).insertionSort str_le

/-- The padding `if (s.size() < n) out.append(n - s.size(), ' ')` after `out += s`. -/
def pad_to (s : Str) (n : Nat) : Str :=
  if s.length < n then s ++ List.replicate (n - s.length) 32 else s

/-- The body of the `for` loop of `dump_table`: the row of `token`. -/
def dump_row (catalog labels : List (Str × Str)) (token : Str) : Str :=
  pad_to token 12 ++ utf8 " | " ++ pad_to ((map_find labels token).getD []) 22 ++ utf8 " | " ++
    (map_find catalog token).getD [] ++ [10]

/-- The two heading lines of `dump_table`. -/
def dump_heading : Str :=
  utf8 "Token        | Label                  | Inhalt\n" ++
    utf8 "------------------------------------------------------------\n"

/-- `I18nEngine::dump_table`. -/
def dump_table (eng : I18nEngine) : Str :=
  match eng.active_snapshot with
  | none => utf8 "Catalog not loaded\n"
  | some snapshot =>
    dump_heading ++ (sorted_keys snapshot.catalog).flatMap (dump_row snapshot.catalog snapshot.labels)

/-- The test `t.find(q) != std::string::npos`: whether `q` occurs in `t` at some
position. -/
def str_contains (t q : Str) : Bool :=
  (List.range (t.length + 1)).any (fun i => q.isPrefixOf (t.drop i))

/-- The condition of the `if` in the loop of `find_any`, for the lower-cased query `q`. -/
def find_any_hit (catalog labels : List (Str × Str)) (q token : Str) : Bool :=
  str_contains (to_lower_ascii ((map_find catalog token).getD [])) q ||
    (!(to_lower_ascii ((map_find labels token).getD [])).isEmpty &&
      str_contains (to_lower_ascii ((map_find labels token).getD [])) q)

/-- The line that `find_any` appends for a token that matches. -/
def find_any_line (catalog labels : List (Str × Str)) (token : Str) : Str :=
  token ++ utf8 "(" ++ (map_find labels token).getD [] ++ utf8 "): " ++
    (map_find catalog token).getD [] ++ [10]

/-- `I18nEngine::find_any`. -/
def find_any (eng : I18nEngine) (query : Str) : Str :=
  match eng.active_snapshot with
  | none => utf8 "(no catalog loaded)\n"
  | some snapshot =>
    let out := (sorted_keys snapshot.catalog).flatMap (fun token =>
      if find_any_hit snapshot.catalog snapshot.labels (to_lower_ascii query) token then
        find_any_line snapshot.catalog snapshot.labels token
      else [])
    if out.isEmpty then utf8 "(keine Treffer)\n" else out

/-- The engine after strict loading of the text catalog `bbbbbb (Greeting): Hello`,
`aaaaaa: world`. -/
def listing_engine : I18nEngine :=
  (load_txt_catalog I18nEngine.init (utf8 "bbbbbb (Greeting): Hello\naaaaaa: world") true).engine

/-- The snapshot of `listing_engine`. -/
def listing_snapshot : CatalogSnapshot :=
  listing_engine.active_snapshot.getD empty_snapshot

/-- An entry matches a query, in the words of the specification: the query occurs in
the template, or in the non-empty label, as a substring after ASCII lower-casing of both
sides. -/
def entry_matches (s : CatalogSnapshot) (query token : Str) : Prop :=
  ∃ text, map_find s.catalog token = some text ∧
    (to_lower_ascii query <:+: to_lower_ascii text ∨
      ∃ label, map_find s.labels token = some label ∧ label ≠ [] ∧
        to_lower_ascii query <:+: to_lower_ascii label)

/-- The engine after strict loading of the text catalog `aaaaaa: world`,
`bbbbbb (Greeting): Hello`: the entries of `listing_engine` in the other order. -/
def listing_reordered_engine : I18nEngine :=
  (load_txt_catalog I18nEngine.init (utf8 "aaaaaa: world\nbbbbbb (Greeting): Hello") true).engine

/-- The snapshot of `listing_reordered_engine`. -/
def listing_reordered_snapshot : CatalogSnapshot :=
  listing_reordered_engine.active_snapshot.getD empty_snapshot

/-! ## Native style -/

/-- `I18nEngine::NativeStyle`, over a type `F` of `float` values. -/
structure NativeStyle (F : Type) where
  mass : F
  friction : F
  restitution : F
  drag : F
  gravity_scale : F
  spacing : F
  has_physical : Bool

/-- The default member initialisers of `NativeStyle`: every field `0.0f`, `gravity_scale`
`1.0f`, `has_physical` false. -/
def NativeStyle.defaults {F : Type} (zero one : F) : NativeStyle F :=
  { mass := zero, friction := zero, restitution := zero, drag := zero, gravity_scale := one,
    spacing := zero, has_physical := false }

/-- What `std::strtof(text.c_str(), &end)` reports: the value, the number of characters
consumed (`end - text.c_str()`), and whether it set `errno` to `ERANGE`.  The function
belongs to the C library; it is a parameter of the model. -/
structure StrtofResult (F : Type) where
  value : F
  consumed : Nat
  erange : Bool

/-- `I18nEngine::parse_physical_value`: `some value` is `true` with `out_value = value`. -/
def parse_physical_value {F : Type} (strtof : Str → StrtofResult F) (text : Str) : Option F :=
  if text.isEmpty then none
  else if (strtof text).consumed = 0 ∨ (strtof text).erange = true then none
  else some (strtof text).value

/-- `I18nEngine::apply_physical_property`. -/
def apply_physical_property {F : Type} (strtof : Str → StrtofResult F) (style : NativeStyle F)
    (key raw_value : Str) : NativeStyle F :=
  if key.isEmpty then style
  else
    let name := if starts_with key [45, 45] then key.drop 2 else key
    match parse_physical_value strtof raw_value with
    | none => style
    | some value =>
      if name = utf8 "mass" then { style with mass := value, has_physical := true }
      else if name = utf8 "friction" then { style with friction := value, has_physical := true }
      else if name = utf8 "restitution" then
        { style with restitution := value, has_physical := true }
      else if name = utf8 "drag" then { style with drag := value, has_physical := true }
      else if name = utf8 "gravity-scale" ∨ name = utf8 "gravity_scale" then
        { style with gravity_scale := value, has_physical := true }
      else if name = utf8 "spacing" ∨ name = utf8 "gap" then
        { style with spacing := value, has_physical := true }
      else style

/-- `I18nEngine::evaluate_native_style` (for a non-null `style_state`): the loop over the
properties threads the record and the set `seen`. -/
def evaluate_native_style {F : Type} (strtof : Str → StrtofResult F) (zero one : F)
    (props : List StyleProperty) (style_state : CatalogSnapshot) (args : List Str) :
    NativeStyle F :=
  (props.foldl (fun (acc : NativeStyle F × Seen) (prop : StyleProperty) =>
    if prop.prop_name.isEmpty then acc
    else
      (apply_physical_property strtof acc.1 prop.prop_name
        (resolve_plain_text style_state prop.value args acc.2 0).1,
       (resolve_plain_text style_state prop.value args acc.2 0).2))
    (NativeStyle.defaults zero one, [])).1

/-- `I18nEngine::get_native_style`. -/
def get_native_style {F : Type} (strtof : Str → StrtofResult F) (zero one : F)
    (eng : I18nEngine) (style_token : Str) (args : List Str) : NativeStyle F :=
  match eng.active_snapshot with
  | none => NativeStyle.defaults zero one
  | some snapshot =>
    match snapshot.style_registry with
    | none => NativeStyle.defaults zero one
    | some registry =>
      match map_find registry (to_lower_ascii style_token) with
      | none => NativeStyle.defaults zero one
      | some props => evaluate_native_style strtof zero one props snapshot args

/-- The name of a property after stripping one leading pair of dashes. -/
def strip_dashes (name : Str) : Str :=
  if starts_with name [45, 45] then name.drop 2 else name

/-- The property names that carry a physical value. -/
def is_physical_name (name : Str) : Bool :=
  name ∈ [utf8 "mass", utf8 "friction", utf8 "restitution", utf8 "drag", utf8 "gravity-scale",
    utf8 "gravity_scale", utf8 "spacing", utf8 "gap"]

/-- A property that counts: it is named, its name is recognised, and the number parser
accepts its resolved value. -/
def is_physical_property {F : Type} (strtof : Str → StrtofResult F)
    (style_state : CatalogSnapshot) (args : List Str) (prop : StyleProperty) : Bool :=
  !prop.prop_name.isEmpty && is_physical_name (strip_dashes prop.prop_name) &&
    (parse_physical_value strtof (resolve_plain_text style_state prop.value args [] 0).1).isSome

/-! ## Integrity checker -/

/-- The loop of the lambda `scan_placeholders` of `check_catalog_report` from index `i`,
with the indices collected so far (the index saturates at `1000000`). -/
def scan_placeholders_loop (s : Str) : Nat → Nat → List Int → List Int
  | 0, _, idxs => idxs
  | fuel + 1, i, idxs =>
    if i < s.length then
      if s.getD i 0 = 37 ∧ i + 1 < s.length ∧ is_digit (s.getD (i + 1) 0) then
        scan_placeholders_loop s fuel (i + 1 + ((s.drop (i + 1)).takeWhile is_digit).length)
          (idxs ++ [((s.drop (i + 1)).takeWhile is_digit).foldl
            (fun (idx : Int) (c : Nat) =>
              if idx > 1000000 then 1000000 else idx * 10 + ((c : Int) - 48)) 0])
      else scan_placeholders_loop s fuel (i + 1) idxs
    else idxs

/-- The lambda `scan_placeholders`: the placeholder indices of `s`, sorted and without
duplicates (the lambda returns `false` when the list is empty). -/
def scan_placeholders (s : Str) : List Int :=
  ((scan_placeholders_loop s s.length 0 []).insertionSort (fun a b => a ≤ b)).dedup

/-- The loop `for (int got : idxs) { if (got != expect) { gap = true; break; } ++expect; }`. -/
def placeholder_gap : List Int → Int → Bool
  | [], _ => false
  | got :: rest, expect => if got ≠ expect then true else placeholder_gap rest (expect + 1)

/-- The counter `warnings` after the first loop of `check_catalog_report`. -/
def check_warnings (catalog : List (Str × Str)) : Nat :=
  (catalog.filter (fun kv =>
    !(scan_placeholders kv.2).isEmpty && placeholder_gap (scan_placeholders kv.2) 0)).length

/-- The counter `errors` after the first loop of `check_catalog_report`: one for every
inline reference of a template that is not a key of the catalog. -/
def check_missing (catalog : List (Str × Str)) : Nat :=
  (catalog.map (fun kv =>
    ((scan_inline_refs kv.2).filter (fun r => (map_find catalog r).isNone)).length)).sum

/-- The map `edges` after the first loop of `check_catalog_report`. -/
def check_edges (catalog : List (Str × Str)) : List (Str × List Str) :=
  catalog.filterMap (fun kv =>
    if (scan_inline_refs kv.2).isEmpty then none else some (kv.1, scan_inline_refs kv.2))

/-- The local `enum class Color` of `check_catalog_report`. -/
inductive Color
  | White
  | Gray
  | Black
  deriving DecidableEq, Repr

/-- The variables that the lambda `dfs` captures and changes: the map `color` (an
assignment `color[u] = c` puts the pair in front) and the counter `errors`. -/
structure DfsState where
  color : List (Str × Color)
  errors : Nat
  deriving DecidableEq, Repr

/-- The read `color[v]`: the colour stored for `v`, `White` for a key not yet in the map. -/
def color_of (color : List (Str × Color)) (v : Str) : Color :=
  (map_find color v).getD Color.White

/-- The body of the loop `for (const auto& v : itE->second)` of `dfs`; `visit` is the
recursive call, `none` a recursion that was cut off. -/
def dfs_edge_step (catalog : List (Str × Str)) (visit : Str → DfsState → Option DfsState)
    (acc : Option DfsState) (v : Str) : Option DfsState :=
  match acc with
  | none => none
  | some st =>
    if (map_find catalog v).isNone then some st
    else
      match color_of st.color v with
      | .White => visit v st
      | .Gray => some { st with errors := st.errors + 1 }
      | .Black => some st

/-- The recursive lambda `dfs` of `check_catalog_report`, with a bound `fuel` on the
depth of the recursion: `none` when the bound is reached. -/
def dfs (catalog : List (Str × Str)) (edges : List (Str × List Str)) :
    Nat → Str → DfsState → Option DfsState
  | 0, _, _ => none
  | fuel + 1, u, st =>
    match ((map_find edges u).getD []).foldl (dfs_edge_step catalog (dfs catalog edges fuel))
        (some { st with color := (u, Color.Gray) :: st.color }) with
    | none => none
    | some st2 => some { st2 with color := (u, Color.Black) :: st2.color }

/-- The body of the last loop of `check_catalog_report`:
`if (color[tok] == Color::White) dfs(tok)`. -/
def dfs_root_step (catalog : List (Str × Str)) (edges : List (Str × List Str)) (fuel : Nat)
    (acc : Option DfsState) (kv : Str × Str) : Option DfsState :=
  match acc with
  | none => none
  | some st =>
    if color_of st.color kv.1 = Color.White then dfs catalog edges fuel kv.1 st else some st

/-- What `check_catalog_report` computes besides the text of the report: `out_code` and
the two counters. -/
structure CheckSummary where
  out_code : Nat
  warnings : Nat
  errors : Nat
  deriving DecidableEq, Repr

/-- `I18nEngine::check_catalog_report`, without the text of the report.  Every call of
`dfs` colours a white token gray, so the recursion is never deeper than the number of
tokens, which is the bound given to `dfs`; `none` is a recursion cut off by the bound. -/
def check_catalog_report (eng : I18nEngine) : Option CheckSummary :=
  match eng.active_snapshot with
  | none => some { out_code := 2, warnings := 0, errors := 0 }
  | some snapshot =>
    if snapshot.catalog.isEmpty then some { out_code := 2, warnings := 0, errors := 0 }
    else
      match snapshot.catalog.foldl
          (dfs_root_step snapshot.catalog (check_edges snapshot.catalog) snapshot.catalog.length)
          (some { color := snapshot.catalog.map (fun kv => (kv.1, Color.White)),
                  errors := check_missing snapshot.catalog }) with
      | none => none
      | some st =>
        some { out_code := if st.errors > 0 then 3 else 0,
               warnings := check_warnings snapshot.catalog, errors := st.errors }

/-! ### The reference graph, in the words of the specification -/

/-- An edge of the reference graph: from a token of the catalog to an inline reference
of its template that is in the catalog. -/
def ref_edge (s : CatalogSnapshot) (u v : Str) : Prop :=
  ∃ t, map_find s.catalog u = some t ∧ Item.ref v ∈ lex_template t ∧
    (map_find s.catalog v).isSome = true

/-- Some template contains an inline reference to a token that is absent from the
catalog. -/
def has_missing_ref (s : CatalogSnapshot) : Prop :=
  ∃ kv ∈ s.catalog, ∃ r, Item.ref r ∈ lex_template kv.2 ∧ map_find s.catalog r = none

/-- The reference graph contains a directed cycle. -/
def has_ref_cycle (s : CatalogSnapshot) : Prop :=
  ∃ u, Relation.TransGen (ref_edge s) u u

/-! ### Vocabulary for the invariants of the depth-first search -/

/-- An edge that the loop of `dfs` follows: `v` is in the list stored for `u` and is a
key of the catalog. -/
def dfs_edge (catalog : List (Str × Str)) (edges : List (Str × List Str)) (u v : Str) : Prop :=
  v ∈ (map_find edges u).getD [] ∧ (map_find catalog v).isNone = false

/-- The number of keys that are still white. -/
def white_count (catalog : List (Str × Str)) (st : DfsState) : Nat :=
  ((catalog.map Prod.fst).filter (fun k => decide (color_of st.color k = Color.White))).length

/-- The black tokens are closed under the edges and ranked so that every edge goes to a
lower rank. -/
def topo_ranked (catalog : List (Str × Str)) (edges : List (Str × List Str)) (st : DfsState) :
    Prop :=
  ∃ rank : Str → Nat, ∀ b, color_of st.color b = Color.Black →
    ∀ w, dfs_edge catalog edges b w → color_of st.color w = Color.Black ∧ rank w < rank b

/-- What a call of `dfs` on `u` (or a stretch of its loop) leaves behind: the counter
does not fall, the gray tokens are the same, black stays black, nothing becomes white;
a new error comes with a cycle, and without a new error the ranking extends. -/
def visit_post (catalog : List (Str × Str)) (edges : List (Str × List Str)) (u : Str)
    (st st2 : DfsState) : Prop :=
  st.errors ≤ st2.errors ∧
  (∀ x, color_of st2.color x = Color.Gray ↔ color_of st.color x = Color.Gray) ∧
  (∀ x, color_of st.color x = Color.Black → color_of st2.color x = Color.Black) ∧
  (∀ x, color_of st2.color x = Color.White → color_of st.color x = Color.White) ∧
  ((∀ g, color_of st.color g = Color.Gray →
      Relation.ReflTransGen (dfs_edge catalog edges) g u) →
    st.errors < st2.errors → ∃ c, Relation.TransGen (dfs_edge catalog edges) c c) ∧
  (st2.errors = st.errors → topo_ranked catalog edges st → topo_ranked catalog edges st2)

/-- The engine after loading of the text catalog `aaaaaa: from %1 on`, whose only
placeholder is not `%0`. -/
def placeholder_gap_engine : I18nEngine :=
  (load_txt_catalog I18nEngine.init (utf8 "aaaaaa: from %1 on") false).engine

/-- The engine after loading of the text catalog `aaaaaa: see @bbbbbb`, whose inline
reference names no token of the catalog. -/
def missing_ref_engine : I18nEngine :=
  (load_txt_catalog I18nEngine.init (utf8 "aaaaaa: see @bbbbbb") false).engine

/-! ## Engines of the letter-case scenarios -/

/-- The engine after strict loading of the text catalog `aaaaaa: @style_b`,
`style_b: x`. -/
def style_ref_engine : I18nEngine :=
  (load_txt_catalog I18nEngine.init (utf8 "aaaaaa: @style_b\nstyle_b: x") true).engine

/-- The engine after strict loading of the text catalog `aaaaaa: @STYLE_B`,
`style_b: x`: the catalog of `style_ref_engine` with the inline reference in upper
case. -/
def style_ref_upper_engine : I18nEngine :=
  (load_txt_catalog I18nEngine.init (utf8 "aaaaaa: @STYLE_B\nstyle_b: x") true).engine

/-- The engine after strict loading of the text catalog `aaaaaa: @BBBBBB`,
`bbbbbb: x`: a hex reference in upper case. -/
def hex_ref_upper_engine : I18nEngine :=
  (load_txt_catalog I18nEngine.init (utf8 "aaaaaa: @BBBBBB\nbbbbbb: x") true).engine

/-! ## Truncated binary catalogs -/

/-- A buffer of 20 bytes: the magic `I18N`, version 2 and fifteen zero bytes. -/
def truncated_v2_file : List Nat := [73, 49, 56, 78, 2] ++ List.replicate 15 0

/-- A buffer of 27 bytes: a version 1 header that announces one entry, the length byte
6 and the base token `abcdef`, after which the buffer ends. -/
def base_token_end_file : List Nat :=
  [73, 49, 56, 78, 1, 0, 0, 0, 1, 0, 0, 0, 0, 0, 0, 0, 0, 0, 0, 0, 6] ++ utf8 "abcdef"

/-! ## Catalogs with the same entries in two orders -/

/-- The engine after strict loading of the text catalog `aaaaaa: @bbbbbb`,
`bbbbbb: @aaaaaa @cccccc`, `cccccc: @aaaaaa`. -/
def triangle_engine : I18nEngine :=
  (load_txt_catalog I18nEngine.init
    (utf8 "aaaaaa: @bbbbbb\nbbbbbb: @aaaaaa @cccccc\ncccccc: @aaaaaa") true).engine

/-- The snapshot of `triangle_engine`. -/
def triangle_snapshot : CatalogSnapshot :=
  triangle_engine.active_snapshot.getD empty_snapshot

/-- The engine after strict loading of the same three lines with `bbbbbb` first. -/
def triangle_reordered_engine : I18nEngine :=
  (load_txt_catalog I18nEngine.init
    (utf8 "bbbbbb: @aaaaaa @cccccc\naaaaaa: @bbbbbb\ncccccc: @aaaaaa") true).engine

/-- The snapshot of `triangle_reordered_engine`. -/
def triangle_reordered_snapshot : CatalogSnapshot :=
  triangle_reordered_engine.active_snapshot.getD empty_snapshot

/-! ## A small binary catalog -/

/-- A version 1 binary catalog with the single entry `abcdef` whose text `hi` is the
whole string table (the checksum field is zero, so only non-strict loading accepts
it). -/
def small_binary_file : List Nat :=
  [73, 49, 56, 78, 1, 0, 0, 0, 1, 0, 0, 0, 2, 0, 0, 0, 0, 0, 0, 0,
   6, 97, 98, 99, 100, 101, 102, 0, 0, 0, 0, 0, 2, 0, 0, 0,
   104, 105]

/-! ## Shape of style properties, in the words of the specification -/

/-- A bare property: no name, hash 0, and a value that starts with `@` and contains
neither `:` nor `;`. -/
def is_bare_property (p : StyleProperty) : Prop :=
  p.prop_name = [] ∧ p.prop_hash = 0 ∧ p.value.head? = some 64 ∧
    (58 : Nat) ∉ p.value ∧ (59 : Nat) ∉ p.value

/-- A named property: a non-empty name in ASCII lower case without white space at
either end, a non-empty value without white space at either end, and the FNV-1a hash
of the name. -/
def is_named_property (p : StyleProperty) : Prop :=
  p.prop_name ≠ [] ∧ to_lower_ascii p.prop_name = p.prop_name ∧
    trim p.prop_name = p.prop_name ∧ p.value ≠ [] ∧ trim p.value = p.value ∧
    p.prop_hash = fnv1a32 p.prop_name

/-- A segment that contributes nothing: it is empty after trimming, or it has no `:`
and does not start with `@`, or the text before its first `:` or the text after it is
empty after trimming. -/
def is_dropped_segment (seg : Str) : Prop :=
  trim seg = [] ∨ ((58 : Nat) ∉ trim seg ∧ (trim seg).head? ≠ some 64) ∨
    ∃ a b, trim seg = a ++ 58 :: b ∧ (58 : Nat) ∉ a ∧ (trim a = [] ∨ trim b = [])

/-! ## The plural variants and the catalog, in the words of the specification -/

/-- Every variant recorded in `plural_variants[b]` has the catalog key `b{v}`, and every
catalog key of the form `b{v}` has `v` recorded in `plural_variants[b]`. -/
def plural_consistent (catalog : List (Str × Str)) (pv : List (Str × List Str)) : Prop :=
  (∀ b vs v, map_find pv b = some vs → v ∈ vs →
    (map_find catalog (b ++ [123] ++ v ++ [125])).isSome = true) ∧
  (∀ b v, (map_find catalog (b ++ [123] ++ v ++ [125])).isSome = true →
    ∃ vs, map_find pv b = some vs ∧ v ∈ vs)

/-! ## Snapshots of the loader invariants -/

/-- The snapshot that loading of the text catalog `abcdef{one}: x`, `abcdef: y`
returns. -/
def variant_pair_snapshot : CatalogSnapshot :=
  { empty_snapshot with
    catalog := [(utf8 "abcdef{one}", utf8 "x"), (utf8 "abcdef", utf8 "y")]
    plural_variants := [(utf8 "abcdef", [utf8 "one"])] }

/-- The snapshot that loading of the text catalog `style_a: color: red`, `style_b: x`
returns. -/
def style_pair_snapshot : CatalogSnapshot :=
  { empty_snapshot with
    catalog := [(utf8 "style_a", utf8 "color: red"), (utf8 "style_b", utf8 "x")]
    style_registry := some [(utf8 "style_a",
      [⟨fnv1a32 (utf8 "color"), utf8 "color", utf8 "red"⟩])] }

/-! ## Canonical style strings: vocabulary -/

/-- The segment `name: value` that `try_build_style_string` writes for a named
property (before the closing `;`). -/
def style_segment (p : StyleProperty) : Str := p.prop_name ++ [58, 32] ++ p.value

/-- What `parse_style_properties` guarantees of a named property: the name is not
empty, in lower case, trimmed and free of `:` and `;`; the value is not empty, trimmed
and free of `;`; the hash is that of the name. -/
def is_canonical_property (p : StyleProperty) : Prop :=
  p.prop_name ≠ [] ∧ to_lower_ascii p.prop_name = p.prop_name ∧
    trim p.prop_name = p.prop_name ∧ (58 : Nat) ∉ p.prop_name ∧ (59 : Nat) ∉ p.prop_name ∧
    p.value ≠ [] ∧ trim p.value = p.value ∧ (59 : Nat) ∉ p.value ∧
    p.prop_hash = fnv1a32 p.prop_name

/-- The engine after strict loading of the text catalog `style_a: color: red; mass: 2`. -/
def style_two_engine : I18nEngine :=
  (load_txt_catalog I18nEngine.init (utf8 "style_a: color: red; mass: 2") true).engine

/-- The snapshot of `style_two_engine`. -/
def style_two_snapshot : CatalogSnapshot :=
  style_two_engine.active_snapshot.getD empty_snapshot

/-- The properties registered for `style_a` in `style_two_snapshot`. -/
def style_two_props : List StyleProperty :=
  [⟨fnv1a32 (utf8 "color"), utf8 "color", utf8 "red"⟩,
    ⟨fnv1a32 (utf8 "mass"), utf8 "mass", utf8 "2"⟩]

/-- The snapshot of `missing_ref_engine`. -/
def missing_ref_snapshot : CatalogSnapshot :=
  missing_ref_engine.active_snapshot.getD empty_snapshot

/-! # Theorems -/

/-! ## The fuel-bounded mirror -/

set_option maxHeartbeats 2000000 in
/-- Soundness of the fuel-bounded mirror: a result it returns is the result of the
resolver. -/
theorem fuel_sound (fuel : Nat) :
    (∀ state arg seen depth r, resolve_arg_fuel fuel state arg seen depth = some r →
      resolve_arg state arg seen depth = r) ∧
    (∀ state token args seen depth r, translate_impl_fuel fuel state token args seen depth = some r →
      translate_impl state token args seen depth = r) ∧
    (∀ state raw args depth i out seen r,
      translate_impl_loop_fuel fuel state raw args depth i out seen = some r →
      translate_impl_loop state raw args depth i out seen = r) ∧
    (∀ state raw args seen depth r, resolve_plain_text_fuel fuel state raw args seen depth = some r →
      resolve_plain_text state raw args seen depth = r) ∧
    (∀ state raw args depth i out seen r,
      resolve_plain_text_loop_fuel fuel state raw args depth i out seen = some r →
      resolve_plain_text_loop state raw args depth i out seen = r) ∧
    (∀ state token args seen depth r,
      try_build_style_string_fuel fuel state token args seen depth = some r →
      try_build_style_string state token args seen depth = r) ∧
    (∀ state args depth props builder seen r,
      try_build_style_loop_fuel fuel state args depth props builder seen = some r →
      try_build_style_loop state args depth props builder seen = r) := by
  induction fuel with
  | zero =>
    refine ⟨?_, ?_, ?_, ?_, ?_, ?_, ?_⟩ <;> intros <;> rename_i h
    · simp [resolve_arg_fuel] at h
    · simp [translate_impl_fuel] at h
    · simp [translate_impl_loop_fuel] at h
    · simp [resolve_plain_text_fuel] at h
    · simp [resolve_plain_text_loop_fuel] at h
    · simp [try_build_style_string_fuel] at h
    · simp [try_build_style_loop_fuel] at h
  | succ n ih =>
    obtain ⟨ihA, ihI, ihL, ihP, ihPL, ihS, ihSL⟩ := ih
    refine ⟨?_, ?_, ?_, ?_, ?_, ?_, ?_⟩
    · intro state arg seen depth r h
      rw [resolve_arg]
      simp only [resolve_arg_fuel] at h
      split at h
      · simp_all
      · split at h
        · simp_all
        · split at h
          · simp_all
          · rename_i h1 h2 h3
            simp only [h1, h2, h3, if_false]
            exact ihI _ _ _ _ _ _ h
    · intro state token args seen depth r h
      rw [translate_impl]
      simp only [translate_impl_fuel] at h
      split at h
      · simp_all
      · split at h
        · simp_all
        · rename_i h1 h2
          simp only [h1, h2, if_false]
          split at h
          · simp at h
          · rename_i so sn hs
            rw [ihS _ _ _ _ _ _ hs]
            simp_all
          · rename_i sn hs
            rw [ihS _ _ _ _ _ _ hs]
            simp only
            split at h
            · rename_i hm
              simp_all
            · rename_i raw hm
              split at h
              · simp at h
              · rename_i r' hl
                rw [ihL _ _ _ _ _ _ _ _ hl]
                simp_all
    · intro state raw args depth i out seen r h
      rw [translate_impl_loop]
      simp only [translate_impl_loop_fuel] at h
      by_cases h1 : i < raw.length
      · simp only [h1, ↓reduceIte] at h ⊢
        by_cases h2 : raw.getD i 0 = 64
        · simp only [h2, ↓reduceIte] at h ⊢
          split
          · rename_i ref adv hp
            simp only [hp] at h
            by_cases h3 : (map_find state.catalog ref).isNone = true
            · simp only [h3, ↓reduceIte] at h ⊢
              exact ihL _ _ _ _ _ _ _ _ h
            · simp only [h3, ↓reduceIte] at h ⊢
              cases hr : translate_impl_fuel n state ref args seen (depth + 1) with
              | none => rw [hr] at h; exact absurd h (by simp)
              | some r' =>
                simp only [hr] at h
                rw [ihI _ _ _ _ _ _ hr]
                exact ihL _ _ _ _ _ _ _ _ h
          · rename_i t a hp
            simp only [hp] at h
            by_cases h3 : i + 1 < raw.length ∧ raw.getD (i + 1) 0 = 64
            · simp only [h3, and_self, ↓reduceIte] at h ⊢
              exact ihL _ _ _ _ _ _ _ _ h
            · simp only [h3, ↓reduceIte] at h ⊢
              exact ihL _ _ _ _ _ _ _ _ h
        · simp only [h2, ↓reduceIte] at h ⊢
          by_cases h3 : raw.getD i 0 = 37 ∧ i + 1 < raw.length ∧ is_digit (raw.getD (i + 1) 0) = true
          · simp only [h3, and_self, ↓reduceIte] at h ⊢
            by_cases h4 : (parse_placeholder_index raw (i + 1)).1 ≥ 0 ∧
                (parse_placeholder_index raw (i + 1)).1.toNat < args.length
            · simp only [h4, and_self, ↓reduceIte] at h ⊢
              cases hr : resolve_arg_fuel n state
                  (args.getD (parse_placeholder_index raw (i + 1)).1.toNat []) seen depth with
              | none => rw [hr] at h; exact absurd h (by simp)
              | some r' =>
                simp only [hr] at h
                rw [ihA _ _ _ _ _ hr]
                exact ihL _ _ _ _ _ _ _ _ h
            · simp only [h4, ↓reduceIte] at h ⊢
              exact ihL _ _ _ _ _ _ _ _ h
          · simp only [h3, ↓reduceIte] at h ⊢
            exact ihL _ _ _ _ _ _ _ _ h
      · simp only [h1, ↓reduceIte] at h ⊢
        exact Option.some.inj h
    · intro state raw args seen depth r h
      rw [resolve_plain_text]
      simp only [resolve_plain_text_fuel] at h
      by_cases h1 : depth > 32
      · simp only [h1, ↓reduceIte] at h ⊢
        exact Option.some.inj h
      · simp only [h1, ↓reduceIte] at h ⊢
        exact ihPL _ _ _ _ _ _ _ _ h
    · intro state raw args depth i out seen r h
      rw [resolve_plain_text_loop]
      simp only [resolve_plain_text_loop_fuel] at h
      by_cases h1 : i < raw.length
      · simp only [h1, ↓reduceIte] at h ⊢
        by_cases h2 : raw.getD i 0 = 64
        · simp only [h2, ↓reduceIte] at h ⊢
          split
          · rename_i ref adv hp
            simp only [hp] at h
            by_cases h3 : (map_find state.catalog ref).isNone = true
            · simp only [h3, ↓reduceIte] at h ⊢
              exact ihPL _ _ _ _ _ _ _ _ h
            · simp only [h3, ↓reduceIte] at h ⊢
              cases hr : translate_impl_fuel n state ref args seen (depth + 1) with
              | none => rw [hr] at h; exact absurd h (by simp)
              | some r' =>
                simp only [hr] at h
                rw [ihI _ _ _ _ _ _ hr]
                exact ihPL _ _ _ _ _ _ _ _ h
          · rename_i t a hp
            simp only [hp] at h
            by_cases h3 : i + 1 < raw.length ∧ raw.getD (i + 1) 0 = 64
            · simp only [h3, and_self, ↓reduceIte] at h ⊢
              exact ihPL _ _ _ _ _ _ _ _ h
            · simp only [h3, ↓reduceIte] at h ⊢
              exact ihPL _ _ _ _ _ _ _ _ h
        · simp only [h2, ↓reduceIte] at h ⊢
          by_cases h3 : raw.getD i 0 = 37 ∧ i + 1 < raw.length ∧ is_digit (raw.getD (i + 1) 0) = true
          · simp only [h3, and_self, ↓reduceIte] at h ⊢
            by_cases h4 : (parse_placeholder_index raw (i + 1)).1 ≥ 0 ∧
                (parse_placeholder_index raw (i + 1)).1.toNat < args.length
            · simp only [h4, and_self, ↓reduceIte] at h ⊢
              cases hr : resolve_arg_fuel n state
                  (args.getD (parse_placeholder_index raw (i + 1)).1.toNat []) seen (depth + 1) with
              | none => rw [hr] at h; exact absurd h (by simp)
              | some r' =>
                simp only [hr] at h
                rw [ihA _ _ _ _ _ hr]
                exact ihPL _ _ _ _ _ _ _ _ h
            · simp only [h4, ↓reduceIte] at h ⊢
              exact ihPL _ _ _ _ _ _ _ _ h
          · simp only [h3, ↓reduceIte] at h ⊢
            exact ihPL _ _ _ _ _ _ _ _ h
      · simp only [h1, ↓reduceIte] at h ⊢
        exact Option.some.inj h
    · intro state token args seen depth r h
      rw [try_build_style_string]
      simp only [try_build_style_string_fuel] at h
      cases hreg : state.style_registry with
      | none =>
        simp only [hreg] at h ⊢
        exact Option.some.inj h
      | some registry =>
        simp only [hreg] at h ⊢
        cases hprops : map_find registry token with
        | none =>
          simp only [hprops] at h ⊢
          exact Option.some.inj h
        | some props =>
          simp only [hprops] at h ⊢
          by_cases h1 : props.isEmpty = true
          · simp only [h1, ↓reduceIte] at h ⊢
            exact Option.some.inj h
          · simp only [h1, ↓reduceIte] at h ⊢
            cases hr : try_build_style_loop_fuel n state args depth props [] seen with
            | none => rw [hr] at h; exact absurd h (by simp)
            | some r' =>
              simp only [hr] at h
              rw [ihSL _ _ _ _ _ _ _ hr]
              by_cases h2 : (List.rdropWhile (fun c => c == 32) r'.1).isEmpty = true
              · simp only [h2, ↓reduceIte] at h ⊢
                exact Option.some.inj h
              · simp only [h2, ↓reduceIte] at h ⊢
                exact Option.some.inj h
    · intro state args depth props builder seen r h
      cases props with
      | nil =>
        rw [try_build_style_loop]
        simp only [try_build_style_loop_fuel] at h
        exact Option.some.inj h
      | cons prop rest =>
        rw [try_build_style_loop]
        simp only [try_build_style_loop_fuel] at h
        cases hr : resolve_plain_text_fuel n state prop.value args seen (depth + 1) with
        | none => rw [hr] at h; exact absurd h (by simp)
        | some r' =>
          simp only [hr] at h
          rw [ihP _ _ _ _ _ _ hr]
          by_cases h1 : prop.prop_name.isEmpty = true
          · simp only [h1, ↓reduceIte] at h ⊢
            by_cases h2 : (!r'.1.isEmpty) = true
            · simp only [h2, ↓reduceIte] at h ⊢
              exact ihSL _ _ _ _ _ _ _ h
            · simp only [h2, ↓reduceIte] at h ⊢
              exact ihSL _ _ _ _ _ _ _ h
          · simp only [h1, ↓reduceIte] at h ⊢
            exact ihSL _ _ _ _ _ _ _ h

/-! ## The scanning loops as folds over the lexical items -/

theorem lex_step_gt (raw : Str) (i : Nat) : i < (lex_step raw i).2 := by
  unfold lex_step
  split
  · split
    · rename_i ref adv hp
      have := try_parse_adv_pos _ _ _ _ hp
      simp only; omega
    · split <;> simp
  · split
    · have := parse_placeholder_index_gt raw (i + 1)
      simp only; omega
    · simp

theorem translate_impl_loop_eq (state : CatalogSnapshot) (raw : Str) (args : List Str)
    (depth : Nat) (fuel : Nat) :
    ∀ (i : Nat) (out : Str) (seen : Seen), raw.length - i ≤ fuel →
      translate_impl_loop state raw args depth i out seen =
        (lex_fuel raw fuel i).foldl (emit_item state args (depth + 1) depth) (out, seen) := by
  induction fuel with
  | zero =>
    intro i out seen h
    rw [translate_impl_loop]
    have : ¬ i < raw.length := by omega
    simp [this, lex_fuel]
  | succ n ih =>
    intro i out seen h
    rw [translate_impl_loop]
    by_cases hi : i < raw.length
    · have hgt := lex_step_gt raw i
      have hnext : raw.length - (lex_step raw i).2 ≤ n := by omega
      simp only [hi, ↓reduceIte, lex_fuel, List.foldl_cons]
      rw [← ih _ _ _ hnext]
      unfold lex_step emit_item
      by_cases h64 : raw.getD i 0 = 64
      · simp only [h64, ↓reduceIte]
        split
        · rename_i ref adv hp
          simp only [hp]
          split <;> rfl
        · rename_i t a hp
          simp only [hp]
          split <;> rfl
      · simp only [h64, ↓reduceIte]
        split
        · simp only
          split <;> rfl
        · rfl
    · simp [hi, lex_fuel]

theorem resolve_plain_text_loop_eq (state : CatalogSnapshot) (raw : Str) (args : List Str)
    (depth : Nat) (fuel : Nat) :
    ∀ (i : Nat) (out : Str) (seen : Seen), raw.length - i ≤ fuel →
      resolve_plain_text_loop state raw args depth i out seen =
        (lex_fuel raw fuel i).foldl (emit_item state args (depth + 1) (depth + 1)) (out, seen) := by
  induction fuel with
  | zero =>
    intro i out seen h
    rw [resolve_plain_text_loop]
    have : ¬ i < raw.length := by omega
    simp [this, lex_fuel]
  | succ n ih =>
    intro i out seen h
    rw [resolve_plain_text_loop]
    by_cases hi : i < raw.length
    · have hgt := lex_step_gt raw i
      have hnext : raw.length - (lex_step raw i).2 ≤ n := by omega
      simp only [hi, ↓reduceIte, lex_fuel, List.foldl_cons]
      rw [← ih _ _ _ hnext]
      unfold lex_step emit_item
      by_cases h64 : raw.getD i 0 = 64
      · simp only [h64, ↓reduceIte]
        split
        · rename_i ref adv hp
          simp only [hp]
          split <;> rfl
        · rename_i t a hp
          simp only [hp]
          split <;> rfl
      · simp only [h64, ↓reduceIte]
        split
        · simp only
          split <;> rfl
        · rfl
    · simp [hi, lex_fuel]



theorem translate_impl_guard (state : CatalogSnapshot) (token : Str) (args : List Str)
    (seen : Seen) (depth : Nat) (h : depth > 32) :
    translate_impl state token args seen depth = (S_RECURSION_LIMIT, seen) := by
  rw [translate_impl]; simp [h]

theorem resolve_plain_text_guard (state : CatalogSnapshot) (raw : Str) (args : List Str)
    (seen : Seen) (depth : Nat) (h : depth > 32) :
    resolve_plain_text state raw args seen depth = (S_RECURSION_LIMIT, seen) := by
  rw [resolve_plain_text]; simp [h]

theorem emit_fold_seen (state : CatalogSnapshot) (args : List Str) (dr da : Nat)
    (hI : ∀ token args seen, (translate_impl state token args seen dr).2 = seen)
    (hA : ∀ arg seen, (resolve_arg state arg seen da).2 = seen)
    (items : List Item) : ∀ acc : Str × Seen,
    (items.foldl (emit_item state args dr da) acc).2 = acc.2 := by
  induction items with
  | nil => intro acc; rfl
  | cons it rest ih =>
    intro acc
    rw [List.foldl_cons, ih]
    cases it <;> simp only [emit_item] <;> split <;> simp [hI, hA]

theorem resolve_arg_seen (state : CatalogSnapshot) (depth : Nat)
    (hI : ∀ token args seen, (translate_impl state token args seen (depth + 1)).2 = seen)
    (arg : Str) (seen : Seen) : (resolve_arg state arg seen depth).2 = seen := by
  rw [resolve_arg]
  split
  · rfl
  · simp only
    split
    · rfl
    · split
      · rfl
      · exact hI _ _ _

theorem resolve_plain_text_seen (state : CatalogSnapshot) (depth : Nat)
    (hI : ∀ token args seen, (translate_impl state token args seen (depth + 1)).2 = seen)
    (hA : ∀ arg seen, (resolve_arg state arg seen (depth + 1)).2 = seen)
    (raw : Str) (args : List Str) (seen : Seen) :
    (resolve_plain_text state raw args seen depth).2 = seen := by
  rw [resolve_plain_text]
  split
  · rfl
  · rw [resolve_plain_text_loop_eq state raw args depth raw.length 0 [] seen (by omega)]
    exact emit_fold_seen state args _ _ hI hA _ _

theorem try_build_style_loop_seen (state : CatalogSnapshot) (depth : Nat)
    (hP : ∀ raw args seen, (resolve_plain_text state raw args seen (depth + 1)).2 = seen)
    (args : List Str) (props : List StyleProperty) : ∀ (builder : Str) (seen : Seen),
    (try_build_style_loop state args depth props builder seen).2 = seen := by
  induction props with
  | nil => intro builder seen; rw [try_build_style_loop]
  | cons prop rest ih =>
    intro builder seen
    rw [try_build_style_loop]
    split
    · simp only
      split
      · rw [ih]; exact hP _ _ _
      · rw [ih]; exact hP _ _ _
    · simp only
      rw [ih]; exact hP _ _ _

theorem try_build_style_string_seen (state : CatalogSnapshot) (depth : Nat)
    (hP : ∀ raw args seen, (resolve_plain_text state raw args seen (depth + 1)).2 = seen)
    (token : Str) (args : List Str) (seen : Seen) :
    (try_build_style_string state token args seen depth).2 = seen := by
  rw [try_build_style_string]
  split
  · rfl
  · split
    · rfl
    · split
      · rfl
      · have := try_build_style_loop_seen state depth hP args ‹_› [] seen
        simp only
        split <;> exact this

theorem translate_impl_seen (state : CatalogSnapshot) (depth : Nat)
    (hI : ∀ token args seen, (translate_impl state token args seen (depth + 1)).2 = seen)
    (hP : ∀ raw args seen, (resolve_plain_text state raw args seen (depth + 1)).2 = seen)
    (token : Str) (args : List Str) (seen : Seen) :
    (translate_impl state token args seen depth).2 = seen := by
  have hS := try_build_style_string_seen state depth hP token args (token :: seen)
  have hA := resolve_arg_seen state depth hI
  rw [translate_impl]
  split
  · rfl
  · split
    · rfl
    · simp only
      split
      · rename_i so sn heq
        rw [heq] at hS
        simp only at hS
        subst hS
        simp
      · rename_i sn heq
        rw [heq] at hS
        simp only at hS
        subst hS
        split
        · simp
        · rename_i raw hraw
          rw [translate_impl_loop_eq state raw args depth raw.length 0 [] _ (by omega)]
          rw [emit_fold_seen state args _ _ hI hA]
          simp

/-- Every resolver function leaves the set `seen` as it found it. -/
theorem seen_restored (state : CatalogSnapshot) (n : Nat) : ∀ depth, 34 - depth ≤ n →
    (∀ token args seen, (translate_impl state token args seen depth).2 = seen) ∧
    (∀ raw args seen, (resolve_plain_text state raw args seen depth).2 = seen) ∧
    (∀ arg seen, (resolve_arg state arg seen depth).2 = seen) := by
  induction n with
  | zero =>
    intro depth h
    have hd : depth > 32 := by omega
    refine ⟨fun _ _ _ => by rw [translate_impl_guard _ _ _ _ _ hd],
      fun _ _ _ => by rw [resolve_plain_text_guard _ _ _ _ _ hd], ?_⟩
    exact resolve_arg_seen state depth
      (fun _ _ _ => by rw [translate_impl_guard _ _ _ _ _ (by omega)])
  | succ n ih =>
    intro depth h
    obtain ⟨hI, hP, hA⟩ := ih (depth + 1) (by omega)
    exact ⟨translate_impl_seen state depth hI hP, resolve_plain_text_seen state depth hI hA,
      resolve_arg_seen state depth hI⟩

theorem translate_impl_seen_eq (state : CatalogSnapshot) (token : Str) (args : List Str)
    (seen : Seen) (depth : Nat) : (translate_impl state token args seen depth).2 = seen :=
  (seen_restored state (34 - depth) depth le_rfl).1 token args seen

theorem resolve_arg_seen_eq (state : CatalogSnapshot) (arg : Str) (seen : Seen) (depth : Nat) :
    (resolve_arg state arg seen depth).2 = seen :=
  (seen_restored state (34 - depth) depth le_rfl).2.2 arg seen

theorem resolve_plain_text_seen_eq (state : CatalogSnapshot) (raw : Str) (args : List Str)
    (seen : Seen) (depth : Nat) : (resolve_plain_text state raw args seen depth).2 = seen :=
  (seen_restored state (34 - depth) depth le_rfl).2.1 raw args seen

/-! ## Public entry points -/

theorem translate_fuel_sound (fuel : Nat) (eng : I18nEngine) (token_in : Str) (args : List Str)
    (r : Str) (h : translate_fuel fuel eng token_in args = some r) :
    translate eng token_in args = r := by
  unfold translate_fuel at h
  unfold translate
  cases hs : eng.active_snapshot with
  | none => simp only [hs] at h ⊢; exact Option.some.inj h
  | some snapshot =>
    simp only [hs] at h ⊢
    cases hr : translate_impl_fuel fuel snapshot (to_lower_ascii token_in) args [] 0 with
    | none => rw [hr] at h; exact absurd h (by simp)
    | some r' =>
      rw [hr] at h
      rw [(fuel_sound fuel).2.1 _ _ _ _ _ _ hr]
      exact Option.some.inj h

theorem translate_plural_fuel_sound (fuel : Nat) (eng : I18nEngine) (token_in : Str) (count : Int)
    (args : List Str) (r : Str) (h : translate_plural_fuel fuel eng token_in count args = some r) :
    translate_plural eng token_in count args = r := by
  unfold translate_plural_fuel at h
  unfold translate_plural
  cases hs : eng.active_snapshot with
  | none => simp only [hs] at h ⊢; exact Option.some.inj h
  | some snapshot =>
    simp only [hs] at h ⊢
    cases hr : translate_impl_fuel fuel snapshot
        (translate_plural_lookup snapshot eng.meta_plural token_in count) args [] 0 with
    | none => rw [hr] at h; exact absurd h (by simp)
    | some r' =>
      rw [hr] at h
      rw [(fuel_sound fuel).2.1 _ _ _ _ _ _ hr]
      exact Option.some.inj h

theorem tolower_toupper (c : Nat) : tolower (toupper c) = tolower c := by
  unfold tolower toupper is_upper is_lower
  by_cases h1 : 97 ≤ c ∧ c ≤ 122
  · have : (decide (97 ≤ c) && decide (c ≤ 122)) = true := by simp [h1]
    simp only [this, ↓reduceIte]
    have h2 : (decide (65 ≤ c - 32) && decide (c - 32 ≤ 90)) = true := by
      simp; omega
    have h3 : (decide (65 ≤ c) && decide (c ≤ 90)) = false := by
      simp; omega
    simp only [h2, h3, ↓reduceIte]
    simp; omega
  · have : (decide (97 ≤ c) && decide (c ≤ 122)) = false := by
      simp; omega
    simp [this]

theorem to_lower_to_upper (s : Str) : to_lower_ascii (to_upper_ascii s) = to_lower_ascii s := by
  unfold to_lower_ascii to_upper_ascii
  rw [List.map_map]
  apply List.map_congr_left
  intro c _
  exact tolower_toupper c

/-- C5. Case folding of the query token: `translate(T, args)` equals
`translate(U, args)` for `U` the token `T` with every ASCII letter upper-cased, for every
engine state, token and argument list; and after loading the catalog `abcdef: hi`,
`translate("ABCDEF", [])` is `"hi"`. -/
theorem translate_case_fold :
    (∀ (eng : I18nEngine) (T : Str) (args : List Str),
      translate eng T args = translate eng (to_upper_ascii T) args) ∧
    (load_txt_catalog I18nEngine.init (utf8 "abcdef: hi") true =
        .done true (load_txt_catalog I18nEngine.init (utf8 "abcdef: hi") true).engine ∧
      translate (load_txt_catalog I18nEngine.init (utf8 "abcdef: hi") true).engine
        (utf8 "ABCDEF") [] = utf8 "hi") := by
  refine ⟨?_, ?_, ?_⟩
  · intro eng T args
    unfold translate
    rw [to_lower_to_upper]
  · decide
  · exact translate_fuel_sound 10 _ _ _ _ (by decide)

/-! ## Plural variant selection -/

/-- C7. `pick_variant_name` agrees with the variant naming `pick` of the specification
for every rule and every `int` count. -/
theorem pick_variant_name_eq_spec (rule : PluralRule) (count : Int) :
    pick_variant_name rule count = pick_spec rule count := by
  unfold pick_variant_name pick_spec
  by_cases hneg : count < 0
  · simp [hneg]
  · have h0 : 0 ≤ count := by omega
    have e10 : count.tmod 10 = count % 10 := Int.tmod_eq_emod h0 (by decide)
    have e100 : count.tmod 100 = count % 100 := Int.tmod_eq_emod h0 (by decide)
    cases rule <;> simp only [hneg, if_false, e10, e100, Set.mem_Icc, ge_iff_le, and_assoc]

/-- C8. Plural total function: for every rule and every count in `[-1, 1000]`,
`pick_variant_name` returns one of the six names zero, one, two, few, many, other. -/
theorem pick_variant_name_total (rule : PluralRule) (count : Int)
    (_h : -1 ≤ count ∧ count ≤ 1000) :
    pick_variant_name rule count ∈
      [utf8 "zero", utf8 "one", utf8 "two", utf8 "few", utf8 "many", utf8 "other"] := by
  unfold pick_variant_name
  cases rule <;> simp only <;> split_ifs <;> simp

theorem pick_variant_name_total_witness :
    (-1 ≤ (22 : Int) ∧ (22 : Int) ≤ 1000) ∧
    pick_variant_name .SLAVIC 22 ∈
      [utf8 "zero", utf8 "one", utf8 "two", utf8 "few", utf8 "many", utf8 "other"] :=
  ⟨by decide, pick_variant_name_total .SLAVIC 22 (by decide)⟩

/-! ## Resolver: tokens without a style entry -/

theorem map_find_none_of_not_mem {β : Type} (m : List (Str × β)) (k : Str)
    (h : k ∉ m.map Prod.fst) : map_find m k = none := by
  induction m with
  | nil => rfl
  | cons kv rest ih =>
    obtain ⟨k', v⟩ := kv
    simp only [List.map_cons, List.mem_cons, not_or] at h
    simp only [map_find]
    rw [if_neg (fun e => h.1 e.symm)]
    exact ih h.2

theorem populate_find (catalog : List (Str × Str)) (hnd : (catalog.map Prod.fst).Nodup) (k : Str) :
    map_find (populate_style_registry catalog) k =
      (map_find catalog k).bind (fun text =>
        if is_style_token k ∧ ¬ (parse_style_properties text).isEmpty then
          some (parse_style_properties text) else none) := by
  induction catalog with
  | nil => rfl
  | cons kv rest ih =>
    obtain ⟨k', t'⟩ := kv
    simp only [List.map_cons, List.nodup_cons] at hnd
    have ih := ih hnd.2
    unfold populate_style_registry at ih ⊢
    simp only [List.filterMap_cons, map_find]
    by_cases hk : k' = k
    · subst hk
      have hnone : map_find rest k' = none := map_find_none_of_not_mem rest k' hnd.1
      simp only [↓reduceIte, Option.some_bind]
      by_cases h1 : is_style_token k' = true
      · by_cases h2 : (parse_style_properties t').isEmpty = true
        · simp only [h1, h2, Bool.not_true, Bool.false_eq_true, ↓reduceIte, not_true_eq_false,
            and_false]
          rw [ih, hnone]; rfl
        · simp [h1, h2, map_find]
      · simp only [h1, Bool.not_false, ↓reduceIte, Bool.false_eq_true, false_and]
        rw [ih, hnone]; rfl
    · simp only [hk, ↓reduceIte]
      split
      · exact ih
      · rename_i kv heq
        split at heq
        · simp at heq
        · split at heq
          · simp at heq
          · simp only [Option.some.injEq] at heq
            subst heq
            simp only [map_find, hk, ↓reduceIte]
            exact ih

theorem try_build_style_string_none (state : CatalogSnapshot) (token : Str) (args : List Str)
    (seen : Seen) (depth : Nat)
    (h : ∀ registry, state.style_registry = some registry → map_find registry token = none) :
    try_build_style_string state token args seen depth = (none, seen) := by
  rw [try_build_style_string]
  cases hr : state.style_registry with
  | none => rfl
  | some registry => simp only [h registry hr]

theorem translate_impl_plain_token (state : CatalogSnapshot) (token : Str) (args : List Str)
    (seen : Seen) (depth : Nat) (raw : Str) (hd : depth ≤ 32) (hs : token ∉ seen)
    (hreg : ∀ registry, state.style_registry = some registry → map_find registry token = none)
    (hraw : map_find state.catalog token = some raw) :
    translate_impl state token args seen depth =
      (((lex_template raw).foldl (emit_item state args (depth + 1) depth)
        ([], token :: seen)).1, seen) := by
  rw [translate_impl]
  have hd' : ¬ depth > 32 := by omega
  simp only [hd', hs, ↓reduceIte, try_build_style_string_none state token args _ depth hreg, hraw]
  rw [translate_impl_loop_eq state raw args depth raw.length 0 [] _ (by omega)]
  have hseen := emit_fold_seen state args (depth + 1) depth
    (fun t a s => translate_impl_seen_eq state t a s _)
    (fun a s => resolve_arg_seen_eq state a s _) (lex_fuel raw raw.length 0) ([], token :: seen)
  unfold lex_template
  rw [hseen]
  simp

theorem well_formed_registry_none (s : CatalogSnapshot) (hwf : s.WellFormed) (token raw : Str)
    (hraw : map_find s.catalog token = some raw)
    (hp : ¬ (is_style_token token ∧ ¬ (parse_style_properties raw).isEmpty)) :
    ∀ registry, s.style_registry = some registry → map_find registry token = none := by
  intro registry hr
  rw [hwf.2] at hr
  simp only [Option.some.injEq] at hr
  subst hr
  rw [populate_find _ hwf.1, hraw]
  simp only [Option.some_bind]
  rw [if_neg hp]

/-- C6. Argument literal escape: in a well-formed snapshot in which the token `tok` has
the template exactly `%0`, `translate(tok, ["=" ++ raw])` is exactly `raw`, for every
byte string `raw` (also one that names a hex token of the catalog). -/
theorem translate_arg_literal_escape (eng : I18nEngine) (s : CatalogSnapshot) (tok raw : Str)
    (hs : eng.active_snapshot = some s) (hwf : s.WellFormed)
    (hlow : to_lower_ascii tok = tok)
    (htok : map_find s.catalog tok = some (utf8 "%0")) :
    translate eng tok [utf8 "=" ++ raw] = raw := by
  unfold translate
  simp only [hs, hlow]
  have hreg := well_formed_registry_none s hwf tok (utf8 "%0") htok (by
    have : (parse_style_properties (utf8 "%0")).isEmpty = true := by decide
    simp [this])
  rw [translate_impl_plain_token s tok _ [] 0 (utf8 "%0") (by omega) (by simp) hreg htok]
  have hlex : lex_template (utf8 "%0") = [Item.placeholder 0] := by decide
  rw [hlex]
  simp only [List.foldl_cons, List.foldl_nil, emit_item]
  have hu : utf8 "=" = [61] := by decide
  rw [hu]
  simp only [ge_iff_le, le_refl, Int.toNat_zero, List.length_cons, List.length_nil, zero_add,
    Nat.lt_one_iff, and_self, ↓reduceIte, List.nil_append]
  rw [resolve_arg]
  simp

theorem translate_arg_literal_escape_witness :
    witness_engine.active_snapshot = some witness_snapshot ∧
    witness_snapshot.WellFormed ∧
    to_lower_ascii (utf8 "abcdef") = utf8 "abcdef" ∧
    map_find witness_snapshot.catalog (utf8 "abcdef") = some (utf8 "%0") ∧
    translate witness_engine (utf8 "abcdef") [utf8 "=" ++ utf8 "bbbbbb"] = utf8 "bbbbbb" :=
  ⟨by decide, by decide, by decide, by decide,
   translate_arg_literal_escape witness_engine witness_snapshot (utf8 "abcdef") (utf8 "bbbbbb")
     (by decide) (by decide) (by decide) (by decide)⟩

/-! ## Plural fallback chain -/

theorem set_begin_spec (vs : List Str) (v : Str) (h : set_begin vs = some v) :
    v ∈ vs ∧ ∀ w ∈ vs, ¬ w < v := by
  induction vs generalizing v with
  | nil => simp [set_begin] at h
  | cons x xs ih =>
    simp only [set_begin] at h
    cases hb : set_begin xs with
    | none =>
      rw [hb] at h
      simp only [Option.some.injEq] at h
      subst h
      cases xs with
      | nil => simp
      | cons y ys =>
        simp only [set_begin] at hb
        split at hb
        · simp at hb
        · split at hb <;> simp at hb
    | some m =>
      rw [hb] at h
      simp only at h
      obtain ⟨hm, hmin⟩ := ih m hb
      split at h
      · rename_i hlt
        simp only [Option.some.injEq] at h
        subst h
        refine ⟨by simp, ?_⟩
        intro w hw
        rcases List.mem_cons.mp hw with rfl | hw
        · exact lt_irrefl _
        · intro hwx
          exact hmin w hw (lt_trans hwx hlt)
      · rename_i hlt
        simp only [Option.some.injEq] at h
        subst h
        refine ⟨by simp [hm], ?_⟩
        intro w hw
        rcases List.mem_cons.mp hw with rfl | hw
        · exact hlt
        · exact hmin w hw

theorem set_begin_isSome (vs : List Str) (h : vs ≠ []) : ∃ v, set_begin vs = some v := by
  cases vs with
  | nil => exact absurd rfl h
  | cons x xs =>
    simp only [set_begin]
    cases set_begin xs with
    | none => exact ⟨x, rfl⟩
    | some m => by_cases hlt : x < m <;> simp [hlt]
theorem parse_variant_suffix_variant_ne (token b v : Str)
    (h : parse_variant_suffix token = some (b, v)) : v.isEmpty = false := by
  unfold parse_variant_suffix at h
  split at h
  · simp at h
  split at h
  · simp at h
  split at h
  · simp at h
  simp only at h
  split at h
  · simp at h
  split at h
  · rename_i hv
    simp only [Option.some.injEq, Prod.mk.injEq] at h
    obtain ⟨-, rfl⟩ := h
    simp only [Bool.and_eq_true] at hv
    have h1 := hv.1
    unfold is_variant_valid at h1
    split at h1
    · simp at h1
    · rename_i hne
      simp only [Bool.or_eq_true, not_or, Bool.not_eq_true] at hne
      exact hne.1
  · simp at h

/-- C9. Plural fallback chain.  With `n` the case-folded token: if `n` carries a valid
variant suffix `{v}` on the base `b`, `translate_plural` resolves `b{v}` whatever the
count; otherwise it resolves the first that applies of `n{pick(rule, count)}` if in the
catalog, `n{other}` if in the catalog, `n{v}` for the lexicographically smallest `v` of
`plural_variants[n]` if that set is non-empty, and `n` itself. -/
theorem translate_plural_chain (eng : I18nEngine) (s : CatalogSnapshot) (token : Str)
    (count : Int) (args : List Str) (hs : eng.active_snapshot = some s) :
    (∀ b v, parse_variant_suffix (to_lower_ascii token) = some (b, v) →
      ∀ count', translate_plural eng token count' args =
        (translate_impl s (b ++ [123] ++ v ++ [125]) args [] 0).1) ∧
    (parse_variant_suffix (to_lower_ascii token) = none →
      ((map_find s.catalog (to_lower_ascii token ++ [123] ++
            pick_variant_name eng.meta_plural count ++ [125])).isSome = true →
        translate_plural eng token count args =
          (translate_impl s (to_lower_ascii token ++ [123] ++
            pick_variant_name eng.meta_plural count ++ [125]) args [] 0).1) ∧
      ((map_find s.catalog (to_lower_ascii token ++ [123] ++
            pick_variant_name eng.meta_plural count ++ [125])).isSome = false →
        ((map_find s.catalog (to_lower_ascii token ++ utf8 "{other}")).isSome = true →
          translate_plural eng token count args =
            (translate_impl s (to_lower_ascii token ++ utf8 "{other}") args [] 0).1) ∧
        ((map_find s.catalog (to_lower_ascii token ++ utf8 "{other}")).isSome = false →
          (∀ variants, map_find s.plural_variants (to_lower_ascii token) = some variants →
            variants ≠ [] →
            ∃ v, v ∈ variants ∧ (∀ w ∈ variants, ¬ w < v) ∧
              translate_plural eng token count args =
                (translate_impl s (to_lower_ascii token ++ [123] ++ v ++ [125]) args [] 0).1) ∧
          ((map_find s.plural_variants (to_lower_ascii token) = none ∨
              map_find s.plural_variants (to_lower_ascii token) = some []) →
            translate_plural eng token count args =
              (translate_impl s (to_lower_ascii token) args [] 0).1)))) := by
  refine ⟨?_, ?_⟩
  · intro b v hp count'
    have hv := parse_variant_suffix_variant_ne _ _ _ hp
    unfold translate_plural translate_plural_lookup
    simp only [hs, hp, hv, Bool.not_false, ↓reduceIte]
  · intro hp
    unfold translate_plural translate_plural_lookup
    simp only [hs, hp]
    refine ⟨?_, ?_⟩
    · intro h1
      simp only [h1, ↓reduceIte]
    · intro h1
      simp only [h1, Bool.false_eq_true, ↓reduceIte]
      refine ⟨?_, ?_⟩
      · intro h2
        simp only [h2, ↓reduceIte]
      · intro h2
        simp only [h2, Bool.false_eq_true, ↓reduceIte]
        refine ⟨?_, ?_⟩
        · intro variants hvs hne
          obtain ⟨v, hv⟩ := set_begin_isSome variants hne
          obtain ⟨hmem, hmin⟩ := set_begin_spec variants v hv
          refine ⟨v, hmem, hmin, ?_⟩
          simp only [hvs, hv]
        · intro hvs
          rcases hvs with hvs | hvs
          · simp only [hvs]
          · simp only [hvs, set_begin]

theorem translate_plural_chain_witness :
    witness_engine.active_snapshot = some witness_snapshot ∧
    parse_variant_suffix (to_lower_ascii (utf8 "CCCCCC")) = none ∧
    (map_find witness_snapshot.catalog (to_lower_ascii (utf8 "CCCCCC") ++ [123] ++
      pick_variant_name witness_engine.meta_plural 0 ++ [125])).isSome = false ∧
    (map_find witness_snapshot.catalog (to_lower_ascii (utf8 "CCCCCC") ++ utf8 "{other}")).isSome =
      true ∧
    translate_plural witness_engine (utf8 "CCCCCC") 0 [utf8 "0"] =
      (translate_impl witness_snapshot (to_lower_ascii (utf8 "CCCCCC") ++ utf8 "{other}")
        [utf8 "0"] [] 0).1 :=
  ⟨by decide, by decide, by decide, by decide,
   ((((translate_plural_chain witness_engine witness_snapshot (utf8 "CCCCCC") 0 [utf8 "0"]
      (by decide)).2 (by decide)).2 (by decide)).1 (by decide))⟩

/-- C10, as stated, fails: the loader rejects the catalog `apples{one}: 1 apple`,
`apples{other}: %0 apples` in strict and in non-strict mode (`apples` is neither a hex
token nor a style token), no snapshot is published, and `translate_plural` answers
`⟦NO_CATALOG⟧`. -/
theorem plural_scenario_apples_rejected :
    load_txt_catalog I18nEngine.init
        (utf8 "apples{one}: 1 apple\napples{other}: %0 apples") true =
      .done false (load_txt_catalog I18nEngine.init
        (utf8 "apples{one}: 1 apple\napples{other}: %0 apples") true).engine ∧
    load_txt_catalog I18nEngine.init
        (utf8 "apples{one}: 1 apple\napples{other}: %0 apples") false =
      .done false (load_txt_catalog I18nEngine.init
        (utf8 "apples{one}: 1 apple\napples{other}: %0 apples") false).engine ∧
    translate_plural (load_txt_catalog I18nEngine.init
        (utf8 "apples{one}: 1 apple\napples{other}: %0 apples") true).engine
      (utf8 "apples") 3 [utf8 "3"] = utf8 "⟦NO_CATALOG⟧" ∧
    translate_plural (load_txt_catalog I18nEngine.init
        (utf8 "apples{one}: 1 apple\napples{other}: %0 apples") false).engine
      (utf8 "apples") 3 [utf8 "3"] = utf8 "⟦NO_CATALOG⟧" ∧
    utf8 "⟦NO_CATALOG⟧" ≠ utf8 "3 apples" :=
  ⟨by decide, by decide, translate_plural_fuel_sound 1 _ _ _ _ _ (by decide),
   translate_plural_fuel_sound 1 _ _ _ _ _ (by decide), by decide⟩

/-- C10, amended: after loading the text catalog `abcdef{one}: 1 apple`,
`abcdef{other}: %0 apples` (a hex token in the place of `apples`), the plural rule is
DEFAULT, `translate_plural("abcdef", 3, ["3"])` is `"3 apples"` and
`translate_plural("abcdef", 1, ["1"])` is `"1 apple"`. -/
theorem plural_scenario_hex_token :
    load_txt_catalog I18nEngine.init
        (utf8 "abcdef{one}: 1 apple\nabcdef{other}: %0 apples") true =
      .done true (load_txt_catalog I18nEngine.init
        (utf8 "abcdef{one}: 1 apple\nabcdef{other}: %0 apples") true).engine ∧
    (load_txt_catalog I18nEngine.init
        (utf8 "abcdef{one}: 1 apple\nabcdef{other}: %0 apples") true).engine.meta_plural =
      .DEFAULT ∧
    translate_plural (load_txt_catalog I18nEngine.init
        (utf8 "abcdef{one}: 1 apple\nabcdef{other}: %0 apples") true).engine
      (utf8 "abcdef") 3 [utf8 "3"] = utf8 "3 apples" ∧
    translate_plural (load_txt_catalog I18nEngine.init
        (utf8 "abcdef{one}: 1 apple\nabcdef{other}: %0 apples") true).engine
      (utf8 "abcdef") 1 [utf8 "1"] = utf8 "1 apple" :=
  ⟨by decide, by decide, translate_plural_fuel_sound 20 _ _ _ _ _ (by decide),
   translate_plural_fuel_sound 20 _ _ _ _ _ (by decide)⟩

/-! ## The cycle guard -/

theorem lex_fuel_mono (raw : Str) (f1 : Nat) : ∀ f2 i, raw.length - i ≤ f1 → raw.length - i ≤ f2 →
    lex_fuel raw f1 i = lex_fuel raw f2 i := by
  induction f1 with
  | zero =>
    intro f2 i h1 _
    have hi : ¬ i < raw.length := by omega
    cases f2 <;> simp [lex_fuel, hi]
  | succ n ih =>
    intro f2 i h1 h2
    cases f2 with
    | zero =>
      have hi : ¬ i < raw.length := by omega
      simp [lex_fuel, hi]
    | succ m =>
      simp only [lex_fuel]
      by_cases hi : i < raw.length
      · have hgt := lex_step_gt raw i
        simp only [hi, ↓reduceIte]
        rw [ih m _ (by omega) (by omega)]
      · simp [hi]

theorem lex_fuel_unfold (raw : Str) (i : Nat) (hi : i < raw.length) :
    lex_fuel raw (raw.length - i) i =
      (lex_step raw i).1 :: lex_fuel raw (raw.length - (lex_step raw i).2) (lex_step raw i).2 := by
  have hgt := lex_step_gt raw i
  obtain ⟨k, hk⟩ : ∃ k, raw.length - i = k + 1 := ⟨raw.length - i - 1, by omega⟩
  rw [hk]
  simp only [lex_fuel, hi, ↓reduceIte]
  rw [lex_fuel_mono raw k _ _ (by omega) le_rfl]

theorem takeWhile_getD (p : Nat → Bool) (l : List Nat) : ∀ n, n < (l.takeWhile p).length →
    p (l.getD n 0) = true := by
  induction l with
  | nil => intro n h; simp at h
  | cons x xs ih =>
    intro n h
    simp only [List.takeWhile_cons] at h
    by_cases hx : p x = true
    · simp only [hx, ↓reduceIte, List.length_cons] at h
      cases n with
      | zero => simpa using hx
      | succ k =>
        have := ih k (by omega)
        simpa using this
    · simp [hx] at h

theorem getD_drop (l : List Nat) (a n : Nat) : (l.drop a).getD n 0 = l.getD (a + n) 0 := by
  simp [List.getD_eq_getElem?_getD, List.getElem?_drop]

theorem lex_step_ref (raw : Str) (i : Nat) (tok : Str) (adv : Nat) (h64 : raw.getD i 0 = 64)
    (hp : try_parse_inline_token raw i = (true, tok, adv)) :
    lex_step raw i = (.ref tok, i + adv) := by
  unfold lex_step
  rw [if_pos h64, hp]

theorem lex_step_at (raw : Str) (i : Nat) (t : Str) (a : Nat) (h64 : raw.getD i 0 = 64)
    (hp : try_parse_inline_token raw i = (false, t, a)) :
    lex_step raw i =
      (.at_sign, if i + 1 < raw.length ∧ raw.getD (i + 1) 0 = 64 then i + 2 else i + 1) := by
  unfold lex_step
  rw [if_pos h64, hp]
  simp only
  split <;> rfl

theorem lex_step_placeholder (raw : Str) (i : Nat) (h64 : ¬ raw.getD i 0 = 64)
    (hph : raw.getD i 0 = 37 ∧ i + 1 < raw.length ∧ is_digit (raw.getD (i + 1) 0) = true) :
    lex_step raw i = (.placeholder (parse_placeholder_index raw (i + 1)).1,
      (parse_placeholder_index raw (i + 1)).2) := by
  unfold lex_step
  rw [if_neg h64, if_pos hph]

theorem lex_step_byte (raw : Str) (i : Nat) (h64 : ¬ raw.getD i 0 = 64)
    (hph : ¬ (raw.getD i 0 = 37 ∧ i + 1 < raw.length ∧ is_digit (raw.getD (i + 1) 0) = true)) :
    lex_step raw i = (.byte (raw.getD i 0), i + 1) := by
  unfold lex_step
  rw [if_neg h64, if_neg hph]

theorem lex_step_digit (raw : Str) (k : Nat) (hd : is_digit (raw.getD k 0) = true) :
    lex_step raw k = (.byte (raw.getD k 0), k + 1) := by
  unfold is_digit at hd
  simp only [Bool.and_eq_true, decide_eq_true_eq] at hd
  exact lex_step_byte raw k (by omega) (by omega)

theorem item_refs_skip_digits (raw : Str) (j : Nat) (hj : j ≤ raw.length) : ∀ m k, k + m = j →
    (∀ p, k ≤ p → p < j → is_digit (raw.getD p 0) = true) →
    item_refs (lex_fuel raw (raw.length - k) k) = item_refs (lex_fuel raw (raw.length - j) j) := by
  intro m
  induction m with
  | zero => intro k hk _; simp at hk; subst hk; rfl
  | succ n ih =>
    intro k hk hd
    have hk1 : k < raw.length := by omega
    rw [lex_fuel_unfold raw k hk1, lex_step_digit raw k (hd k le_rfl (by omega))]
    simp only [item_refs, List.filterMap_cons]
    exact ih (k + 1) (by omega) (fun p h1 h2 => hd p (by omega) h2)

theorem try_parse_at_at (text : Str) (i : Nat) (h0 : text.getD i 0 = 64)
    (h : i + 1 < text.length ∧ text.getD (i + 1) 0 = 64) :
    try_parse_inline_token text i = (false, [], 2) := by
  unfold try_parse_inline_token
  have h1 : ¬ (i ≥ text.length ∨ text.getD i 0 ≠ 64) := by
    simp only [not_or, not_not]; exact ⟨by omega, h0⟩
  have h2 : ¬ (i + 1 ≥ text.length) := by omega
  simp only [h1, h2, h.2, ↓reduceIte]

/-- The references collected by the loop of `scan_inline_refs` are the reference items
of the template scan of the resolver, in order. -/
theorem scan_loop_eq_lex (text : Str) (fuel : Nat) : ∀ i acc, text.length - i ≤ fuel →
    scan_inline_refs_loop text fuel i acc =
      acc ++ item_refs (lex_fuel text (text.length - i) i) := by
  induction fuel with
  | zero =>
    intro i acc h
    have : text.length - i = 0 := by omega
    simp [scan_inline_refs_loop, this, lex_fuel, item_refs]
  | succ n ih =>
    intro i acc h
    simp only [scan_inline_refs_loop]
    by_cases hi : i < text.length
    · simp only [hi, ↓reduceIte]
      rw [lex_fuel_unfold text i hi]
      by_cases h64 : text.getD i 0 = 64
      · simp only [h64, ne_eq, not_true_eq_false, ↓reduceIte]
        by_cases haa : i + 1 < text.length ∧ text.getD (i + 1) 0 = 64
        · have hp := try_parse_at_at text i h64 haa
          rw [if_pos haa, ih _ _ (by omega), lex_step_at text i _ _ h64 hp, if_pos haa]
          simp only [item_refs, List.filterMap_cons]
        · rw [if_neg haa]
          split
          · rename_i tok adv hp
            have hadv := try_parse_adv_pos _ _ _ _ hp
            rw [ih _ _ (by omega), lex_step_ref text i _ _ h64 hp]
            simp only [item_refs, List.filterMap_cons, List.append_assoc, List.singleton_append]
          · rename_i t a hp
            rw [ih _ _ (by omega), lex_step_at text i _ _ h64 hp, if_neg haa]
            simp only [item_refs, List.filterMap_cons]
      · simp only [h64, ne_eq, not_false_eq_true, ↓reduceIte]
        rw [ih _ _ (by omega)]
        by_cases hph : text.getD i 0 = 37 ∧ i + 1 < text.length ∧ is_digit (text.getD (i + 1) 0) = true
        · rw [lex_step_placeholder text i h64 hph]
          have hj : (parse_placeholder_index text (i + 1)).2 ≤ text.length := by
            simp only [parse_placeholder_index]
            have := (List.takeWhile_sublist is_digit (l := text.drop (i + 1))).length_le
            simp only [List.length_drop] at this
            omega
          have := item_refs_skip_digits text _ hj
            ((parse_placeholder_index text (i + 1)).2 - (i + 1)) (i + 1)
            (by have := parse_placeholder_index_gt text (i + 1); omega)
            (by
              intro p hp1 hp2
              simp only [parse_placeholder_index] at hp2
              have := takeWhile_getD is_digit (text.drop (i + 1)) (p - (i + 1)) (by omega)
              rw [getD_drop] at this
              have e : i + 1 + (p - (i + 1)) = p := by omega
              rw [e] at this
              exact this)
          rw [this]
          simp only [item_refs, List.filterMap_cons]
        · rw [lex_step_byte text i h64 hph]
          simp only [item_refs, List.filterMap_cons]
    · have : text.length - i = 0 := by omega
      simp [hi, this, lex_fuel, item_refs]

theorem mem_scan_inline_refs (text token : Str) :
    token ∈ scan_inline_refs text ↔ Item.ref token ∈ lex_template text := by
  unfold scan_inline_refs lex_template
  rw [List.mem_dedup, (List.perm_insertionSort _ _).mem_iff,
    scan_loop_eq_lex text text.length 0 [] (by omega)]
  simp only [List.nil_append, Nat.sub_zero, item_refs, List.mem_filterMap]
  constructor
  · rintro ⟨item, hmem, hitem⟩
    cases item <;> simp at hitem
    subst hitem
    exact hmem
  · intro h
    exact ⟨_, h, rfl⟩

theorem emit_fold_prefix (state : CatalogSnapshot) (args : List Str) (dr da : Nat)
    (items : List Item) : ∀ acc : Str × Seen,
    ∃ t, (items.foldl (emit_item state args dr da) acc).1 = acc.1 ++ t := by
  induction items with
  | nil => intro acc; exact ⟨[], by simp⟩
  | cons it rest ih =>
    intro acc
    rw [List.foldl_cons]
    obtain ⟨t, ht⟩ := ih (emit_item state args dr da acc it)
    rw [ht]
    cases it with
    | ref tok =>
      simp only [emit_item]
      split
      · exact ⟨_, List.append_assoc _ _ _⟩
      · exact ⟨_, List.append_assoc _ _ _⟩
    | at_sign => exact ⟨_, List.append_assoc _ _ _⟩
    | placeholder idx =>
      simp only [emit_item]
      split
      · exact ⟨_, List.append_assoc _ _ _⟩
      · exact ⟨_, List.append_assoc _ _ _⟩
    | byte c => exact ⟨_, List.append_assoc _ _ _⟩

theorem translate_impl_cycle (state : CatalogSnapshot) (token : Str) (args : List Str)
    (seen : Seen) (depth : Nat) (hd : depth ≤ 32) (hs : token ∈ seen) :
    translate_impl state token args seen depth = (S_CYCLE token, seen) := by
  rw [translate_impl]
  have hd' : ¬ depth > 32 := by omega
  simp only [hd', hs, ↓reduceIte]

theorem well_formed_not_style (s : CatalogSnapshot) (hwf : s.WellFormed) (token : Str)
    (hst : is_style_token token = false) :
    ∀ registry, s.style_registry = some registry → map_find registry token = none := by
  intro registry hr
  rw [hwf.2] at hr
  simp only [Option.some.injEq] at hr
  subst hr
  rw [populate_find _ hwf.1]
  cases map_find s.catalog token with
  | none => rfl
  | some text => simp [hst]

/-- C3, amended. Cycle bound for tokens without a style entry: for every snapshot,
every lower-case catalog token `T` that has no entry in the style registry (as every
token that is not a style token in a well-formed snapshot, so every hex token) and whose
template contains an inline reference `@T` to itself, and every argument list,
`translate(T, args)` contains the sentinel prefix `⟦CYCLE:`. -/
theorem cycle_bound_plain_token (eng : I18nEngine) (s : CatalogSnapshot) (T raw : Str)
    (args : List Str) (hs : eng.active_snapshot = some s) (hlow : to_lower_ascii T = T)
    (hraw : map_find s.catalog T = some raw) (href : T ∈ scan_inline_refs raw)
    (hplain : (∀ registry, s.style_registry = some registry → map_find registry T = none) ∨
      (s.WellFormed ∧ is_style_token T = false)) :
    utf8 "⟦CYCLE:" <:+: translate eng T args := by
  have hreg : ∀ registry, s.style_registry = some registry → map_find registry T = none := by
    rcases hplain with h | ⟨hwf, hst⟩
    · exact h
    · exact well_formed_not_style s hwf T hst
  unfold translate
  simp only [hs, hlow]
  rw [translate_impl_plain_token s T args [] 0 raw (by omega) (by simp) hreg hraw]
  simp only
  obtain ⟨pre, post, hsplit⟩ := List.append_of_mem ((mem_scan_inline_refs raw T).mp href)
  rw [hsplit, List.foldl_append, List.foldl_cons]
  have hseen := emit_fold_seen s args 1 0
    (fun t a sn => translate_impl_seen_eq s t a sn _)
    (fun a sn => resolve_arg_seen_eq s a sn _) pre ([], [T])
  simp only at hseen
  obtain ⟨t, ht⟩ := emit_fold_prefix s args 1 0 post
    (emit_item s args 1 0 (pre.foldl (emit_item s args 1 0) ([], [T])) (.ref T))
  rw [ht]
  have hnone : (map_find s.catalog T).isNone = false := by rw [hraw]; rfl
  simp only [emit_item, hnone, Bool.false_eq_true, ↓reduceIte, hseen]
  rw [translate_impl_cycle s T args [T] 1 (by omega) (by simp)]
  simp only [S_CYCLE]
  refine ⟨(pre.foldl (emit_item s args 1 0) ([], [T])).1, T ++ utf8 "⟧" ++ t, ?_⟩
  simp only [List.append_assoc]

theorem cycle_bound_plain_token_witness :
    self_ref_engine.active_snapshot = some self_ref_snapshot ∧
    to_lower_ascii (utf8 "aaaaaa") = utf8 "aaaaaa" ∧
    map_find self_ref_snapshot.catalog (utf8 "aaaaaa") = some (utf8 "x @AAAAAA y %0") ∧
    utf8 "aaaaaa" ∈ scan_inline_refs (utf8 "x @AAAAAA y %0") ∧
    (self_ref_snapshot.WellFormed ∧ is_style_token (utf8 "aaaaaa") = false) ∧
    utf8 "⟦CYCLE:" <:+: translate self_ref_engine (utf8 "aaaaaa") [utf8 "z"] :=
  ⟨by decide, by decide, by decide, by decide, by decide,
   cycle_bound_plain_token self_ref_engine self_ref_snapshot (utf8 "aaaaaa")
     (utf8 "x @AAAAAA y %0") [utf8 "z"]
     (by decide) (by decide) (by decide) (by decide) (Or.inr (by decide))⟩

/-- C3, as stated, fails for style tokens: in the snapshot loaded from the catalog
`style_a: color: red; x @style_a` the template of `style_a` contains the inline
reference `@style_a`, but the style short-circuit answers with the style string built
from the parsed properties, which drops the segment `x @style_a`; `translate` returns
`color: red;`, without the sentinel. -/
theorem cycle_bound_style_token_fails :
    load_txt_catalog I18nEngine.init (utf8 "style_a: color: red; x @style_a") true =
      .done true style_cycle_engine ∧
    style_cycle_engine.active_snapshot.map (fun s => map_find s.catalog (utf8 "style_a")) =
      some (some (utf8 "color: red; x @style_a")) ∧
    utf8 "style_a" ∈ scan_inline_refs (utf8 "color: red; x @style_a") ∧
    translate style_cycle_engine (utf8 "style_a") [] = utf8 "color: red;" ∧
    ¬ (utf8 "⟦CYCLE:" <:+: utf8 "color: red;") :=
  ⟨by decide, by decide, by decide, translate_fuel_sound 20 _ _ _ _ (by decide), by decide⟩

/-! ## Binary codec: the checksum -/

/-- One step of FNV-1a. -/
theorem fnv_step_lt (h b : Nat) : ((h ^^^ b) * 16777619) % 4294967296 < 4294967296 :=
  Nat.mod_lt _ (by decide)

theorem mul_prime_cancel (x : Nat) (hx : x < 4294967296) :
    (x * 16777619 % 4294967296) * 899433627 % 4294967296 = x := by
  have e : x * 16777619 * 899433627 = x + 4294967296 * (3513497 * x) := by ring
  rw [Nat.mod_mul_mod, e, Nat.add_mul_mod_self_left, Nat.mod_eq_of_lt hx]

theorem mul_prime_inj (x y : Nat) (hx : x < 4294967296) (hy : y < 4294967296)
    (h : (x * 16777619) % 4294967296 = (y * 16777619) % 4294967296) : x = y := by
  rw [← mul_prime_cancel x hx, ← mul_prime_cancel y hy, h]

theorem fnv_step_inj_state (h1 h2 b : Nat) (hh1 : h1 < 4294967296) (hh2 : h2 < 4294967296)
    (hb : b < 4294967296)
    (h : ((h1 ^^^ b) * 16777619) % 4294967296 = ((h2 ^^^ b) * 16777619) % 4294967296) :
    h1 = h2 := by
  have e := mul_prime_inj _ _ (Nat.xor_lt_two_pow (n := 32) hh1 hb)
    (Nat.xor_lt_two_pow (n := 32) hh2 hb) h
  exact Nat.xor_left_injective e

theorem fnv_step_inj_byte (h b1 b2 : Nat) (hh : h < 4294967296)
    (hb1 : b1 < 4294967296) (hb2 : b2 < 4294967296)
    (e : ((h ^^^ b1) * 16777619) % 4294967296 = ((h ^^^ b2) * 16777619) % 4294967296) :
    b1 = b2 := by
  have e := mul_prime_inj _ _ (Nat.xor_lt_two_pow (n := 32) hh hb1)
    (Nat.xor_lt_two_pow (n := 32) hh hb2) e
  exact Nat.xor_right_injective e

theorem fnv1a32_append_lt (h : Nat) (hh : h < 4294967296) (l : List Nat) :
    fnv1a32_append h l < 4294967296 := by
  induction l generalizing h with
  | nil => simpa [fnv1a32_append] using hh
  | cons b rest ih =>
    simp only [fnv1a32_append, List.foldl_cons] at ih ⊢
    exact ih _ (fnv_step_lt h b)

theorem fnv1a32_append_append (h : Nat) (l1 l2 : List Nat) :
    fnv1a32_append h (l1 ++ l2) = fnv1a32_append (fnv1a32_append h l1) l2 := by
  simp [fnv1a32_append, List.foldl_append]

theorem fnv1a32_append_inj_state (l : List Nat) (hl : ∀ b ∈ l, b < 256) :
    ∀ h1 h2, h1 < 4294967296 → h2 < 4294967296 → h1 ≠ h2 →
      fnv1a32_append h1 l ≠ fnv1a32_append h2 l := by
  induction l with
  | nil => intro h1 h2 _ _ hne; simpa [fnv1a32_append] using hne
  | cons b rest ih =>
    intro h1 h2 hh1 hh2 hne
    simp only [fnv1a32_append, List.foldl_cons]
    have hb : b < 256 := hl b (by simp)
    apply ih (fun c hc => hl c (by simp [hc])) _ _ (fnv_step_lt h1 b) (fnv_step_lt h2 b)
    intro e
    exact hne (fnv_step_inj_state h1 h2 b hh1 hh2 (by omega) e)

/-- FNV-1a separates two byte strings that differ in exactly one position. -/
theorem fnv1a32_append_set_ne (h : Nat) (hh : h < 4294967296) (l : List Nat)
    (hl : ∀ b ∈ l, b < 256) (k v : Nat) (hk : k < l.length) (hv : v < 256)
    (hne : v ≠ l.getD k 0) :
    fnv1a32_append h (l.set k v) ≠ fnv1a32_append h l := by
  have hsplit : l = l.take k ++ l.getD k 0 :: l.drop (k + 1) := by
    rw [List.getD_eq_getElem _ _ hk]
    simp
  have hset : l.set k v = l.take k ++ v :: l.drop (k + 1) := by
    rw [List.set_eq_take_append_cons_drop]
    simp [hk]
  rw [hset]
  conv_rhs => rw [hsplit]
  rw [fnv1a32_append_append, fnv1a32_append_append]
  have hb : l.getD k 0 < 256 := by
    rw [List.getD_eq_getElem _ _ hk]
    exact hl _ (List.getElem_mem _)
  show fnv1a32_append (fnv1a32_append h (l.take k)) (v :: l.drop (k + 1)) ≠
    fnv1a32_append (fnv1a32_append h (l.take k)) (l.getD k 0 :: l.drop (k + 1))
  have hlt := fnv1a32_append_lt h hh (l.take k)
  generalize fnv1a32_append h (l.take k) = g at hlt
  simp only [fnv1a32_append, List.foldl_cons]
  apply fnv1a32_append_inj_state (l.drop (k + 1))
    (fun c hc => hl c (List.mem_of_mem_drop hc)) _ _ (fnv_step_lt g v) (fnv_step_lt g _)
  intro e
  exact hne (fnv_step_inj_byte g v _ hlt (by omega) (by omega) e)

theorem read_u8_congr (d1 d2 : List Nat) (i : Nat) (h : d1[i]? = d2[i]?) :
    read_u8 d1 i = read_u8 d2 i := by
  simp only [read_u8, h]

theorem read_le_u16_congr (d1 d2 : List Nat) (off : Nat)
    (h : ∀ i, off ≤ i → i < off + 2 → d1[i]? = d2[i]?) :
    read_le_u16 d1 off = read_le_u16 d2 off := by
  simp only [read_le_u16, read_u8_congr d1 d2 off (h _ (by omega) (by omega)),
    read_u8_congr d1 d2 (off + 1) (h _ (by omega) (by omega))]

theorem read_le_u32_congr (d1 d2 : List Nat) (off : Nat)
    (h : ∀ i, off ≤ i → i < off + 4 → d1[i]? = d2[i]?) :
    read_le_u32 d1 off = read_le_u32 d2 off := by
  simp only [read_le_u32, read_u8_congr d1 d2 off (h _ (by omega) (by omega)),
    read_u8_congr d1 d2 (off + 1) (h _ (by omega) (by omega)),
    read_u8_congr d1 d2 (off + 2) (h _ (by omega) (by omega)),
    read_u8_congr d1 d2 (off + 3) (h _ (by omega) (by omega))]

theorem substr_congr (d1 d2 : List Nat) (a n : Nat)
    (h : ∀ i, a ≤ i → i < a + n → d1[i]? = d2[i]?) : substr d1 a n = substr d2 a n := by
  unfold substr
  apply List.ext_getElem?
  intro k
  simp only [List.getElem?_take, List.getElem?_drop]
  by_cases hk : k < n
  · simp only [hk, ↓reduceIte]
    exact h _ (by omega) (by omega)
  · simp [hk]

theorem take_congr (d1 d2 : List Nat) (n : Nat)
    (h : ∀ i, i < n → d1[i]? = d2[i]?) : d1.take n = d2.take n := by
  have := substr_congr d1 d2 0 n (fun i _ hi => h i (by omega))
  simpa [substr] using this

theorem read_header_congr (d1 d2 : List Nat) (hlen : d1.length = d2.length)
    (h : ∀ i, i < 24 → d1[i]? = d2[i]?) : read_header d1 = read_header d2 := by
  unfold read_header
  rw [hlen, take_congr d1 d2 4 (fun i hi => h i (by omega)),
    read_u8_congr d1 d2 4 (h 4 (by omega)), read_u8_congr d1 d2 6 (h 6 (by omega)),
    read_le_u32_congr d1 d2 20 (fun i _ hi => h i (by omega)),
    read_le_u32_congr d1 d2 8 (fun i _ hi => h i (by omega)),
    read_le_u32_congr d1 d2 12 (fun i _ hi => h i (by omega)),
    read_le_u32_congr d1 d2 16 (fun i _ hi => h i (by omega))]

theorem getElem?_set_ne' (data : List Nat) (p v i : Nat) (h : i ≠ p) :
    (data.set p v)[i]? = data[i]? := by
  rw [List.getElem?_set]
  simp [Ne.symm h]


theorem read_u8_ok (data : List Nat) (i b : Nat) (h : read_u8 data i = .ok b) :
    i < data.length ∧ data[i]? = some b := by
  unfold read_u8 at h
  cases hd : data[i]? with
  | none => rw [hd] at h; simp at h
  | some c =>
    rw [hd] at h
    simp only [Except.ok.injEq] at h
    subst h
    exact ⟨(List.getElem?_eq_some_iff.mp hd).1, rfl⟩

/-- The facts about one successfully read entry record. -/
theorem read_entry_ok (data : List Nat) (offset : Nat) (e : EntryInfo) (offset' : Nat)
    (h : read_entry data offset = .ok (e, offset')) :
    ∃ token_len variant_len,
      read_u8 data offset = .ok token_len ∧
      read_u8 data (offset + 1 + token_len) = .ok variant_len ∧
      6 ≤ token_len ∧ token_len ≤ 32 ∧
      offset' = offset + 1 + token_len + 1 + variant_len + 8 ∧
      offset' ≤ data.length ∧
      e.base = to_lower_ascii (substr data (offset + 1) token_len) ∧
      e.variant = to_lower_ascii (substr data (offset + 1 + token_len + 1) variant_len) ∧
      (variant_len > 0 → is_variant_valid e.variant = true) ∧
      is_hex_token e.base = true ∧
      read_le_u32 data (offset + 1 + token_len + 1 + variant_len) = .ok e.text_offset ∧
      read_le_u32 data (offset + 1 + token_len + 1 + variant_len + 4) = .ok e.text_length := by
  unfold read_entry at h
  simp only at h
  split at h
  · simp at h
  cases h1 : read_u8 data offset with
  | error err => rw [h1] at h; simp [Except.bind] at h
  | ok token_len =>
    rw [h1] at h
    simp only [Except.bind] at h
    split at h
    · simp at h
    split at h
    · simp at h
    cases h2 : read_u8 data (offset + 1 + token_len) with
    | error err => rw [h2] at h; simp at h
    | ok variant_len =>
      rw [h2] at h
      simp only at h
      have hfin : ∀ (variant : Str) (off : Nat),
          ((read_le_u32 data off).bind fun text_offset =>
            (read_le_u32 data (off + 4)).bind fun text_length =>
            (Except.ok ({ base := to_lower_ascii (substr data (offset + 1) token_len),
                          variant := variant, text_offset := text_offset,
                          text_length := text_length }, off + 8) :
              Except BinError (EntryInfo × Nat))) = .ok (e, offset') →
          offset' = off + 8 ∧ e.base = to_lower_ascii (substr data (offset + 1) token_len) ∧
            e.variant = variant ∧ read_le_u32 data off = .ok e.text_offset ∧
            read_le_u32 data (off + 4) = .ok e.text_length := by
        intro variant off hh
        cases h3 : read_le_u32 data off with
        | error err => rw [h3] at hh; simp [Except.bind] at hh
        | ok text_offset =>
          rw [h3] at hh
          simp only [Except.bind] at hh
          cases h4 : read_le_u32 data (off + 4) with
          | error err => rw [h4] at hh; simp at hh
          | ok text_length =>
            rw [h4] at hh
            simp only [Except.ok.injEq, Prod.mk.injEq] at hh
            obtain ⟨he, ho⟩ := hh
            subst he
            exact ⟨ho.symm, rfl, rfl, rfl, rfl⟩
      by_cases hv : variant_len > 0
      · simp only [hv, ↓reduceIte, true_and] at h
        split at h
        · simp at h
        split at h
        · simp at h
        split at h
        · simp at h
        split at h
        · simp at h
        rename_i c1 c2 c3 c4 c5 c6 c7
        obtain ⟨ho, hb, hvr, h3, h4⟩ := hfin _ _ h
        refine ⟨token_len, variant_len, rfl, h2, by omega, by omega, by omega, by omega, hb,
          hvr, ?_, ?_, h3, h4⟩
        · intro _
          rw [hvr]
          simpa using c5
        · rw [hb]
          simpa using c6
      · have hv0 : variant_len = 0 := by omega
        subst hv0
        simp only [gt_iff_lt, lt_self_iff_false, false_and, ↓reduceIte] at h
        split at h
        · simp at h
        split at h
        · simp at h
        rename_i c1 c2 c3 c6 c7
        obtain ⟨ho, hb, hvr, h3, h4⟩ := hfin _ _ h
        refine ⟨token_len, 0, rfl, h2, by omega, by omega, by omega, by omega, hb,
          ?_, ?_, ?_, h3, h4⟩
        · rw [hvr]; simp [substr, to_lower_ascii]
        · intro hc; omega
        · rw [hb]
          simpa using c6

/-- An entry record is read successfully when its parts are in place. -/
theorem read_entry_of_facts (data : List Nat) (offset token_len variant_len : Nat)
    (text_offset text_length : Nat)
    (h1 : read_u8 data offset = .ok token_len)
    (h2 : read_u8 data (offset + 1 + token_len) = .ok variant_len)
    (ht : 6 ≤ token_len ∧ token_len ≤ 32)
    (hb : offset + 1 + token_len + 1 + variant_len + 8 ≤ data.length)
    (hvalid : variant_len > 0 → is_variant_valid
      (to_lower_ascii (substr data (offset + 1 + token_len + 1) variant_len)) = true)
    (hhex : is_hex_token (to_lower_ascii (substr data (offset + 1) token_len)) = true)
    (h3 : read_le_u32 data (offset + 1 + token_len + 1 + variant_len) = .ok text_offset)
    (h4 : read_le_u32 data (offset + 1 + token_len + 1 + variant_len + 4) = .ok text_length) :
    read_entry data offset =
      .ok ({ base := to_lower_ascii (substr data (offset + 1) token_len),
             variant := to_lower_ascii (substr data (offset + 1 + token_len + 1) variant_len),
             text_offset := text_offset, text_length := text_length },
           offset + 1 + token_len + 1 + variant_len + 8) := by
  unfold read_entry
  have c1 : ¬ offset ≥ data.length := by omega
  have c2 : ¬ (token_len < 6 ∨ token_len > 32) := by omega
  have c3 : ¬ offset + 1 + token_len > data.length := by omega
  simp only [c1, ↓reduceIte, h1, Except.bind, c2, c3, h2]
  by_cases hv : variant_len > 0
  · have c4 : ¬ (offset + 1 + token_len + 1 + variant_len > data.length) := by omega
    have c7 : ¬ (offset + 1 + token_len + 1 + variant_len + 8 > data.length) := by omega
    simp only [hv, ↓reduceIte, true_and, c4, hvalid hv, hhex, Bool.not_true, Bool.false_eq_true,
      c7, h3, h4]
  · have hv0 : variant_len = 0 := by omega
    subst hv0
    have c7 : ¬ (offset + 1 + token_len + 1 + 8 > data.length) := by omega
    simp only [Nat.add_zero] at h3 h4
    simp only [gt_iff_lt, lt_self_iff_false, false_and, ↓reduceIte, hhex, Bool.not_true,
      Bool.false_eq_true, c7, h3, h4, Nat.add_zero]
    simp [substr, to_lower_ascii]

theorem read_u8_transfer (d1 d2 : List Nat) (i b : Nat) (h : read_u8 d1 i = .ok b)
    (hag : d1[i]? = d2[i]?) : read_u8 d2 i = .ok b := by
  rw [← read_u8_congr d1 d2 i hag]; exact h

theorem read_entry_congr (d1 d2 : List Nat) (hlen : d1.length = d2.length) (offset : Nat)
    (e : EntryInfo) (offset' : Nat) (h : read_entry d1 offset = .ok (e, offset'))
    (hag : ∀ i, offset ≤ i → i < offset' → d1[i]? = d2[i]?) :
    read_entry d2 offset = .ok (e, offset') := by
  obtain ⟨token_len, variant_len, h1, h2, ht1, ht2, ho, hb, hbase, hvar, hvalid, hhex, h3, h4⟩ :=
    read_entry_ok d1 offset e offset' h
  have hs1 := substr_congr d1 d2 (offset + 1) token_len (fun i a b => hag i (by omega) (by omega))
  have hs2 := substr_congr d1 d2 (offset + 1 + token_len + 1) variant_len
    (fun i a b => hag i (by omega) (by omega))
  have := read_entry_of_facts d2 offset token_len variant_len e.text_offset e.text_length
    (read_u8_transfer d1 d2 _ _ h1 (hag _ (by omega) (by omega)))
    (read_u8_transfer d1 d2 _ _ h2 (hag _ (by omega) (by omega)))
    ⟨ht1, ht2⟩ (by omega)
    (by rw [← hs2, ← hvar]; exact hvalid)
    (by rw [← hs1, ← hbase]; exact hhex)
    (by rw [← read_le_u32_congr d1 d2 _ (fun i a b => hag i (by omega) (by omega))]; exact h3)
    (by rw [← read_le_u32_congr d1 d2 _ (fun i a b => hag i (by omega) (by omega))]; exact h4)
  rw [this, ← hs1, ← hs2, ← hbase, ← hvar, ho]

theorem read_entries_ok_le (data : List Nat) (n : Nat) : ∀ offset acc r,
    read_entries data n offset acc = .ok r → offset ≤ r.2 := by
  induction n with
  | zero =>
    intro offset acc r h
    simp only [read_entries, Except.ok.injEq] at h
    subst h; exact le_rfl
  | succ n ih =>
    intro offset acc r h
    simp only [read_entries] at h
    cases he : read_entry data offset with
    | error err => rw [he] at h; simp at h
    | ok p =>
      obtain ⟨e, o'⟩ := p
      rw [he] at h
      simp only at h
      obtain ⟨_, _, _, _, _, _, ho, _⟩ := read_entry_ok data offset e o' he
      have := ih _ _ _ h
      omega

theorem read_entries_congr (d1 d2 : List Nat) (hlen : d1.length = d2.length) (n : Nat) :
    ∀ offset acc r, read_entries d1 n offset acc = .ok r →
      (∀ i, offset ≤ i → i < r.2 → d1[i]? = d2[i]?) →
      read_entries d2 n offset acc = .ok r := by
  induction n with
  | zero =>
    intro offset acc r h _
    simpa [read_entries] using h
  | succ n ih =>
    intro offset acc r h hag
    simp only [read_entries] at h ⊢
    cases he : read_entry d1 offset with
    | error err => rw [he] at h; simp at h
    | ok p =>
      obtain ⟨e, o'⟩ := p
      rw [he] at h
      simp only at h
      have hle := read_entries_ok_le d1 n _ _ _ h
      obtain ⟨_, _, _, _, _, _, ho, _⟩ := read_entry_ok d1 offset e o' he
      rw [read_entry_congr d1 d2 hlen offset e o' he (fun i a b => hag i a (by omega))]
      simp only
      exact ih _ _ _ h (fun i a b => hag i (by omega) b)



theorem substr_append (data : List Nat) (a n m : Nat) :
    substr data a n ++ substr data (a + n) m = substr data a (n + m) := by
  unfold substr
  rw [← List.drop_drop, List.take_add]

theorem substr_set (data : List Nat) (a n p v : Nat) (h1 : a ≤ p) :
    substr (data.set p v) a n = (substr data a n).set (p - a) v := by
  unfold substr
  apply List.ext_getElem?
  intro k
  simp only [List.getElem?_take, List.getElem?_drop, List.getElem?_set, List.length_take,
    List.length_drop]
  by_cases hk : k < n
  · by_cases hp : p = a + k
    · subst hp
      simp only [hk, ↓reduceIte, Nat.add_sub_cancel_left, lt_inf_iff, true_and]
      by_cases h3 : a + k < data.length
      · have : k < data.length - a := by omega
        simp [h3, this]
      · have : ¬ k < data.length - a := by omega
        simp [h3, this]
    · have : ¬ p - a = k := by omega
      simp [hk, hp, this]
  · by_cases hp : p - a = k
    · simp [hk, hp]
    · simp [hk, hp]

theorem substr_length (data : List Nat) (a n : Nat) (h : a + n ≤ data.length) :
    (substr data a n).length = n := by
  unfold substr
  simp only [List.length_take, List.length_drop]
  omega

theorem substr_getD (data : List Nat) (a n k : Nat) (hk : k < n) :
    (substr data a n).getD k 0 = data.getD (a + k) 0 := by
  unfold substr
  simp [List.getD_eq_getElem?_getD, List.getElem?_take, hk, List.getElem?_drop]

theorem substr_bytes (data : List Nat) (a n : Nat) (hb : ∀ b ∈ data, b < 256) :
    ∀ b ∈ substr data a n, b < 256 := by
  intro b hmem
  unfold substr at hmem
  exact hb b (List.mem_of_mem_drop (List.mem_of_mem_take hmem))

theorem header_size_of_two : header_size_of 2 = 24 := by decide

/-- For a version 2 buffer the checksum covers the bytes from the end of the header to
the end of the string table as one contiguous range. -/
theorem computed_checksum_v2 (data : List Nat) (h : BinHeader) (strings_base : Nat)
    (hv : h.version = 2) (hle : 24 + h.metadata_size ≤ strings_base) :
    computed_checksum data h strings_base =
      fnv1a32_append 2166136261
        (substr data 24 (strings_base + h.string_table_size - 24)) := by
  unfold computed_checksum
  have e1 : ¬ (2 = 1) := by decide
  simp only [hv, header_size_of_two, e1, ↓reduceIte]
  have hcat : substr data 24 h.metadata_size ++
      substr data (24 + h.metadata_size) (strings_base - (24 + h.metadata_size)) ++
      substr data strings_base h.string_table_size =
      substr data 24 (strings_base + h.string_table_size - 24) := by
    rw [substr_append]
    have e2 : 24 + (h.metadata_size + (strings_base - (24 + h.metadata_size))) = strings_base := by
      omega
    have := substr_append data 24 (h.metadata_size + (strings_base - (24 + h.metadata_size)))
      h.string_table_size
    rw [e2] at this
    rw [this]
    congr 1
    omega
  rw [← hcat, fnv1a32_append_append, fnv1a32_append_append]
  by_cases hm : h.metadata_size > 0
  · simp only [hm, ↓reduceIte]
  · have hm0 : h.metadata_size = 0 := by omega
    simp only [hm0, gt_iff_lt, lt_self_iff_false, ↓reduceIte]
    simp [substr, fnv1a32_append]

theorem read_le_u32_ok_lt (data : List Nat) (off v : Nat) (h : read_le_u32 data off = .ok v) :
    off + 3 < data.length := by
  unfold read_le_u32 at h
  cases h0 : read_u8 data off with
  | error e => rw [h0] at h; simp [Except.bind] at h
  | ok b0 =>
    rw [h0] at h
    simp only [Except.bind] at h
    cases h1 : read_u8 data (off + 1) with
    | error e => rw [h1] at h; simp at h
    | ok b1 =>
      rw [h1] at h
      simp only at h
      cases h2 : read_u8 data (off + 2) with
      | error e => rw [h2] at h; simp at h
      | ok b2 =>
        rw [h2] at h
        simp only at h
        cases h3 : read_u8 data (off + 3) with
        | error e => rw [h3] at h; simp at h
        | ok b3 => exact (read_u8_ok _ _ _ h3).1

/-- What a successfully read version 2 header says about the buffer. -/
theorem read_header_ok_v2 (data : List Nat) (h : BinHeader) (hh : read_header data = .ok h)
    (hv : h.version = 2) :
    24 ≤ data.length ∧ 24 + h.metadata_size ≤ data.length ∧
      (h.metadata_size = 0 ∨ 6 ≤ h.metadata_size) := by
  unfold read_header at hh
  simp only at hh
  split at hh
  · simp at hh
  split at hh
  · simp at hh
  cases h4 : read_u8 data 4 with
  | error e => rw [h4] at hh; simp [Except.bind] at hh
  | ok version =>
    rw [h4] at hh
    simp only [Except.bind] at hh
    split at hh
    · simp at hh
    by_cases hver : version ≥ 2
    · simp only [hver, ↓reduceIte, true_and] at hh
      cases h6 : read_u8 data 6 with
      | error e => rw [h6] at hh; simp at hh
      | ok pr =>
        rw [h6] at hh
        simp only at hh
        cases h20 : read_le_u32 data 20 with
        | error e => rw [h20] at hh; simp at hh
        | ok ms =>
          rw [h20] at hh
          simp only at hh
          have hlen := read_le_u32_ok_lt data 20 ms h20
          split at hh
          · simp at hh
          split at hh
          · simp at hh
          rename_i c1 c2 c3 c4 c5
          cases h8 : read_le_u32 data 8 with
          | error e => rw [h8] at hh; simp at hh
          | ok ec =>
            rw [h8] at hh
            simp only at hh
            cases h12 : read_le_u32 data 12 with
            | error e => rw [h12] at hh; simp at hh
            | ok sts =>
              rw [h12] at hh
              simp only at hh
              cases h16 : read_le_u32 data 16 with
              | error e => rw [h16] at hh; simp at hh
              | ok cs =>
                rw [h16] at hh
                simp only [Except.ok.injEq] at hh
                subst hh
                simp only at hv
                subst hv
                simp only [header_size_of_two, METADATA_HEADER_SIZE] at c4 c5
                refine ⟨by omega, ?_, ?_⟩ <;> simp only <;> omega
    · have hv1 : version = 1 := by omega
      subst hv1
      simp only [ge_iff_le, Nat.not_ofNat_le_one, ↓reduceIte, false_and] at hh
      cases h8 : read_le_u32 data 8 with
      | error e => rw [h8] at hh; simp at hh
      | ok ec =>
        rw [h8] at hh
        simp only at hh
        cases h12 : read_le_u32 data 12 with
        | error e => rw [h12] at hh; simp at hh
        | ok sts =>
          rw [h12] at hh
          simp only at hh
          cases h16 : read_le_u32 data 16 with
          | error e => rw [h16] at hh; simp at hh
          | ok cs =>
            rw [h16] at hh
            simp only [Except.ok.injEq] at hh
            subst hh
            simp at hv

theorem read_u8_not_oob (data : List Nat) (i : Nat) (h : i < data.length) :
    ∃ b, read_u8 data i = .ok b := by
  unfold read_u8
  rw [List.getElem?_eq_getElem h]
  exact ⟨_, rfl⟩

theorem read_le_u16_not_oob (data : List Nat) (off : Nat) (h : off + 1 < data.length) :
    ∃ b, read_le_u16 data off = .ok b := by
  unfold read_le_u16
  obtain ⟨b0, h0⟩ := read_u8_not_oob data off (by omega)
  obtain ⟨b1, h1⟩ := read_u8_not_oob data (off + 1) (by omega)
  rw [h0, h1]
  exact ⟨_, rfl⟩

/-- The metadata block is read without leaving the buffer. -/
theorem read_metadata_not_oob (data : List Nat) (h : BinHeader) (hv : h.version = 2)
    (hms : h.metadata_size = 0 ∨ 6 ≤ h.metadata_size) :
    (∃ m, read_metadata data h = .ok m) ∨ (∃ e, read_metadata data h = .error (.msg e)) := by
  unfold read_metadata
  simp only [hv, header_size_of_two]
  split
  · split
    · exact Or.inr ⟨_, rfl⟩
    · rename_i c1 c2
      obtain ⟨l, hl⟩ := read_le_u16_not_oob data 24 (by omega)
      obtain ⟨f, hf⟩ := read_le_u16_not_oob data (24 + 2) (by omega)
      obtain ⟨n, hn⟩ := read_le_u16_not_oob data (24 + 4) (by omega)
      rw [hl, hf, hn]
      simp only [Except.bind]
      split
      · exact Or.inr ⟨_, rfl⟩
      · exact Or.inl ⟨_, rfl⟩
  · exact Or.inl ⟨_, rfl⟩

/-- C2, amended. Checksum integrity: for every version 2 binary that strict loading
accepts and every byte position inside its metadata block, entry table or string table,
replacing that byte by a different value makes strict loading fail with a format error,
provided that for a position inside the entry table the reader still finds the end of
the entry table at the same offset. -/
theorem checksum_detects_byte_change (data : List Nat) (s : CatalogSnapshot) (h : BinHeader)
    (entries : List EntryInfo) (strings_base p v : Nat)
    (hbytes : ∀ b ∈ data, b < 256) (hv : v < 256)
    (hok : build_snapshot_from_binary data true = .ok s)
    (hh : read_header data = .ok h) (hver : h.version = 2)
    (hent : read_entries data h.entry_count (24 + h.metadata_size) [] = .ok (entries, strings_base))
    (hp : 24 ≤ p ∧ p < strings_base + h.string_table_size)
    (hne : v ≠ data.getD p 0)
    (hlayout : p < 24 + h.metadata_size ∨ strings_base ≤ p ∨
      ∃ entries', read_entries (data.set p v) h.entry_count (24 + h.metadata_size) [] =
        .ok (entries', strings_base)) :
    ∃ e, build_snapshot_from_binary (data.set p v) true = .error (.msg e) := by
  obtain ⟨hlen24, hmsle, hms⟩ := read_header_ok_v2 data h hh hver
  have hsb := read_entries_ok_le data _ _ _ _ hent
  simp only at hsb
  -- what the accepted load says
  unfold build_snapshot_from_binary at hok
  simp only [hh, Except.bind, hver, header_size_of_two] at hok
  cases hm : read_metadata data h with
  | error e => rw [hm] at hok; simp at hok
  | ok m =>
    rw [hm] at hok
    simp only [hent] at hok
    split at hok
    · simp at hok
    split at hok
    · simp at hok
    rename_i hsize hsum
    simp only [and_true, ne_eq, not_not] at hsum
    -- the changed buffer
    have hlen : (data.set p v).length = data.length := by simp
    have hag : ∀ i, i ≠ p → (data.set p v)[i]? = data[i]? := fun i hi => by
      rw [List.getElem?_set]; simp [Ne.symm hi]
    have hh' : read_header (data.set p v) = .ok h := by
      rw [read_header_congr (data.set p v) data hlen (fun i hi => hag i (by omega))]
      exact hh
    have hent' : ∃ entries', read_entries (data.set p v) h.entry_count (24 + h.metadata_size) [] =
        .ok (entries', strings_base) := by
      rcases hlayout with h1 | h1 | h1
      · exact ⟨entries, read_entries_congr data (data.set p v) hlen.symm _ _ _ _ hent
          (fun i a b => (hag i (by omega)).symm)⟩
      · exact ⟨entries, read_entries_congr data (data.set p v) hlen.symm _ _ _ _ hent
          (fun i a b => (hag i (by simp only at b; omega)).symm)⟩
      · exact h1
    obtain ⟨entries', hent'⟩ := hent'
    have hsum' : computed_checksum (data.set p v) h strings_base ≠ h.checksum := by
      rw [← hsum, computed_checksum_v2 _ h strings_base hver hsb,
        computed_checksum_v2 _ h strings_base hver hsb, substr_set _ _ _ _ _ hp.1]
      have hL : (substr data 24 (strings_base + h.string_table_size - 24)).length =
          strings_base + h.string_table_size - 24 := substr_length _ _ _ (by omega)
      apply fnv1a32_append_set_ne _ (by decide) _ (substr_bytes data _ _ hbytes) _ _
        (by rw [hL]; omega) hv
      rw [substr_getD _ _ _ _ (by omega)]
      have e : 24 + (p - 24) = p := by omega
      rw [e]
      exact hne
    unfold build_snapshot_from_binary
    simp only [hh', Except.bind, hver, header_size_of_two]
    rcases read_metadata_not_oob (data.set p v) h hver hms with ⟨m', hm'⟩ | ⟨e, hm'⟩
    · rw [hm']
      simp only [hent', hlen]
      rw [if_neg hsize, if_pos ⟨hsum', trivial⟩]
      exact ⟨_, rfl⟩
    · rw [hm']
      exact ⟨e, rfl⟩

set_option maxRecDepth 100000 in
theorem checksum_detects_byte_change_witness :
    (∀ b ∈ collision_file, b < 256) ∧ (7 : Nat) < 256 ∧
    (24 ≤ 50 ∧ 50 < 47 + 48) ∧ (7 : Nat) ≠ collision_file.getD 50 0 ∧
    ∃ e, build_snapshot_from_binary (collision_file.set 50 7) true = .error (.msg e) :=
  ⟨by decide, by decide, by decide, by decide,
   checksum_detects_byte_change collision_file collision_snapshot collision_header
     [{ base := utf8 "aaaaaa", variant := utf8 "-", text_offset := 0, text_length := 0 }]
     47 50 7 (by decide) (by decide) (by decide) (by decide) (by decide) (by decide)
     (by decide) (by decide) (Or.inr (Or.inl (by decide)))⟩

set_option maxRecDepth 100000 in
/-- C2, as stated, fails: `collision_file` is accepted by strict loading, and so is the
buffer that differs from it only in byte 37 of the entry table (the variant length
of the entry, `1` replaced by `0`): the entry table then ends one byte earlier, the
checksum is taken over a range shorter by one byte, and it equals the stored one. -/
theorem checksum_misses_length_byte :
    build_snapshot_from_binary collision_file true = .ok collision_snapshot ∧
    read_header collision_file = .ok collision_header ∧
    (read_entries collision_file 1 30 []).toOption.map (fun r => r.2) = some 47 ∧
    (30 ≤ 37 ∧ 37 < 47) ∧ collision_file.getD 37 0 = 1 ∧
    build_snapshot_from_binary (collision_file.set 37 0) true =
      .ok { empty_snapshot with catalog := [(utf8 "aaaaaa", [])] } :=
  ⟨by decide, by decide, by decide, by decide, by decide, by decide⟩

/-! ## Binary codec: round trip -/

theorem or_shift_eq_add (a b : Nat) (i : Nat) (hb : b < 2 ^ i) : b ||| (a <<< i) = b + a * 2 ^ i := by
  rw [Nat.lor_comm, Nat.shiftLeft_eq, Nat.mul_comm a, ← Nat.mul_add_lt_is_or hb]
  omega

theorem le_decode_u32 (b0 b1 b2 b3 : Nat) (h0 : b0 < 256) (h1 : b1 < 256) (h2 : b2 < 256) :
    b0 ||| (b1 <<< 8) ||| (b2 <<< 16) ||| (b3 <<< 24) =
      b0 + 256 * b1 + 65536 * b2 + 16777216 * b3 := by
  have e1 : b0 ||| (b1 <<< 8) = b0 + b1 * 2 ^ 8 := or_shift_eq_add b1 b0 8 (by omega)
  rw [e1]
  have e2 : (b0 + b1 * 2 ^ 8) ||| (b2 <<< 16) = (b0 + b1 * 2 ^ 8) + b2 * 2 ^ 16 :=
    or_shift_eq_add b2 _ 16 (by omega)
  rw [e2]
  have e3 : (b0 + b1 * 2 ^ 8 + b2 * 2 ^ 16) ||| (b3 <<< 24) =
      (b0 + b1 * 2 ^ 8 + b2 * 2 ^ 16) + b3 * 2 ^ 24 := or_shift_eq_add b3 _ 24 (by omega)
  rw [e3]
  omega

theorem le_u32_bytes (v : Nat) :
    le_u32 v = [v % 256, v / 256 % 256, v / 65536 % 256, v / 16777216 % 256] := by
  unfold le_u32
  have e : ∀ x : Nat, x &&& 255 = x % 256 := fun x => Nat.and_pow_two_sub_one_eq_mod x 8
  simp only [e, Nat.shiftRight_eq_div_pow]

theorem le_u16_bytes (v : Nat) : le_u16 v = [v % 256, v / 256 % 256] := by
  unfold le_u16
  have e : ∀ x : Nat, x &&& 255 = x % 256 := fun x => Nat.and_pow_two_sub_one_eq_mod x 8
  simp only [e, Nat.shiftRight_eq_div_pow]

theorem read_u8_of_getElem? (data : List Nat) (i b : Nat) (h : data[i]? = some b) :
    read_u8 data i = .ok b := by
  simp only [read_u8, h]

theorem read_le_u32_of_substr (data : List Nat) (off v : Nat) (hv : v < 4294967296)
    (h : substr data off 4 = le_u32 v) : read_le_u32 data off = .ok v := by
  rw [le_u32_bytes] at h
  have hg : ∀ k, k < 4 → data[off + k]? = (substr data off 4)[k]? := by
    intro k hk
    unfold substr
    simp [List.getElem?_take, hk, List.getElem?_drop]
  have g0 := hg 0 (by omega)
  have g1 := hg 1 (by omega)
  have g2 := hg 2 (by omega)
  have g3 := hg 3 (by omega)
  rw [h] at g0 g1 g2 g3
  simp only [List.getElem?_cons_zero, List.getElem?_cons_succ, Nat.add_zero] at g0 g1 g2 g3
  unfold read_le_u32
  rw [read_u8_of_getElem? _ _ _ g0, read_u8_of_getElem? _ _ _ g1, read_u8_of_getElem? _ _ _ g2,
    read_u8_of_getElem? _ _ _ g3]
  simp only [Except.bind]
  rw [le_decode_u32 _ _ _ _ (Nat.mod_lt _ (by decide)) (Nat.mod_lt _ (by decide))
    (Nat.mod_lt _ (by decide))]
  congr 1
  omega

theorem read_le_u16_of_substr (data : List Nat) (off v : Nat) (hv : v < 65536)
    (h : substr data off 2 = le_u16 v) : read_le_u16 data off = .ok v := by
  rw [le_u16_bytes] at h
  have hg : ∀ k, k < 2 → data[off + k]? = (substr data off 2)[k]? := by
    intro k hk
    unfold substr
    simp [List.getElem?_take, hk, List.getElem?_drop]
  have g0 := hg 0 (by omega)
  have g1 := hg 1 (by omega)
  rw [h] at g0 g1
  simp only [List.getElem?_cons_zero, List.getElem?_cons_succ, Nat.add_zero] at g0 g1
  unfold read_le_u16
  rw [read_u8_of_getElem? _ _ _ g0, read_u8_of_getElem? _ _ _ g1]
  simp only [Except.bind]
  have := or_shift_eq_add (v / 256 % 256) (v % 256) 8 (by omega)
  rw [this]
  congr 1
  omega

theorem substr_mid (pre mid post : List Nat) (n : Nat) (hn : n = mid.length) :
    substr (pre ++ mid ++ post) pre.length n = mid := by
  subst hn
  unfold substr
  simp

theorem substr_at (pre rest : List Nat) (a n off : Nat) (ho : off = pre.length + a) :
    substr (pre ++ rest) off n = substr rest a n := by
  subst ho
  unfold substr
  rw [← List.drop_drop]
  simp

theorem indexOf_split (l : List Nat) (a : Nat) (h : l.indexOf a < l.length) :
    l = l.take (l.indexOf a) ++ a :: l.drop (l.indexOf a + 1) := by
  induction l with
  | nil => simp at h
  | cons x xs ih =>
    by_cases hx : x = a
    · subst hx
      simp [List.indexOf_cons_self]
    · rw [List.indexOf_cons_ne _ hx] at h ⊢
      simp only [List.length_cons, Nat.add_lt_add_iff_right] at h
      simp only [List.take_succ_cons, List.drop_succ_cons, List.cons_append, List.cons.injEq,
        true_and]
      exact ih (Nat.lt_of_succ_lt_succ h)

theorem find_char_some (s : Str) (c pos i : Nat) (h : find_char s c pos = some i) :
    pos ≤ i ∧ i < s.length ∧ s = s.take i ++ c :: s.drop (i + 1) := by
  unfold find_char at h
  simp only at h
  split at h
  · rename_i hlt
    simp only [Option.some.injEq] at h
    subst h
    have hsp := indexOf_split (s.drop pos) c hlt
    simp only [List.length_drop] at hlt
    refine ⟨by omega, by omega, ?_⟩
    conv_lhs => rw [← List.take_append_drop pos s, hsp]
    rw [List.take_add, ← List.append_assoc]
    congr 2
    rw [List.drop_drop]
    congr 1
    try omega
  · simp at h

/-- What a successful `parse_variant_suffix` says about the token. -/
theorem parse_variant_suffix_some (token b v : Str) (h : parse_variant_suffix token = some (b, v)) :
    ∃ ob ov, token = ob ++ [123] ++ ov ++ [125] ∧ b = to_lower_ascii ob ∧
      v = to_lower_ascii ov ∧ is_variant_valid v = true ∧ b ≠ [] := by
  unfold parse_variant_suffix at h
  cases h1 : find_char token 123 0 with
  | none => rw [h1] at h; simp at h
  | some opn =>
    rw [h1] at h
    simp only at h
    cases h2 : find_char token 125 (opn + 1) with
    | none => rw [h2] at h; simp at h
    | some close =>
      rw [h2] at h
      simp only at h
      split at h
      · simp at h
      rename_i hclose
      simp only [ne_eq, not_not] at hclose
      split at h
      · simp at h
      split at h
      · rename_i hvalid
        simp only [Option.some.injEq, Prod.mk.injEq] at h
        obtain ⟨hb, hv⟩ := h
        simp only [Bool.and_eq_true, Bool.not_eq_true', List.isEmpty_eq_false] at hvalid
        obtain ⟨_, hlt1, hs1⟩ := find_char_some token 123 0 opn h1
        obtain ⟨hle2, hlt2, hs2⟩ := find_char_some token 125 (opn + 1) close h2
        refine ⟨substr token 0 opn, substr token (opn + 1) (close - opn - 1), ?_, hb.symm,
          hv.symm, by rw [← hv]; exact hvalid.1, ?_⟩
        · have hd : token.drop (close + 1) = [] := by
            apply List.drop_eq_nil_of_le; omega
          rw [hd] at hs2
          conv_lhs => rw [hs2]
          simp only [substr, List.drop_zero, List.append_assoc, List.singleton_append,
            List.cons_append]
          have e : List.take close token =
              List.take opn token ++ 123 :: List.take (close - opn - 1) (List.drop (opn + 1) token) := by
            conv_lhs => rw [hs1]
            rw [List.take_append_eq_append_take]
            simp only [List.take_take, List.length_take]
            have e1 : min close opn = opn := by omega
            have e2 : min opn token.length = opn := by omega
            rw [e1, e2]
            congr 1
            have e3 : close - opn = (close - opn - 1) + 1 := by omega
            rw [e3, List.take_succ_cons]
            simp
          rw [e]
          simp
        · rw [← hb]
          intro hbe
          simp [hbe] at hvalid
      · simp at h

theorem to_lower_append (a b : Str) : to_lower_ascii (a ++ b) = to_lower_ascii a ++ to_lower_ascii b := by
  simp [to_lower_ascii]

theorem to_lower_length (a : Str) : (to_lower_ascii a).length = a.length := by
  simp [to_lower_ascii]

/-- The parts of a lower-case key put together give the key again. -/
theorem key_parts_lower (key : Str) (hlow : to_lower_ascii key = key) :
    (if !(key_parts key).2.isEmpty then
        (key_parts key).1 ++ [123] ++ (key_parts key).2 ++ [125]
      else (key_parts key).1) = key ∧
    to_lower_ascii (key_parts key).1 = (key_parts key).1 ∧
    to_lower_ascii (key_parts key).2 = (key_parts key).2 ∧
    ((key_parts key).2 = [] ∨ is_variant_valid (key_parts key).2 = true) := by
  unfold key_parts
  cases hp : parse_variant_suffix key with
  | none =>
    have hl : List.map tolower key = key := hlow
    simp [hlow, to_lower_ascii, hl]
  | some bv =>
    obtain ⟨b, v⟩ := bv
    obtain ⟨ob, ov, hk, hb, hv, hvalid, hne⟩ := parse_variant_suffix_some key b v hp
    simp only
    rw [hk] at hlow
    simp only [to_lower_append] at hlow
    have hl1 := congrArg List.length hlow
    have e1 : to_lower_ascii ob ++ to_lower_ascii [123] ++ to_lower_ascii ov ++ to_lower_ascii [125] =
        ob ++ [123] ++ ov ++ [125] := hlow
    have e2 := List.append_inj_left' e1 (by simp [to_lower_ascii])
    have e3 := List.append_inj_right' e2 (by simp [to_lower_length])
    have e4 := List.append_inj_left' e2 (by simp [to_lower_length])
    have e5 := List.append_inj_left' e4 (by simp [to_lower_ascii])
    rw [e5] at hb
    rw [e3] at hv
    subst hb hv
    have hvne : List.isEmpty v = false := by
      unfold is_variant_valid at hvalid
      split at hvalid
      · simp at hvalid
      · rename_i hh
        simp only [Bool.or_eq_true, not_or, Bool.not_eq_true] at hh
        exact hh.1
    simp only [hvne, Bool.not_false, ↓reduceIte]
    exact ⟨hk.symm, e5, e3, Or.inr hvalid⟩

/-! ## Binary round trip: reading what the exporter wrote -/

theorem read_u8_of_drop (data : List Nat) (off b : Nat) (rest : List Nat)
    (h : data.drop off = b :: rest) : read_u8 data off = .ok b := by
  apply read_u8_of_getElem?
  have := congrArg (fun l => l[0]?) h
  simpa [List.getElem?_drop] using this

theorem substr_of_drop (data : List Nat) (off n : Nat) (mid rest : List Nat)
    (h : data.drop off = mid ++ rest) (hn : n = mid.length) : substr data off n = mid := by
  subst hn
  unfold substr
  rw [h]
  simp

theorem drop_of_drop (data : List Nat) (off : Nat) (mid rest : List Nat)
    (h : data.drop off = mid ++ rest) (off' : Nat) (ho : off' = off + mid.length) :
    data.drop off' = rest := by
  subst ho
  rw [← List.drop_drop, h]
  simp

theorem read_le_u32_of_drop (data : List Nat) (off v : Nat) (rest : List Nat)
    (hv : v < 4294967296) (h : data.drop off = le_u32 v ++ rest) :
    read_le_u32 data off = .ok v :=
  read_le_u32_of_substr data off v hv (substr_of_drop data off 4 _ rest h (by simp [le_u32]))

theorem read_le_u16_of_drop (data : List Nat) (off v : Nat) (rest : List Nat)
    (hv : v < 65536) (h : data.drop off = le_u16 v ++ rest) :
    read_le_u16 data off = .ok v :=
  read_le_u16_of_substr data off v hv (substr_of_drop data off 2 _ rest h (by simp [le_u16]))

theorem length_of_drop (data : List Nat) (off : Nat) (l : List Nat) (h : data.drop off = l)
    (hl : 0 < l.length) : off + l.length = data.length := by
  have := congrArg List.length h
  simp only [List.length_drop] at this
  omega

theorem encode_entry_length (e : ExportEntry) :
    (encode_entry e).length = 1 + e.base.length + 1 + e.variant.length + 8 := by
  simp [encode_entry, le_u32]
  omega

theorem is_hex_token_length (s : Str) (h : is_hex_token s = true) : 6 ≤ s.length ∧ s.length ≤ 32 := by
  unfold is_hex_token at h
  split at h
  · simp at h
  · rename_i hh
    simp only [Bool.or_eq_true, decide_eq_true_eq, not_or, not_lt, not_le] at hh
    omega

theorem is_variant_valid_length (s : Str) (h : is_variant_valid s = true) :
    1 ≤ s.length ∧ s.length ≤ 16 := by
  unfold is_variant_valid at h
  split at h
  · simp at h
  · rename_i hh
    simp only [Bool.or_eq_true, decide_eq_true_eq, not_or, not_lt, not_le, List.isEmpty_iff] at hh
    have : s.length ≠ 0 := fun e => hh.1 (List.length_eq_zero.mp e)
    omega

/-- The reader gets back an exported entry from its record. -/
theorem read_entry_encode (data : List Nat) (offset : Nat) (e : ExportEntry) (rest : List Nat)
    (hd : data.drop offset = encode_entry e ++ rest) (hok : entry_ok e)
    (ho : e.text_offset < 4294967296) (hl : e.text_length < 4294967296) :
    read_entry data offset = .ok (entry_info e, offset + (encode_entry e).length) := by
  obtain ⟨hhex, hlb, hlv, hvar⟩ := hok
  have hbl := is_hex_token_length _ hhex
  have hvl : e.variant.length ≤ 16 := by
    rcases hvar with h | h
    · simp [h]
    · exact (is_variant_valid_length _ h).2
  have hlen := length_of_drop data offset _ hd (by rw [List.length_append, encode_entry_length]; omega)
  rw [List.length_append, encode_entry_length] at hlen
  have hd1 : data.drop offset = (e.base.length % 256) :: (e.base ++ ([e.variant.length % 256] ++
      (e.variant ++ (le_u32 e.text_offset ++ (le_u32 e.text_length ++ rest))))) := by
    rw [hd]; simp [encode_entry]
  have hm1 : e.base.length % 256 = e.base.length := Nat.mod_eq_of_lt (by omega)
  have hm2 : e.variant.length % 256 = e.variant.length := Nat.mod_eq_of_lt (by omega)
  rw [hm1, hm2] at hd1
  have h1 := read_u8_of_drop data offset _ _ hd1
  have hd2 : data.drop (offset + 1) = e.base ++ ([e.variant.length] ++
      (e.variant ++ (le_u32 e.text_offset ++ (le_u32 e.text_length ++ rest)))) :=
    drop_of_drop data offset [e.base.length] _ hd1 _ rfl
  have hs1 := substr_of_drop data (offset + 1) e.base.length _ _ hd2 rfl
  have hd3 := drop_of_drop data (offset + 1) _ _ hd2 (offset + 1 + e.base.length) rfl
  have h2 := read_u8_of_drop data (offset + 1 + e.base.length) _ _ hd3
  have hd4 := drop_of_drop data (offset + 1 + e.base.length) [e.variant.length] _ hd3
    (offset + 1 + e.base.length + 1) rfl
  have hs2 := substr_of_drop data (offset + 1 + e.base.length + 1) e.variant.length _ _ hd4 rfl
  have hd5 := drop_of_drop data (offset + 1 + e.base.length + 1) _ _ hd4
    (offset + 1 + e.base.length + 1 + e.variant.length) rfl
  have h3 := read_le_u32_of_drop data _ _ _ ho hd5
  have hd6 := drop_of_drop data _ _ _ hd5
    (offset + 1 + e.base.length + 1 + e.variant.length + 4) (by simp [le_u32])
  have h4 := read_le_u32_of_drop data _ _ _ hl hd6
  have := read_entry_of_facts data offset e.base.length e.variant.length e.text_offset
    e.text_length h1 h2 hbl (by omega)
    (by
      intro hpos
      rw [hs2, hlv]
      rcases hvar with h | h
      · rw [h] at hpos; simp at hpos
      · exact h)
    (by rw [hs1, hlb]; exact hhex) h3 h4
  have ea : offset + (1 + e.base.length + 1 + e.variant.length + 8) =
      offset + 1 + e.base.length + 1 + e.variant.length + 8 := by omega
  rw [this, hs1, hs2, hlb, hlv, encode_entry_length, ea]
  rfl

/-- The reader gets back the exported entries from the entry table. -/
theorem read_entries_encode (data : List Nat) (es : List ExportEntry) :
    ∀ (offset : Nat) (acc : List EntryInfo) (rest : List Nat),
      data.drop offset = es.flatMap encode_entry ++ rest →
      (∀ e ∈ es, entry_ok e ∧ e.text_offset < 4294967296 ∧ e.text_length < 4294967296) →
      read_entries data es.length offset acc =
        .ok (acc ++ es.map entry_info, offset + (es.flatMap encode_entry).length) := by
  induction es with
  | nil => intro offset acc rest _ _; simp [read_entries]
  | cons e es ih =>
    intro offset acc rest hd hes
    have he := hes e (by simp)
    simp only [List.flatMap_cons, List.append_assoc] at hd
    simp only [List.length_cons, read_entries]
    rw [read_entry_encode data offset e _ hd he.1 he.2.1 he.2.2]
    simp only
    rw [ih _ _ rest (drop_of_drop data offset _ _ hd _ rfl) (fun x hx => hes x (by simp [hx]))]
    simp [Nat.add_assoc]

theorem assign_offsets_length (es : List ExportEntry) : ∀ c, (assign_offsets es c).length = es.length := by
  induction es with
  | nil => intro c; rfl
  | cons e es ih => intro c; simp [assign_offsets, ih]

theorem assign_offsets_text (es : List ExportEntry) :
    ∀ c, (assign_offsets es c).flatMap (fun e => e.text) = es.flatMap (fun e => e.text) := by
  induction es with
  | nil => intro c; rfl
  | cons e es ih => intro c; simp [assign_offsets, ih]

theorem assign_offsets_ok (es : List ExportEntry) :
    ∀ c, c < 4294967296 → (∀ e ∈ es, entry_ok e) →
      ∀ e ∈ assign_offsets es c,
        entry_ok e ∧ e.text_offset < 4294967296 ∧ e.text_length < 4294967296 := by
  induction es with
  | nil => intro c _ _ e he; simp [assign_offsets] at he
  | cons x es ih =>
    intro c hc hes e he
    simp only [assign_offsets, List.mem_cons] at he
    rcases he with he | he
    · subst he
      exact ⟨hes x (by simp), hc, Nat.mod_lt _ (by norm_num)⟩
    · exact ih _ (Nat.mod_lt _ (by norm_num)) (fun y hy => hes y (by simp [hy])) e he

/-- The second loop of the reader on the entries of the exporter: every entry gets its
key and its text back. -/
theorem fill_entries_assign (data : List Nat) (sb sts : Nat) (es : List ExportEntry) :
    ∀ (c : Nat) (snap : CatalogSnapshot) (rest : List Nat),
      data.drop (sb + c) = es.flatMap (fun e => e.text) ++ rest →
      c + (es.map (fun e => e.text.length)).sum ≤ sts →
      sts < 4294967296 →
      (snap.catalog.map Prod.fst ++ es.map (fun e => entry_key e.base e.variant)).Nodup →
      ∃ s', fill_entries data sb sts ((assign_offsets es c).map entry_info) snap = .ok s' ∧
        s'.catalog = snap.catalog ++ es.map (fun e => (entry_key e.base e.variant, e.text)) ∧
        s'.meta_locale = snap.meta_locale ∧ s'.meta_fallback = snap.meta_fallback ∧
        s'.meta_note = snap.meta_note ∧ s'.meta_plural = snap.meta_plural := by
  induction es with
  | nil =>
    intro c snap rest _ _ _ _
    exact ⟨snap, by simp [assign_offsets, fill_entries]⟩
  | cons e es ih =>
    intro c snap rest hd hsum hsts hnd
    simp only [List.map_cons, List.sum_cons] at hsum
    have hm1 : e.text.length % 4294967296 = e.text.length := Nat.mod_eq_of_lt (by omega)
    have hm2 : (c + e.text.length) % 4294967296 = c + e.text.length := Nat.mod_eq_of_lt (by omega)
    simp only [List.flatMap_cons, List.append_assoc] at hd
    have hval : substr data (sb + c) e.text.length = e.text := substr_of_drop data _ _ _ _ hd rfl
    have hd' : data.drop (sb + (c + e.text.length)) = es.flatMap (fun e => e.text) ++ rest :=
      drop_of_drop data _ _ _ hd _ (by omega)
    have hkey : map_find snap.catalog (entry_key e.base e.variant) = none := by
      apply map_find_none_of_not_mem
      intro hmem
      simp only [List.map_cons] at hnd
      have := (List.nodup_append.mp hnd).2.2
      exact this hmem (by simp)
    have hnd' : (List.map Prod.fst (snap.catalog ++ [(entry_key e.base e.variant, e.text)]) ++
        es.map (fun e => entry_key e.base e.variant)).Nodup := by
      simpa using hnd
    simp only [assign_offsets, hm1, hm2, List.map_cons, entry_info, fill_entries]
    rw [if_neg (by omega)]
    simp only [hval]
    have hkey' : map_find snap.catalog
        (if (!e.variant.isEmpty) = true then e.base ++ [123] ++ e.variant ++ [125] else e.base) =
        none := hkey
    rw [hkey']
    simp only [Option.isSome_none, Bool.false_eq_true, ↓reduceIte]
    obtain ⟨s', h1, h2, h3, h4, h5, h6⟩ := ih (c + e.text.length)
      { snap with
        plural_variants :=
          if (!e.variant.isEmpty) = true then plural_insert snap.plural_variants e.base e.variant
          else snap.plural_variants
        catalog := snap.catalog ++ [(entry_key e.base e.variant, e.text)] }
      rest hd' (by omega) hsts hnd'
    refine ⟨s', ?_, ?_, h3, h4, h5, h6⟩
    · exact h1
    · rw [h2]; simp

/-- The reader accepts a buffer in strict mode when each of its stages succeeds. -/
theorem build_of_stages (data : List Nat) (h : BinHeader) (mdata : Str × Str × Str)
    (entries : List EntryInfo) (sb : Nat) (snap : CatalogSnapshot)
    (h1 : read_header data = .ok h) (h2 : read_metadata data h = .ok mdata)
    (h3 : read_entries data h.entry_count (header_size_of h.version + h.metadata_size) [] =
      .ok (entries, sb))
    (h4 : sb + h.string_table_size ≤ data.length)
    (h5 : computed_checksum data h sb = h.checksum)
    (h6 : fill_entries data sb h.string_table_size entries
      { empty_snapshot with
        meta_plural := plural_rule_of_byte h.plural_rule
        meta_locale := mdata.1
        meta_fallback := mdata.2.1
        meta_note := mdata.2.2 } = .ok snap)
    (h7 : snap.catalog ≠ []) :
    build_snapshot_from_binary data true =
      .ok { snap with style_registry := some (populate_style_registry snap.catalog) } := by
  unfold build_snapshot_from_binary
  simp only [h1, Except.bind, h2, h3]
  rw [if_neg (by omega), if_neg (by simp [h5])]
  simp only [h6]
  rw [if_neg (by simpa [List.isEmpty_iff] using h7)]

theorem plural_rule_byte_round (r : PluralRule) : plural_rule_of_byte (plural_rule_to_byte r) = r := by
  cases r <;> rfl

/-- Strict loading of a buffer laid out as the exporter writes it. -/
theorem load_layout (data : List Nat) (pr : PluralRule) (loc fb note : Str)
    (es : List ExportEntry) (M E T : List Nat) (ck : Nat)
    (hloc : loc.length ≤ 65535) (hfb : fb.length ≤ 65535) (hnote : note.length ≤ 65535)
    (hes : ∀ e ∈ es, entry_ok e) (hne : es ≠ []) (hcount : es.length < 4294967296)
    (hsum : (es.map (fun e => e.text.length)).sum < 4294967296)
    (hnd : (es.map (fun e => entry_key e.base e.variant)).Nodup)
    (hM : M = le_u16 loc.length ++ (le_u16 fb.length ++ (le_u16 note.length ++
      (loc ++ (fb ++ note)))))
    (hE : E = (assign_offsets es 0).flatMap encode_entry)
    (hT : T = es.flatMap (fun e => e.text))
    (hck : ck = fnv1a32_append (fnv1a32_append (fnv1a32_append 2166136261 M) E) T)
    (hdata : data = 73 :: 49 :: 56 :: 78 :: 2 :: 0 :: plural_rule_to_byte pr :: 0 ::
      (le_u32 es.length ++ (le_u32 T.length ++ (le_u32 ck ++ (le_u32 M.length ++
        (M ++ (E ++ T))))))) :
    ∃ s', build_snapshot_from_binary data true = .ok s' ∧
      s'.catalog = es.map (fun e => (entry_key e.base e.variant, e.text)) ∧
      s'.meta_locale = loc ∧ s'.meta_fallback = fb ∧ s'.meta_note = note ∧
      s'.meta_plural = pr := by
  have hTlen : T.length = (es.map (fun e => e.text.length)).sum := by
    rw [hT]; simp [List.length_flatMap, Function.comp_def]
  have hMlen : M.length = 6 + loc.length + fb.length + note.length := by
    rw [hM]; simp [le_u16]; omega
  have hcklt : ck < 4294967296 := by
    rw [hck]; exact fnv1a32_append_lt _ (fnv1a32_append_lt _ (fnv1a32_append_lt _ (by norm_num) _) _) _
  have hlen : data.length = 24 + M.length + E.length + T.length := by
    rw [hdata]; simp [le_u32]; omega
  -- the pieces of the buffer
  have d8 : data.drop 8 = le_u32 es.length ++ (le_u32 T.length ++ (le_u32 ck ++
      (le_u32 M.length ++ (M ++ (E ++ T))))) := by rw [hdata]; rfl
  have d12 := drop_of_drop data 8 _ _ d8 12 (by simp [le_u32])
  have d16 := drop_of_drop data 12 _ _ d12 16 (by simp [le_u32])
  have d20 := drop_of_drop data 16 _ _ d16 20 (by simp [le_u32])
  have d24 := drop_of_drop data 20 _ _ d20 24 (by simp [le_u32])
  have dE := drop_of_drop data 24 _ _ d24 (24 + M.length) rfl
  have dT := drop_of_drop data (24 + M.length) _ _ dE (24 + M.length + E.length) rfl
  have dT' : data.drop (24 + M.length + E.length) = T ++ [] := by rw [dT]; simp
  -- header
  have hh : read_header data = .ok (BinHeader.mk 2 (plural_rule_to_byte pr) M.length es.length T.length ck) := by
    have r4 : read_u8 data 4 = .ok 2 := by rw [hdata]; rfl
    have r6 : read_u8 data 6 = .ok (plural_rule_to_byte pr) := by rw [hdata]; rfl
    have r8 := read_le_u32_of_drop data 8 _ _ hcount d8
    have r12 := read_le_u32_of_drop data 12 _ _ (by omega) d12
    have r16 := read_le_u32_of_drop data 16 _ _ hcklt d16
    have r20 := read_le_u32_of_drop data 20 _ _ (by omega) d20
    have t4 : data.take 4 = BINARY_MAGIC := by rw [hdata]; rfl
    unfold read_header
    rw [if_neg (by simp only [BINARY_HEADER_SIZE_V1]; omega), if_neg (by simp [t4])]
    simp only [r4, Except.bind, header_size_of, BINARY_HEADER_SIZE_V2, METADATA_HEADER_SIZE,
      show ((2 : Nat) = 1) = False by simp, show ((2 : Nat) ≥ 2) = True by simp,
      show ((2 : Nat) ≠ 1 ∧ (2 : Nat) ≠ 2) = False by simp, if_true, if_false, r6, r20, true_and]
    rw [if_neg (by omega), if_neg (by omega)]
    simp only [r8, r12, r16]
  -- metadata
  have hm : read_metadata data
      (BinHeader.mk 2 (plural_rule_to_byte pr) M.length es.length T.length ck) = .ok (loc, fb, note) := by
    rw [hM] at d24
    simp only [List.append_assoc] at d24
    have m0 := read_le_u16_of_drop data 24 _ _ (by omega) d24
    have e26 := drop_of_drop data 24 _ _ d24 26 (by simp [le_u16])
    have m2 := read_le_u16_of_drop data 26 _ _ (by omega) e26
    have e28 := drop_of_drop data 26 _ _ e26 28 (by simp [le_u16])
    have m4 := read_le_u16_of_drop data 28 _ _ (by omega) e28
    have e30 := drop_of_drop data 28 _ _ e28 30 (by simp [le_u16])
    have s1 := substr_of_drop data 30 loc.length _ _ e30 rfl
    have e31 := drop_of_drop data 30 _ _ e30 (30 + loc.length) rfl
    have s2 := substr_of_drop data (30 + loc.length) fb.length _ _ e31 rfl
    have e32 := drop_of_drop data (30 + loc.length) _ _ e31 (30 + loc.length + fb.length) rfl
    have s3 := substr_of_drop data (30 + loc.length + fb.length) note.length _ _ e32 rfl
    unfold read_metadata
    simp only [header_size_of, BINARY_HEADER_SIZE_V2, METADATA_HEADER_SIZE,
      show ((2 : Nat) = 1) = False by simp, if_false]
    rw [if_pos (by omega), if_neg (by omega)]
    simp only [m0, m2, m4, Except.bind]
    rw [if_neg (by omega)]
    simp only [s1, s2, s3]
  -- entries
  have haes := assign_offsets_ok es 0 (by norm_num) hes
  have hent : read_entries data es.length (24 + M.length) [] =
      .ok ((assign_offsets es 0).map entry_info, 24 + M.length + E.length) := by
    have := read_entries_encode data (assign_offsets es 0) (24 + M.length) [] T
      (by rw [dE, hE]) haes
    rw [assign_offsets_length] at this
    rw [this, hE]
    simp
  -- checksum
  have hsum' : computed_checksum data
      (BinHeader.mk 2 (plural_rule_to_byte pr) M.length es.length T.length ck)
      (24 + M.length + E.length) = ck := by
    unfold computed_checksum
    simp only [header_size_of, BINARY_HEADER_SIZE_V2, show ((2 : Nat) = 1) = False by simp,
      if_false]
    rw [if_pos (by omega)]
    have c1 : substr data 24 M.length = M := substr_of_drop data 24 _ _ _ d24 rfl
    have c2 : substr data (24 + M.length) (24 + M.length + E.length - (24 + M.length)) = E :=
      substr_of_drop data _ _ _ _ dE (by omega)
    have c3 : substr data (24 + M.length + E.length) T.length = T :=
      substr_of_drop data _ _ _ _ dT' rfl
    rw [c1, c2, c3, hck]
  -- catalog
  obtain ⟨s', hf, hcat, hl, hf', hn, hp⟩ := fill_entries_assign data (24 + M.length + E.length)
    T.length es 0
    { empty_snapshot with
      meta_plural := plural_rule_of_byte (plural_rule_to_byte pr)
      meta_locale := loc
      meta_fallback := fb
      meta_note := note } [] (by rw [Nat.add_zero, dT', hT]) (by omega) (by omega)
    (by simpa [empty_snapshot] using hnd)
  have hcat' : s'.catalog = es.map (fun e => (entry_key e.base e.variant, e.text)) := by
    rw [hcat]; simp [empty_snapshot]
  have hb := build_of_stages data _ (loc, fb, note) _ _ s' hh hm
    (by simpa [header_size_of, BINARY_HEADER_SIZE_V2] using hent)
    (by simp only; omega) hsum' hf
    (by
      rw [hcat']
      cases es with
      | nil => exact absurd rfl hne
      | cons e es => simp)
  refine ⟨_, hb, hcat', hl, hf', hn, ?_⟩
  simp only at hp ⊢
  rw [hp, plural_rule_byte_round]

theorem export_entries_hex (catalog : List (Str × Str))
    (h : ∀ kv ∈ catalog, is_hex_token (key_parts kv.1).1 = true) :
    export_entries catalog = some (catalog.map entry_of_pair) := by
  induction catalog with
  | nil => rfl
  | cons kv rest ih =>
    have hk := h kv (by simp)
    have hne : (key_parts kv.1).1.isEmpty = false := by
      have := (is_hex_token_length _ hk).1
      cases hb : (key_parts kv.1).1 with
      | nil => rw [hb] at this; simp at this
      | cons a l => rfl
    simp only [export_entries, hne, hk, Bool.not_true, Bool.or_self, Bool.false_eq_true,
      ↓reduceIte, ih (fun x hx => h x (by simp [hx])), List.map_cons, entry_of_pair]

theorem entry_of_pair_ok (kv : Str × Str) (hlow : to_lower_ascii kv.1 = kv.1)
    (hhex : is_hex_token (key_parts kv.1).1 = true) :
    entry_ok (entry_of_pair kv) ∧
      entry_key (entry_of_pair kv).base (entry_of_pair kv).variant = kv.1 := by
  obtain ⟨h1, h2, h3, h4⟩ := key_parts_lower kv.1 hlow
  exact ⟨⟨hhex, h2, h3, h4⟩, h1⟩

/-- C1, amended. Binary round trip for hex-token snapshots: for every snapshot with a
non-empty catalog whose keys are distinct, lower-case and have a hex-token base (with or
without a `{variant}` suffix), with fewer than `2^32` entries, less than `2^32` bytes
of text in total, and locale, fallback and note of at most 65535 bytes each,
`export_binary_catalog` of the engine that holds the snapshot succeeds, and strict
loading of the exported bytes succeeds with a snapshot that has the same catalog (as a
map) and the same locale, fallback, note and plural rule. -/
theorem export_load_round_trip (eng0 : I18nEngine) (s : CatalogSnapshot)
    (hne : s.catalog ≠ []) (hnd : (s.catalog.map Prod.fst).Nodup)
    (hkeys : ∀ kv ∈ s.catalog,
      to_lower_ascii kv.1 = kv.1 ∧ is_hex_token (key_parts kv.1).1 = true)
    (hcount : s.catalog.length < 4294967296)
    (htext : (s.catalog.map (fun kv => kv.2.length)).sum < 4294967296)
    (hmeta : s.meta_locale.length ≤ 65535 ∧ s.meta_fallback.length ≤ 65535 ∧
      s.meta_note.length ≤ 65535) :
    ∃ bytes s', export_binary_catalog (install_snapshot eng0 s) = some bytes ∧
      build_snapshot_from_binary bytes true = .ok s' ∧
      s'.catalog.Perm s.catalog ∧
      s'.meta_locale = s.meta_locale ∧ s'.meta_fallback = s.meta_fallback ∧
      s'.meta_note = s.meta_note ∧ s'.meta_plural = s.meta_plural := by
  obtain ⟨hloc, hfb, hnote⟩ := hmeta
  have hperm := List.perm_insertionSort export_le (s.catalog.map entry_of_pair)
  generalize hes : (s.catalog.map entry_of_pair).insertionSort export_le = es at hperm
  have hok : ∀ e ∈ es, entry_ok e := by
    intro e he
    have := hperm.mem_iff.mp he
    obtain ⟨kv, hkv, rfl⟩ := List.mem_map.mp this
    exact (entry_of_pair_ok kv (hkeys kv hkv).1 (hkeys kv hkv).2).1
  have hkt : (s.catalog.map entry_of_pair).map (fun e => (entry_key e.base e.variant, e.text)) =
      s.catalog := by
    rw [List.map_map]
    conv_rhs => rw [← List.map_id s.catalog]
    apply List.map_congr_left
    intro kv hkv
    have := (entry_of_pair_ok kv (hkeys kv hkv).1 (hkeys kv hkv).2).2
    simp only [Function.comp, id]
    rw [this]
    rfl
  have hkk : (s.catalog.map entry_of_pair).map (fun e => entry_key e.base e.variant) =
      s.catalog.map Prod.fst := by
    rw [List.map_map]
    apply List.map_congr_left
    intro kv hkv
    exact (entry_of_pair_ok kv (hkeys kv hkv).1 (hkeys kv hkv).2).2
  have hlen : es.length = s.catalog.length := by rw [hperm.length_eq]; simp
  have hsum : (es.map (fun e => e.text.length)).sum = (s.catalog.map (fun kv => kv.2.length)).sum := by
    rw [(hperm.map _).sum_eq, List.map_map]
    rfl
  have hnd' : (es.map (fun e => entry_key e.base e.variant)).Nodup := by
    rw [(hperm.map _).nodup_iff, hkk]
    exact hnd
  have hes_ne : es ≠ [] := by
    intro h
    rw [h] at hlen
    exact hne (List.length_eq_zero.mp hlen.symm)
  obtain ⟨s', hb, hcat, h1, h2, h3, h4⟩ := load_layout _ s.meta_plural s.meta_locale
    s.meta_fallback s.meta_note es _ _ _ _ hloc hfb hnote hok hes_ne (by omega) (by omega) hnd'
    rfl rfl rfl rfl rfl
  refine ⟨_, s', ?_, hb, ?_, h1, h2, h3, h4⟩
  · have hMlen : (le_u16 s.meta_locale.length ++ (le_u16 s.meta_fallback.length ++
        (le_u16 s.meta_note.length ++ (s.meta_locale ++ (s.meta_fallback ++ s.meta_note))))).length =
        6 + s.meta_locale.length + s.meta_fallback.length + s.meta_note.length := by
      simp [le_u16]; omega
    have hTlen : (es.flatMap (fun e => e.text)).length = (es.map (fun e => e.text.length)).sum := by
      simp [List.length_flatMap, Function.comp_def]
    unfold export_binary_catalog
    simp only [install_snapshot, export_entries_hex s.catalog (fun kv hkv => (hkeys kv hkv).2), hes,
      Nat.min_eq_left hloc, Nat.min_eq_left hfb, Nat.min_eq_left hnote, List.take_length,
      assign_offsets_length, assign_offsets_text]
    rw [if_neg (by simpa [List.isEmpty_iff] using hne)]
    simp only [List.append_assoc] at hMlen ⊢
    rw [hMlen, Nat.mod_eq_of_lt (show 6 + s.meta_locale.length + s.meta_fallback.length +
      s.meta_note.length < 4294967296 by omega), Nat.mod_eq_of_lt (show es.length < 4294967296 by omega),
      hTlen, Nat.mod_eq_of_lt (show (es.map (fun e => e.text.length)).sum < 4294967296 by omega)]
    rw [if_pos (by omega), if_pos (by omega)]
    simp only [← hMlen, ← hTlen, BINARY_MAGIC, List.cons_append, List.nil_append, List.append_assoc]
  · rw [hcat]
    exact (hperm.map _).trans (by rw [hkt])

set_option maxRecDepth 100000 in
theorem export_load_round_trip_witness :
    (witness_snapshot.catalog ≠ [] ∧ (witness_snapshot.catalog.map Prod.fst).Nodup ∧
      (∀ kv ∈ witness_snapshot.catalog,
        to_lower_ascii kv.1 = kv.1 ∧ is_hex_token (key_parts kv.1).1 = true)) ∧
    ∃ bytes s', export_binary_catalog (install_snapshot I18nEngine.init witness_snapshot) =
        some bytes ∧
      build_snapshot_from_binary bytes true = .ok s' ∧
      s'.catalog.Perm witness_snapshot.catalog ∧
      s'.meta_locale = witness_snapshot.meta_locale ∧
      s'.meta_fallback = witness_snapshot.meta_fallback ∧
      s'.meta_note = witness_snapshot.meta_note ∧
      s'.meta_plural = witness_snapshot.meta_plural :=
  ⟨by decide,
   export_load_round_trip I18nEngine.init witness_snapshot (by decide) (by decide) (by decide)
     (by decide) (by decide) (by decide)⟩

set_option maxRecDepth 100000 in
/-- C1, as stated, fails: strict loading of the text catalog `style_a: color: red`
succeeds and publishes a snapshot with the one token `style_a`, and
`export_binary_catalog` of that engine returns `false`, because the base of the token
is not a hex token. -/
theorem export_rejects_style_snapshot :
    load_txt_catalog I18nEngine.init (utf8 "style_a: color: red") true =
      .done true style_only_engine ∧
    style_only_engine.active_snapshot.map (fun s => s.catalog) =
      some [(utf8 "style_a", utf8 "color: red")] ∧
    export_binary_catalog style_only_engine = none :=
  ⟨by decide, by decide, by decide⟩

/-! ## The resolver is total and its calls obey the depth discipline -/

theorem runs_to_succ {α : Type} (run : Nat → Option (α × List CallRecord)) (r : α)
    (h : runs_to (fun f => run (f + 1)) r) : runs_to run r := by
  obtain ⟨N, hN⟩ := h
  refine ⟨N + 1, fun fuel hf => ?_⟩
  obtain ⟨f, rfl⟩ : ∃ f, fuel = f + 1 := ⟨fuel - 1, by omega⟩
  exact hN f (by omega)

theorem runs_to_pure {α : Type} (r : α) : runs_to (fun _ => some (r, [])) r :=
  ⟨0, fun _ _ => ⟨[], rfl, by simp⟩⟩

theorem runs_to_bind {α β : Type} (run1 : Nat → Option (α × List CallRecord)) (r1 : α)
    (call : List CallRecord) (k : Nat → α → Option (β × List CallRecord)) (r2 : β)
    (h1 : runs_to run1 r1) (hcall : ∀ c ∈ call, call_ok c) (h2 : runs_to (fun f => k f r1) r2) :
    runs_to (fun f => log_bind (run1 f) call (k f)) r2 := by
  obtain ⟨N1, hN1⟩ := h1
  obtain ⟨N2, hN2⟩ := h2
  refine ⟨max N1 N2, fun fuel hf => ?_⟩
  obtain ⟨l1, e1, o1⟩ := hN1 fuel (le_trans (le_max_left _ _) hf)
  obtain ⟨l2, e2, o2⟩ := hN2 fuel (le_trans (le_max_right _ _) hf)
  simp only at e2
  refine ⟨call ++ l1 ++ l2, ?_, ?_⟩
  · simp only [log_bind, e1, e2]
  · intro c hc
    simp only [List.mem_append] at hc
    rcases hc with (hc | hc) | hc
    · exact hcall c hc
    · exact o1 c hc
    · exact o2 c hc

theorem resolve_arg_log_total (state : CatalogSnapshot) (depth : Nat) (hd : depth ≤ 33)
    (hI : ∀ token args seen, runs_to (fun fuel => translate_impl_log fuel state token args seen
      (depth + 1)) (translate_impl state token args seen (depth + 1)))
    (arg : Str) (seen : Seen) :
    runs_to (fun fuel => resolve_arg_log fuel state arg seen depth)
      (resolve_arg state arg seen depth) := by
  have hcall : ∀ c ∈ [CallRecord.mk .resolve_arg depth .translate_impl (depth + 1)],
      call_ok c := by
    intro c hc
    simp only [List.mem_singleton] at hc
    subst hc
    simp only [call_ok]
    refine ⟨Or.inl trivial, ?_, by omega⟩
    intro h
    rcases h with h | h <;> cases h
  apply runs_to_succ
  rw [resolve_arg]
  simp only [resolve_arg_log]
  by_cases h1 : arg.head? = some 61
  · simp only [h1, if_true]
    exact runs_to_pure _
  · simp only [h1, if_false]
    cases hp : parse_variant_suffix (to_lower_ascii arg) <;> simp only [] <;> split
    · exact runs_to_pure _
    · split
      · exact runs_to_pure _
      · exact runs_to_bind _ _ _ _ _ (hI _ _ _) hcall (runs_to_pure _)
    · exact runs_to_pure _
    · split
      · exact runs_to_pure _
      · exact runs_to_bind _ _ _ _ _ (hI _ _ _) hcall (runs_to_pure _)

theorem translate_impl_loop_log_total (state : CatalogSnapshot) (raw : Str) (args : List Str)
    (depth : Nat) (hd : depth ≤ 32)
    (hI : ∀ token args seen, runs_to (fun fuel => translate_impl_log fuel state token args seen
      (depth + 1)) (translate_impl state token args seen (depth + 1)))
    (hA : ∀ arg seen, runs_to (fun fuel => resolve_arg_log fuel state arg seen depth)
      (resolve_arg state arg seen depth))
    (n : Nat) : ∀ (i : Nat) (out : Str) (seen : Seen), raw.length - i ≤ n →
      runs_to (fun fuel => translate_impl_loop_log fuel state raw args depth i out seen)
        (translate_impl_loop state raw args depth i out seen) := by
  have hcI : ∀ c ∈ [CallRecord.mk .translate_impl depth .translate_impl (depth + 1)],
      call_ok c := by
    intro c hc
    simp only [List.mem_singleton] at hc
    subst hc
    simp only [call_ok]
    exact ⟨Or.inl trivial, fun _ => hd, by omega⟩
  have hcA : ∀ c ∈ [CallRecord.mk .translate_impl depth .resolve_arg depth], call_ok c := by
    intro c hc
    simp only [List.mem_singleton] at hc
    subst hc
    simp only [call_ok]
    exact ⟨Or.inr ⟨trivial, trivial, Or.inl trivial⟩, fun _ => hd, by omega⟩
  induction n with
  | zero =>
    intro i out seen h
    have hi : ¬ i < raw.length := by omega
    apply runs_to_succ
    rw [translate_impl_loop]
    simp only [translate_impl_loop_log, hi, if_false]
    exact runs_to_pure _
  | succ n ih =>
    intro i out seen h
    apply runs_to_succ
    rw [translate_impl_loop]
    by_cases hi : i < raw.length
    · simp only [hi, if_true]
      by_cases h64 : raw.getD i 0 = 64
      · simp only [h64, if_true]
        split
        · rename_i ref adv hp
          have hadv := try_parse_adv_pos _ _ _ _ hp
          simp only [translate_impl_loop_log, hi, h64, hp, if_true]
          split
          · exact ih _ _ _ (by omega)
          · exact runs_to_bind _ _ _ _ _ (hI _ _ _) hcI (ih _ _ _ (by omega))
        · rename_i t a hp
          simp only [translate_impl_loop_log, hi, h64, hp, if_true]
          split
          · exact ih _ _ _ (by omega)
          · exact ih _ _ _ (by omega)
      · simp only [translate_impl_loop_log, hi, h64, if_true, if_false]
        have hj := parse_placeholder_index_gt raw (i + 1)
        split
        · split
          · exact runs_to_bind _ _ _ _ _ (hA _ _) hcA (ih _ _ _ (by omega))
          · exact ih _ _ _ (by omega)
        · exact ih _ _ _ (by omega)
    · simp only [translate_impl_loop_log, hi, if_false]
      exact runs_to_pure _

theorem resolve_plain_text_loop_log_total (state : CatalogSnapshot) (raw : Str)
    (args : List Str) (depth : Nat) (hd : depth ≤ 32)
    (hI : ∀ token args seen, runs_to (fun fuel => translate_impl_log fuel state token args seen
      (depth + 1)) (translate_impl state token args seen (depth + 1)))
    (hA : ∀ arg seen, runs_to (fun fuel => resolve_arg_log fuel state arg seen (depth + 1))
      (resolve_arg state arg seen (depth + 1)))
    (n : Nat) : ∀ (i : Nat) (out : Str) (seen : Seen), raw.length - i ≤ n →
      runs_to (fun fuel => resolve_plain_text_loop_log fuel state raw args depth i out seen)
        (resolve_plain_text_loop state raw args depth i out seen) := by
  have hcI : ∀ c ∈ [CallRecord.mk .resolve_plain_text depth .translate_impl (depth + 1)],
      call_ok c := by
    intro c hc
    simp only [List.mem_singleton] at hc
    subst hc
    simp only [call_ok]
    exact ⟨Or.inl trivial, fun _ => hd, by omega⟩
  have hcA : ∀ c ∈ [CallRecord.mk .resolve_plain_text depth .resolve_arg (depth + 1)],
      call_ok c := by
    intro c hc
    simp only [List.mem_singleton] at hc
    subst hc
    simp only [call_ok]
    exact ⟨Or.inl trivial, fun _ => hd, by omega⟩
  induction n with
  | zero =>
    intro i out seen h
    have hi : ¬ i < raw.length := by omega
    apply runs_to_succ
    rw [resolve_plain_text_loop]
    simp only [resolve_plain_text_loop_log, hi, if_false]
    exact runs_to_pure _
  | succ n ih =>
    intro i out seen h
    apply runs_to_succ
    rw [resolve_plain_text_loop]
    by_cases hi : i < raw.length
    · simp only [hi, if_true]
      by_cases h64 : raw.getD i 0 = 64
      · simp only [h64, if_true]
        split
        · rename_i ref adv hp
          have hadv := try_parse_adv_pos _ _ _ _ hp
          simp only [resolve_plain_text_loop_log, hi, h64, hp, if_true]
          split
          · exact ih _ _ _ (by omega)
          · exact runs_to_bind _ _ _ _ _ (hI _ _ _) hcI (ih _ _ _ (by omega))
        · rename_i t a hp
          simp only [resolve_plain_text_loop_log, hi, h64, hp, if_true]
          split
          · exact ih _ _ _ (by omega)
          · exact ih _ _ _ (by omega)
      · simp only [resolve_plain_text_loop_log, hi, h64, if_true, if_false]
        have hj := parse_placeholder_index_gt raw (i + 1)
        split
        · split
          · exact runs_to_bind _ _ _ _ _ (hA _ _) hcA (ih _ _ _ (by omega))
          · exact ih _ _ _ (by omega)
        · exact ih _ _ _ (by omega)
    · simp only [resolve_plain_text_loop_log, hi, if_false]
      exact runs_to_pure _

theorem resolve_plain_text_log_total (state : CatalogSnapshot) (depth : Nat)
    (hI : ∀ token args seen, runs_to (fun fuel => translate_impl_log fuel state token args seen
      (depth + 1)) (translate_impl state token args seen (depth + 1)))
    (hA : depth ≤ 32 → ∀ arg seen,
      runs_to (fun fuel => resolve_arg_log fuel state arg seen (depth + 1))
        (resolve_arg state arg seen (depth + 1)))
    (raw : Str) (args : List Str) (seen : Seen) :
    runs_to (fun fuel => resolve_plain_text_log fuel state raw args seen depth)
      (resolve_plain_text state raw args seen depth) := by
  apply runs_to_succ
  rw [resolve_plain_text]
  by_cases hd : depth > 32
  · simp only [resolve_plain_text_log, hd, if_true]
    exact runs_to_pure _
  · simp only [resolve_plain_text_log, hd, if_false]
    exact resolve_plain_text_loop_log_total state raw args depth (by omega) hI (hA (by omega))
      raw.length 0 [] seen (by omega)

theorem try_build_style_loop_log_total (state : CatalogSnapshot) (args : List Str)
    (depth : Nat) (hd : depth ≤ 33)
    (hP : ∀ raw args seen, runs_to (fun fuel => resolve_plain_text_log fuel state raw args seen
      (depth + 1)) (resolve_plain_text state raw args seen (depth + 1)))
    (props : List StyleProperty) : ∀ (builder : Str) (seen : Seen),
      runs_to (fun fuel => try_build_style_loop_log fuel state args depth props builder seen)
        (try_build_style_loop state args depth props builder seen) := by
  have hcP : ∀ c ∈ [CallRecord.mk .try_build_style_string depth .resolve_plain_text (depth + 1)],
      call_ok c := by
    intro c hc
    simp only [List.mem_singleton] at hc
    subst hc
    simp only [call_ok]
    refine ⟨Or.inl trivial, ?_, by omega⟩
    intro h
    rcases h with h | h <;> cases h
  induction props with
  | nil =>
    intro builder seen
    apply runs_to_succ
    rw [try_build_style_loop]
    simp only [try_build_style_loop_log]
    exact runs_to_pure _
  | cons prop rest ih =>
    intro builder seen
    apply runs_to_succ
    rw [try_build_style_loop]
    simp only [try_build_style_loop_log]
    by_cases h1 : prop.prop_name.isEmpty = true
    · simp only [h1, if_true]
      refine runs_to_bind _ _ _ _ _ (hP _ _ _) hcP ?_
      split
      · exact ih _ _
      · exact ih _ _
    · simp only [h1, if_false]
      exact runs_to_bind _ _ _ _ _ (hP _ _ _) hcP (ih _ _)

theorem try_build_style_string_log_total (state : CatalogSnapshot) (depth : Nat)
    (hd : depth ≤ 33)
    (hP : ∀ raw args seen, runs_to (fun fuel => resolve_plain_text_log fuel state raw args seen
      (depth + 1)) (resolve_plain_text state raw args seen (depth + 1)))
    (token : Str) (args : List Str) (seen : Seen) :
    runs_to (fun fuel => try_build_style_string_log fuel state token args seen depth)
      (try_build_style_string state token args seen depth) := by
  apply runs_to_succ
  rw [try_build_style_string]
  simp only [try_build_style_string_log]
  cases hreg : state.style_registry with
  | none => exact runs_to_pure _
  | some registry =>
    simp only
    cases hprops : map_find registry token with
    | none => exact runs_to_pure _
    | some props =>
      simp only
      split
      · exact runs_to_pure _
      · refine runs_to_bind _ _ _ _ _
          (try_build_style_loop_log_total state args depth hd hP props [] seen) (by simp) ?_
        split
        · exact runs_to_pure _
        · exact runs_to_pure _

theorem translate_impl_log_guard (state : CatalogSnapshot) (depth : Nat) (hd : depth > 32)
    (token : Str) (args : List Str) (seen : Seen) :
    runs_to (fun fuel => translate_impl_log fuel state token args seen depth)
      (translate_impl state token args seen depth) := by
  apply runs_to_succ
  rw [translate_impl]
  simp only [translate_impl_log, hd, if_true]
  exact runs_to_pure _

theorem translate_impl_log_total (state : CatalogSnapshot) (depth : Nat)
    (hI : ∀ token args seen, runs_to (fun fuel => translate_impl_log fuel state token args seen
      (depth + 1)) (translate_impl state token args seen (depth + 1)))
    (hP : ∀ raw args seen, runs_to (fun fuel => resolve_plain_text_log fuel state raw args seen
      (depth + 1)) (resolve_plain_text state raw args seen (depth + 1)))
    (token : Str) (args : List Str) (seen : Seen) :
    runs_to (fun fuel => translate_impl_log fuel state token args seen depth)
      (translate_impl state token args seen depth) := by
  by_cases hd : depth > 32
  · exact translate_impl_log_guard state depth hd token args seen
  apply runs_to_succ
  rw [translate_impl]
  simp only [translate_impl_log, hd, if_false]
  by_cases hin : token ∈ seen
  · simp only [hin, if_true]
    exact runs_to_pure _
  · simp only [hin, if_false]
    have hcS : ∀ c ∈ (if state.style_registry.isSome = true then
        [CallRecord.mk .translate_impl depth .try_build_style_string depth] else []),
        call_ok c := by
      intro c hc
      split at hc
      · simp only [List.mem_singleton] at hc
        subst hc
        simp only [call_ok]
        exact ⟨Or.inr ⟨trivial, trivial, Or.inr trivial⟩, fun _ => by omega, by omega⟩
      · simp at hc
    refine runs_to_bind _ _ _ _ _
      (try_build_style_string_log_total state depth (by omega) hP token args (token :: seen))
      hcS ?_
    cases hs : try_build_style_string state token args (token :: seen) depth with
    | mk so sn =>
      cases so with
      | some style_out => exact runs_to_pure _
      | none =>
        simp only
        cases hm : map_find state.catalog token with
        | none => exact runs_to_pure _
        | some raw =>
          exact runs_to_bind _ _ _ _ _
            (translate_impl_loop_log_total state raw args depth (by omega) hI
              (resolve_arg_log_total state depth (by omega) hI) raw.length 0 [] sn (by omega))
            (by simp) (runs_to_pure _)

/-- Every resolver function returns, with enough fuel, the result of the resolver, and
all the calls it makes obey the depth discipline. -/
theorem resolver_runs (state : CatalogSnapshot) (n : Nat) : ∀ depth, 34 - depth ≤ n →
    (∀ token args seen, runs_to (fun fuel => translate_impl_log fuel state token args seen depth)
      (translate_impl state token args seen depth)) ∧
    (∀ raw args seen, runs_to (fun fuel => resolve_plain_text_log fuel state raw args seen depth)
      (resolve_plain_text state raw args seen depth)) ∧
    (depth ≤ 33 → ∀ arg seen, runs_to (fun fuel => resolve_arg_log fuel state arg seen depth)
      (resolve_arg state arg seen depth)) := by
  induction n with
  | zero =>
    intro depth h
    have hd : depth > 32 := by omega
    refine ⟨translate_impl_log_guard state depth hd, ?_, fun h' => by omega⟩
    exact resolve_plain_text_log_total state depth
      (translate_impl_log_guard state (depth + 1) (by omega)) (fun h' => by omega)
  | succ n ih =>
    intro depth h
    obtain ⟨hI, hP, hA⟩ := ih (depth + 1) (by omega)
    exact ⟨translate_impl_log_total state depth hI hP,
      resolve_plain_text_log_total state depth hI (fun h' => hA (by omega)),
      fun h' => resolve_arg_log_total state depth h' hI⟩

/-- C4, amended. The resolver is total and bounded: for every engine (whatever the
reference graph of its snapshot), every token, count and argument list, a run of
`translate` and of `translate_plural` with enough fuel returns the string that the
function returns, and every call made among `translate_impl`, `resolve_plain_text`,
`try_build_style_string` and `resolve_arg` obeys the depth discipline `call_ok`: the
callee gets the depth of the caller plus one, except for the calls from
`translate_impl` to `try_build_style_string` and to `resolve_arg`, which pass the depth
on unchanged; `translate_impl` and `resolve_plain_text` make calls only at a depth of
at most 32; and no call passes a depth above 34. -/
theorem resolver_total_bounded (eng : I18nEngine) (token_in : Str) (count : Int)
    (args : List Str) :
    (∃ N, ∀ fuel, N ≤ fuel → ∃ log,
      translate_log fuel eng token_in args = some (translate eng token_in args, log) ∧
        ∀ c ∈ log, call_ok c) ∧
    (∃ N, ∀ fuel, N ≤ fuel → ∃ log,
      translate_plural_log fuel eng token_in count args =
        some (translate_plural eng token_in count args, log) ∧
        ∀ c ∈ log, call_ok c) := by
  constructor
  · show runs_to (fun fuel => translate_log fuel eng token_in args) (translate eng token_in args)
    unfold translate
    simp only [translate_log]
    cases hs : eng.active_snapshot with
    | none => exact runs_to_pure _
    | some snapshot =>
      exact runs_to_bind _ _ _ _ _ ((resolver_runs snapshot 34 0 (by omega)).1 _ _ _) (by simp)
        (runs_to_pure _)
  · show runs_to (fun fuel => translate_plural_log fuel eng token_in count args)
      (translate_plural eng token_in count args)
    unfold translate_plural
    simp only [translate_plural_log]
    cases hs : eng.active_snapshot with
    | none => exact runs_to_pure _
    | some snapshot =>
      exact runs_to_bind _ _ _ _ _ ((resolver_runs snapshot 34 0 (by omega)).1 _ _ _) (by simp)
        (runs_to_pure _)

set_option maxRecDepth 100000 in
/-- C4, as stated, fails in its second part: in the run of `translate("abcdef", ["x"])`
on the snapshot loaded from the text catalog `abcdef: %0`, which returns `x`,
`translate_impl` at depth 0 calls `try_build_style_string` with depth 0 and
`resolve_arg` with depth 0: recursive calls that do not increase the depth. -/
theorem call_without_depth_increase :
    translate_log 4 placeholder_engine (utf8 "abcdef") [utf8 "x"] =
      some (utf8 "x",
        [CallRecord.mk .translate_impl 0 .try_build_style_string 0,
         CallRecord.mk .translate_impl 0 .resolve_arg 0]) ∧
    translate placeholder_engine (utf8 "abcdef") [utf8 "x"] = utf8 "x" ∧
    ¬ (CallRecord.mk .translate_impl 0 .resolve_arg 0).caller_depth <
      (CallRecord.mk .translate_impl 0 .resolve_arg 0).callee_depth :=
  ⟨by decide, translate_fuel_sound 4 _ _ _ _ (by decide), by decide⟩

/-! ## The style scenario -/

set_option maxRecDepth 100000 in
/-- C11, as stated, fails: after strict loading of the text catalog
`style_box: color: #fff; @utility; mass: 2.5`, `translate("style_box", [])` is not the
string `utility color: #fff; mass: 2.5;`: the bare fragment keeps its place between the
two declarations and keeps its `@`, because `utility` is not a reference (it is neither
a hex token nor a style token). -/
theorem style_scenario_not_fragment_first :
    load_txt_catalog I18nEngine.init (utf8 "style_box: color: #fff; @utility; mass: 2.5") true =
      .done true style_box_engine ∧
    translate style_box_engine (utf8 "style_box") [] ≠ utf8 "utility color: #fff; mass: 2.5;" := by
  refine ⟨by decide, ?_⟩
  rw [translate_fuel_sound 20 style_box_engine (utf8 "style_box") []
    (utf8 "color: #fff; @utility mass: 2.5;") (by decide)]
  decide

set_option maxRecDepth 100000 in
/-- C11, amended: after strict loading of the text catalog
`style_box: color: #fff; @utility; mass: 2.5`, the style registry holds for `style_box`
the three properties `color` = `#fff`, the bare fragment `@utility` and `mass` = `2.5`
in declaration order, and `translate("style_box", [])` returns exactly
`color: #fff; @utility mass: 2.5;`. -/
theorem style_scenario_declaration_order :
    load_txt_catalog I18nEngine.init (utf8 "style_box: color: #fff; @utility; mass: 2.5") true =
      .done true style_box_engine ∧
    (style_box_engine.active_snapshot.bind (fun s => s.style_registry)).map
        (fun reg => (map_find reg (utf8 "style_box")).map
          (fun props => props.map (fun p => (p.prop_name, p.value)))) =
      some (some [(utf8 "color", utf8 "#fff"), ([], utf8 "@utility"), (utf8 "mass", utf8 "2.5")]) ∧
    translate style_box_engine (utf8 "style_box") [] = utf8 "color: #fff; @utility mass: 2.5;" :=
  ⟨by decide, by decide, translate_fuel_sound 20 _ _ _ _ (by decide)⟩

/-! ## Loading: atomicity and format sniffing -/

theorem load_failed_spec (eng : I18nEngine) (err : Str) (ok : Bool) (eng' : I18nEngine)
    (h : load_failed eng err = .done ok eng') :
    ok = false ∧ eng'.active_snapshot = eng.active_snapshot ∧
      eng'.meta_locale = eng.meta_locale ∧ eng'.meta_fallback = eng.meta_fallback ∧
      eng'.meta_note = eng.meta_note ∧ eng'.meta_plural = eng.meta_plural ∧
      eng'.last_error ≠ [] := by
  unfold load_failed at h
  simp only [LoadOutcome.done.injEq] at h
  obtain ⟨h1, h2⟩ := h
  subst h1 h2
  refine ⟨rfl, rfl, rfl, rfl, rfl, rfl, ?_⟩
  simp only
  split
  · decide
  · rename_i hne
    intro he
    rw [he] at hne
    exact hne rfl

/-- The body of `load_txt_catalog` by cases: empty input, binary, text. -/
theorem load_txt_catalog_cases (eng : I18nEngine) (src : Str) (strict : Bool) :
    load_txt_catalog eng src strict =
      if src.isEmpty then
        .done false { eng with last_error := utf8 "src is empty" }
      else if looks_like_binary_catalog src then load_as_binary eng src strict
      else load_as_text eng src strict := by
  unfold load_txt_catalog load_as_binary load_as_text load_failed
  rfl

/-- C17. Load atomicity: when `load_txt_catalog` returns `false`, the published
snapshot and the values of the metadata getters are what they were before the call and
`get_last_error` is not empty; when it returns `true`, the engine holds a snapshot and
its metadata, and `get_last_error` is empty.  So a new snapshot is installed only on
success. -/
theorem load_atomicity (eng : I18nEngine) (src : Str) (strict : Bool) (ok : Bool)
    (eng' : I18nEngine) (h : load_txt_catalog eng src strict = .done ok eng') :
    (ok = false →
      eng'.active_snapshot = eng.active_snapshot ∧
      get_meta_locale eng' = get_meta_locale eng ∧
      get_meta_fallback eng' = get_meta_fallback eng ∧
      get_meta_note eng' = get_meta_note eng ∧
      get_meta_plural_rule eng' = get_meta_plural_rule eng ∧
      get_last_error eng' ≠ []) ∧
    (ok = true →
      ∃ snapshot, eng'.active_snapshot = some snapshot ∧
        get_meta_locale eng' = snapshot.meta_locale ∧
        get_meta_fallback eng' = snapshot.meta_fallback ∧
        get_meta_note eng' = snapshot.meta_note ∧
        get_meta_plural_rule eng' = snapshot.meta_plural ∧
        get_last_error eng' = []) := by
  rw [load_txt_catalog_cases] at h
  simp only [get_meta_locale, get_meta_fallback, get_meta_note, get_meta_plural_rule,
    get_last_error]
  split at h
  · simp only [LoadOutcome.done.injEq] at h
    obtain ⟨h1, h2⟩ := h
    subst h1 h2
    exact ⟨fun _ => ⟨rfl, rfl, rfl, rfl, rfl, (by show utf8 "src is empty" ≠ []; decide)⟩,
      (fun hc => by cases hc)⟩
  · split at h
    · unfold load_as_binary at h
      split at h
      · simp only [LoadOutcome.done.injEq] at h
        obtain ⟨h1, h2⟩ := h
        subst h1 h2
        exact ⟨(fun hc => by cases hc), (fun _ => ⟨_, rfl, rfl, rfl, rfl, rfl, rfl⟩)⟩
      · obtain ⟨hk, h1, h2, h3, h4, h5, h6⟩ := load_failed_spec _ _ _ _ h
        subst hk
        exact ⟨(fun _ => ⟨h1, h2, h3, h4, h5, h6⟩), (fun hc => by cases hc)⟩
      · cases h
    · unfold load_as_text at h
      split at h
      · simp only [LoadOutcome.done.injEq] at h
        obtain ⟨h1, h2⟩ := h
        subst h1 h2
        exact ⟨(fun hc => by cases hc), (fun _ => ⟨_, rfl, rfl, rfl, rfl, rfl, rfl⟩)⟩
      · obtain ⟨hk, h1, h2, h3, h4, h5, h6⟩ := load_failed_spec _ _ _ _ h
        subst hk
        exact ⟨(fun _ => ⟨h1, h2, h3, h4, h5, h6⟩), (fun hc => by cases hc)⟩

set_option maxRecDepth 100000 in
theorem load_atomicity_witness :
    load_txt_catalog placeholder_engine (utf8 "abcdef: a\nabcdef: b") false =
      .done false (load_txt_catalog placeholder_engine (utf8 "abcdef: a\nabcdef: b")
        false).engine ∧
    ((false = false →
      (load_txt_catalog placeholder_engine (utf8 "abcdef: a\nabcdef: b")
        false).engine.active_snapshot = placeholder_engine.active_snapshot ∧
      get_meta_locale (load_txt_catalog placeholder_engine (utf8 "abcdef: a\nabcdef: b")
        false).engine = get_meta_locale placeholder_engine ∧
      get_meta_fallback (load_txt_catalog placeholder_engine (utf8 "abcdef: a\nabcdef: b")
        false).engine = get_meta_fallback placeholder_engine ∧
      get_meta_note (load_txt_catalog placeholder_engine (utf8 "abcdef: a\nabcdef: b")
        false).engine = get_meta_note placeholder_engine ∧
      get_meta_plural_rule (load_txt_catalog placeholder_engine (utf8 "abcdef: a\nabcdef: b")
        false).engine = get_meta_plural_rule placeholder_engine ∧
      get_last_error (load_txt_catalog placeholder_engine (utf8 "abcdef: a\nabcdef: b")
        false).engine ≠ []) ∧
    (false = true →
      ∃ snapshot, (load_txt_catalog placeholder_engine (utf8 "abcdef: a\nabcdef: b")
          false).engine.active_snapshot = some snapshot ∧
        get_meta_locale (load_txt_catalog placeholder_engine (utf8 "abcdef: a\nabcdef: b")
          false).engine = snapshot.meta_locale ∧
        get_meta_fallback (load_txt_catalog placeholder_engine (utf8 "abcdef: a\nabcdef: b")
          false).engine = snapshot.meta_fallback ∧
        get_meta_note (load_txt_catalog placeholder_engine (utf8 "abcdef: a\nabcdef: b")
          false).engine = snapshot.meta_note ∧
        get_meta_plural_rule (load_txt_catalog placeholder_engine (utf8 "abcdef: a\nabcdef: b")
          false).engine = snapshot.meta_plural ∧
        get_last_error (load_txt_catalog placeholder_engine (utf8 "abcdef: a\nabcdef: b")
          false).engine = [])) :=
  ⟨by decide,
   load_atomicity placeholder_engine (utf8 "abcdef: a\nabcdef: b") false false _ (by decide)⟩

theorem looks_like_binary_catalog_iff (src : Str) :
    looks_like_binary_catalog src = true ↔
      20 ≤ src.length ∧ src.take 4 = utf8 "I18N" ∧ (src.getD 4 0 = 1 ∨ src.getD 4 0 = 2) := by
  have hm : utf8 "I18N" = BINARY_MAGIC := by decide
  unfold looks_like_binary_catalog
  rw [hm]
  simp only [BINARY_HEADER_SIZE_V1]
  by_cases h1 : src.length < 20
  · simp only [h1, if_true]
    constructor
    · intro h; cases h
    · intro h; omega
  · simp only [h1, if_false]
    by_cases h2 : src.take 4 ≠ BINARY_MAGIC
    · rw [if_pos h2]
      constructor
      · intro h; cases h
      · intro h; exact absurd h.2.1 h2
    · rw [if_neg h2]
      simp only [ne_eq, not_not] at h2
      simp only [Bool.or_eq_true, decide_eq_true_eq]
      constructor
      · intro h; exact ⟨by omega, h2, h⟩
      · intro h; exact h.2.2

/-- C19, amended. Format sniffing: `load_txt_catalog` loads a non-empty input as a
binary catalog exactly when it has at least 20 bytes, its first four bytes are `I18N`
and its fifth byte is 1 or 2; every other non-empty input is loaded as text (after the
byte order mark is stripped). -/
theorem format_sniffing (eng : I18nEngine) (src : Str) (strict : Bool) (hne : src ≠ []) :
    (20 ≤ src.length ∧ src.take 4 = utf8 "I18N" ∧ (src.getD 4 0 = 1 ∨ src.getD 4 0 = 2) →
      load_txt_catalog eng src strict = load_as_binary eng src strict) ∧
    (¬ (20 ≤ src.length ∧ src.take 4 = utf8 "I18N" ∧ (src.getD 4 0 = 1 ∨ src.getD 4 0 = 2)) →
      load_txt_catalog eng src strict = load_as_text eng src strict) := by
  have he : src.isEmpty = false := by
    cases src with
    | nil => exact absurd rfl hne
    | cons a l => rfl
  rw [load_txt_catalog_cases, ← looks_like_binary_catalog_iff]
  simp only [he, Bool.false_eq_true, if_false]
  constructor
  · intro h; rw [if_pos h]
  · intro h; rw [if_neg h]

set_option maxRecDepth 100000 in
theorem format_sniffing_witness :
    utf8 "abcdef: %0" ≠ [] ∧
    ((20 ≤ (utf8 "abcdef: %0").length ∧ (utf8 "abcdef: %0").take 4 = utf8 "I18N" ∧
        ((utf8 "abcdef: %0").getD 4 0 = 1 ∨ (utf8 "abcdef: %0").getD 4 0 = 2) →
      load_txt_catalog I18nEngine.init (utf8 "abcdef: %0") true =
        load_as_binary I18nEngine.init (utf8 "abcdef: %0") true) ∧
    (¬ (20 ≤ (utf8 "abcdef: %0").length ∧ (utf8 "abcdef: %0").take 4 = utf8 "I18N" ∧
        ((utf8 "abcdef: %0").getD 4 0 = 1 ∨ (utf8 "abcdef: %0").getD 4 0 = 2)) →
      load_txt_catalog I18nEngine.init (utf8 "abcdef: %0") true =
        load_as_text I18nEngine.init (utf8 "abcdef: %0") true)) :=
  ⟨by decide, format_sniffing I18nEngine.init (utf8 "abcdef: %0") true (by decide)⟩

set_option maxRecDepth 100000 in
/-- C19, as stated, fails for short inputs: the five bytes `I18N` and `1` start with the
magic and the version 1, but `load_txt_catalog` loads them as text (the strict text
parser reports that line 1 has no colon), not as a binary catalog (whose reader would
report a header that is too short). -/
theorem short_magic_loaded_as_text :
    (([73, 49, 56, 78, 1] : Str).take 4 = utf8 "I18N" ∧ ([73, 49, 56, 78, 1] : Str).getD 4 0 = 1) ∧
    load_txt_catalog I18nEngine.init [73, 49, 56, 78, 1] true =
      load_as_text I18nEngine.init [73, 49, 56, 78, 1] true ∧
    load_txt_catalog I18nEngine.init [73, 49, 56, 78, 1] true =
      .done false { I18nEngine.init with
        last_error := utf8 "Parse-Fehler in Zeile 1: Kein ':' gefunden." } ∧
    load_as_binary I18nEngine.init [73, 49, 56, 78, 1] true =
      .done false { I18nEngine.init with last_error := utf8 "Binär-Format: Header zu kurz." } ∧
    load_txt_catalog I18nEngine.init [73, 49, 56, 78, 1] true ≠
      load_as_binary I18nEngine.init [73, 49, 56, 78, 1] true :=
  ⟨by decide, by decide, by decide, by decide, by decide⟩

/-! ## Export: the last-error slot -/

/-- The call `export_binary_catalog` leaves the engine, and with it the last-error
slot, as it was. -/
theorem export_call_engine (eng : I18nEngine) (path_null file_ok : Bool) :
    (export_binary_catalog_call eng path_null file_ok).2 = eng := by
  unfold export_binary_catalog_call
  split
  · rfl
  · split <;> rfl

/-- C18, as stated, fails: on a freshly constructed engine (no snapshot loaded, the
last-error slot empty) the call `export_binary_catalog(path)` with a non-null path
returns `false`, and so does the call with a null path, and after either call
`get_last_error` is still the empty string. -/
theorem export_failure_without_message :
    (export_binary_catalog_call I18nEngine.init false true).1 = false ∧
    get_last_error (export_binary_catalog_call I18nEngine.init false true).2 = [] ∧
    (export_binary_catalog_call I18nEngine.init true true).1 = false ∧
    get_last_error (export_binary_catalog_call I18nEngine.init true true).2 = [] :=
  ⟨by decide, by decide, by decide, by decide⟩

/-! ## The missing-reference sentinel -/

theorem try_parse_true_at (s : Str) (i : Nat) (tok : Str) (adv : Nat)
    (h : try_parse_inline_token s i = (true, tok, adv)) : i < s.length ∧ s.getD i 0 = 64 := by
  unfold try_parse_inline_token at h
  split at h
  · simp at h
  · rename_i hc
    simp only [not_or, not_le, ne_eq, not_not, ge_iff_le] at hc
    exact hc

/-- What one production appends does not depend on the output so far, and the set `seen`
comes back as it was. -/
theorem emit_item_out (state : CatalogSnapshot) (args : List Str) (dr da : Nat)
    (acc : Str × Seen) (item : Item) :
    emit_item state args dr da acc item =
      (acc.1 ++ (emit_item state args dr da ([], acc.2) item).1, acc.2) := by
  cases item with
  | ref tok =>
    simp only [emit_item]
    split
    · simp
    · simp only [List.nil_append, translate_impl_seen_eq]
  | at_sign => simp [emit_item]
  | placeholder idx =>
    simp only [emit_item]
    split
    · simp only [List.nil_append, resolve_arg_seen_eq]
    · simp
  | byte c => simp [emit_item]

/-- The output of a stretch of productions: the output so far, then what the stretch
emits from an empty output; the set `seen` comes back as it was. -/
theorem emit_fold_out (state : CatalogSnapshot) (args : List Str) (dr da : Nat)
    (items : List Item) : ∀ acc : Str × Seen,
    items.foldl (emit_item state args dr da) acc =
      (acc.1 ++ (items.foldl (emit_item state args dr da) ([], acc.2)).1, acc.2) := by
  induction items with
  | nil => intro acc; simp
  | cons it rest ih =>
    intro acc
    simp only [List.foldl_cons]
    rw [ih (emit_item state args dr da acc it),
      ih (emit_item state args dr da ([], acc.2) it), emit_item_out state args dr da acc it]
    simp only [List.append_assoc]
    have h2 : (emit_item state args dr da ([], acc.2) it).2 = acc.2 := by
      rw [emit_item_out]
    rw [h2]

/-- The output of productions among which one is a reference to a token that is not in
the catalog: what the productions before it emit, the sentinel, what the productions
after it emit. -/
theorem emit_fold_missing (state : CatalogSnapshot) (args : List Str) (dr da : Nat)
    (R : Str) (hmiss : map_find state.catalog R = none) (pre post : List Item) (seen : Seen) :
    (pre ++ Item.ref R :: post).foldl (emit_item state args dr da) ([], seen) =
      ((pre.foldl (emit_item state args dr da) ([], seen)).1 ++ S_MISSING R ++
        (post.foldl (emit_item state args dr da) ([], seen)).1, seen) := by
  have hnone : (map_find state.catalog R).isNone = true := by rw [hmiss]; rfl
  rw [List.foldl_append, List.foldl_cons]
  rw [emit_fold_out state args dr da post]
  have hpre := emit_fold_out state args dr da pre ([], seen)
  have h1 : emit_item state args dr da (pre.foldl (emit_item state args dr da) ([], seen))
      (Item.ref R) =
      ((pre.foldl (emit_item state args dr da) ([], seen)).1 ++ S_MISSING R, seen) := by
    simp only [emit_item, hnone, if_true]
    rw [hpre]
  rw [h1]

theorem translate_impl_loop_out (state : CatalogSnapshot) (raw : Str) (args : List Str)
    (depth i : Nat) (out : Str) (seen : Seen) :
    translate_impl_loop state raw args depth i out seen =
      (out ++ (translate_impl_loop state raw args depth i [] seen).1, seen) := by
  rw [translate_impl_loop_eq state raw args depth (raw.length - i) i out seen le_rfl,
    translate_impl_loop_eq state raw args depth (raw.length - i) i [] seen le_rfl]
  exact emit_fold_out state args _ _ _ (out, seen)

theorem resolve_plain_text_loop_out (state : CatalogSnapshot) (raw : Str) (args : List Str)
    (depth i : Nat) (out : Str) (seen : Seen) :
    resolve_plain_text_loop state raw args depth i out seen =
      (out ++ (resolve_plain_text_loop state raw args depth i [] seen).1, seen) := by
  rw [resolve_plain_text_loop_eq state raw args depth (raw.length - i) i out seen le_rfl,
    resolve_plain_text_loop_eq state raw args depth (raw.length - i) i [] seen le_rfl]
  exact emit_fold_out state args _ _ _ (out, seen)

/-- C14. Missing-reference sentinel: for every snapshot and every template `raw`, an
inline reference whose token `R` (in its parsed form) is not a key of the catalog puts
exactly `⟦MISSING:@R⟧` into the returned output.  Where the scan stands at such a
reference (index `i`, output `out` so far), the loops of `translate_impl` and of
`resolve_plain_text` return `out`, then the sentinel, then what the scan from the index
`i + adv` after the reference emits, with the set `seen` as it was; the step makes no
call among the resolver functions (the run with the call log goes on with the same
log).  For the whole template: when the reference is one of its productions, the loops,
`resolve_plain_text` and `translate_impl` of a token with this template return what the
productions before the reference emit, then the sentinel, then what the productions
after it emit. -/
theorem missing_reference_sentinel (state : CatalogSnapshot) (raw : Str) (args : List Str)
    (depth i : Nat) (out : Str) (seen : Seen) (R : Str) (adv fuel : Nat)
    (hp : try_parse_inline_token raw i = (true, R, adv))
    (hmiss : map_find state.catalog R = none) :
    S_MISSING R = utf8 "⟦MISSING:@" ++ R ++ utf8 "⟧" ∧ 1 ≤ adv ∧
    translate_impl_loop state raw args depth i out seen =
      translate_impl_loop state raw args depth (i + adv) (out ++ S_MISSING R) seen ∧
    resolve_plain_text_loop state raw args depth i out seen =
      resolve_plain_text_loop state raw args depth (i + adv) (out ++ S_MISSING R) seen ∧
    translate_impl_loop_log (fuel + 1) state raw args depth i out seen =
      translate_impl_loop_log fuel state raw args depth (i + adv) (out ++ S_MISSING R) seen ∧
    resolve_plain_text_loop_log (fuel + 1) state raw args depth i out seen =
      resolve_plain_text_loop_log fuel state raw args depth (i + adv) (out ++ S_MISSING R)
        seen ∧
    translate_impl_loop state raw args depth i out seen =
      (out ++ S_MISSING R ++ (translate_impl_loop state raw args depth (i + adv) [] seen).1,
        seen) ∧
    resolve_plain_text_loop state raw args depth i out seen =
      (out ++ S_MISSING R ++ (resolve_plain_text_loop state raw args depth (i + adv) [] seen).1,
        seen) ∧
    (∀ pre post, lex_template raw = pre ++ Item.ref R :: post →
      translate_impl_loop state raw args depth 0 [] seen =
        ((pre.foldl (emit_item state args (depth + 1) depth) ([], seen)).1 ++ S_MISSING R ++
          (post.foldl (emit_item state args (depth + 1) depth) ([], seen)).1, seen) ∧
      resolve_plain_text_loop state raw args depth 0 [] seen =
        ((pre.foldl (emit_item state args (depth + 1) (depth + 1)) ([], seen)).1 ++
          S_MISSING R ++
          (post.foldl (emit_item state args (depth + 1) (depth + 1)) ([], seen)).1, seen) ∧
      (depth ≤ 32 →
        resolve_plain_text state raw args seen depth =
          ((pre.foldl (emit_item state args (depth + 1) (depth + 1)) ([], seen)).1 ++
            S_MISSING R ++
            (post.foldl (emit_item state args (depth + 1) (depth + 1)) ([], seen)).1, seen)) ∧
      ∀ token, depth ≤ 32 → token ∉ seen →
        (∀ registry, state.style_registry = some registry → map_find registry token = none) →
        map_find state.catalog token = some raw →
        translate_impl state token args seen depth =
          ((pre.foldl (emit_item state args (depth + 1) depth) ([], token :: seen)).1 ++
            S_MISSING R ++
            (post.foldl (emit_item state args (depth + 1) depth) ([], token :: seen)).1,
            seen)) := by
  obtain ⟨hi, hat⟩ := try_parse_true_at raw i R adv hp
  have hnone : (map_find state.catalog R).isNone = true := by rw [hmiss]; rfl
  have hstep1 : translate_impl_loop state raw args depth i out seen =
      translate_impl_loop state raw args depth (i + adv) (out ++ S_MISSING R) seen := by
    conv_lhs => rw [translate_impl_loop]
    simp only [hi, hat, if_true]
    split
    · rename_i ref adv' hp'
      rw [hp] at hp'
      simp only [Prod.mk.injEq, true_and] at hp'
      obtain ⟨h1, h2⟩ := hp'
      subst h1 h2
      simp only [hnone, if_true]
    · rename_i t a hp'
      rw [hp] at hp'
      simp at hp'
  have hstep2 : resolve_plain_text_loop state raw args depth i out seen =
      resolve_plain_text_loop state raw args depth (i + adv) (out ++ S_MISSING R) seen := by
    conv_lhs => rw [resolve_plain_text_loop]
    simp only [hi, hat, if_true]
    split
    · rename_i ref adv' hp'
      rw [hp] at hp'
      simp only [Prod.mk.injEq, true_and] at hp'
      obtain ⟨h1, h2⟩ := hp'
      subst h1 h2
      simp only [hnone, if_true]
    · rename_i t a hp'
      rw [hp] at hp'
      simp at hp'
  refine ⟨rfl, try_parse_adv_pos _ _ _ _ hp, hstep1, hstep2, ?_, ?_, ?_, ?_, ?_⟩
  · simp only [translate_impl_loop_log, hi, hat, hp, hnone, if_true]
  · simp only [resolve_plain_text_loop_log, hi, hat, hp, hnone, if_true]
  · rw [hstep1, translate_impl_loop_out]
  · rw [hstep2, resolve_plain_text_loop_out]
  · intro pre post hlex
    have h1 : translate_impl_loop state raw args depth 0 [] seen =
        ((pre.foldl (emit_item state args (depth + 1) depth) ([], seen)).1 ++ S_MISSING R ++
          (post.foldl (emit_item state args (depth + 1) depth) ([], seen)).1, seen) := by
      rw [translate_impl_loop_eq state raw args depth raw.length 0 [] seen (by omega)]
      have := hlex
      unfold lex_template at this
      rw [this]
      exact emit_fold_missing state args _ _ R hmiss pre post seen
    have h2 : resolve_plain_text_loop state raw args depth 0 [] seen =
        ((pre.foldl (emit_item state args (depth + 1) (depth + 1)) ([], seen)).1 ++
          S_MISSING R ++
          (post.foldl (emit_item state args (depth + 1) (depth + 1)) ([], seen)).1, seen) := by
      rw [resolve_plain_text_loop_eq state raw args depth raw.length 0 [] seen (by omega)]
      have := hlex
      unfold lex_template at this
      rw [this]
      exact emit_fold_missing state args _ _ R hmiss pre post seen
    refine ⟨h1, h2, ?_, ?_⟩
    · intro hd
      rw [resolve_plain_text, if_neg (by omega)]
      exact h2
    · intro token hd hs hreg hraw
      rw [translate_impl_plain_token state token args seen depth raw hd hs hreg hraw, hlex,
        emit_fold_missing state args _ _ R hmiss pre post (token :: seen)]

set_option maxRecDepth 100000 in
theorem missing_reference_sentinel_witness :
    (try_parse_inline_token (utf8 "see @bbbbbb") 4 = (true, utf8 "bbbbbb", 7) ∧
      map_find missing_ref_snapshot.catalog (utf8 "bbbbbb") = none ∧
      map_find missing_ref_snapshot.catalog (utf8 "aaaaaa") = some (utf8 "see @bbbbbb") ∧
      lex_template (utf8 "see @bbbbbb") =
        (utf8 "see ").map Item.byte ++ Item.ref (utf8 "bbbbbb") :: [] ∧
      translate missing_ref_engine (utf8 "aaaaaa") [] = utf8 "see ⟦MISSING:@bbbbbb⟧") ∧
    translate_impl_loop missing_ref_snapshot (utf8 "see @bbbbbb") [] 0 4 (utf8 "see ") [] =
      (utf8 "see " ++ S_MISSING (utf8 "bbbbbb") ++
        (translate_impl_loop missing_ref_snapshot (utf8 "see @bbbbbb") [] 0 (4 + 7) [] []).1,
        []) ∧
    resolve_plain_text_loop missing_ref_snapshot (utf8 "see @bbbbbb") [] 0 4 (utf8 "see ") [] =
      (utf8 "see " ++ S_MISSING (utf8 "bbbbbb") ++
        (resolve_plain_text_loop missing_ref_snapshot (utf8 "see @bbbbbb") [] 0 (4 + 7) []
          []).1, []) ∧
    translate_impl missing_ref_snapshot (utf8 "aaaaaa") [] [] 0 =
      ((((utf8 "see ").map Item.byte).foldl (emit_item missing_ref_snapshot [] (0 + 1) 0)
          ([], [utf8 "aaaaaa"])).1 ++ S_MISSING (utf8 "bbbbbb") ++
        (([] : List Item).foldl (emit_item missing_ref_snapshot [] (0 + 1) 0)
          ([], [utf8 "aaaaaa"])).1, []) :=
  ⟨⟨by decide, by decide, by decide, by decide, translate_fuel_sound 20 _ _ _ _ (by decide)⟩,
    (missing_reference_sentinel missing_ref_snapshot (utf8 "see @bbbbbb") [] 0 4 (utf8 "see ")
      [] (utf8 "bbbbbb") 7 3 (by decide) (by decide)).2.2.2.2.2.2.1,
    (missing_reference_sentinel missing_ref_snapshot (utf8 "see @bbbbbb") [] 0 4 (utf8 "see ")
      [] (utf8 "bbbbbb") 7 3 (by decide) (by decide)).2.2.2.2.2.2.2.1,
    ((missing_reference_sentinel missing_ref_snapshot (utf8 "see @bbbbbb") [] 0 4
      (utf8 "see ") [] (utf8 "bbbbbb") 7 3 (by decide) (by decide)).2.2.2.2.2.2.2.2
        ((utf8 "see ").map Item.byte) [] (by decide)).2.2.2 (utf8 "aaaaaa") (by decide)
      (by decide)
      (fun registry h => by
        have h0 : missing_ref_snapshot.style_registry = some [] := by decide
        rw [h0] at h
        cases h
        rfl)
      (by decide)⟩

/-! ## Templates with one hex reference -/

theorem is_hex_token_all (B : Str) (h : is_hex_token B = true) : ∀ c ∈ B, is_xdigit c = true := by
  unfold is_hex_token at h
  split at h
  · simp at h
  · simpa [List.all_eq_true] using h

theorem xdigit_facts (c : Nat) (h : is_xdigit c = true) :
    c ≠ 64 ∧ c ≠ 37 ∧ tolower c ≠ 115 ∧ c ≠ 123 := by
  unfold is_xdigit at h
  simp only [Bool.or_eq_true, Bool.and_eq_true, decide_eq_true_eq] at h
  unfold tolower is_upper
  refine ⟨by omega, by omega, ?_, by omega⟩
  split
  · omega
  · omega

theorem takeWhile_append_stop (p : Nat → Bool) (B s : Str) (hB : ∀ c ∈ B, p c = true)
    (hs : ∀ c, s.head? = some c → p c = false) : (B ++ s).takeWhile p = B := by
  induction B with
  | nil =>
    cases s with
    | nil => rfl
    | cons a l => simp [List.takeWhile, hs a rfl]
  | cons b B ih =>
    simp only [List.cons_append, List.takeWhile_cons, hB b (by simp), if_true]
    rw [ih (fun c hc => hB c (by simp [hc]))]

theorem getD_of_drop (l : Str) (i c : Nat) (rest : Str) (h : l.drop i = c :: rest) :
    l.getD i 0 = c := by
  have := congrArg (fun x => x.getD 0 0) h
  simpa [List.getD_eq_getElem?_getD, List.getElem?_drop] using this

/-- The reference parser on `p ++ "@" ++ B ++ s` at the `@`, for a lower-case hex token
`B` followed by a text `s` that starts neither with a hex digit nor with `{`: the token
`B` and the advance `1 + |B|`. -/
theorem try_parse_hex_ref (p B s : Str) (hB : is_hex_token B = true)
    (hlow : to_lower_ascii B = B)
    (hs : ∀ c, s.head? = some c → is_xdigit c = false ∧ c ≠ 123) :
    try_parse_inline_token (p ++ 64 :: (B ++ s)) p.length = (true, B, 1 + B.length) := by
  have hlen := is_hex_token_length B hB
  have hall := is_hex_token_all B hB
  obtain ⟨b0, B', rfl⟩ : ∃ b0 B', B = b0 :: B' := by
    cases B with
    | nil => simp at hlen
    | cons b0 B' => exact ⟨b0, B', rfl⟩
  have hb0 := xdigit_facts b0 (hall b0 (by simp))
  have d0 : (p ++ 64 :: (b0 :: B' ++ s)).drop p.length = 64 :: (b0 :: B' ++ s) := by simp
  have hd : (p ++ 64 :: (b0 :: B' ++ s)).drop (p.length + 1) = b0 :: B' ++ s :=
    drop_of_drop _ _ [64] _ d0 _ rfl
  have g0 : (p ++ 64 :: (b0 :: B' ++ s)).getD p.length 0 = 64 := getD_of_drop _ _ _ _ d0
  have g1 : (p ++ 64 :: (b0 :: B' ++ s)).getD (p.length + 1) 0 = b0 := getD_of_drop _ _ _ _ hd
  have hBl : (b0 :: B').length = B'.length + 1 := rfl
  rw [hBl] at hlen
  have hL : (p ++ 64 :: (b0 :: B' ++ s)).length = p.length + 1 + (B'.length + 1) + s.length := by
    simp; omega
  have hstyle : parse_style_inline (p ++ 64 :: (b0 :: B' ++ s)) p.length = none := by
    unfold parse_style_inline
    simp only
    split
    · rfl
    · rw [if_pos]
      simp only [List.any_eq_true, List.mem_range, bne_iff_ne, ne_eq]
      refine ⟨0, by omega, ?_⟩
      rw [Nat.add_zero, g1]
      exact hb0.2.2.1
  have htw : (((b0 :: B' ++ s).take 32).takeWhile is_xdigit) = b0 :: B' := by
    have e : (b0 :: B' ++ s).take 32 = (b0 :: B') ++ s.take (32 - (b0 :: B').length) := by
      rw [List.take_append_eq_append_take]
      congr 1
      apply List.take_of_length_le
      rw [hBl]; exact hlen.2
    rw [e]
    apply takeWhile_append_stop _ _ _ hall
    intro c hc
    cases s with
    | nil => simp at hc
    | cons a l =>
      have h32 : 32 - (b0 :: B').length = 0 ∨ 0 < 32 - (b0 :: B').length := by omega
      rcases h32 with h0 | h0
      · rw [h0] at hc; simp at hc
      · obtain ⟨k, hk⟩ : ∃ k, 32 - (b0 :: B').length = k + 1 := ⟨_, (Nat.succ_pred_eq_of_pos h0).symm⟩
        rw [hk] at hc
        simp only [List.take_succ_cons, List.head?_cons, Option.some.injEq] at hc
        subst hc
        exact (hs a rfl).1
  unfold try_parse_inline_token
  rw [if_neg (by rw [g0]; simp only [ne_eq, not_true_eq_false, or_false, not_le, ge_iff_le]; omega)]
  rw [if_neg (by omega)]
  rw [if_neg (by rw [g1]; exact hb0.1)]
  simp only [hstyle, hd, htw]
  rw [if_neg (by rw [hBl]; omega)]
  have hsub : substr (p ++ 64 :: (b0 :: B' ++ s)) (p.length + 1) (b0 :: B').length = b0 :: B' := by
    unfold substr
    rw [hd]
    simp
  rw [hsub, hlow]
  rw [if_neg]
  intro hc
  obtain ⟨hc1, hc2⟩ := hc
  rw [hBl] at hc1 hc2
  cases s with
  | nil => simp only [List.length_nil] at hL; omega
  | cons a l =>
    have hd2 := drop_of_drop _ _ (b0 :: B') _ hd (p.length + 1 + (B'.length + 1)) rfl
    rw [getD_of_drop _ _ _ _ hd2] at hc2
    exact (hs a rfl).2 hc2

theorem find_char_none_of_not_mem (s : Str) (c : Nat) (h : c ∉ s) : find_char s c 0 = none := by
  unfold find_char
  simp only [List.drop_zero]
  rw [if_neg]
  intro hlt
  exact h (List.indexOf_lt_length.mp hlt)

/-- A hex token is not a style token. -/
theorem hex_not_style (A : Str) (h : is_hex_token A = true) : is_style_token A = false := by
  have hall := is_hex_token_all A h
  have hlen := is_hex_token_length A h
  have hnb : (123 : Nat) ∉ A := fun hm => (xdigit_facts 123 (hall 123 hm)).2.2.2 rfl
  have hp : parse_variant_suffix A = none := by
    unfold parse_variant_suffix
    rw [find_char_none_of_not_mem A 123 hnb]
  unfold is_style_token
  simp only [hp]
  split
  · rfl
  · cases A with
    | nil => simp at hlen
    | cons a A' =>
      have ha := (xdigit_facts a (hall a (by simp))).2.2.1
      have ha' : a ≠ 115 := by
        intro e
        rw [e] at ha
        exact ha (by decide)
      simp [starts_with, STYLE_PREFIX, List.isPrefixOf, ha'.symm]

theorem emit_fold_bytes (state : CatalogSnapshot) (args : List Str) (dr da : Nat) (l : Str) :
    ∀ acc : Str × Seen,
      (l.map Item.byte).foldl (emit_item state args dr da) acc = (acc.1 ++ l, acc.2) := by
  induction l with
  | nil => intro acc; simp
  | cons c l ih =>
    intro acc
    simp only [List.map_cons, List.foldl_cons, emit_item]
    rw [ih]
    simp

/-- The productions of a stretch of bytes without `@` and `%`: one byte each. -/
theorem lex_plain_bytes (raw : Str) (l : Str) : ∀ (i : Nat) (post : Str),
    raw.drop i = l ++ post → (∀ c ∈ l, c ≠ 64 ∧ c ≠ 37) →
    lex_fuel raw (raw.length - i) i =
      l.map Item.byte ++ lex_fuel raw (raw.length - (i + l.length)) (i + l.length) := by
  induction l with
  | nil => intro i post _ _; simp
  | cons c l ih =>
    intro i post hd hl
    have hi : i < raw.length := by
      have := congrArg List.length hd
      simp only [List.length_drop, List.cons_append, List.length_cons] at this
      omega
    have hg : raw.getD i 0 = c := getD_of_drop raw i c (l ++ post) hd
    have hc := hl c (by simp)
    have hstep : lex_step raw i = (.byte c, i + 1) := by
      rw [lex_step_byte raw i (by rw [hg]; exact hc.1) (by rw [hg]; exact fun h => hc.2 h.1), hg]
    rw [lex_fuel_unfold raw i hi, hstep]
    simp only
    rw [ih (i + 1) post (drop_of_drop raw i [c] _ hd _ rfl) (fun x hx => hl x (by simp [hx]))]
    simp only [List.map_cons, List.cons_append, List.length_cons]
    congr 3 <;> omega

theorem lex_fuel_end (raw : Str) (i : Nat) (hi : raw.length ≤ i) :
    lex_fuel raw (raw.length - i) i = [] := by
  have : raw.length - i = 0 := by omega
  rw [this]
  rfl

/-- The productions of a template without `@` and `%`: its bytes. -/
theorem lex_template_plain (t : Str) (ht : ∀ c ∈ t, c ≠ 64 ∧ c ≠ 37) :
    lex_template t = t.map Item.byte := by
  unfold lex_template
  have := lex_plain_bytes t t 0 [] (by simp) ht
  simp only [Nat.sub_zero, Nat.zero_add] at this
  rw [this, lex_fuel_end t _ (le_refl _)]
  simp

/-- The productions of `p ++ "@" ++ B ++ s`: the bytes of `p`, the reference `B`, the
bytes of `s`. -/
theorem lex_template_one_ref (p B s : Str) (hB : is_hex_token B = true)
    (hlow : to_lower_ascii B = B) (hp : ∀ c ∈ p, c ≠ 64 ∧ c ≠ 37)
    (hs : ∀ c ∈ s, c ≠ 64 ∧ c ≠ 37)
    (hstart : ∀ c, s.head? = some c → is_xdigit c = false ∧ c ≠ 123) :
    lex_template (p ++ 64 :: (B ++ s)) = p.map Item.byte ++ Item.ref B :: s.map Item.byte := by
  have hL : (p ++ 64 :: (B ++ s)).length = p.length + (1 + B.length) + s.length := by
    simp; omega
  have d0 : (p ++ 64 :: (B ++ s)).drop 0 = p ++ 64 :: (B ++ s) := rfl
  have d1 : (p ++ 64 :: (B ++ s)).drop p.length = 64 :: (B ++ s) := by simp
  have d2 : (p ++ 64 :: (B ++ s)).drop (p.length + (1 + B.length)) = s ++ [] := by
    have := drop_of_drop _ _ (64 :: B) (s ++ []) (by rw [d1]; simp) (p.length + (1 + B.length))
      (by simp; omega)
    exact this
  unfold lex_template
  have e1 := lex_plain_bytes _ p 0 _ d0 hp
  simp only [Nat.sub_zero, Nat.zero_add] at e1
  rw [e1]
  have hi : p.length < (p ++ 64 :: (B ++ s)).length := by omega
  have hstep : lex_step (p ++ 64 :: (B ++ s)) p.length = (.ref B, p.length + (1 + B.length)) :=
    lex_step_ref _ _ _ _ (getD_of_drop _ _ _ _ d1) (try_parse_hex_ref p B s hB hlow hstart)
  rw [lex_fuel_unfold _ _ hi, hstep]
  simp only
  rw [lex_plain_bytes _ s _ _ d2 hs, lex_fuel_end _ _ (by omega)]
  simp

/-- The expansion of a token without a style entry whose template has no `@` and no
`%`: the template. -/
theorem translate_impl_plain_bytes (state : CatalogSnapshot) (token : Str) (args : List Str)
    (seen : Seen) (depth : Nat) (t : Str) (hd : depth ≤ 32) (hs : token ∉ seen)
    (hreg : ∀ registry, state.style_registry = some registry → map_find registry token = none)
    (hraw : map_find state.catalog token = some t) (ht : ∀ c ∈ t, c ≠ 64 ∧ c ≠ 37) :
    translate_impl state token args seen depth = (t, seen) := by
  rw [translate_impl_plain_token state token args seen depth t hd hs hreg hraw,
    lex_template_plain t ht, emit_fold_bytes]
  simp

/-- C13. Inline reference expansion: in a well-formed snapshot, if the lower-case hex
token `A` has the template `p ++ "@" ++ B ++ s`, where `B` is a lower-case hex token of
the catalog whose template `t` contains no `@` and no `%`, `p` and `s` contain no `@`
and no `%`, and `s` does not start with a hex digit or `{`, then
`translate(A, args) = p ++ t ++ s` (for every argument list, the empty one included). -/
theorem inline_reference_expansion (eng : I18nEngine) (s : CatalogSnapshot)
    (A B p t sfx : Str) (args : List Str)
    (hs : eng.active_snapshot = some s) (hwf : s.WellFormed)
    (hA : is_hex_token A = true) (hlowA : to_lower_ascii A = A)
    (hB : is_hex_token B = true) (hlowB : to_lower_ascii B = B)
    (hrawA : map_find s.catalog A = some (p ++ [64] ++ B ++ sfx))
    (hrawB : map_find s.catalog B = some t)
    (hp : ∀ c ∈ p, c ≠ 64 ∧ c ≠ 37) (ht : ∀ c ∈ t, c ≠ 64 ∧ c ≠ 37)
    (hsfx : ∀ c ∈ sfx, c ≠ 64 ∧ c ≠ 37)
    (hstart : ∀ c, sfx.head? = some c → is_xdigit c = false ∧ c ≠ 123) :
    translate eng A args = p ++ t ++ sfx := by
  have hform : p ++ [64] ++ B ++ sfx = p ++ 64 :: (B ++ sfx) := by simp
  rw [hform] at hrawA
  have hne : B ≠ A := by
    intro e
    rw [e, hrawA] at hrawB
    have : p ++ 64 :: (B ++ sfx) = t := Option.some.inj hrawB
    exact (ht 64 (by rw [← this]; simp)).1 rfl
  have hBA : B ∉ [A] := by simpa using hne
  unfold translate
  simp only [hs, hlowA]
  rw [translate_impl_plain_token s A args [] 0 _ (by omega) (by simp)
    (well_formed_not_style s hwf A (hex_not_style A hA)) hrawA,
    lex_template_one_ref p B sfx hB hlowB hp hsfx hstart]
  simp only [List.foldl_append, List.foldl_cons, emit_fold_bytes, emit_item, hrawB,
    Option.isNone_some, Bool.false_eq_true, if_false]
  rw [translate_impl_plain_bytes s B args [A] 1 t (by omega) hBA
    (well_formed_not_style s hwf B (hex_not_style B hB)) hrawB ht]
  simp

set_option maxRecDepth 100000 in
theorem inline_reference_expansion_witness :
    (inline_ref_engine.active_snapshot = some inline_ref_snapshot ∧
      inline_ref_snapshot.WellFormed ∧
      map_find inline_ref_snapshot.catalog (utf8 "aaaaaa") =
        some (utf8 "hello " ++ [64] ++ utf8 "bbbbbb" ++ []) ∧
      map_find inline_ref_snapshot.catalog (utf8 "bbbbbb") = some (utf8 "world") ∧
      utf8 "hello " ++ utf8 "world" ++ [] = utf8 "hello world") ∧
    translate inline_ref_engine (utf8 "aaaaaa") [] = utf8 "hello " ++ utf8 "world" ++ [] :=
  ⟨by decide,
   inline_reference_expansion inline_ref_engine inline_ref_snapshot (utf8 "aaaaaa")
     (utf8 "bbbbbb") (utf8 "hello ") (utf8 "world") [] [] (by decide) (by decide) (by decide)
     (by decide) (by decide) (by decide) (by decide) (by decide) (by decide) (by decide)
     (by decide) (by decide)⟩

/-- C15. Mutual cycle: in a well-formed snapshot, for distinct lower-case hex tokens
`A` and `B` whose templates are exactly `@B` and `@A`, `translate(A, args)` is the
sentinel `⟦CYCLE:A⟧`, so it contains it (for every argument list, the empty one
included). -/
theorem mutual_cycle (eng : I18nEngine) (s : CatalogSnapshot) (A B : Str) (args : List Str)
    (hs : eng.active_snapshot = some s) (hwf : s.WellFormed)
    (hA : is_hex_token A = true) (hlowA : to_lower_ascii A = A)
    (hB : is_hex_token B = true) (hlowB : to_lower_ascii B = B) (hne : A ≠ B)
    (hrawA : map_find s.catalog A = some ([64] ++ B))
    (hrawB : map_find s.catalog B = some ([64] ++ A)) :
    translate eng A args = utf8 "⟦CYCLE:" ++ A ++ utf8 "⟧" ∧
    utf8 "⟦CYCLE:" ++ A ++ utf8 "⟧" <:+: translate eng A args := by
  have hnil : ∀ c, ([] : Str).head? = some c → is_xdigit c = false ∧ c ≠ 123 := by
    intro c hc; cases hc
  have hlexB := lex_template_one_ref [] B [] hB hlowB (by simp) (by simp) hnil
  have hlexA := lex_template_one_ref [] A [] hA hlowA (by simp) (by simp) hnil
  simp only [List.nil_append, List.append_nil, List.map_nil] at hlexA hlexB
  have hrawA' : map_find s.catalog A = some (64 :: B) := hrawA
  have hrawB' : map_find s.catalog B = some (64 :: A) := hrawB
  have hBA : B ∉ [A] := by simpa using Ne.symm hne
  have hval : translate eng A args = utf8 "⟦CYCLE:" ++ A ++ utf8 "⟧" := by
    unfold translate
    simp only [hs, hlowA]
    rw [translate_impl_plain_token s A args [] 0 _ (by omega) (by simp)
      (well_formed_not_style s hwf A (hex_not_style A hA)) hrawA', hlexB]
    simp only [List.foldl_cons, List.foldl_nil, emit_item, hrawB', Option.isNone_some,
      Bool.false_eq_true, if_false]
    rw [translate_impl_plain_token s B args [A] 1 _ (by omega) hBA
      (well_formed_not_style s hwf B (hex_not_style B hB)) hrawB', hlexA]
    simp only [List.foldl_cons, List.foldl_nil, emit_item, hrawA', Option.isNone_some,
      Bool.false_eq_true, if_false]
    rw [translate_impl_cycle s A args [B, A] 2 (by omega) (by simp)]
    simp [S_CYCLE]
  refine ⟨hval, ?_⟩
  rw [hval]
  first | done | exact List.infix_refl _

set_option maxRecDepth 100000 in
theorem mutual_cycle_witness :
    (mutual_cycle_engine.active_snapshot = some mutual_cycle_snapshot ∧
      mutual_cycle_snapshot.WellFormed ∧
      map_find mutual_cycle_snapshot.catalog (utf8 "aaaaaa") = some ([64] ++ utf8 "bbbbbb") ∧
      map_find mutual_cycle_snapshot.catalog (utf8 "bbbbbb") = some ([64] ++ utf8 "aaaaaa")) ∧
    (translate mutual_cycle_engine (utf8 "aaaaaa") [] =
        utf8 "⟦CYCLE:" ++ utf8 "aaaaaa" ++ utf8 "⟧" ∧
      utf8 "⟦CYCLE:" ++ utf8 "aaaaaa" ++ utf8 "⟧" <:+:
        translate mutual_cycle_engine (utf8 "aaaaaa") []) :=
  ⟨by decide,
   mutual_cycle mutual_cycle_engine mutual_cycle_snapshot (utf8 "aaaaaa") (utf8 "bbbbbb") []
     (by decide) (by decide) (by decide) (by decide) (by decide) (by decide) (by decide)
     (by decide) (by decide)⟩

/-! ## Placeholder substitution -/

theorem substitute_from_mono (raw : Str) (args : List Str) (f1 : Nat) :
    ∀ f2 i, raw.length - i ≤ f1 → raw.length - i ≤ f2 →
      substitute_from raw args f1 i = substitute_from raw args f2 i := by
  induction f1 with
  | zero =>
    intro f2 i h1 _
    have hi : ¬ i < raw.length := by omega
    cases f2 with
    | zero => rfl
    | succ f2 => simp [substitute_from, hi]
  | succ f1 ih =>
    intro f2 i h1 h2
    cases f2 with
    | zero =>
      have hi : ¬ i < raw.length := by omega
      simp [substitute_from, hi]
    | succ f2 =>
      simp only [substitute_from]
      by_cases hi : i < raw.length
      · simp only [hi, if_true]
        split
        · rw [ih f2 _ (by omega) (by omega)]
        · rw [ih f2 _ (by omega) (by omega)]
      · simp only [hi, if_false]

theorem wrap_int32_id (x : Int) (h0 : 0 ≤ x) (h1 : x < 2147483648) : wrap_int32 x = x := by
  unfold wrap_int32
  omega

theorem placeholder_number_snoc (ds : Str) (c : Nat) :
    placeholder_number (ds ++ [c]) = 10 * placeholder_number ds + (c - 48) := by
  simp [placeholder_number, List.foldl_append]

/-- The index read by the digit loop is the number the digits denote, when that number
fits in an `int`. -/
theorem placeholder_index_in_range (ds : Str) :
    (∀ c ∈ ds, is_digit c = true) → placeholder_number ds < 2147483648 →
    ds.foldl (fun (idx : Int) (c : Nat) => wrap_int32 (idx * 10 + ((c : Int) - 48))) 0 =
      (placeholder_number ds : Int) := by
  induction ds using List.reverseRecOn with
  | nil => intro _ _; rfl
  | append_singleton ds c ih =>
    intro hd hr
    rw [placeholder_number_snoc] at hr ⊢
    have hc := hd c (by simp)
    unfold is_digit at hc
    simp only [Bool.and_eq_true, decide_eq_true_eq] at hc
    rw [List.foldl_append, ih (fun x hx => hd x (by simp [hx])) (by omega)]
    simp only [List.foldl_cons, List.foldl_nil]
    rw [wrap_int32_id _ (by omega) (by omega)]
    omega

theorem to_lower_idem (x : Str) : to_lower_ascii (to_lower_ascii x) = to_lower_ascii x := by
  unfold to_lower_ascii
  rw [List.map_map]
  apply List.map_congr_left
  intro c _
  simp only [Function.comp, tolower, is_upper]
  split
  · rename_i h
    simp only [Bool.and_eq_true, decide_eq_true_eq] at h
    rw [if_neg]
    simp only [Bool.and_eq_true, decide_eq_true_eq]
    omega
  · rfl

/-- An argument that does not start with `=` and does not name a catalog entry is
returned as it is. -/
theorem resolve_arg_unchanged (state : CatalogSnapshot) (arg : Str) (seen : Seen) (depth : Nat)
    (h1 : arg.head? ≠ some 61) (h2 : map_find state.catalog (to_lower_ascii arg) = none) :
    resolve_arg state arg seen depth = (arg, seen) := by
  rw [resolve_arg, if_neg h1]
  simp only []
  cases hp : parse_variant_suffix (to_lower_ascii arg) with
  | none =>
    simp only [h2, Option.isNone_none, if_true]
    split <;> rfl
  | some bv =>
    obtain ⟨b, v⟩ := bv
    obtain ⟨ob, ov, _, _, _, hvalid, _⟩ := parse_variant_suffix_some _ b v hp
    have hk := (key_parts_lower (to_lower_ascii arg) (to_lower_idem arg)).1
    have hv := (is_variant_valid_length v hvalid).1
    have hvne : v.isEmpty = false := by
      cases v with
      | nil => simp at hv
      | cons a l => rfl
    simp only [key_parts, hp, hvne, Bool.not_false, if_true] at hk
    simp only [hk, h2, Option.isNone_none, if_true]
    split <;> rfl

theorem flatMap_singleton_cast (l : List Nat) :
    (l.flatMap fun a => [(a : Int)]) = l.map (fun (a : Nat) => (a : Int)) := by
  induction l with
  | nil => rfl
  | cons a l ih => simp [List.flatMap_cons, ih]

theorem parse_placeholder_index_fst (raw : Str) (start : Nat) :
    (parse_placeholder_index raw start).1 =
      List.foldl (fun (idx c : Int) => wrap_int32 (idx * 10 + (c - 48))) 0
        (List.map (fun (a : Nat) => (a : Int)) ((raw.drop start).takeWhile is_digit)) := by
  unfold parse_placeholder_index
  simp only []
  first
    | rfl
    | (rw [← flatMap_singleton_cast]; rfl)
    | (simp only [List.pure_def, List.bind_eq_flatMap, flatMap_singleton_cast])
    | (simp; rw [flatMap_singleton_cast])

theorem getD_mem (l : Str) (i : Nat) (h : i < l.length) : l.getD i 0 ∈ l := by
  rw [List.getD_eq_getElem?_getD, List.getElem?_eq_getElem h]
  exact List.getElem_mem h

theorem takeWhile_all (p : Nat → Bool) (l : Str) : ∀ c ∈ l.takeWhile p, p c = true := by
  intro c hc
  exact List.mem_takeWhile_imp hc

theorem S_ARG_nat (n : Nat) : S_ARG (n : Int) = arg_sentinel n := by
  unfold S_ARG arg_sentinel int_to_string
  rw [if_neg (by omega)]
  simp

/-- On a template without `@`, with arguments that are returned as they are and
placeholder numbers that fit in an `int`, the scanning loops emit what the
specification's substitution gives. -/
theorem emit_fold_substitute (state : CatalogSnapshot) (args : List Str) (dr da : Nat)
    (seen : Seen) (raw : Str) (hat : (64 : Nat) ∉ raw)
    (hargs : ∀ a ∈ args, a.head? ≠ some 61 ∧ map_find state.catalog (to_lower_ascii a) = none)
    (hrange : ∀ i, i < raw.length → raw.getD i 0 = 37 →
      placeholder_number ((raw.drop (i + 1)).takeWhile is_digit) < 2147483648)
    (n : Nat) : ∀ (i : Nat) (out : Str), raw.length - i ≤ n →
      (lex_fuel raw (raw.length - i) i).foldl (emit_item state args dr da) (out, seen) =
        (out ++ substitute_from raw args (raw.length - i) i, seen) := by
  induction n with
  | zero =>
    intro i out h
    have h0 : raw.length - i = 0 := by omega
    rw [h0]
    simp [lex_fuel, substitute_from]
  | succ n ih =>
    intro i out h
    by_cases hi : i < raw.length
    · have h64 : ¬ raw.getD i 0 = 64 := fun e => hat (e ▸ getD_mem raw i hi)
      obtain ⟨k, hk⟩ : ∃ k, raw.length - i = k + 1 := ⟨raw.length - i - 1, by omega⟩
      rw [lex_fuel_unfold raw i hi, List.foldl_cons]
      conv_rhs => rw [hk, substitute_from]
      simp only [hi, if_true]
      by_cases hph : raw.getD i 0 = 37 ∧ i + 1 < raw.length ∧ is_digit (raw.getD (i + 1) 0) = true
      · rw [lex_step_placeholder raw i h64 hph, if_pos hph]
        have hidx : (parse_placeholder_index raw (i + 1)).1 =
            (placeholder_number ((raw.drop (i + 1)).takeWhile is_digit) : Int) := by
          rw [parse_placeholder_index_fst, List.foldl_map]
          exact placeholder_index_in_range _ (takeWhile_all _ _) (hrange i hi hph.1)
        have hj : (parse_placeholder_index raw (i + 1)).2 =
            i + 1 + ((raw.drop (i + 1)).takeWhile is_digit).length := rfl
        simp only [emit_item, hidx, hj]
        rw [substitute_from_mono raw args k (raw.length -
          (i + 1 + ((raw.drop (i + 1)).takeWhile is_digit).length)) _ (by omega) (by omega)]
        by_cases hlt : placeholder_number ((raw.drop (i + 1)).takeWhile is_digit) < args.length
        · have hmem : args.getD (placeholder_number ((raw.drop (i + 1)).takeWhile is_digit)) [] ∈
              args := by
            rw [List.getD_eq_getElem?_getD, List.getElem?_eq_getElem hlt]
            exact List.getElem_mem hlt
          have hres := resolve_arg_unchanged state _ seen da (hargs _ hmem).1 (hargs _ hmem).2
          rw [if_pos ⟨by omega, by simpa using hlt⟩, if_pos hlt]
          simp only [Int.toNat_ofNat, hres]
          rw [ih _ _ (by omega)]
          simp
        · rw [if_neg (by simpa using hlt), if_neg hlt, S_ARG_nat]
          rw [ih _ _ (by omega)]
          simp
      · rw [lex_step_byte raw i h64 hph, if_neg hph]
        simp only [emit_item]
        rw [substitute_from_mono raw args k (raw.length - (i + 1)) _ (by omega) (by omega)]
        rw [ih _ _ (by omega)]
        simp
    · have h0 : raw.length - i = 0 := by omega
      rw [h0]
      simp [lex_fuel, substitute_from]

/-- C12, amended. Placeholder substitution: in a well-formed snapshot, for every
token whose lower-case form is a hex token of the catalog, whose template contains no
`@` and whose placeholder numbers are below `2^31` (they fit in an `int`), and every argument list whose elements neither
start with `=` nor name a catalog entry, `translate` returns what the substitution of
the specification gives: each `%N` with `N < |args|` is replaced by `args[N]`
unchanged, each `%N` with `N ≥ |args|` by `⟦arg:N⟧`, and all other bytes are copied. -/
theorem placeholder_substitution (eng : I18nEngine) (s : CatalogSnapshot) (tok raw : Str)
    (args : List Str)
    (hs : eng.active_snapshot = some s) (hwf : s.WellFormed)
    (hhex : is_hex_token (to_lower_ascii tok) = true)
    (hraw : map_find s.catalog (to_lower_ascii tok) = some raw) (hat : (64 : Nat) ∉ raw)
    (hargs : ∀ a ∈ args, a.head? ≠ some 61 ∧ map_find s.catalog (to_lower_ascii a) = none)
    (hrange : ∀ i, i < raw.length → raw.getD i 0 = 37 →
      placeholder_number ((raw.drop (i + 1)).takeWhile is_digit) < 2147483648) :
    translate eng tok args = substitute_spec raw args := by
  unfold translate
  simp only [hs]
  rw [translate_impl_plain_token s (to_lower_ascii tok) args [] 0 raw (by omega) (by simp)
    (well_formed_not_style s hwf _ (hex_not_style _ hhex)) hraw]
  have := emit_fold_substitute s args 1 0 [to_lower_ascii tok] raw hat hargs hrange
    raw.length 0 [] (by omega)
  simp only [Nat.sub_zero, List.nil_append] at this
  unfold lex_template substitute_spec
  rw [this]

set_option maxRecDepth 100000 in
theorem placeholder_substitution_witness :
    (two_placeholder_engine.active_snapshot = some two_placeholder_snapshot ∧
      two_placeholder_snapshot.WellFormed ∧
      map_find two_placeholder_snapshot.catalog (utf8 "abcdef") = some (utf8 "%0 + %1") ∧
      substitute_spec (utf8 "%0 + %1") [utf8 "x", utf8 "y"] = utf8 "x + y" ∧
      substitute_spec (utf8 "%0 + %1") [utf8 "x"] = utf8 "x + ⟦arg:1⟧") ∧
    translate two_placeholder_engine (utf8 "abcdef") [utf8 "x", utf8 "y"] =
      substitute_spec (utf8 "%0 + %1") [utf8 "x", utf8 "y"] ∧
    translate two_placeholder_engine (utf8 "abcdef") [utf8 "x"] =
      substitute_spec (utf8 "%0 + %1") [utf8 "x"] :=
  ⟨by decide,
   placeholder_substitution two_placeholder_engine two_placeholder_snapshot (utf8 "abcdef")
     (utf8 "%0 + %1") [utf8 "x", utf8 "y"] (by decide) (by decide) (by decide) (by decide)
     (by decide) (by decide) (by decide),
   placeholder_substitution two_placeholder_engine two_placeholder_snapshot (utf8 "abcdef")
     (utf8 "%0 + %1") [utf8 "x"] (by decide) (by decide) (by decide) (by decide)
     (by decide) (by decide) (by decide)⟩

set_option maxRecDepth 100000 in
/-- C12, as stated, fails where the number of a placeholder does not fit in an `int`:
after strict loading of the text catalog `abcdef: %4294967296`,
`translate("abcdef", ["x"])` returns `x` (the index accumulated in a wrapping 32-bit `int` is 0),
where the claim asks for `⟦arg:4294967296⟧`, the number being at least `|args| = 1`. -/
theorem placeholder_number_beyond_int :
    load_txt_catalog I18nEngine.init (utf8 "abcdef: %4294967296") true =
      .done true long_index_engine ∧
    translate long_index_engine (utf8 "abcdef") [utf8 "x"] = utf8 "x" ∧
    substitute_spec (utf8 "%4294967296") [utf8 "x"] = utf8 "⟦arg:4294967296⟧" ∧
    utf8 "x" ≠ utf8 "⟦arg:4294967296⟧" :=
  ⟨by decide, translate_fuel_sound 6 _ _ _ _ (by decide), by decide, by decide⟩

/-! ## Duplicate tokens in the text loader -/

theorem rdropWhile_head (l : Str) (c : Nat) (h : l.head? = some c) (hc : is_ws c = false) :
    (l.rdropWhile is_ws).head? = some c := by
  cases l with
  | nil => simp at h
  | cons a t =>
    simp only [List.head?_cons, Option.some.injEq] at h
    subst h
    have hpre := List.rdropWhile_prefix is_ws (a :: t)
    have hne : (a :: t).rdropWhile is_ws ≠ [] := by
      intro hnil
      rw [List.rdropWhile_eq_nil_iff] at hnil
      have := hnil a (List.mem_cons_self _ _)
      rw [hc] at this
      cases this
    obtain ⟨s, hs⟩ := hpre
    cases hr : (a :: t).rdropWhile is_ws with
    | nil => exact absurd hr hne
    | cons b r =>
      rw [hr] at hs
      simp only [List.cons_append, List.cons.injEq] at hs
      simp [hs.1]

theorem trim_head (l : Str) (c : Nat) (h : l.head? = some c) (hc : is_ws c = false) :
    (trim l).head? = some c := by
  unfold trim
  have : l.dropWhile is_ws = l := by
    cases l with
    | nil => rfl
    | cons a t =>
      simp only [List.head?_cons, Option.some.injEq] at h
      subst h
      simp [List.dropWhile, hc]
  rw [this]
  exact rdropWhile_head l c h hc

theorem trim_head_not_ws (l : Str) (c : Nat) (h : (trim l).head? = some c) : is_ws c = false := by
  unfold trim at h
  cases hd : l.dropWhile is_ws with
  | nil => rw [hd] at h; simp [List.rdropWhile] at h
  | cons a t =>
    have ha : is_ws a = false := by
      have := List.head_dropWhile_not is_ws l (by rw [hd]; simp)
      simpa [hd] using this
    rw [hd] at h
    rw [rdropWhile_head (a :: t) a rfl ha] at h
    simp only [Option.some.injEq] at h
    rw [← h]
    exact ha

theorem find_char_pos (s : Str) (c d i : Nat) (hs : s.head? = some d) (hdc : d ≠ c)
    (h : find_char s c 0 = some i) : 0 < i := by
  obtain ⟨_, hi, hsp⟩ := find_char_some s c 0 i h
  rcases Nat.eq_zero_or_pos i with h0 | h0
  · subst h0
    rw [hsp] at hs
    simp at hs
    exact absurd hs.symm hdc
  · exact h0

theorem substr_head (l : Str) (c n : Nat) (h : l.head? = some c) (hn : 0 < n) :
    (substr l 0 n).head? = some c := by
  unfold substr
  cases l with
  | nil => simp at h
  | cons a t =>
    obtain ⟨m, rfl⟩ : ∃ m, n = m + 1 := ⟨n - 1, by omega⟩
    simpa using h

theorem parse_variant_suffix_head (token b v : Str) (c : Nat)
    (h : parse_variant_suffix token = some (b, v)) (hc : token.head? = some c) :
    b.head? = some (tolower c) := by
  obtain ⟨ob, ov, htok, hb, _, _, hne⟩ := parse_variant_suffix_some token b v h
  subst hb
  cases ob with
  | nil => exact absurd rfl hne
  | cons a t =>
    rw [htok] at hc
    simp only [List.cons_append, List.head?_cons, Option.some.injEq] at hc
    subst hc
    rfl

theorem at_sign_not_token (t : Str) (h : t.head? = some 64) :
    is_hex_token t = false ∧ is_style_token t = false := by
  constructor
  · cases t with
    | nil => simp at h
    | cons a r =>
      simp only [List.head?_cons, Option.some.injEq] at h
      subst h
      unfold is_hex_token
      split
      · rfl
      · simp [is_xdigit, is_digit]
  · unfold is_style_token
    have key : ∀ b : Str, b.head? = some 64 → starts_with b STYLE_PREFIX = false := by
      intro b hb
      cases b with
      | nil => simp at hb
      | cons a r =>
        simp only [List.head?_cons, Option.some.injEq] at hb
        subst hb
        rfl
    cases hp : parse_variant_suffix t with
    | none =>
      simp only
      split
      · rfl
      · exact key t h
    | some bv =>
      obtain ⟨b, v⟩ := bv
      simp only
      split
      · rfl
      · exact key b (parse_variant_suffix_head t b v 64 hp h)

theorem parse_line_at_sign (line : Str) (h : (trim line).head? = some 64) (t l x : Str) :
    parse_line line ≠ .ok t l x := by
  intro hp
  unfold parse_line at hp
  simp only [] at hp
  split at hp
  · cases hp
  split at hp
  · cases hp
  cases h1 : find_char (trim line) 58 0 with
  | none => rw [h1] at hp; cases hp
  | some colon =>
    rw [h1] at hp
    simp only [] at hp
    have hcolon := find_char_pos _ 58 64 colon h (by decide) h1
    have hhead : (trim (substr (trim line) 0 colon)).head? = some 64 :=
      trim_head _ 64 (substr_head _ 64 colon h hcolon) (by decide)
    generalize trim (substr (trim line) 0 colon) = head at hhead hp
    have htok : ∀ token label text : Str, token.head? = some 64 →
        (match
          (if (find_char token 123 0).isSome then
            match parse_variant_suffix token with
            | none => none
            | some (base_token, variant_token) =>
              some (base_token ++ [123] ++ variant_token ++ [125], base_token)
          else some (to_lower_ascii token, to_lower_ascii token) : Option (Str × Str)) with
        | none => ParsedLine.err (utf8 "Token-Variante ist ungültig.")
        | some (token, base_token) =>
          if !is_hex_token base_token && !is_style_token base_token then
            ParsedLine.err (utf8 "Token ist kein gültiger Hex-String (6–32 Zeichen).")
          else ParsedLine.ok token label text) ≠ ParsedLine.ok t l x := by
      intro token label text ht hq
      by_cases hf : (find_char token 123 0).isSome = true
      · rw [if_pos hf] at hq
        cases hv : parse_variant_suffix token with
        | none => rw [hv] at hq; cases hq
        | some bv =>
          obtain ⟨b, v⟩ := bv
          rw [hv] at hq
          simp only [] at hq
          have hb := at_sign_not_token b (parse_variant_suffix_head token b v 64 hv ht)
          rw [hb.1, hb.2] at hq
          cases hq
      · rw [if_neg hf] at hq
        simp only [] at hq
        have hb := at_sign_not_token (to_lower_ascii token) (by
          cases token with
          | nil => simp at ht
          | cons a r =>
            simp only [List.head?_cons, Option.some.injEq] at ht
            subst ht
            rfl)
        rw [hb.1, hb.2] at hq
        cases hq
    cases h2 : find_char head 40 0 with
    | none =>
      rw [h2] at hp
      exact htok head [] _ hhead hp
    | some po =>
      rw [h2] at hp
      simp only [] at hp
      cases h3 : find_char head 41 (po + 1) with
      | none => rw [h3] at hp; cases hp
      | some pc =>
        rw [h3] at hp
        have hpo := find_char_pos _ 40 64 po hhead (by decide) h2
        exact htok _ _ _ (trim_head _ 64 (substr_head _ 64 po hhead hpo) (by decide)) hp

theorem parse_meta_line_head (raw : Str) (kv : Str × Str) (h : parse_meta_line raw = some kv) :
    (trim raw).head? = some 64 := by
  unfold parse_meta_line at h
  simp only [] at h
  split at h
  · cases h
  · rename_i hs
    simp only [Bool.not_eq_true, Bool.not_eq_false] at hs
    unfold starts_with at hs
    cases ht : trim raw with
    | nil => rw [ht] at hs; simp [utf8] at hs; revert hs; decide
    | cons a r =>
      rw [ht] at hs
      have : utf8 "@meta" = 64 :: utf8 "meta" := by decide
      rw [this] at hs
      simp only [List.isPrefixOf] at hs
      have h64 : (64 == a) = true := by
        cases hb : (64 == a) with
        | true => rfl
        | false => rw [hb] at hs; simp at hs
      simp only [beq_iff_eq] at h64
      simp [h64]

/-- A line that `parse_line` accepts is neither blank, nor a comment, nor a meta line. -/
theorem parse_line_ok_entry (line t l x : Str) (h : parse_line line = .ok t l x) :
    (trim line).isEmpty = false ∧ (trim line).head? ≠ some 35 ∧
      parse_meta_line (trim line) = none := by
  have h1 : (trim line).isEmpty = false := by
    cases he : (trim line).isEmpty with
    | false => rfl
    | true =>
      unfold parse_line at h
      simp only [he, if_true] at h
      cases h
  have h2 : (trim line).head? ≠ some 35 := by
    intro hc
    unfold parse_line at h
    simp only [h1, hc, if_true] at h
    simp at h
  refine ⟨h1, h2, ?_⟩
  cases hm : parse_meta_line (trim line) with
  | none => rfl
  | some kv =>
    exfalso
    have h64 := parse_meta_line_head _ kv hm
    cases hr : trim line with
    | nil => rw [hr] at h1; simp at h1
    | cons c r =>
      have hc : is_ws c = false := trim_head_not_ws line c (by rw [hr]; rfl)
      have := trim_head (c :: r) c rfl hc
      rw [← hr, h64] at this
      simp only [Option.some.injEq] at this
      subst this
      exact parse_line_at_sign line (by rw [hr]; rfl) t l x h

theorem map_find_append_left {β : Type} (m m' : List (Str × β)) (k : Str)
    (h : (map_find m k).isSome = true) : (map_find (m ++ m') k).isSome = true := by
  induction m with
  | nil => simp [map_find] at h
  | cons p m ih =>
    obtain ⟨k', v⟩ := p
    simp only [List.cons_append, map_find] at h ⊢
    split
    · rfl
    · rename_i hne
      rw [if_neg hne] at h
      exact ih h

theorem map_find_append_self {β : Type} (m : List (Str × β)) (k : Str) (v : β) :
    (map_find (m ++ [(k, v)]) k).isSome = true := by
  induction m with
  | nil => simp [map_find]
  | cons p m ih =>
    obtain ⟨k', v'⟩ := p
    simp only [List.cons_append, map_find]
    split
    · rfl
    · exact ih

theorem text_entry_step_ok (strict : Bool) (line : Str) (line_no : Nat)
    (snapshot : CatalogSnapshot) (tok lab txt : Str) (h : parse_line line = .ok tok lab txt) :
    ((map_find snapshot.catalog tok).isSome = true →
      text_entry_step strict line line_no snapshot =
        .error (utf8 "Doppelter Token in Zeile " ++ int_to_string line_no ++ utf8 ": " ++ tok)) ∧
    ((map_find snapshot.catalog tok).isSome = false →
      ∃ snap, text_entry_step strict line line_no snapshot = .ok (some snap) ∧
        snap.catalog = snapshot.catalog ++ [(tok, txt)]) := by
  unfold text_entry_step
  rw [h]
  simp only []
  constructor
  · intro hs
    rw [if_pos hs]
  · intro hs
    rw [if_neg (by rw [hs]; simp)]
    exact ⟨_, rfl, rfl⟩

theorem text_entry_step_some (strict : Bool) (line : Str) (line_no : Nat)
    (snapshot snap : CatalogSnapshot)
    (h : text_entry_step strict line line_no snapshot = .ok (some snap)) :
    ∃ tok txt, snap.catalog = snapshot.catalog ++ [(tok, txt)] := by
  unfold text_entry_step at h
  split at h
  · cases h
  · split at h <;> cases h
  · rename_i token label text hp
    simp only [] at h
    split at h
    · cases h
    · simp only [Except.ok.injEq, Option.some.injEq] at h
      subst h
      exact ⟨token, text, rfl⟩

/-- One iteration of the line loop on a line that `parse_line` accepts: the loop stops
with the duplicate error if the token is in the catalog, and goes on with the entry
appended otherwise. -/
theorem text_loop_entry (strict : Bool) (line : Str) (rest : List Str) (line_no : Nat)
    (meta_phase seen_any_entry : Bool) (loaded : Nat) (snapshot : CatalogSnapshot)
    (tok lab txt : Str) (h : parse_line line = .ok tok lab txt) :
    ((map_find snapshot.catalog tok).isSome = true →
      text_loop strict (line :: rest) line_no meta_phase seen_any_entry loaded snapshot =
        .error (utf8 "Doppelter Token in Zeile " ++ int_to_string (line_no + 1) ++ utf8 ": " ++
          tok)) ∧
    ((map_find snapshot.catalog tok).isSome = false →
      ∃ snap, snap.catalog = snapshot.catalog ++ [(tok, txt)] ∧
        text_loop strict (line :: rest) line_no meta_phase seen_any_entry loaded snapshot =
          text_loop strict rest (line_no + 1) false true (loaded + 1) snap) := by
  obtain ⟨h1, h2, h3⟩ := parse_line_ok_entry line tok lab txt h
  have hstep := text_entry_step_ok strict line (line_no + 1) snapshot tok lab txt h
  constructor
  · intro hs
    rw [text_loop]
    simp only [h1, h2, h3, hstep.1 hs]
    simp
  · intro hs
    obtain ⟨snap, hsnap, hcat⟩ := hstep.2 hs
    refine ⟨snap, hcat, ?_⟩
    rw [text_loop]
    simp only [h1, h2, h3, hsnap]
    simp

/-- One iteration of the line loop, whatever the line: the loop stops with an error, or
goes on with a snapshot whose catalog holds every token that it held before. -/
theorem text_loop_step (strict : Bool) (line : Str) (rest : List Str) (line_no : Nat)
    (meta_phase seen_any_entry : Bool) (loaded : Nat) (snapshot : CatalogSnapshot) :
    (∃ e, text_loop strict (line :: rest) line_no meta_phase seen_any_entry loaded snapshot =
      .error e) ∨
    ∃ n mp sa ld snap,
      text_loop strict (line :: rest) line_no meta_phase seen_any_entry loaded snapshot =
        text_loop strict rest n mp sa ld snap ∧
      ∀ k, (map_find snapshot.catalog k).isSome = true → (map_find snap.catalog k).isSome = true := by
  have hentry : ∀ r : Except Str (Nat × CatalogSnapshot),
      r = (match text_entry_step strict line (line_no + 1) snapshot with
        | .error e => .error e
        | .ok none => text_loop strict rest (line_no + 1) false seen_any_entry loaded snapshot
        | .ok (some snapshot) => text_loop strict rest (line_no + 1) false true (loaded + 1) snapshot) →
      (∃ e, r = .error e) ∨
      ∃ n mp sa ld snap, r = text_loop strict rest n mp sa ld snap ∧
        ∀ k, (map_find snapshot.catalog k).isSome = true → (map_find snap.catalog k).isSome = true := by
    intro r hr
    cases hs : text_entry_step strict line (line_no + 1) snapshot with
    | error e => rw [hs] at hr; exact Or.inl ⟨e, hr⟩
    | ok o =>
      cases o with
      | none => rw [hs] at hr; exact Or.inr ⟨_, _, _, _, _, hr, fun k hk => hk⟩
      | some snap =>
        rw [hs] at hr
        obtain ⟨tok, txt, hcat⟩ := text_entry_step_some strict line (line_no + 1) snapshot snap hs
        refine Or.inr ⟨_, _, _, _, _, hr, fun k hk => ?_⟩
        rw [hcat]
        exact map_find_append_left _ _ k hk
  have hsame : ∀ n mp sa ld snap,
      (∀ k, (map_find snapshot.catalog k).isSome = true → (map_find snap.catalog k).isSome = true) →
      text_loop strict (line :: rest) line_no meta_phase seen_any_entry loaded snapshot =
        text_loop strict rest n mp sa ld snap →
      ((∃ e, text_loop strict (line :: rest) line_no meta_phase seen_any_entry loaded snapshot =
        .error e) ∨
      ∃ n mp sa ld snap,
        text_loop strict (line :: rest) line_no meta_phase seen_any_entry loaded snapshot =
          text_loop strict rest n mp sa ld snap ∧
        ∀ k, (map_find snapshot.catalog k).isSome = true →
          (map_find snap.catalog k).isSome = true) :=
    fun n mp sa ld snap hk h => Or.inr ⟨n, mp, sa, ld, snap, h, hk⟩
  by_cases h1 : (trim line).isEmpty = true
  · exact hsame (line_no + 1) meta_phase seen_any_entry loaded snapshot (fun k hk => hk)
      (by rw [text_loop]; simp only [h1, if_true])
  by_cases h2 : (trim line).head? = some 35
  · exact hsame (line_no + 1) meta_phase seen_any_entry loaded snapshot (fun k hk => hk)
      (by rw [text_loop]; simp only [h1, h2, if_true]; simp)
  cases meta_phase with
  | false =>
    apply hentry
    rw [text_loop]
    simp only [h1, h2]
    simp
    try rfl
  | true =>
    cases hm : parse_meta_line (trim line) with
    | none =>
      apply hentry
      rw [text_loop]
      simp only [h1, h2, hm]
      simp
      try rfl
    | some kv =>
      obtain ⟨key, value⟩ := kv
      rw [text_loop]
      simp only [h1, h2, hm]
      simp only [if_true, if_false, Bool.false_eq_true]
      repeat' split
      all_goals first
        | exact Or.inl ⟨_, rfl⟩
        | exact Or.inr ⟨_, _, _, _, _, rfl, fun k hk => hk⟩

/-- A later line that parses to a token of the catalog stops the loop with an error. -/
theorem text_loop_known_token (strict : Bool) (tok : Str) (lines : List Str) :
    ∀ (line_no : Nat) (meta_phase seen_any_entry : Bool) (loaded : Nat)
      (snapshot : CatalogSnapshot),
      (map_find snapshot.catalog tok).isSome = true →
      (∃ l ∈ lines, ∃ lab txt, parse_line l = .ok tok lab txt) →
      ∃ e, text_loop strict lines line_no meta_phase seen_any_entry loaded snapshot = .error e := by
  induction lines with
  | nil => intro _ _ _ _ _ _ h; obtain ⟨l, hl, _⟩ := h; cases hl
  | cons line rest ih =>
    intro line_no meta_phase seen_any_entry loaded snapshot hk h
    obtain ⟨l, hl, lab, txt, hp⟩ := h
    rcases List.mem_cons.mp hl with rfl | hrest
    · exact ⟨_, (text_loop_entry strict l rest line_no meta_phase seen_any_entry loaded snapshot
        tok lab txt hp).1 hk⟩
    · rcases text_loop_step strict line rest line_no meta_phase seen_any_entry loaded snapshot
        with herr | ⟨n, mp, sa, ld, snap, heq, hmono⟩
      · exact herr
      · rw [heq]
        exact ih n mp sa ld snap (hmono tok hk) ⟨l, hrest, lab, txt, hp⟩

/-- Two lines that parse to the same token stop the loop with an error. -/
theorem text_loop_duplicate (strict : Bool) (tok : Str) (lines : List Str) :
    ∀ (line_no : Nat) (meta_phase seen_any_entry : Bool) (loaded : Nat)
      (snapshot : CatalogSnapshot) (i j : Nat) (li lj labi txti labj txtj : Str),
      i < j → lines[i]? = some li → lines[j]? = some lj →
      parse_line li = .ok tok labi txti → parse_line lj = .ok tok labj txtj →
      ∃ e, text_loop strict lines line_no meta_phase seen_any_entry loaded snapshot = .error e := by
  induction lines with
  | nil => intro _ _ _ _ _ i j _ _ _ _ _ _ _ hi; simp at hi
  | cons line rest ih =>
    intro line_no meta_phase seen_any_entry loaded snapshot i j li lj labi txti labj txtj
      hij hi hj hpi hpj
    obtain ⟨j', rfl⟩ : ∃ j', j = j' + 1 := ⟨j - 1, by omega⟩
    simp only [List.getElem?_cons_succ] at hj
    cases i with
    | zero =>
      simp only [List.getElem?_cons_zero, Option.some.injEq] at hi
      subst hi
      have hstep := text_loop_entry strict line rest line_no meta_phase seen_any_entry loaded
        snapshot tok labi txti hpi
      cases hs : (map_find snapshot.catalog tok).isSome with
      | true => exact ⟨_, hstep.1 hs⟩
      | false =>
        obtain ⟨snap, hcat, heq⟩ := hstep.2 hs
        rw [heq]
        refine text_loop_known_token strict tok rest _ _ _ _ snap ?_
          ⟨lj, List.getElem?_mem hj, labj, txtj, hpj⟩
        rw [hcat]
        exact map_find_append_self _ _ _
    | succ i' =>
      simp only [List.getElem?_cons_succ] at hi
      rcases text_loop_step strict line rest line_no meta_phase seen_any_entry loaded snapshot
        with herr | ⟨n, mp, sa, ld, snap, heq, _⟩
      · exact herr
      · rw [heq]
        exact ih n mp sa ld snap i' j' li lj labi txti labj txtj (by omega) hi hj hpi hpj

/-- C16. Duplicate tokens are always fatal: if two lines of a text source, at positions
`i < j`, are both accepted by `parse_line` with the same normalised token (lower-cased,
with the `{variant}` suffix), then `build_snapshot_from_text` returns an error, with
`strict = true` and with `strict = false`. -/
theorem duplicate_token_fatal (src : Str) (i j : Nat) (li lj tok labi txti labj txtj : Str)
    (hij : i < j) (hi : (text_lines src)[i]? = some li) (hj : (text_lines src)[j]? = some lj)
    (hpi : parse_line li = .ok tok labi txti) (hpj : parse_line lj = .ok tok labj txtj) :
    ∀ strict : Bool, ∃ e, build_snapshot_from_text src strict = .error e := by
  intro strict
  obtain ⟨e, he⟩ := text_loop_duplicate strict tok (text_lines src) 0 true false 0 empty_snapshot
    i j li lj labi txti labj txtj hij hi hj hpi hpj
  unfold build_snapshot_from_text
  rw [he]
  exact ⟨e, rfl⟩

set_option maxRecDepth 100000 in
theorem duplicate_token_fatal_witness :
    ((text_lines (utf8 "abcdef: x\nABCDEF: y"))[0]? = some (utf8 "abcdef: x") ∧
      (text_lines (utf8 "abcdef: x\nABCDEF: y"))[1]? = some (utf8 "ABCDEF: y") ∧
      parse_line (utf8 "abcdef: x") = .ok (utf8 "abcdef") [] (utf8 "x") ∧
      parse_line (utf8 "ABCDEF: y") = .ok (utf8 "abcdef") [] (utf8 "y") ∧
      build_snapshot_from_text (utf8 "abcdef: x\nABCDEF: y") true =
        .error (utf8 "Doppelter Token in Zeile 2: abcdef") ∧
      build_snapshot_from_text (utf8 "abcdef: x\nABCDEF: y") false =
        .error (utf8 "Doppelter Token in Zeile 2: abcdef")) ∧
    ∀ strict : Bool, ∃ e,
      build_snapshot_from_text (utf8 "abcdef: x\nABCDEF: y") strict = .error e :=
  ⟨by decide,
   duplicate_token_fatal (utf8 "abcdef: x\nABCDEF: y") 0 1 (utf8 "abcdef: x") (utf8 "ABCDEF: y")
     (utf8 "abcdef") [] (utf8 "x") [] (utf8 "y") (by decide) (by decide) (by decide) (by decide)
     (by decide)⟩

/-! ## Deterministic binary output -/

theorem export_le_total (a b : ExportEntry) : export_le a b ∨ export_le b a := by
  unfold export_le
  rcases lt_trichotomy a.base b.base with h | h | h
  · exact Or.inl (Or.inl h)
  · by_cases hv : b.variant < a.variant
    · exact Or.inr (Or.inr ⟨h.symm, fun hc => lt_asymm hv hc⟩)
    · exact Or.inl (Or.inr ⟨h, hv⟩)
  · exact Or.inr (Or.inl h)

theorem export_le_trans (a b c : ExportEntry) (hab : export_le a b) (hbc : export_le b c) :
    export_le a c := by
  unfold export_le at *
  rcases hab with h1 | ⟨h1, v1⟩ <;> rcases hbc with h2 | ⟨h2, v2⟩
  · exact Or.inl (lt_trans h1 h2)
  · exact Or.inl (h2 ▸ h1)
  · exact Or.inl (h1 ▸ h2)
  · exact Or.inr ⟨h1.trans h2, fun hc => v1 (lt_of_le_of_lt (not_lt.mp v2) hc)⟩

theorem export_lt_of_le (a b : ExportEntry) (h : export_le a b)
    (hne : (a.base, a.variant) ≠ (b.base, b.variant)) : export_lt a b := by
  unfold export_le at h
  unfold export_lt
  rcases h with h | ⟨h1, h2⟩
  · rw [if_pos (ne_of_lt h)]
    exact h
  · rw [if_neg (not_not.mpr h1)]
    rcases lt_trichotomy a.variant b.variant with hv | hv | hv
    · exact hv
    · exact absurd (by rw [h1, hv]) hne
    · exact absurd hv h2

theorem export_lt_asymm (a b : ExportEntry) (hab : export_lt a b) (hba : export_lt b a) : False := by
  unfold export_lt at *
  by_cases h : a.base = b.base
  · rw [if_neg (not_not.mpr h)] at hab
    rw [if_neg (not_not.mpr h.symm)] at hba
    exact lt_asymm hab hba
  · rw [if_pos h] at hab
    rw [if_pos (fun hc => h hc.symm)] at hba
    exact lt_asymm hab hba

/-- The sort of the entries yields a strictly ascending list if no two entries have the
same `(base, variant)`. -/
theorem sort_strict (l : List ExportEntry)
    (hnd : (l.map (fun e => (e.base, e.variant))).Nodup) :
    (l.insertionSort export_le).Pairwise export_lt := by
  haveI : IsTotal ExportEntry export_le := ⟨export_le_total⟩
  haveI : IsTrans ExportEntry export_le := ⟨export_le_trans⟩
  have hs : (l.insertionSort export_le).Pairwise export_le := List.sorted_insertionSort export_le l
  have hp := List.perm_insertionSort export_le l
  have hnd2 : ((l.insertionSort export_le).map (fun e => (e.base, e.variant))).Nodup :=
    ((hp.map _).nodup_iff).mpr hnd
  have hne : (l.insertionSort export_le).Pairwise
      (fun a b => (a.base, a.variant) ≠ (b.base, b.variant)) := List.pairwise_map.mp hnd2
  exact (hs.and hne).imp (fun h => export_lt_of_le _ _ h.1 h.2)

/-- The sorted list does not depend on the order in which the entries were collected. -/
theorem sort_perm (l1 l2 : List ExportEntry) (hp : l1.Perm l2)
    (hnd : (l1.map (fun e => (e.base, e.variant))).Nodup) :
    l1.insertionSort export_le = l2.insertionSort export_le := by
  haveI : IsAntisymm ExportEntry export_lt :=
    ⟨fun a b hab hba => (export_lt_asymm a b hab hba).elim⟩
  have h1 := sort_strict l1 hnd
  have h2 := sort_strict l2 (((hp.map _).nodup_iff).mp hnd)
  exact List.eq_of_perm_of_sorted
    (((List.perm_insertionSort export_le l1).trans hp).trans
      (List.perm_insertionSort export_le l2).symm) h1 h2

theorem export_entries_eq (catalog : List (Str × Str)) :
    export_entries catalog =
      if ∀ kv ∈ catalog, is_hex_token (key_parts kv.1).1 = true then
        some (catalog.map entry_of_pair)
      else none := by
  induction catalog with
  | nil => simp [export_entries]
  | cons kv rest ih =>
    by_cases hk : is_hex_token (key_parts kv.1).1 = true
    · have hne : (key_parts kv.1).1.isEmpty = false := by
        have := (is_hex_token_length _ hk).1
        cases hb : (key_parts kv.1).1 with
        | nil => rw [hb] at this; simp at this
        | cons a l => rfl
      simp only [export_entries, hne, hk, Bool.not_true, Bool.or_self, Bool.false_eq_true,
        if_false, ih, List.forall_mem_cons, true_and]
      by_cases hr : ∀ kv ∈ rest, is_hex_token (key_parts kv.1).1 = true
      · rw [if_pos hr, if_pos hr]
        rfl
      · rw [if_neg hr, if_neg hr]
    · have : ¬ ∀ x ∈ kv :: rest, is_hex_token (key_parts x.1).1 = true :=
        fun hc => hk (hc kv (List.mem_cons_self _ _))
      rw [if_neg this]
      simp only [Bool.not_eq_true] at hk
      simp [export_entries, hk]

theorem key_parts_nodup (catalog : List (Str × Str)) (hnd : (catalog.map Prod.fst).Nodup)
    (hlow : ∀ kv ∈ catalog, to_lower_ascii kv.1 = kv.1) :
    ((catalog.map entry_of_pair).map (fun e => (e.base, e.variant))).Nodup := by
  have : (catalog.map entry_of_pair).map (fun e => (e.base, e.variant)) =
      (catalog.map Prod.fst).map key_parts := by
    simp [List.map_map, Function.comp_def, entry_of_pair]
  rw [this]
  refine List.Nodup.map_on ?_ hnd
  intro x hx y hy hxy
  obtain ⟨kx, hkx, rfl⟩ := List.mem_map.mp hx
  obtain ⟨ky, hky, rfl⟩ := List.mem_map.mp hy
  have h1 := (key_parts_lower kx.1 (hlow kx hkx)).1
  have h2 := (key_parts_lower ky.1 (hlow ky hky)).1
  rw [← h1, ← h2, hxy]

theorem assign_offsets_proj (es : List ExportEntry) :
    ∀ c, (assign_offsets es c).map (fun e => (e.base, e.variant, e.text)) =
      es.map (fun e => (e.base, e.variant, e.text)) := by
  induction es with
  | nil => intro c; rfl
  | cons e es ih => intro c; simp [assign_offsets, ih]

theorem pairwise_of_map_eq {α β : Type} (f : α → β) (R : β → β → Prop) (l1 l2 : List α)
    (h : l1.map f = l2.map f) (hp : l2.Pairwise (fun a b => R (f a) (f b))) :
    l1.Pairwise (fun a b => R (f a) (f b)) := by
  have h2 : (l2.map f).Pairwise R := List.pairwise_map.mpr hp
  rw [← h] at h2
  exact List.pairwise_map.mp h2

/-- What `export_binary_catalog` builds from a snapshot whose keys all have a hex-token
base: header and metadata block, then the records of the sorted entries, then their
texts. -/
theorem export_layout (eng : I18nEngine) (s : CatalogSnapshot) (hne : s.catalog ≠ [])
    (hall : ∀ kv ∈ s.catalog, is_hex_token (key_parts kv.1).1 = true) :
    ∃ head,
      head.length = 30 + min s.meta_locale.length 65535 + min s.meta_fallback.length 65535 +
        min s.meta_note.length 65535 ∧
      export_binary_catalog (install_snapshot eng s) =
        some (head ++
          (assign_offsets ((s.catalog.map entry_of_pair).insertionSort export_le) 0).flatMap
            encode_entry ++
          (assign_offsets ((s.catalog.map entry_of_pair).insertionSort export_le) 0).flatMap
            (fun e => e.text)) := by
  have hMlen : (le_u16 (min s.meta_locale.length 65535) ++ le_u16 (min s.meta_fallback.length 65535) ++
      le_u16 (min s.meta_note.length 65535) ++ s.meta_locale.take (min s.meta_locale.length 65535) ++
      s.meta_fallback.take (min s.meta_fallback.length 65535) ++
      s.meta_note.take (min s.meta_note.length 65535)).length =
      6 + min s.meta_locale.length 65535 + min s.meta_fallback.length 65535 +
        min s.meta_note.length 65535 := by
    simp [le_u16]
    omega
  unfold export_binary_catalog
  simp only [install_snapshot, export_entries_eq, if_pos hall]
  rw [if_neg (by simpa [List.isEmpty_iff] using hne)]
  rw [hMlen]
  have hpos : (6 + min s.meta_locale.length 65535 + min s.meta_fallback.length 65535 +
      min s.meta_note.length 65535) % 4294967296 > 0 := by
    rw [Nat.mod_eq_of_lt (by omega)]
    omega
  rw [if_pos hpos, if_pos hpos]
  refine ⟨_, ?_, rfl⟩
  simp only [List.length_append, hMlen, BINARY_MAGIC, le_u32, List.length_cons, List.length_nil]
  omega

/-- When `export_binary_catalog` returns `false` before it opens the file: no snapshot,
an empty catalog, or a key whose base is not a hex token. -/
theorem export_none_iff (eng : I18nEngine) :
    export_binary_catalog eng = none ↔
      (eng.active_snapshot = none ∨ ∃ s, eng.active_snapshot = some s ∧
        (s.catalog = [] ∨ ∃ kv ∈ s.catalog, is_hex_token (key_parts kv.1).1 = false)) := by
  cases hs : eng.active_snapshot with
  | none =>
    unfold export_binary_catalog
    simp [hs]
  | some s =>
    have hsome : ∀ (c : Prop) [Decidable c] (x : List Nat), c →
        (if c then some x else (none : Option (List Nat))) ≠ none := by
      intro c _ x hc
      rw [if_pos hc]
      exact fun h => by cases h
    constructor
    · intro h
      right
      refine ⟨s, rfl, ?_⟩
      by_contra hc
      rw [not_or] at hc
      obtain ⟨hne, hex⟩ := hc
      have hall : ∀ kv ∈ s.catalog, is_hex_token (key_parts kv.1).1 = true := by
        intro kv hkv
        cases hh : is_hex_token (key_parts kv.1).1 with
        | true => rfl
        | false => exact absurd ⟨kv, hkv, hh⟩ hex
      unfold export_binary_catalog at h
      simp only [hs, export_entries_eq, if_pos hall] at h
      rw [if_neg (by simpa [List.isEmpty_iff] using hne)] at h
      cases h
    · intro h
      rcases h with h | ⟨t, ht, h⟩
      · cases h
      · simp only [Option.some.injEq] at ht
        subst ht
        unfold export_binary_catalog
        simp only [hs, export_entries_eq]
        rcases h with h | ⟨kv, hkv, hh⟩
        · rw [if_pos (by simp [h])]
        · have hall : ¬ ∀ kv ∈ s.catalog, is_hex_token (key_parts kv.1).1 = true := by
            intro hc
            rw [hc kv hkv] at hh
            cases hh
          rw [if_neg hall]
          simp

/-- C20. Deterministic binary output: for two snapshots whose catalogs hold the same
pairs (in any iteration order; the keys distinct and lower-case, as tokens are) and whose
metadata are equal, `export_binary_catalog` builds the same bytes (or returns `false`
for both); and the bytes it builds are a head of header and metadata block, then the
records of entries that are strictly ascending by `(base, variant)` and are the pairs
of the catalog, then the texts of these entries. -/
theorem deterministic_binary_output (e1 e2 : I18nEngine) (s1 s2 : CatalogSnapshot)
    (hnd : (s1.catalog.map Prod.fst).Nodup)
    (hlow : ∀ kv ∈ s1.catalog, to_lower_ascii kv.1 = kv.1)
    (hcat : s1.catalog.Perm s2.catalog)
    (hmeta : s1.meta_locale = s2.meta_locale ∧ s1.meta_fallback = s2.meta_fallback ∧
      s1.meta_note = s2.meta_note ∧ s1.meta_plural = s2.meta_plural) :
    export_binary_catalog (install_snapshot e1 s1) =
      export_binary_catalog (install_snapshot e2 s2) ∧
    ∀ bytes, export_binary_catalog (install_snapshot e1 s1) = some bytes →
      ∃ (head : List Nat) (entries : List ExportEntry),
        bytes = head ++ entries.flatMap encode_entry ++ entries.flatMap (fun e => e.text) ∧
        head.length = 30 + min s1.meta_locale.length 65535 +
          min s1.meta_fallback.length 65535 + min s1.meta_note.length 65535 ∧
        (entries.map (fun e => (entry_key e.base e.variant, e.text))).Perm s1.catalog ∧
        entries.Pairwise export_lt := by
  obtain ⟨hm1, hm2, hm3, hm4⟩ := hmeta
  have hpairs := key_parts_nodup s1.catalog hnd hlow
  have hsort := sort_perm _ _ (hcat.map entry_of_pair) hpairs
  constructor
  · unfold export_binary_catalog
    simp only [install_snapshot, export_entries_eq]
    have hE : s2.catalog.isEmpty = s1.catalog.isEmpty := by
      cases h1 : s1.catalog with
      | nil => rw [h1] at hcat; rw [List.nil_perm.mp hcat]
      | cons a l =>
        cases h2 : s2.catalog with
        | nil => rw [h2] at hcat; rw [List.perm_nil.mp hcat] at h1; cases h1
        | cons b m => rfl
    have hA : (∀ kv ∈ s2.catalog, is_hex_token (key_parts kv.1).1 = true) ↔
        ∀ kv ∈ s1.catalog, is_hex_token (key_parts kv.1).1 = true :=
      ⟨fun h kv hkv => h kv (hcat.mem_iff.mp hkv), fun h kv hkv => h kv (hcat.mem_iff.mpr hkv)⟩
    by_cases hall : ∀ kv ∈ s1.catalog, is_hex_token (key_parts kv.1).1 = true
    · simp only [if_pos hall, if_pos (hA.mpr hall), ← hsort, ← hm1, ← hm2, ← hm3, ← hm4, hE]
    · simp only [if_neg hall, if_neg (fun hc => hall (hA.mp hc)), hE]
  · intro bytes hb
    have hne : s1.catalog ≠ [] := by
      intro hc
      have := (export_none_iff (install_snapshot e1 s1)).mpr
        (Or.inr ⟨s1, rfl, Or.inl hc⟩)
      rw [this] at hb
      cases hb
    have hall : ∀ kv ∈ s1.catalog, is_hex_token (key_parts kv.1).1 = true := by
      intro kv hkv
      cases hh : is_hex_token (key_parts kv.1).1 with
      | true => rfl
      | false =>
        have := (export_none_iff (install_snapshot e1 s1)).mpr
          (Or.inr ⟨s1, rfl, Or.inr ⟨kv, hkv, hh⟩⟩)
        rw [this] at hb
        cases hb
    obtain ⟨head, hlen, hexp⟩ := export_layout e1 s1 hne hall
    rw [hexp] at hb
    simp only [Option.some.injEq] at hb
    refine ⟨head, _, hb.symm, hlen, ?_, ?_⟩
    · have h1 : (assign_offsets ((s1.catalog.map entry_of_pair).insertionSort export_le) 0).map
          (fun e => (entry_key e.base e.variant, e.text)) =
          ((s1.catalog.map entry_of_pair).insertionSort export_le).map
            (fun e => (entry_key e.base e.variant, e.text)) := by
        have := congrArg (List.map (fun (t : Str × Str × Str) => (entry_key t.1 t.2.1, t.2.2)))
          (assign_offsets_proj ((s1.catalog.map entry_of_pair).insertionSort export_le) 0)
        simpa [List.map_map, Function.comp_def] using this
      rw [h1]
      refine ((List.perm_insertionSort export_le _).map _).trans ?_
      rw [List.map_map]
      have h2 : s1.catalog.map ((fun e => (entry_key e.base e.variant, e.text)) ∘ entry_of_pair) =
          s1.catalog.map id := by
        apply List.map_congr_left
        intro kv hkv
        have := (key_parts_lower kv.1 (hlow kv hkv)).1
        simp only [Function.comp, id, entry_of_pair, entry_key]
        rw [this]
      rw [h2, List.map_id]
    · exact pairwise_of_map_eq (fun e : ExportEntry => (e.base, e.variant, e.text))
        (fun x y => if x.1 ≠ y.1 then x.1 < y.1 else x.2.1 < y.2.1) _ _
        (assign_offsets_proj _ 0) (sort_strict _ hpairs)

set_option maxRecDepth 100000 in
theorem deterministic_binary_output_witness :
    ((inline_ref_snapshot.catalog.map Prod.fst).Nodup ∧
      (∀ kv ∈ inline_ref_snapshot.catalog, to_lower_ascii kv.1 = kv.1) ∧
      inline_ref_snapshot.catalog.Perm reordered_snapshot.catalog ∧
      inline_ref_snapshot.catalog ≠ reordered_snapshot.catalog ∧
      (export_binary_catalog (install_snapshot I18nEngine.init inline_ref_snapshot)).isSome =
        true) ∧
    (export_binary_catalog (install_snapshot I18nEngine.init inline_ref_snapshot) =
      export_binary_catalog (install_snapshot I18nEngine.init reordered_snapshot) ∧
    ∀ bytes, export_binary_catalog (install_snapshot I18nEngine.init inline_ref_snapshot) =
        some bytes →
      ∃ (head : List Nat) (entries : List ExportEntry),
        bytes = head ++ entries.flatMap encode_entry ++ entries.flatMap (fun e => e.text) ∧
        head.length = 30 + min inline_ref_snapshot.meta_locale.length 65535 +
          min inline_ref_snapshot.meta_fallback.length 65535 +
          min inline_ref_snapshot.meta_note.length 65535 ∧
        (entries.map (fun e => (entry_key e.base e.variant, e.text))).Perm
          inline_ref_snapshot.catalog ∧
        entries.Pairwise export_lt) :=
  ⟨by decide,
   deterministic_binary_output I18nEngine.init I18nEngine.init inline_ref_snapshot
     reordered_snapshot (by decide) (by decide) (by decide) (by decide)⟩

/-- C18, amended. Export failure reporting: `export_binary_catalog` reports failure by
its return value only.  It returns `false` exactly when the path is null, no snapshot is
loaded, the catalog is empty, a key has a base that is not a hex token, or the file
cannot be written; and the last-error slot returned by `get_last_error` holds after the
call what it held before the call. -/
theorem export_failure_keeps_last_error (eng : I18nEngine) (path_null file_ok : Bool) :
    get_last_error (export_binary_catalog_call eng path_null file_ok).2 = get_last_error eng ∧
    ((export_binary_catalog_call eng path_null file_ok).1 = false ↔
      (path_null = true ∨ eng.active_snapshot = none ∨
        (∃ s, eng.active_snapshot = some s ∧
          (s.catalog = [] ∨ ∃ kv ∈ s.catalog, is_hex_token (key_parts kv.1).1 = false)) ∨
        file_ok = false)) := by
  constructor
  · rw [export_call_engine]
  · have hn := export_none_iff eng
    unfold export_binary_catalog_call
    cases path_null with
    | true => simp
    | false =>
      simp only [Bool.false_eq_true, if_false, false_or]
      cases he : export_binary_catalog eng with
      | none =>
        rw [he] at hn
        simp only [true_iff] at hn
        simp only [true_iff]
        rcases hn with h | h
        · exact Or.inl h
        · exact Or.inr (Or.inl h)
      | some bytes =>
        rw [he] at hn
        have hn2 : ¬ (eng.active_snapshot = none ∨ ∃ s, eng.active_snapshot = some s ∧
            (s.catalog = [] ∨ ∃ kv ∈ s.catalog, is_hex_token (key_parts kv.1).1 = false)) :=
          fun h => by have := hn.mpr h; cases this
        rw [not_or] at hn2
        constructor
        · intro h
          exact Or.inr (Or.inr h)
        · intro h
          rcases h with h | h | h
          · exact absurd h hn2.1
          · exact absurd h hn2.2
          · exact h

/-! ## Text unescape -/

theorem unescape_scan_eq (s : Str) (fuel : Nat) : ∀ (i : Nat) (rest : Str),
    s.drop i = rest → rest.length ≤ fuel → unescape_scan s fuel i = unescape_txt_min rest := by
  induction fuel using Nat.strong_induction_on with
  | _ fuel ih =>
    intro i rest hd hf
    have hlen : rest.length = s.length - i := by rw [← hd]; simp
    cases fuel with
    | zero =>
      have : rest = [] := List.length_eq_zero.mp (by omega)
      subst this
      rfl
    | succ n =>
      match rest, hd, hf, hlen with
      | [], hd, hf, hlen =>
        have hi : ¬ i < s.length := by simp at hlen; omega
        simp [unescape_scan, hi, unescape_txt_min]
      | [c], hd, hf, hlen =>
        have hi : i < s.length := by simp at hlen; omega
        have h1 : ¬ i + 1 < s.length := by simp at hlen; omega
        have hc : s.getD i 0 = c := getD_of_drop s i c [] hd
        have hnext : unescape_scan s n (i + 1) = [] := by
          cases n with
          | zero => rfl
          | succ m => simp [unescape_scan, h1]
        simp only [unescape_scan, hi, if_true, h1, and_false, if_false, hc, hnext,
          unescape_txt_min]
      | c :: c2 :: rest2, hd, hf, hlen =>
        have hi : i < s.length := by simp at hlen; omega
        have h1 : i + 1 < s.length := by simp at hlen; omega
        have hc : s.getD i 0 = c := getD_of_drop s i c (c2 :: rest2) hd
        have hd1 : s.drop (i + 1) = c2 :: rest2 :=
          drop_of_drop s i [c] (c2 :: rest2) hd (i + 1) rfl
        have hc2 : s.getD (i + 1) 0 = c2 := getD_of_drop s (i + 1) c2 rest2 hd1
        have hd2 : s.drop (i + 2) = rest2 :=
          drop_of_drop s i [c, c2] rest2 hd (i + 2) rfl
        simp only [List.length_cons] at hf
        by_cases h92 : c = 92
        · have e := ih n (Nat.lt_succ_self n) (i + 2) rest2 hd2 (by omega)
          simp only [unescape_scan, hi, if_true, hc, hc2, h92, h1, and_self, e,
            unescape_txt_min, escape_value]
          congr 1
          by_cases a1 : c2 = 110
          · simp [a1]
          by_cases a2 : c2 = 116
          · simp [a2]
          by_cases a3 : c2 = 114
          · simp [a3]
          by_cases a4 : c2 = 92
          · simp [a4]
          by_cases a5 : c2 = 58
          · simp [a5]
          simp [a1, a2, a3, a4, a5]
        · have e := ih n (Nat.lt_succ_self n) (i + 1) (c2 :: rest2) hd1
            (by simp only [List.length_cons]; omega)
          simp only [unescape_scan, hi, if_true, hc, h92, false_and, if_false, e,
            unescape_txt_min]

/-- C23. Text unescape: for every input string, `unescape_txt_min` is the left-to-right
scan of the specification: the two-byte sequences `\n`, `\t`, `\r`, `\\` and `\:` give
LF, HT, CR, backslash and colon, every other backslash followed by a byte `x` gives `x`
alone, and every remaining byte (a backslash at the very end included) is copied. -/
theorem unescape_txt_min_spec (s : Str) : unescape_txt_min s = unescape_spec s := by
  unfold unescape_spec
  exact (unescape_scan_eq s s.length 0 s rfl le_rfl).symm

/-! ## The recursion cap on a chain of references -/

/-- A token whose template is exactly one reference `@B` expands to the expansion of
`B` one level deeper. -/
theorem chain_step (s : CatalogSnapshot) (hwf : s.WellFormed) (A B : Str) (seen : Seen)
    (d : Nat) (hA : is_hex_token A = true) (hB : is_hex_token B = true)
    (hlowB : to_lower_ascii B = B) (hd : d ≤ 32) (hs : A ∉ seen)
    (hrawA : map_find s.catalog A = some (64 :: B))
    (hBin : (map_find s.catalog B).isNone = false) :
    translate_impl s A [] seen d = ((translate_impl s B [] (A :: seen) (d + 1)).1, seen) := by
  have hnil : ∀ c, ([] : Str).head? = some c → is_xdigit c = false ∧ c ≠ 123 := by
    intro c hc; cases hc
  have hlexB := lex_template_one_ref [] B [] hB hlowB (by simp) (by simp) hnil
  simp only [List.nil_append, List.append_nil, List.map_nil] at hlexB
  rw [translate_impl_plain_token s A [] seen d _ hd hs
    (well_formed_not_style s hwf A (hex_not_style A hA)) hrawA, hlexB]
  simp only [List.foldl_cons, List.foldl_nil, emit_item, hBin, Bool.false_eq_true, if_false,
    List.nil_append]

theorem chain_value (s : CatalogSnapshot) (hwf : s.WellFormed) (t : Nat → Str) (n : Nat)
    (x : Str) (hn : n ≤ 32)
    (hhex : ∀ i, i ≤ n → is_hex_token (t i) = true ∧ to_lower_ascii (t i) = t i)
    (hinj : ∀ i, i ≤ n → ∀ j, j ≤ n → t i = t j → i = j)
    (hlink : ∀ i, i < n → map_find s.catalog (t i) = some (64 :: t (i + 1)))
    (hlast : map_find s.catalog (t n) = some x) (hx : ∀ c ∈ x, c ≠ 64 ∧ c ≠ 37) :
    ∀ (m i : Nat) (seen : Seen), i + m = n → (∀ j, i ≤ j → j ≤ n → t j ∉ seen) →
      translate_impl s (t i) [] seen i = (x, seen) := by
  intro m
  induction m with
  | zero =>
    intro i seen him hseen
    have hi : i = n := by omega
    subst hi
    exact translate_impl_plain_bytes s (t i) [] seen i x hn (hseen i le_rfl le_rfl)
      (well_formed_not_style s hwf _ (hex_not_style _ (hhex i le_rfl).1)) hlast hx
  | succ m ih =>
    intro i seen him hseen
    have hi : i < n := by omega
    have hnext : (map_find s.catalog (t (i + 1))).isNone = false := by
      rcases Nat.lt_or_ge (i + 1) n with h | h
      · rw [hlink (i + 1) h]; rfl
      · have : i + 1 = n := by omega
        rw [this, hlast]; rfl
    rw [chain_step s hwf (t i) (t (i + 1)) seen i (hhex i (by omega)).1
      (hhex (i + 1) (by omega)).1 (hhex (i + 1) (by omega)).2 (by omega)
      (hseen i le_rfl (by omega)) (hlink i hi) hnext]
    rw [ih (i + 1) (t i :: seen) (by omega) (by
      intro j hj hjn hmem
      rcases List.mem_cons.mp hmem with h | h
      · have := hinj j hjn i (by omega) h
        omega
      · exact hseen j (by omega) hjn h)]

theorem chain_limit (s : CatalogSnapshot) (hwf : s.WellFormed) (t : Nat → Str) (n : Nat)
    (x : Str) (hn : 33 ≤ n)
    (hhex : ∀ i, i ≤ n → is_hex_token (t i) = true ∧ to_lower_ascii (t i) = t i)
    (hinj : ∀ i, i ≤ n → ∀ j, j ≤ n → t i = t j → i = j)
    (hlink : ∀ i, i < n → map_find s.catalog (t i) = some (64 :: t (i + 1)))
    (hlast : map_find s.catalog (t n) = some x) :
    ∀ (m i : Nat) (seen : Seen), i + m = 33 → (∀ j, i ≤ j → j ≤ n → t j ∉ seen) →
      translate_impl s (t i) [] seen i = (S_RECURSION_LIMIT, seen) := by
  intro m
  induction m with
  | zero =>
    intro i seen him _
    exact translate_impl_guard s (t i) [] seen i (by omega)
  | succ m ih =>
    intro i seen him hseen
    have hi : i < n := by omega
    have hnext : (map_find s.catalog (t (i + 1))).isNone = false := by
      rcases Nat.lt_or_ge (i + 1) n with h | h
      · rw [hlink (i + 1) h]; rfl
      · have : i + 1 = n := by omega
        rw [this, hlast]; rfl
    rw [chain_step s hwf (t i) (t (i + 1)) seen i (hhex i (by omega)).1
      (hhex (i + 1) (by omega)).1 (hhex (i + 1) (by omega)).2 (by omega)
      (hseen i le_rfl (by omega)) (hlink i hi) hnext]
    rw [ih (i + 1) (t i :: seen) (by omega) (by
      intro j hj hjn hmem
      rcases List.mem_cons.mp hmem with h | h
      · have := hinj j hjn i (by omega) h
        omega
      · exact hseen j (by omega) hjn h)]

/-- C28. Recursion cap on a chain: in a well-formed snapshot, for distinct lower-case hex
tokens `t 0 … t n` where the template of `t i` is exactly `@t(i+1)` for `i < n` and the
template of `t n` is a text `x` without `@` and `%`, `translate(t 0, [])` returns `x`
when `n ≤ 32` and returns exactly `⟦RECURSION_LIMIT⟧` when `n ≥ 33`. -/
theorem recursion_cap_on_chain (eng : I18nEngine) (s : CatalogSnapshot) (t : Nat → Str)
    (n : Nat) (x : Str)
    (hs : eng.active_snapshot = some s) (hwf : s.WellFormed)
    (hhex : ∀ i, i ≤ n → is_hex_token (t i) = true ∧ to_lower_ascii (t i) = t i)
    (hinj : ∀ i, i ≤ n → ∀ j, j ≤ n → t i = t j → i = j)
    (hlink : ∀ i, i < n → map_find s.catalog (t i) = some (64 :: t (i + 1)))
    (hlast : map_find s.catalog (t n) = some x) (hx : ∀ c ∈ x, c ≠ 64 ∧ c ≠ 37) :
    (n ≤ 32 → translate eng (t 0) [] = x) ∧
    (33 ≤ n → translate eng (t 0) [] = utf8 "⟦RECURSION_LIMIT⟧") := by
  constructor
  · intro hn
    unfold translate
    simp only [hs, (hhex 0 (by omega)).2]
    rw [chain_value s hwf t n x hn hhex hinj hlink hlast hx n 0 [] (by omega)
      (fun j _ _ h => by cases h)]
  · intro hn
    unfold translate
    simp only [hs, (hhex 0 (by omega)).2]
    rw [chain_limit s hwf t n x hn hhex hinj hlink hlast 33 0 [] (by omega)
      (fun j _ _ h => by cases h)]
    rfl

set_option maxRecDepth 1000000 in
theorem recursion_cap_on_chain_witness :
    ((chain_snapshot 33 (utf8 "deep")).WellFormed ∧ (chain_snapshot 32 (utf8 "deep")).WellFormed ∧
      (∀ i, i ≤ 33 → is_hex_token (chain_token i) = true ∧
        to_lower_ascii (chain_token i) = chain_token i) ∧
      (∀ i, i < 33 → map_find (chain_snapshot 33 (utf8 "deep")).catalog (chain_token i) =
        some (64 :: chain_token (i + 1))) ∧
      map_find (chain_snapshot 33 (utf8 "deep")).catalog (chain_token 33) = some (utf8 "deep")) ∧
    translate (install_snapshot I18nEngine.init (chain_snapshot 33 (utf8 "deep")))
      (chain_token 0) [] = utf8 "⟦RECURSION_LIMIT⟧" ∧
    translate (install_snapshot I18nEngine.init (chain_snapshot 32 (utf8 "deep")))
      (chain_token 0) [] = utf8 "deep" :=
  ⟨by decide,
   (recursion_cap_on_chain (install_snapshot I18nEngine.init (chain_snapshot 33 (utf8 "deep")))
     (chain_snapshot 33 (utf8 "deep")) chain_token 33 (utf8 "deep") rfl (by decide) (by decide)
     (by decide) (by decide) (by decide) (by decide)).2 (by decide),
   (recursion_cap_on_chain (install_snapshot I18nEngine.init (chain_snapshot 32 (utf8 "deep")))
     (chain_snapshot 32 (utf8 "deep")) chain_token 32 (utf8 "deep") rfl (by decide) (by decide)
     (by decide) (by decide) (by decide) (by decide)).1 (by decide)⟩

/-! ## The set `seen` is restored; sibling references -/

/-- The production at the `@` of a hex reference `@B` inside a template. -/
theorem lex_ref_at (p B s : Str) (hB : is_hex_token B = true) (hlow : to_lower_ascii B = B)
    (hstart : ∀ c, s.head? = some c → is_xdigit c = false ∧ c ≠ 123) :
    lex_fuel (p ++ 64 :: (B ++ s)) ((p ++ 64 :: (B ++ s)).length - p.length) p.length =
      Item.ref B :: lex_fuel (p ++ 64 :: (B ++ s))
        ((p ++ 64 :: (B ++ s)).length - (p.length + (1 + B.length))) (p.length + (1 + B.length)) := by
  have hL : (p ++ 64 :: (B ++ s)).length = p.length + (1 + B.length) + s.length := by
    simp; omega
  have d1 : (p ++ 64 :: (B ++ s)).drop p.length = 64 :: (B ++ s) := by simp
  have hi : p.length < (p ++ 64 :: (B ++ s)).length := by omega
  have hstep : lex_step (p ++ 64 :: (B ++ s)) p.length = (.ref B, p.length + (1 + B.length)) :=
    lex_step_ref _ _ _ _ (getD_of_drop _ _ _ _ d1) (try_parse_hex_ref p B s hB hlow hstart)
  rw [lex_fuel_unfold _ _ hi, hstep]

/-- The productions of `@B ++ m ++ @B`: the reference, the bytes of `m`, the reference. -/
theorem lex_template_two_refs (B m : Str) (hB : is_hex_token B = true)
    (hlow : to_lower_ascii B = B) (hm : ∀ c ∈ m, c ≠ 64 ∧ c ≠ 37)
    (hstart : ∀ c, m.head? = some c → is_xdigit c = false ∧ c ≠ 123) :
    lex_template (64 :: (B ++ (m ++ 64 :: B))) =
      Item.ref B :: (m.map Item.byte ++ [Item.ref B]) := by
  have hs1 : ∀ c, (m ++ 64 :: B).head? = some c → is_xdigit c = false ∧ c ≠ 123 := by
    intro c hc
    cases m with
    | nil =>
      simp only [List.nil_append, List.head?_cons, Option.some.injEq] at hc
      subst hc
      exact ⟨by decide, by decide⟩
    | cons a r => exact hstart c (by simpa using hc)
  have hnil : ∀ c, ([] : Str).head? = some c → is_xdigit c = false ∧ c ≠ 123 := by
    intro c hc; cases hc
  have e1 := lex_ref_at [] B (m ++ 64 :: B) hB hlow hs1
  have e3 := lex_ref_at (64 :: (B ++ m)) B [] hB hlow hnil
  have hraw : (64 :: (B ++ m)) ++ 64 :: (B ++ []) = 64 :: (B ++ (m ++ 64 :: B)) := by simp
  rw [hraw] at e3
  simp only [List.nil_append, List.length_nil, Nat.sub_zero, Nat.zero_add] at e1
  have hL : (64 :: (B ++ (m ++ 64 :: B))).length = 1 + B.length + m.length + (1 + B.length) := by
    simp; omega
  have d2 : (64 :: (B ++ (m ++ 64 :: B))).drop (1 + B.length) = m ++ 64 :: B := by
    have := drop_of_drop (64 :: (B ++ (m ++ 64 :: B))) 0 (64 :: B) (m ++ 64 :: B) (by simp)
      (1 + B.length) (by simp; omega)
    exact this
  have e2 := lex_plain_bytes (64 :: (B ++ (m ++ 64 :: B))) m (1 + B.length) (64 :: B) d2 hm
  have hlen3 : (64 :: (B ++ m)).length = 1 + B.length + m.length := by simp; omega
  rw [hlen3] at e3
  unfold lex_template
  rw [e1, e2, e3, lex_fuel_end _ _ (by omega)]

/-- C29. The set `seen` is restored: for every snapshot, token, template, argument,
argument list, depth and initial set `seen`, the set that `translate_impl`,
`resolve_plain_text` and `resolve_arg` leave behind is the one they were given.
Consequently, in a well-formed snapshot, a lower-case hex token `A` whose template
references an existing token `B` twice as siblings, `@B ++ m ++ @B` (where `m` and the
template `t` of `B` contain no `@` and no `%`, and `m` does not start with a hex digit
or `{`), resolves both occurrences: `translate(A, args) = t ++ m ++ t`, with no cycle
sentinel. -/
theorem seen_set_restored (state : CatalogSnapshot) (token raw arg : Str) (args0 : List Str)
    (seen : Seen) (depth : Nat)
    (eng : I18nEngine) (s : CatalogSnapshot) (A B m t : Str) (args : List Str)
    (hs : eng.active_snapshot = some s) (hwf : s.WellFormed)
    (hA : is_hex_token A = true) (hlowA : to_lower_ascii A = A)
    (hB : is_hex_token B = true) (hlowB : to_lower_ascii B = B) (hne : A ≠ B)
    (hrawA : map_find s.catalog A = some (64 :: (B ++ (m ++ 64 :: B))))
    (hrawB : map_find s.catalog B = some t)
    (hm : ∀ c ∈ m, c ≠ 64 ∧ c ≠ 37) (ht : ∀ c ∈ t, c ≠ 64 ∧ c ≠ 37)
    (hstart : ∀ c, m.head? = some c → is_xdigit c = false ∧ c ≠ 123) :
    ((translate_impl state token args0 seen depth).2 = seen ∧
      (resolve_plain_text state raw args0 seen depth).2 = seen ∧
      (resolve_arg state arg seen depth).2 = seen) ∧
    translate eng A args = t ++ m ++ t := by
  refine ⟨⟨translate_impl_seen_eq _ _ _ _ _, resolve_plain_text_seen_eq _ _ _ _ _,
    resolve_arg_seen_eq _ _ _ _⟩, ?_⟩
  have hBA : B ∉ [A] := by simpa using Ne.symm hne
  have hB1 := translate_impl_plain_bytes s B args [A] 1 t (by omega) hBA
    (well_formed_not_style s hwf B (hex_not_style B hB)) hrawB ht
  unfold translate
  simp only [hs, hlowA]
  rw [translate_impl_plain_token s A args [] 0 _ (by omega) (by simp)
    (well_formed_not_style s hwf A (hex_not_style A hA)) hrawA,
    lex_template_two_refs B m hB hlowB hm hstart]
  simp only [List.foldl_cons, List.foldl_append, List.foldl_nil, emit_item, hrawB,
    Option.isNone_some, Bool.false_eq_true, if_false, hB1, emit_fold_bytes, Nat.zero_add,
    List.nil_append]

set_option maxRecDepth 100000 in
theorem seen_set_restored_witness :
    (sibling_engine.active_snapshot = some sibling_snapshot ∧ sibling_snapshot.WellFormed ∧
      map_find sibling_snapshot.catalog (utf8 "aaaaaa") = some (utf8 "@bbbbbb @bbbbbb") ∧
      map_find sibling_snapshot.catalog (utf8 "bbbbbb") = some (utf8 "x") ∧
      utf8 "x" ++ utf8 " " ++ utf8 "x" = utf8 "x x") ∧
    ((translate_impl sibling_snapshot (utf8 "aaaaaa") [] [utf8 "cccccc"] 0).2 = [utf8 "cccccc"] ∧
      (resolve_plain_text sibling_snapshot (utf8 "@bbbbbb") [] [utf8 "cccccc"] 0).2 =
        [utf8 "cccccc"] ∧
      (resolve_arg sibling_snapshot (utf8 "bbbbbb") [utf8 "cccccc"] 0).2 = [utf8 "cccccc"]) ∧
    translate sibling_engine (utf8 "aaaaaa") [] = utf8 "x" ++ utf8 " " ++ utf8 "x" :=
  ⟨by decide,
   seen_set_restored sibling_snapshot (utf8 "aaaaaa") (utf8 "@bbbbbb") (utf8 "bbbbbb") []
     [utf8 "cccccc"] 0 sibling_engine sibling_snapshot (utf8 "aaaaaa") (utf8 "bbbbbb") (utf8 " ")
     (utf8 "x") [] (by decide) (by decide) (by decide) (by decide) (by decide) (by decide)
     (by decide) (by decide) (by decide) (by decide) (by decide) (by decide)⟩

/-! ## Argument recursion -/

theorem is_style_token_eq (token : Str) :
    is_style_token token =
      if (key_parts token).1.length ≤ 6 then false
      else starts_with (key_parts token).1 STYLE_PREFIX := by
  unfold is_style_token key_parts
  cases hp : parse_variant_suffix token with
  | none => rfl
  | some bv => rfl

theorem with_checksum_length (data : List Nat) (c : Nat) :
    (with_checksum data c).length = data.length := by
  simp [with_checksum]

theorem with_checksum_getElem (data : List Nat) (c i : Nat) (h : i < 16 ∨ 20 ≤ i) :
    (with_checksum data c)[i]? = data[i]? := by
  unfold with_checksum
  rw [getElem?_set_ne' _ _ _ _ (by omega), getElem?_set_ne' _ _ _ _ (by omega),
    getElem?_set_ne' _ _ _ _ (by omega), getElem?_set_ne' _ _ _ _ (by omega)]

theorem except_map_bind {ε α β γ : Type} (x : Except ε α) (f : α → Except ε β) (g : β → γ) :
    Except.map g (x.bind f) = x.bind (fun a => Except.map g (f a)) := by
  cases x <;> rfl

theorem except_map_ite {ε β γ : Type} (c : Prop) [Decidable c] (a b : Except ε β) (g : β → γ) :
    Except.map g (if c then a else b) = if c then Except.map g a else Except.map g b := by
  split <;> rfl

theorem read_le_u32_not_oob (data : List Nat) (off : Nat) (h : off + 3 < data.length) :
    ∃ b, read_le_u32 data off = .ok b := by
  unfold read_le_u32
  obtain ⟨b0, h0⟩ := read_u8_not_oob data off (by omega)
  obtain ⟨b1, h1⟩ := read_u8_not_oob data (off + 1) (by omega)
  obtain ⟨b2, h2⟩ := read_u8_not_oob data (off + 2) (by omega)
  obtain ⟨b3, h3⟩ := read_u8_not_oob data (off + 3) (by omega)
  rw [h0, h1, h2, h3]
  exact ⟨_, rfl⟩

/-- Two buffers of the same length that agree outside the bytes 16..19 give the same
header, up to the field `checksum`. -/
theorem read_header_agree (d1 d2 : List Nat) (hlen : d2.length = d1.length)
    (hag : ∀ i, i < 16 ∨ 20 ≤ i → d2[i]? = d1[i]?) (hsz : 20 ≤ d1.length) :
    ∃ ck, read_header d2 = Except.map (fun h => { h with checksum := ck }) (read_header d1) := by
  obtain ⟨c1, hc1⟩ := read_le_u32_not_oob d1 16 (by omega)
  obtain ⟨c2, hc2⟩ := read_le_u32_not_oob d2 16 (by omega)
  refine ⟨c2, ?_⟩
  unfold read_header
  rw [hlen, take_congr d2 d1 4 (fun i hi => hag i (by omega)),
    read_u8_congr d2 d1 4 (hag 4 (by omega)), read_u8_congr d2 d1 6 (hag 6 (by omega)),
    read_le_u32_congr d2 d1 20 (fun i _ hi => hag i (by omega)),
    read_le_u32_congr d2 d1 8 (fun i _ hi => hag i (by omega)),
    read_le_u32_congr d2 d1 12 (fun i _ hi => hag i (by omega)), hc1, hc2]
  simp only [except_map_ite, except_map_bind]
  rfl

theorem header_size_of_ge (v : Nat) : 20 ≤ header_size_of v := by
  unfold header_size_of BINARY_HEADER_SIZE_V1 BINARY_HEADER_SIZE_V2
  split <;> omega

theorem read_metadata_agree (d1 d2 : List Nat) (hlen : d2.length = d1.length)
    (hag : ∀ i, i < 16 ∨ 20 ≤ i → d2[i]? = d1[i]?) (h : BinHeader) (ck : Nat) :
    read_metadata d2 { h with checksum := ck } = read_metadata d1 h := by
  have hb := header_size_of_ge h.version
  have hsub : ∀ a n, 20 ≤ a → substr d2 a n = substr d1 a n :=
    fun a n ha => substr_congr d2 d1 a n (fun i h1 _ => hag i (by omega))
  unfold read_metadata
  simp only []
  rw [hlen, read_le_u16_congr d2 d1 (header_size_of h.version) (fun i h1 _ => hag i (by omega)),
    read_le_u16_congr d2 d1 (header_size_of h.version + 2) (fun i h1 _ => hag i (by omega)),
    read_le_u16_congr d2 d1 (header_size_of h.version + 4) (fun i h1 _ => hag i (by omega))]
  simp (disch := omega) only [hsub]

theorem read_entry_agree (d1 d2 : List Nat) (hlen : d2.length = d1.length)
    (hag : ∀ i, i < 16 ∨ 20 ≤ i → d2[i]? = d1[i]?) (offset : Nat) (ho : 20 ≤ offset) :
    read_entry d2 offset = read_entry d1 offset := by
  have hsub : ∀ a n, 20 ≤ a → substr d2 a n = substr d1 a n :=
    fun a n ha => substr_congr d2 d1 a n (fun i h1 _ => hag i (by omega))
  have hu8 : ∀ a, 20 ≤ a → read_u8 d2 a = read_u8 d1 a :=
    fun a ha => read_u8_congr d2 d1 a (hag a (by omega))
  have hu32 : ∀ a, 20 ≤ a → read_le_u32 d2 a = read_le_u32 d1 a :=
    fun a ha => read_le_u32_congr d2 d1 a (fun i h1 _ => hag i (by omega))
  unfold read_entry
  simp only []
  rw [hlen]
  simp (disch := first | omega | (split <;> omega)) only [hsub, hu8, hu32]

theorem read_entry_ok_ge (data : List Nat) (offset : Nat) (e : EntryInfo) (offset2 : Nat)
    (h : read_entry data offset = .ok (e, offset2)) : offset ≤ offset2 := by
  obtain ⟨tl, vl, _, _, _, _, ho, _⟩ := read_entry_ok data offset e offset2 h
  omega

theorem read_entries_agree (d1 d2 : List Nat) (hlen : d2.length = d1.length)
    (hag : ∀ i, i < 16 ∨ 20 ≤ i → d2[i]? = d1[i]?) (n : Nat) :
    ∀ (offset : Nat) (acc : List EntryInfo), 20 ≤ offset →
      read_entries d2 n offset acc = read_entries d1 n offset acc := by
  induction n with
  | zero => intro offset acc _; rfl
  | succ n ih =>
    intro offset acc ho
    simp only [read_entries]
    rw [read_entry_agree d1 d2 hlen hag offset ho]
    cases he : read_entry d1 offset with
    | error e => rfl
    | ok p =>
      obtain ⟨e, o2⟩ := p
      simp only
      exact ih o2 _ (by have := read_entry_ok_ge d1 offset e o2 he; omega)

theorem fill_entries_agree (d1 d2 : List Nat)
    (hag : ∀ i, i < 16 ∨ 20 ≤ i → d2[i]? = d1[i]?) (sb sts : Nat) (hsb : 20 ≤ sb)
    (entries : List EntryInfo) :
    ∀ snap, fill_entries d2 sb sts entries snap = fill_entries d1 sb sts entries snap := by
  induction entries with
  | nil => intro snap; rfl
  | cons e rest ih =>
    intro snap
    simp only [fill_entries]
    rw [substr_congr d2 d1 (sb + e.text_offset) e.text_length (fun i h1 _ => hag i (by omega))]
    simp only [ih]

/-- Two buffers of the same length that agree outside the bytes 16..19 are loaded alike
in non-strict mode. -/
theorem build_nonstrict_agree (d1 d2 : List Nat) (hlen : d2.length = d1.length)
    (hag : ∀ i, i < 16 ∨ 20 ≤ i → d2[i]? = d1[i]?) :
    build_snapshot_from_binary d2 false = build_snapshot_from_binary d1 false := by
  by_cases hsz : d1.length < 20
  · unfold build_snapshot_from_binary read_header
    simp only [hlen, BINARY_HEADER_SIZE_V1, hsz, if_true]
    rfl
  · obtain ⟨ck, hck⟩ := read_header_agree d1 d2 hlen hag (by omega)
    unfold build_snapshot_from_binary
    rw [hck]
    cases hh : read_header d1 with
    | error e => rfl
    | ok h =>
      simp only [Except.map, Except.bind]
      rw [read_metadata_agree d1 d2 hlen hag h ck]
      cases hm : read_metadata d1 h with
      | error e => rfl
      | ok m =>
        simp only
        have hb := header_size_of_ge h.version
        rw [read_entries_agree d1 d2 hlen hag h.entry_count _ [] (by omega)]
        cases hr : read_entries d1 h.entry_count (header_size_of h.version + h.metadata_size) [] with
        | error e => rfl
        | ok r =>
          have hle := read_entries_ok_le d1 _ _ _ _ hr
          simp only [Bool.false_eq_true, and_false, if_false, hlen]
          rw [fill_entries_agree d1 d2 hag r.2 h.string_table_size (by omega)]

theorem read_header_version (data : List Nat) (h : BinHeader) (hh : read_header data = .ok h) :
    h.version = 1 ∨ h.version = 2 := by
  unfold read_header at hh
  simp only at hh
  split at hh
  · simp at hh
  split at hh
  · simp at hh
  cases h4 : read_u8 data 4 with
  | error e => rw [h4] at hh; simp [Except.bind] at hh
  | ok version =>
    rw [h4] at hh
    simp only [Except.bind] at hh
    split at hh
    · simp at hh
    · rename_i hv
      have hv' : version = 1 ∨ version = 2 := by omega
      have hproj : ∀ (x : Except BinError BinHeader), x = .ok h →
          (∀ y, x = .ok y → y.version = version) → h.version = version :=
        fun x hx hy => hy h hx
      have hver : h.version = version := by
        revert hh
        cases (if version ≥ 2 then read_u8 data 6 else Except.ok 0) with
        | error e => intro hh; simp at hh
        | ok pr =>
          simp only
          cases (if version ≥ 2 then read_le_u32 data 20 else Except.ok 0) with
          | error e => intro hh; simp at hh
          | ok ms =>
            simp only
            split
            · intro hh; simp at hh
            split
            · intro hh; simp at hh
            cases read_le_u32 data 8 with
            | error e => intro hh; simp at hh
            | ok ec =>
              simp only
              cases read_le_u32 data 12 with
              | error e => intro hh; simp at hh
              | ok sts =>
                simp only
                cases read_le_u32 data 16 with
                | error e => intro hh; simp at hh
                | ok ck =>
                  simp only
                  intro hh
                  simp only [Except.ok.injEq] at hh
                  rw [← hh]
      rw [hver]
      exact hv'

theorem read_metadata_msg (data : List Nat) (h : BinHeader) (hh : read_header data = .ok h) :
    (∃ m, read_metadata data h = .ok m) ∨ (∃ e, read_metadata data h = .error (.msg e)) := by
  rcases read_header_version data h hh with hv | hv
  · left
    unfold read_metadata
    simp [hv]
  · exact read_metadata_not_oob data h hv (read_header_ok_v2 data h hh hv).2.2

/-- Strict loading rejects a buffer whose stored checksum differs from the computed
one. -/
theorem strict_rejects_mismatch (data : List Nat) (h : BinHeader) (r : List EntryInfo × Nat)
    (hh : read_header data = .ok h)
    (hr : read_entries data h.entry_count (header_size_of h.version + h.metadata_size) [] = .ok r)
    (hne : computed_checksum data h r.2 ≠ h.checksum) :
    ∃ e, build_snapshot_from_binary data true = .error (.msg e) := by
  unfold build_snapshot_from_binary
  rw [hh]
  simp only [Except.bind]
  rcases read_metadata_msg data h hh with ⟨m, hm⟩ | ⟨e, hm⟩
  · rw [hm]
    simp only
    rw [hr]
    simp only
    split
    · exact ⟨_, rfl⟩
    · rw [if_pos ⟨hne, trivial⟩]
      exact ⟨_, rfl⟩
  · rw [hm]
    exact ⟨e, rfl⟩

/-- C21. Non-strict loading ignores the checksum: for every buffer `data` and every
value `c`, `build_snapshot_from_binary` with `strict = false` gives the same result (the
same snapshot, or the same failure) on `data` and on `data` with the header bytes 16..19
replaced by the bytes of `c`; with `strict = true`, a buffer whose header and entry
table are read and whose stored checksum differs from the computed one is rejected with
an error message. -/
theorem nonstrict_ignores_checksum (data : List Nat) (c : Nat) :
    build_snapshot_from_binary (with_checksum data c) false =
      build_snapshot_from_binary data false ∧
    ∀ (h : BinHeader) (r : List EntryInfo × Nat), read_header data = .ok h →
      read_entries data h.entry_count (header_size_of h.version + h.metadata_size) [] = .ok r →
      computed_checksum data h r.2 ≠ h.checksum →
      ∃ e, build_snapshot_from_binary data true = .error (.msg e) :=
  ⟨build_nonstrict_agree data (with_checksum data c) (with_checksum_length data c)
    (fun i hi => with_checksum_getElem data c i hi),
   fun h r hh hr hne => strict_rejects_mismatch data h r hh hr hne⟩

set_option maxRecDepth 100000 in
theorem nonstrict_ignores_checksum_witness :
    (build_snapshot_from_binary collision_file false = .ok collision_snapshot ∧
      read_header (with_checksum collision_file 7) =
        .ok { collision_header with checksum := 7 } ∧
      build_snapshot_from_binary (with_checksum collision_file 7) true =
        .error (.msg (utf8 "Binär-Format: Checksum stimmt nicht."))) ∧
    build_snapshot_from_binary (with_checksum collision_file 7) false =
      build_snapshot_from_binary collision_file false ∧
    ∃ e, build_snapshot_from_binary (with_checksum collision_file 7) true = .error (.msg e) :=
  ⟨by decide,
   (nonstrict_ignores_checksum collision_file 7).1,
   (nonstrict_ignores_checksum (with_checksum collision_file 7) 7).2
     { collision_header with checksum := 7 }
     ([{ base := utf8 "aaaaaa", variant := utf8 "-", text_offset := 0, text_length := 0 }], 47)
     (by decide) (by decide) (by decide)⟩

/-! ## Token validity of loaded catalogs -/

theorem take_indexOf_not_mem (l : List Nat) (a : Nat) : a ∉ l.take (l.indexOf a) := by
  induction l with
  | nil => simp
  | cons x xs ih =>
    by_cases hx : x = a
    · subst hx
      simp [List.indexOf_cons_self]
    · rw [List.indexOf_cons_ne _ hx]
      simp only [List.take_succ_cons, List.mem_cons, not_or]
      exact ⟨fun h => hx h.symm, ih⟩

theorem find_char_first (s : Str) (c i : Nat) (h : find_char s c 0 = some i) :
    c ∉ s.take i := by
  unfold find_char at h
  simp only [List.drop_zero, Nat.zero_add] at h
  split at h
  · simp only [Option.some.injEq] at h
    subst h
    exact take_indexOf_not_mem s c
  · cases h

theorem find_char_none (s : Str) (c : Nat) (h : find_char s c 0 = none) : c ∉ s := by
  unfold find_char at h
  simp only [List.drop_zero, Nat.zero_add] at h
  split at h
  · cases h
  · rename_i hlt
    intro hc
    exact hlt (List.indexOf_lt_length.mpr hc)

theorem find_char_of_first (p r : Str) (c : Nat) (h : c ∉ p) :
    find_char (p ++ c :: r) c 0 = some p.length := by
  unfold find_char
  simp only [List.drop_zero, Nat.zero_add]
  rw [List.indexOf_append_of_not_mem h, List.indexOf_cons_self]
  simp

theorem tolower_brace (c : Nat) (h : tolower c = 123) : c = 123 := by
  unfold tolower at h
  split at h
  · rename_i hu
    unfold is_upper at hu
    simp only [Bool.and_eq_true, decide_eq_true_eq] at hu
    omega
  · exact h

theorem to_lower_no_brace (s : Str) (h : (123 : Nat) ∉ s) : (123 : Nat) ∉ to_lower_ascii s := by
  unfold to_lower_ascii
  intro hc
  obtain ⟨c, hc1, hc2⟩ := List.mem_map.mp hc
  rw [tolower_brace c hc2] at hc1
  exact h hc1

/-- The base that `parse_variant_suffix` returns is the lower-cased text before the
first `{`. -/
theorem parse_variant_suffix_base (token b v : Str)
    (h : parse_variant_suffix token = some (b, v)) : (123 : Nat) ∉ b := by
  unfold parse_variant_suffix at h
  cases h1 : find_char token 123 0 with
  | none => rw [h1] at h; simp at h
  | some opn =>
    rw [h1] at h
    simp only at h
    cases h2 : find_char token 125 (opn + 1) with
    | none => rw [h2] at h; simp at h
    | some close =>
      rw [h2] at h
      simp only at h
      split at h
      · simp at h
      split at h
      · simp at h
      split at h
      · simp only [Option.some.injEq, Prod.mk.injEq] at h
        rw [← h.1]
        apply to_lower_no_brace
        have := find_char_first token 123 opn h1
        simpa [substr] using this
      · simp at h

theorem lower_no_upper (b : Str) (hlow : to_lower_ascii b = b) : ∀ c ∈ b, is_upper c = false := by
  induction b with
  | nil => intro c hc; cases hc
  | cons a r ih =>
    intro c hc
    simp only [to_lower_ascii, List.map_cons, List.cons.injEq] at hlow
    rcases List.mem_cons.mp hc with rfl | hr
    · cases hu : is_upper c with
      | false => rfl
      | true =>
        have := hlow.1
        simp only [tolower, hu, if_true] at this
        omega
    · exact ih hlow.2 c hr

/-- The base of an accepted line passes the loader's check of bases. -/
theorem loader_base_ok (b : Str) (hlow : to_lower_ascii b = b) (hno : (123 : Nat) ∉ b)
    (h : ¬ ((!is_hex_token b && !is_style_token b) = true)) :
    (is_lower_hex b || is_style_like b) = true := by
  have hup := lower_no_upper b hlow
  cases hhex : is_hex_token b with
  | true =>
    have hlen := is_hex_token_length b hhex
    have hall := is_hex_token_all b hhex
    have : is_lower_hex b = true := by
      unfold is_lower_hex
      simp only [Bool.and_eq_true, decide_eq_true_eq, List.all_eq_true, Bool.or_eq_true]
      refine ⟨hlen, fun c hc => ?_⟩
      have h1 := hall c hc
      have h2 := hup c hc
      unfold is_xdigit at h1
      unfold is_upper at h2
      unfold is_digit
      simp only [Bool.or_eq_true, Bool.and_eq_true, decide_eq_true_eq, Bool.and_eq_false_iff,
        decide_eq_false_iff_not] at h1 h2 ⊢
      omega
    rw [this]
    rfl
  | false =>
    have hst : is_style_token b = true := by
      cases hs : is_style_token b with
      | true => rfl
      | false => rw [hhex, hs] at h; exact absurd rfl h
    have hkp : key_parts b = (b, []) := by
      unfold key_parts parse_variant_suffix
      rw [find_char_none_of_not_mem b 123 hno]
    rw [is_style_token_eq, hkp] at hst
    simp only [] at hst
    have : is_style_like b = true := by
      unfold is_style_like
      simp only [Bool.and_eq_true, decide_eq_true_eq, List.all_eq_true, Bool.not_eq_true',
        bne_iff_ne, ne_eq]
      split at hst
      · cases hst
      · rename_i hl
        exact ⟨⟨hst, by omega⟩, fun c hc => ⟨hup c hc, fun h123 => hno (h123 ▸ hc)⟩⟩
    rw [this]
    simp

theorem variant_ident_of_valid (v : Str) (h : is_variant_valid v = true) :
    is_variant_ident v = true := by
  unfold is_variant_valid at h
  unfold is_variant_ident is_ident_char
  split at h
  · cases h
  · rename_i hc
    simp only [Bool.or_eq_true, List.isEmpty_iff, decide_eq_true_eq, not_or, not_lt] at hc
    simp only [Bool.and_eq_true, decide_eq_true_eq]
    refine ⟨⟨?_, hc.2⟩, h⟩
    cases v with
    | nil => exact absurd rfl hc.1
    | cons a r => simp

/-- A key `b{v}` whose base passes the check and has no `{`, with a valid variant,
is a token of the shape that `token_with` describes. -/
theorem token_with_variant (base_ok : Str → Bool) (b v : Str) (hno : (123 : Nat) ∉ b)
    (hb : base_ok b = true) (hv : is_variant_ident v = true) :
    token_with base_ok (b ++ [123] ++ v ++ [125]) = true := by
  unfold token_with
  have hkey : b ++ [123] ++ v ++ [125] = b ++ 123 :: (v ++ [125]) := by simp
  rw [hkey, find_char_of_first b (v ++ [125]) 123 hno]
  simp only [Bool.and_eq_true, decide_eq_true_eq]
  refine ⟨⟨by simpa using hb, ?_⟩, ?_⟩
  · have hk2 : b ++ 123 :: (v ++ [125]) = (b ++ 123 :: v) ++ [125] := by simp
    rw [hk2, List.getLast?_append]
    rfl
  · have : substr (b ++ 123 :: (v ++ [125])) (b.length + 1)
        ((b ++ 123 :: (v ++ [125])).length - (b.length + 2)) = v := by
      have hd : (b ++ 123 :: (v ++ [125])).drop (b.length + 1) = v ++ [125] := by
        have := drop_of_drop (b ++ 123 :: (v ++ [125])) 0 (b ++ [123]) (v ++ [125]) (by simp)
          (b.length + 1) (by simp)
        exact this
      unfold substr
      rw [hd]
      have hl : (b ++ 123 :: (v ++ [125])).length - (b.length + 2) = v.length := by
        simp; omega
      rw [hl]
      simp
    rw [this]
    exact hv

/-- The token of a line that `parse_line` accepts is one that the loader lets pass. -/
theorem parse_line_token (line tok lab txt : Str) (h : parse_line line = .ok tok lab txt) :
    is_loader_token tok = true := by
  have htok : ∀ token label text : Str,
      (match
        (if (find_char token 123 0).isSome then
          match parse_variant_suffix token with
          | none => none
          | some (base_token, variant_token) =>
            some (base_token ++ [123] ++ variant_token ++ [125], base_token)
        else some (to_lower_ascii token, to_lower_ascii token) : Option (Str × Str)) with
      | none => ParsedLine.err (utf8 "Token-Variante ist ungültig.")
      | some (token, base_token) =>
        if !is_hex_token base_token && !is_style_token base_token then
          ParsedLine.err (utf8 "Token ist kein gültiger Hex-String (6–32 Zeichen).")
        else ParsedLine.ok token label text) = ParsedLine.ok tok lab txt →
      is_loader_token tok = true := by
    intro token label text hq
    by_cases hf : (find_char token 123 0).isSome = true
    · rw [if_pos hf] at hq
      cases hv : parse_variant_suffix token with
      | none => rw [hv] at hq; cases hq
      | some bv =>
        obtain ⟨b, v⟩ := bv
        rw [hv] at hq
        simp only [] at hq
        split at hq
        · cases hq
        · rename_i hcond
          simp only [ParsedLine.ok.injEq] at hq
          rw [← hq.1]
          obtain ⟨ob, ov, _, hb, _, hvalid, _⟩ := parse_variant_suffix_some token b v hv
          have hno := parse_variant_suffix_base token b v hv
          have hlow : to_lower_ascii b = b := by rw [hb]; exact to_lower_idem ob
          exact token_with_variant _ b v hno (loader_base_ok b hlow hno hcond)
            (variant_ident_of_valid v hvalid)
    · rw [if_neg hf] at hq
      simp only [] at hq
      split at hq
      · cases hq
      · rename_i hcond
        simp only [ParsedLine.ok.injEq] at hq
        rw [← hq.1]
        have hnone : find_char token 123 0 = none := by
          cases hfc : find_char token 123 0 with
          | none => rfl
          | some i => rw [hfc] at hf; exact absurd rfl hf
        have hno := to_lower_no_brace token (find_char_none token 123 hnone)
        unfold is_loader_token token_with
        rw [find_char_none_of_not_mem _ 123 hno]
        exact loader_base_ok _ (to_lower_idem token) hno hcond
  unfold parse_line at h
  simp only [] at h
  split at h
  · cases h
  split at h
  · cases h
  cases h1 : find_char (trim line) 58 0 with
  | none => rw [h1] at h; cases h
  | some colon =>
    rw [h1] at h
    simp only [] at h
    generalize trim (substr (trim line) 0 colon) = head at h
    cases h2 : find_char head 40 0 with
    | none =>
      rw [h2] at h
      exact htok head [] _ h
    | some po =>
      rw [h2] at h
      simp only [] at h
      cases h3 : find_char head 41 (po + 1) with
      | none => rw [h3] at h; cases h
      | some pc =>
        rw [h3] at h
        exact htok _ _ _ h

theorem text_entry_step_some_token (strict : Bool) (line : Str) (line_no : Nat)
    (snapshot snap : CatalogSnapshot)
    (h : text_entry_step strict line line_no snapshot = .ok (some snap)) :
    ∃ tok lab txt, parse_line line = .ok tok lab txt ∧
      snap.catalog = snapshot.catalog ++ [(tok, txt)] := by
  unfold text_entry_step at h
  split at h
  · cases h
  · split at h <;> cases h
  · rename_i token label text hp
    simp only [] at h
    split at h
    · cases h
    · simp only [Except.ok.injEq, Option.some.injEq] at h
      subst h
      exact ⟨token, label, text, hp, rfl⟩

/-- One iteration of the line loop, whatever the line: the loop stops with an error, or
goes on with the same catalog, or goes on with the catalog and the entry of the line. -/
theorem text_loop_step_keys (strict : Bool) (line : Str) (rest : List Str) (line_no : Nat)
    (meta_phase seen_any_entry : Bool) (loaded : Nat) (snapshot : CatalogSnapshot) :
    (∃ e, text_loop strict (line :: rest) line_no meta_phase seen_any_entry loaded snapshot =
      .error e) ∨
    ∃ n mp sa ld snap,
      text_loop strict (line :: rest) line_no meta_phase seen_any_entry loaded snapshot =
        text_loop strict rest n mp sa ld snap ∧
      (snap.catalog = snapshot.catalog ∨ ∃ tok lab txt, parse_line line = .ok tok lab txt ∧
        snap.catalog = snapshot.catalog ++ [(tok, txt)]) := by
  have hentry : ∀ r : Except Str (Nat × CatalogSnapshot),
      r = (match text_entry_step strict line (line_no + 1) snapshot with
        | .error e => .error e
        | .ok none => text_loop strict rest (line_no + 1) false seen_any_entry loaded snapshot
        | .ok (some snapshot) => text_loop strict rest (line_no + 1) false true (loaded + 1) snapshot) →
      (∃ e, r = .error e) ∨
      ∃ n mp sa ld snap, r = text_loop strict rest n mp sa ld snap ∧
        (snap.catalog = snapshot.catalog ∨ ∃ tok lab txt, parse_line line = .ok tok lab txt ∧
          snap.catalog = snapshot.catalog ++ [(tok, txt)]) := by
    intro r hr
    cases hs : text_entry_step strict line (line_no + 1) snapshot with
    | error e => rw [hs] at hr; exact Or.inl ⟨e, hr⟩
    | ok o =>
      cases o with
      | none => rw [hs] at hr; exact Or.inr ⟨_, _, _, _, _, hr, Or.inl rfl⟩
      | some snap =>
        rw [hs] at hr
        exact Or.inr ⟨_, _, _, _, _, hr,
          Or.inr (text_entry_step_some_token strict line (line_no + 1) snapshot snap hs)⟩
  have hsame : ∀ n mp sa ld snap, snap.catalog = snapshot.catalog →
      text_loop strict (line :: rest) line_no meta_phase seen_any_entry loaded snapshot =
        text_loop strict rest n mp sa ld snap →
      ((∃ e, text_loop strict (line :: rest) line_no meta_phase seen_any_entry loaded snapshot =
        .error e) ∨
      ∃ n mp sa ld snap,
        text_loop strict (line :: rest) line_no meta_phase seen_any_entry loaded snapshot =
          text_loop strict rest n mp sa ld snap ∧
        (snap.catalog = snapshot.catalog ∨ ∃ tok lab txt, parse_line line = .ok tok lab txt ∧
          snap.catalog = snapshot.catalog ++ [(tok, txt)])) :=
    fun n mp sa ld snap hk h => Or.inr ⟨n, mp, sa, ld, snap, h, Or.inl hk⟩
  by_cases h1 : (trim line).isEmpty = true
  · exact hsame (line_no + 1) meta_phase seen_any_entry loaded snapshot rfl
      (by rw [text_loop]; simp only [h1, if_true])
  by_cases h2 : (trim line).head? = some 35
  · exact hsame (line_no + 1) meta_phase seen_any_entry loaded snapshot rfl
      (by rw [text_loop]; simp only [h1, h2, if_true]; simp)
  cases meta_phase with
  | false =>
    apply hentry
    rw [text_loop]
    simp only [h1, h2]
    simp
    try rfl
  | true =>
    cases hm : parse_meta_line (trim line) with
    | none =>
      apply hentry
      rw [text_loop]
      simp only [h1, h2, hm]
      simp
      try rfl
    | some kv =>
      obtain ⟨key, value⟩ := kv
      rw [text_loop]
      simp only [h1, h2, hm]
      simp only [if_true, if_false, Bool.false_eq_true]
      repeat' split
      all_goals first
        | exact Or.inl ⟨_, rfl⟩
        | exact Or.inr ⟨_, _, _, _, _, rfl, Or.inl rfl⟩

/-- Every key of the catalog that the line loop returns was in the catalog at the start
or is the token of a line that `parse_line` accepts. -/
theorem text_loop_keys (strict : Bool) (P : Str → Prop)
    (hP : ∀ line tok lab txt, parse_line line = .ok tok lab txt → P tok) (lines : List Str) :
    ∀ (line_no : Nat) (meta_phase seen_any_entry : Bool) (loaded : Nat)
      (snapshot : CatalogSnapshot) (r : Nat × CatalogSnapshot),
      (∀ kv ∈ snapshot.catalog, P kv.1) →
      text_loop strict lines line_no meta_phase seen_any_entry loaded snapshot = .ok r →
      ∀ kv ∈ r.2.catalog, P kv.1 := by
  induction lines with
  | nil =>
    intro _ _ _ _ snapshot r hs h
    simp only [text_loop, Except.ok.injEq] at h
    rw [← h]
    exact hs
  | cons line rest ih =>
    intro line_no meta_phase seen_any_entry loaded snapshot r hs h
    rcases text_loop_step_keys strict line rest line_no meta_phase seen_any_entry loaded snapshot
      with ⟨e, he⟩ | ⟨n, mp, sa, ld, snap, heq, hcat⟩
    · rw [he] at h; cases h
    · rw [heq] at h
      refine ih n mp sa ld snap r ?_ h
      rcases hcat with hc | ⟨tok, lab, txt, hp, hc⟩
      · rw [hc]; exact hs
      · rw [hc]
        intro kv hkv
        rcases List.mem_append.mp hkv with h1 | h1
        · exact hs kv h1
        · simp only [List.mem_singleton] at h1
          rw [h1]
          exact hP line tok lab txt hp

/-- C24, amended. Tokens of loaded catalogs: every key of a catalog returned by
`build_snapshot_from_text` (strict or not) is a base, optionally followed by `{variant}`
with a variant of 1 to 16 characters from `[a-z0-9_-]`, where the base is a lower-case
hex string of 6 to 32 characters, or a string of more than six bytes that starts with
`style_` and contains no ASCII upper-case letter and no `{`. -/
theorem loaded_tokens (src : Str) (strict : Bool) (s : CatalogSnapshot)
    (h : build_snapshot_from_text src strict = .ok s) :
    ∀ kv ∈ s.catalog, is_loader_token kv.1 = true := by
  unfold build_snapshot_from_text at h
  cases hl : text_loop strict (text_lines src) 0 true false 0 empty_snapshot with
  | error e => rw [hl] at h; cases h
  | ok r =>
    rw [hl] at h
    simp only [] at h
    split at h
    · cases h
    · simp only [Except.ok.injEq] at h
      rw [← h]
      exact text_loop_keys strict (fun k => is_loader_token k = true)
        (fun line tok lab txt hp => parse_line_token line tok lab txt hp) (text_lines src)
        0 true false 0 empty_snapshot r (fun kv hkv => by cases hkv) hl

set_option maxRecDepth 100000 in
theorem loaded_tokens_witness :
    (build_snapshot_from_text (utf8 "abcdef{one}: x\nstyle_a!: y") false =
      .ok { empty_snapshot with
        catalog := [(utf8 "abcdef{one}", utf8 "x"), (utf8 "style_a!", utf8 "y")]
        plural_variants := [(utf8 "abcdef", [utf8 "one"])] }) ∧
    ∀ kv ∈ [(utf8 "abcdef{one}", utf8 "x"), (utf8 "style_a!", utf8 "y")],
      is_loader_token kv.1 = true :=
  ⟨by decide,
   loaded_tokens (utf8 "abcdef{one}: x\nstyle_a!: y") false
     { empty_snapshot with
        catalog := [(utf8 "abcdef{one}", utf8 "x"), (utf8 "style_a!", utf8 "y")]
        plural_variants := [(utf8 "abcdef", [utf8 "one"])] } (by decide)⟩

set_option maxRecDepth 100000 in
/-- C24, as stated, fails: strict loading of the text catalog `style_a!: y` succeeds
with the key `style_a!`, whose base is neither a hex string nor `style_` followed by
characters from `[a-z0-9_-]` only. -/
theorem style_key_outside_data_model :
    build_snapshot_from_text (utf8 "style_a!: y") true =
      .ok { empty_snapshot with catalog := [(utf8 "style_a!", utf8 "y")] } ∧
    is_valid_token (utf8 "style_a!") = false ∧
    is_style_token (utf8 "style_a!") = true :=
  ⟨by decide, by decide, by decide⟩

/-! ## The listing is deterministic and ordered -/

theorem str_le_total (a b : Str) : str_le a b ∨ str_le b a := by
  unfold str_le
  rcases lt_trichotomy a b with h | h | h
  · exact Or.inl (fun hc => lt_asymm h hc)
  · exact Or.inl (by rw [h]; exact lt_irrefl b)
  · exact Or.inr (fun hc => lt_asymm h hc)

theorem str_le_trans (a b c : Str) (hab : str_le a b) (hbc : str_le b c) : str_le a c := by
  unfold str_le at *
  exact fun hc => hab (lt_of_le_of_lt (not_lt.mp hbc) hc)

theorem str_le_antisymm (a b : Str) (hab : str_le a b) (hba : str_le b a) : a = b := by
  unfold str_le at *
  exact le_antisymm (not_lt.mp hab) (not_lt.mp hba)

/-- The sorted keys of a catalog with distinct keys are strictly ascending and are the
keys of the catalog. -/
theorem sorted_keys_spec (catalog : List (Str × Str)) (hnd : (catalog.map Prod.fst).Nodup) :
    (sorted_keys catalog).Pairwise (fun a b => a < b) ∧
      (sorted_keys catalog).Perm (catalog.map Prod.fst) := by
  haveI : IsTotal Str str_le := ⟨str_le_total⟩
  haveI : IsTrans Str str_le := ⟨str_le_trans⟩
  unfold sorted_keys
  have hp := List.perm_insertionSort str_le (catalog.map Prod.fst)
  refine ⟨?_, hp⟩
  have hs : ((catalog.map Prod.fst).insertionSort str_le).Pairwise str_le :=
    List.sorted_insertionSort str_le _
  have hnd2 : ((catalog.map Prod.fst).insertionSort str_le).Pairwise (fun a b => a ≠ b) :=
    (hp.nodup_iff).mpr hnd
  refine (hs.and hnd2).imp ?_
  intro a b h
  rcases lt_trichotomy a b with h1 | h1 | h1
  · exact h1
  · exact absurd h1 h.2
  · exact absurd h1 h.1

/-- The sorted keys do not depend on the order in which the map is iterated. -/
theorem sorted_keys_perm (c1 c2 : List (Str × Str)) (hp : c1.Perm c2) :
    sorted_keys c1 = sorted_keys c2 := by
  haveI : IsTotal Str str_le := ⟨str_le_total⟩
  haveI : IsTrans Str str_le := ⟨str_le_trans⟩
  haveI : IsAntisymm Str str_le := ⟨str_le_antisymm⟩
  unfold sorted_keys
  exact List.eq_of_perm_of_sorted
    (((List.perm_insertionSort str_le _).trans (hp.map Prod.fst)).trans
      (List.perm_insertionSort str_le _).symm)
    (List.sorted_insertionSort str_le _) (List.sorted_insertionSort str_le _)

theorem map_find_some_iff {β : Type} (m : List (Str × β)) (hnd : (m.map Prod.fst).Nodup)
    (k : Str) (v : β) : map_find m k = some v ↔ (k, v) ∈ m := by
  induction m with
  | nil => simp [map_find]
  | cons p m ih =>
    obtain ⟨k2, v2⟩ := p
    simp only [List.map_cons, List.nodup_cons] at hnd
    simp only [map_find, List.mem_cons, Prod.mk.injEq]
    by_cases hk : k2 = k
    · subst hk
      simp only [if_true, Option.some.injEq, true_and]
      constructor
      · intro h; exact Or.inl h.symm
      · rintro (h | h)
        · exact h.symm
        · exact absurd (List.mem_map.mpr ⟨(k2, v), h, rfl⟩) hnd.1
    · rw [if_neg hk, ih hnd.2]
      constructor
      · intro h; exact Or.inr h
      · rintro (h | h)
        · exact absurd h.1.symm hk
        · exact h

/-- Two lists that hold the same pairs, with distinct keys, are the same map. -/
theorem map_find_perm {β : Type} (m1 m2 : List (Str × β)) (hp : m1.Perm m2)
    (hnd : (m1.map Prod.fst).Nodup) (k : Str) : map_find m1 k = map_find m2 k := by
  have hnd2 : (m2.map Prod.fst).Nodup := ((hp.map Prod.fst).nodup_iff).mp hnd
  cases h1 : map_find m1 k with
  | some v =>
    exact ((map_find_some_iff m2 hnd2 k v).mpr
      (hp.mem_iff.mp ((map_find_some_iff m1 hnd k v).mp h1))).symm
  | none =>
    cases h2 : map_find m2 k with
    | none => rfl
    | some v =>
      have := (map_find_some_iff m1 hnd k v).mpr
        (hp.mem_iff.mpr ((map_find_some_iff m2 hnd2 k v).mp h2))
      rw [h1] at this
      cases this

/-- C25. `dump_table` is deterministic and ordered: for two snapshots whose catalogs
hold the same pairs (in any iteration order, the keys distinct) and whose label maps
are equal, the output is the same bytes; and the output is the two heading lines
followed by one row per catalog entry, the rows in strictly ascending byte order of
their tokens. -/
theorem dump_table_deterministic (e1 e2 : I18nEngine) (s1 s2 : CatalogSnapshot)
    (hnd : (s1.catalog.map Prod.fst).Nodup) (hcat : s1.catalog.Perm s2.catalog)
    (hlab : ∀ k, map_find s1.labels k = map_find s2.labels k) :
    dump_table (install_snapshot e1 s1) = dump_table (install_snapshot e2 s2) ∧
    ∃ keys : List Str,
      keys.Pairwise (fun a b => a < b) ∧ keys.Perm (s1.catalog.map Prod.fst) ∧
      dump_table (install_snapshot e1 s1) =
        dump_heading ++ keys.flatMap (fun token =>
          pad_to token 12 ++ utf8 " | " ++ pad_to ((map_find s1.labels token).getD []) 22 ++
            utf8 " | " ++ (map_find s1.catalog token).getD [] ++ [10]) := by
  obtain ⟨hsorted, hperm⟩ := sorted_keys_spec s1.catalog hnd
  constructor
  · unfold dump_table
    simp only [install_snapshot]
    rw [sorted_keys_perm s1.catalog s2.catalog hcat]
    congr 1
    apply List.flatMap_congr
    intro token _
    unfold dump_row
    rw [hlab token, map_find_perm s1.catalog s2.catalog hcat hnd token]
  · exact ⟨sorted_keys s1.catalog, hsorted, hperm, rfl⟩

set_option maxRecDepth 100000 in
theorem dump_table_deterministic_witness :
    ((listing_snapshot.catalog.map Prod.fst).Nodup ∧
      listing_snapshot.catalog.Perm listing_reordered_snapshot.catalog ∧
      listing_snapshot.catalog ≠ listing_reordered_snapshot.catalog ∧
      listing_snapshot.labels = listing_reordered_snapshot.labels ∧
      dump_table (install_snapshot I18nEngine.init listing_snapshot) =
        dump_heading ++ utf8 "aaaaaa       |                        | world\n" ++
          utf8 "bbbbbb       | Greeting               | Hello\n") ∧
    dump_table (install_snapshot I18nEngine.init listing_snapshot) =
      dump_table (install_snapshot I18nEngine.init listing_reordered_snapshot) ∧
    ∃ keys : List Str,
      keys.Pairwise (fun a b => a < b) ∧ keys.Perm (listing_snapshot.catalog.map Prod.fst) ∧
      dump_table (install_snapshot I18nEngine.init listing_snapshot) =
        dump_heading ++ keys.flatMap (fun token =>
          pad_to token 12 ++ utf8 " | " ++
            pad_to ((map_find listing_snapshot.labels token).getD []) 22 ++
            utf8 " | " ++ (map_find listing_snapshot.catalog token).getD [] ++ [10]) :=
  ⟨by decide,
   dump_table_deterministic I18nEngine.init I18nEngine.init listing_snapshot
     listing_reordered_snapshot (by decide) (by decide)
     (fun k => congrArg (fun l => map_find l k)
       (show listing_snapshot.labels = listing_reordered_snapshot.labels by decide))⟩

/-! ## Search -/

theorem str_contains_iff (t q : Str) : str_contains t q = true ↔ q <:+: t := by
  unfold str_contains
  rw [List.any_eq_true]
  constructor
  · rintro ⟨i, _, hp⟩
    rw [List.isPrefixOf_iff_prefix] at hp
    obtain ⟨p, hp⟩ := hp
    exact ⟨t.take i, p, by rw [List.append_assoc, hp, List.take_append_drop]⟩
  · rintro ⟨s, p, h⟩
    refine ⟨s.length, ?_, ?_⟩
    · rw [List.mem_range, ← h]
      simp
      omega
    · rw [List.isPrefixOf_iff_prefix, ← h]
      exact ⟨p, by simp⟩

theorem flatMap_ite_filter {α β : Type} (p : α → Bool) (f : α → List β) (l : List α) :
    l.flatMap (fun x => if p x then f x else []) = (l.filter p).flatMap f := by
  induction l with
  | nil => rfl
  | cons a l ih =>
    simp only [List.flatMap_cons, List.filter_cons]
    split
    · simp [ih]
    · simp [ih]

/-- The condition of `find_any`, for a token of the catalog, is the match of the
specification. -/
theorem find_any_hit_iff (s : CatalogSnapshot) (query token text : Str)
    (ht : map_find s.catalog token = some text) :
    find_any_hit s.catalog s.labels (to_lower_ascii query) token = true ↔
      entry_matches s query token := by
  unfold find_any_hit entry_matches
  rw [ht]
  simp only [Option.getD_some, Bool.or_eq_true, Bool.and_eq_true, str_contains_iff,
    Option.some.injEq, exists_eq_left']
  cases hl : map_find s.labels token with
  | none =>
    simp [to_lower_ascii]
  | some label =>
    simp only [Option.getD_some, Option.some.injEq, exists_eq_left']
    constructor
    · rintro (h | ⟨h1, h2⟩)
      · exact Or.inl h
      · refine Or.inr ⟨?_, h2⟩
        intro hc
        rw [hc] at h1
        simp [to_lower_ascii] at h1
    · rintro (h | ⟨h1, h2⟩)
      · exact Or.inl h
      · refine Or.inr ⟨?_, h2⟩
        cases label with
        | nil => exact absurd rfl h1
        | cons a r => simp [to_lower_ascii]

/-- C26. `find_any` on a loaded snapshot with distinct keys: the output is one line per
matching entry, in strictly ascending order of the tokens, where an entry matches when
the lower-cased query occurs in its lower-cased template or in its lower-cased non-empty
label; and the output is the no-match message exactly when no entry matches. -/
theorem find_any_spec (eng : I18nEngine) (s : CatalogSnapshot) (query : Str)
    (hs : eng.active_snapshot = some s) (hnd : (s.catalog.map Prod.fst).Nodup) :
    ∃ hits : List Str,
      hits.Pairwise (fun a b => a < b) ∧
      (∀ k, k ∈ hits ↔ (k ∈ s.catalog.map Prod.fst ∧ entry_matches s query k)) ∧
      find_any eng query =
        (if hits = [] then utf8 "(keine Treffer)\n"
         else hits.flatMap (fun token =>
           token ++ utf8 "(" ++ (map_find s.labels token).getD [] ++ utf8 "): " ++
             (map_find s.catalog token).getD [] ++ [10])) ∧
      (find_any eng query = utf8 "(keine Treffer)\n" ↔
        ∀ k ∈ s.catalog.map Prod.fst, ¬ entry_matches s query k) := by
  obtain ⟨hsorted, hperm⟩ := sorted_keys_spec s.catalog hnd
  have hkey : ∀ k, k ∈ s.catalog.map Prod.fst → ∃ text, map_find s.catalog k = some text := by
    intro k hk
    obtain ⟨kv, hkv, rfl⟩ := List.mem_map.mp hk
    exact ⟨kv.2, (map_find_some_iff s.catalog hnd kv.1 kv.2).mpr hkv⟩
  have hmem : ∀ k, k ∈ (sorted_keys s.catalog).filter
      (find_any_hit s.catalog s.labels (to_lower_ascii query)) ↔
      (k ∈ s.catalog.map Prod.fst ∧ entry_matches s query k) := by
    intro k
    rw [List.mem_filter, hperm.mem_iff]
    constructor
    · rintro ⟨h1, h2⟩
      obtain ⟨text, ht⟩ := hkey k h1
      exact ⟨h1, (find_any_hit_iff s query k text ht).mp h2⟩
    · rintro ⟨h1, h2⟩
      obtain ⟨text, ht⟩ := hkey k h1
      exact ⟨h1, (find_any_hit_iff s query k text ht).mpr h2⟩
  have hout : find_any eng query =
      (if (sorted_keys s.catalog).filter (find_any_hit s.catalog s.labels (to_lower_ascii query)) = []
        then utf8 "(keine Treffer)\n"
       else ((sorted_keys s.catalog).filter
          (find_any_hit s.catalog s.labels (to_lower_ascii query))).flatMap (fun token =>
           token ++ utf8 "(" ++ (map_find s.labels token).getD [] ++ utf8 "): " ++
             (map_find s.catalog token).getD [] ++ [10])) := by
    unfold find_any
    simp only [hs]
    rw [flatMap_ite_filter]
    cases hf : (sorted_keys s.catalog).filter
        (find_any_hit s.catalog s.labels (to_lower_ascii query)) with
    | nil => simp
    | cons a r =>
      have hne : ((a :: r).flatMap (find_any_line s.catalog s.labels)).isEmpty = false := by
        simp [find_any_line, List.flatMap_cons]
      rw [hne]
      simp only [Bool.false_eq_true, if_false]
      rw [if_neg (by simp)]
      rfl
  refine ⟨_, hsorted.filter _, hmem, hout, ?_⟩
  rw [hout]
  cases hf : (sorted_keys s.catalog).filter
      (find_any_hit s.catalog s.labels (to_lower_ascii query)) with
  | nil =>
    simp only [if_true, true_iff]
    intro k hk hm
    have := (hmem k).mpr ⟨hk, hm⟩
    rw [hf] at this
    cases this
  | cons a r =>
    rw [if_neg (by simp)]
    constructor
    · intro h
      exfalso
      have h58 : (58 : Nat) ∈ (a :: r).flatMap (fun token =>
          token ++ utf8 "(" ++ (map_find s.labels token).getD [] ++ utf8 "): " ++
            (map_find s.catalog token).getD [] ++ [10]) := by
        simp only [List.flatMap_cons, List.mem_append]
        left; left; left; right
        decide
      rw [h] at h58
      revert h58
      decide
    · intro h
      exfalso
      have := (hmem a).mp (by rw [hf]; simp)
      exact h a this.1 this.2

set_option maxRecDepth 100000 in
theorem find_any_spec_witness :
    (listing_engine.active_snapshot = some listing_snapshot ∧
      (listing_snapshot.catalog.map Prod.fst).Nodup ∧
      find_any listing_engine (utf8 "GREET") = utf8 "bbbbbb(Greeting): Hello\n" ∧
      find_any listing_engine (utf8 "o") = utf8 "aaaaaa(): world\nbbbbbb(Greeting): Hello\n" ∧
      find_any listing_engine (utf8 "zzz") = utf8 "(keine Treffer)\n") ∧
    ∃ hits : List Str,
      hits.Pairwise (fun a b => a < b) ∧
      (∀ k, k ∈ hits ↔
        (k ∈ listing_snapshot.catalog.map Prod.fst ∧ entry_matches listing_snapshot (utf8 "GREET") k)) ∧
      find_any listing_engine (utf8 "GREET") =
        (if hits = [] then utf8 "(keine Treffer)\n"
         else hits.flatMap (fun token =>
           token ++ utf8 "(" ++ (map_find listing_snapshot.labels token).getD [] ++ utf8 "): " ++
             (map_find listing_snapshot.catalog token).getD [] ++ [10])) ∧
      (find_any listing_engine (utf8 "GREET") = utf8 "(keine Treffer)\n" ↔
        ∀ k ∈ listing_snapshot.catalog.map Prod.fst,
          ¬ entry_matches listing_snapshot (utf8 "GREET") k) :=
  ⟨by decide,
   find_any_spec listing_engine listing_snapshot (utf8 "GREET") (by decide) (by decide)⟩

/-! ## The native style flag -/

theorem apply_physical_flag {F : Type} (strtof : Str → StrtofResult F) (st : NativeStyle F)
    (k v : Str) :
    (apply_physical_property strtof st k v).has_physical =
      (st.has_physical || (!k.isEmpty && is_physical_name (strip_dashes k) &&
        (parse_physical_value strtof v).isSome)) := by
  unfold apply_physical_property is_physical_name strip_dashes
  by_cases hk : k.isEmpty = true
  · simp [hk]
  · simp only [hk, Bool.false_eq_true, if_false, Bool.not_false, Bool.true_and]
    cases hp : parse_physical_value strtof v with
    | none => simp
    | some value =>
      simp only [Option.isSome_some, Bool.and_true, List.mem_cons, List.mem_singleton,
        List.not_mem_nil, or_false]
      split_ifs <;> (try simp_all) <;> (try tauto)

theorem apply_physical_unchanged {F : Type} (strtof : Str → StrtofResult F) (st : NativeStyle F)
    (k v : Str)
    (h : (!k.isEmpty && is_physical_name (strip_dashes k) &&
      (parse_physical_value strtof v).isSome) = false) :
    apply_physical_property strtof st k v = st := by
  unfold apply_physical_property
  unfold is_physical_name strip_dashes at h
  by_cases hk : k.isEmpty = true
  · simp [hk]
  · simp only [hk, Bool.false_eq_true, if_false]
    cases hp : parse_physical_value strtof v with
    | none => rfl
    | some value =>
      simp only [hk, hp, Bool.not_false, Bool.true_and, Option.isSome_some, Bool.and_true,
        List.mem_cons, List.mem_singleton, List.not_mem_nil, or_false,
        decide_eq_false_iff_not, not_or] at h
      simp only [h, false_or, if_false]

/-- The loop of `evaluate_native_style` resolves every value with the empty set `seen`. -/
theorem evaluate_fold {F : Type} (strtof : Str → StrtofResult F) (state : CatalogSnapshot)
    (args : List Str) (props : List StyleProperty) : ∀ acc : NativeStyle F,
    props.foldl (fun (acc : NativeStyle F × Seen) (prop : StyleProperty) =>
      if prop.prop_name.isEmpty then acc
      else
        (apply_physical_property strtof acc.1 prop.prop_name
          (resolve_plain_text state prop.value args acc.2 0).1,
         (resolve_plain_text state prop.value args acc.2 0).2)) (acc, []) =
    (props.foldl (fun (st : NativeStyle F) (prop : StyleProperty) =>
      if prop.prop_name.isEmpty then st
      else apply_physical_property strtof st prop.prop_name
        (resolve_plain_text state prop.value args [] 0).1) acc, []) := by
  induction props with
  | nil => intro acc; rfl
  | cons p rest ih =>
    intro acc
    simp only [List.foldl_cons]
    by_cases hp : p.prop_name.isEmpty = true
    · simp only [hp, if_true]
      exact ih acc
    · have h2 := resolve_plain_text_seen_eq state p.value args [] 0
      simp only [hp, Bool.false_eq_true, if_false]
      rw [h2]
      exact ih _

theorem evaluate_fold_flag {F : Type} (strtof : Str → StrtofResult F) (state : CatalogSnapshot)
    (args : List Str) (props : List StyleProperty) : ∀ acc : NativeStyle F,
    (props.foldl (fun (st : NativeStyle F) (prop : StyleProperty) =>
      if prop.prop_name.isEmpty then st
      else apply_physical_property strtof st prop.prop_name
        (resolve_plain_text state prop.value args [] 0).1) acc).has_physical =
      (acc.has_physical || props.any (is_physical_property strtof state args)) := by
  induction props with
  | nil => intro acc; simp
  | cons p rest ih =>
    intro acc
    simp only [List.foldl_cons, List.any_cons]
    rw [ih]
    by_cases hp : p.prop_name.isEmpty = true
    · simp [hp, is_physical_property]
    · simp only [hp, Bool.false_eq_true, if_false, apply_physical_flag, is_physical_property,
        Bool.not_false, Bool.true_and, Bool.or_assoc]

theorem evaluate_fold_unchanged {F : Type} (strtof : Str → StrtofResult F)
    (state : CatalogSnapshot) (args : List Str) (props : List StyleProperty) :
    ∀ acc : NativeStyle F, props.any (is_physical_property strtof state args) = false →
    props.foldl (fun (st : NativeStyle F) (prop : StyleProperty) =>
      if prop.prop_name.isEmpty then st
      else apply_physical_property strtof st prop.prop_name
        (resolve_plain_text state prop.value args [] 0).1) acc = acc := by
  induction props with
  | nil => intro acc _; rfl
  | cons p rest ih =>
    intro acc h
    simp only [List.any_cons, Bool.or_eq_false_iff] at h
    simp only [List.foldl_cons]
    by_cases hp : p.prop_name.isEmpty = true
    · simp only [hp, if_true]
      exact ih acc h.2
    · simp only [hp, Bool.false_eq_true, if_false]
      rw [apply_physical_unchanged strtof acc p.prop_name _ (by
        have := h.1
        unfold is_physical_property at this
        exact this)]
      exact ih acc h.2

theorem evaluate_fold_filter {F : Type} (strtof : Str → StrtofResult F)
    (state : CatalogSnapshot) (args : List Str) (props : List StyleProperty) :
    ∀ acc : NativeStyle F,
    props.foldl (fun (st : NativeStyle F) (prop : StyleProperty) =>
      if prop.prop_name.isEmpty then st
      else apply_physical_property strtof st prop.prop_name
        (resolve_plain_text state prop.value args [] 0).1) acc =
    (props.filter (fun p => !p.prop_name.isEmpty && is_physical_name (strip_dashes p.prop_name))).foldl
      (fun (st : NativeStyle F) (prop : StyleProperty) =>
        if prop.prop_name.isEmpty then st
        else apply_physical_property strtof st prop.prop_name
          (resolve_plain_text state prop.value args [] 0).1) acc := by
  induction props with
  | nil => intro acc; rfl
  | cons p rest ih =>
    intro acc
    simp only [List.foldl_cons, List.filter_cons]
    by_cases hk : (!p.prop_name.isEmpty && is_physical_name (strip_dashes p.prop_name)) = true
    · rw [if_pos hk]
      simp only [List.foldl_cons]
      exact ih _
    · rw [if_neg hk]
      rw [← ih acc]
      congr 1
      by_cases hp : p.prop_name.isEmpty = true
      · simp [hp]
      · simp only [hp, Bool.false_eq_true, if_false]
        apply apply_physical_unchanged
        simp only [Bool.not_eq_true] at hk
        rw [hk]
        rfl

/-- C27. Native style flag: for every list of style properties, `evaluate_native_style`
gives the same record as for the list without the bare properties and without the
properties whose name, after stripping one leading pair of dashes, is not one of
`mass`, `friction`, `restitution`, `drag`, `gravity-scale`, `gravity_scale`, `spacing`,
`gap`; `has_physical` is true if and only if some named property with a recognised name
has a resolved value that the number parser accepts; and when it is false, the record
is the default record. -/
theorem native_style_flag {F : Type} (strtof : Str → StrtofResult F) (zero one : F)
    (props : List StyleProperty) (state : CatalogSnapshot) (args : List Str) :
    evaluate_native_style strtof zero one props state args =
      evaluate_native_style strtof zero one
        (props.filter (fun p => !p.prop_name.isEmpty &&
          is_physical_name (strip_dashes p.prop_name))) state args ∧
    ((evaluate_native_style strtof zero one props state args).has_physical = true ↔
      ∃ p ∈ props, p.prop_name ≠ [] ∧ is_physical_name (strip_dashes p.prop_name) = true ∧
        ∃ value, parse_physical_value strtof
          (resolve_plain_text state p.value args [] 0).1 = some value) ∧
    ((evaluate_native_style strtof zero one props state args).has_physical = false →
      evaluate_native_style strtof zero one props state args =
        NativeStyle.defaults zero one) := by
  unfold evaluate_native_style
  simp only [evaluate_fold]
  refine ⟨evaluate_fold_filter strtof state args props _, ?_, ?_⟩
  · rw [evaluate_fold_flag]
    simp only [NativeStyle.defaults, Bool.false_or, List.any_eq_true, is_physical_property,
      Bool.and_eq_true, Bool.not_eq_true', Option.isSome_iff_exists]
    constructor
    · rintro ⟨p, hp, ⟨h1, h2⟩, h3⟩
      refine ⟨p, hp, ?_, h2, h3⟩
      intro hc
      rw [hc] at h1
      cases h1
    · rintro ⟨p, hp, h1, h2, h3⟩
      refine ⟨p, hp, ⟨?_, h2⟩, h3⟩
      cases hn : p.prop_name with
      | nil => exact absurd hn h1
      | cons a r => rfl
  · intro h
    rw [evaluate_fold_flag] at h
    simp only [NativeStyle.defaults, Bool.false_or] at h
    exact evaluate_fold_unchanged strtof state args props _ h

/-! ## Integrity checker: the exit code -/

theorem color_of_cons (m : List (Str × Color)) (u v : Str) (c : Color) :
    color_of ((u, c) :: m) v = if u = v then c else color_of m v := by
  unfold color_of
  simp only [map_find]
  split <;> rfl

theorem map_find_isSome_of_mem {β : Type} (m : List (Str × β)) (k : Str)
    (h : k ∈ m.map Prod.fst) : (map_find m k).isNone = false := by
  cases hf : map_find m k with
  | some v => rfl
  | none =>
    exfalso
    induction m with
    | nil => simp at h
    | cons kv rest ih =>
      obtain ⟨k2, v⟩ := kv
      simp only [map_find] at hf
      split at hf
      · cases hf
      · rename_i hne
        simp only [List.map_cons, List.mem_cons] at h
        rcases h with h | h
        · exact hne h.symm
        · exact ih h hf

theorem mem_keys_of_find {β : Type} (m : List (Str × β)) (k : Str)
    (h : (map_find m k).isNone = false) : k ∈ m.map Prod.fst := by
  by_contra hc
  rw [map_find_none_of_not_mem m k hc] at h
  cases h

theorem filter_length_lt {α : Type} (p q : α → Bool) (l : List α) (u : α)
    (himp : ∀ x, p x = true → q x = true) (hu : u ∈ l) (hq : q u = true) (hp : p u = false) :
    (l.filter p).length < (l.filter q).length := by
  induction l with
  | nil => cases hu
  | cons a l ih =>
    have hle : (l.filter p).length ≤ (l.filter q).length :=
      (List.monotone_filter_right l himp).length_le
    rcases List.mem_cons.mp hu with rfl | hl
    · simp only [List.filter_cons, hq, hp, if_true, Bool.false_eq_true, if_false,
        List.length_cons]
      omega
    · have := ih hl
      simp only [List.filter_cons]
      cases hpa : p a with
      | true =>
        rw [himp a hpa]
        simp only [if_true, List.length_cons]
        omega
      | false =>
        simp only [Bool.false_eq_true, if_false]
        split
        · simp only [List.length_cons]; omega
        · exact this

theorem white_count_mono (catalog : List (Str × Str)) (st st2 : DfsState)
    (h : ∀ x, color_of st2.color x = Color.White → color_of st.color x = Color.White) :
    white_count catalog st2 ≤ white_count catalog st := by
  unfold white_count
  exact (List.monotone_filter_right _ (fun x hx => by
    simp only [decide_eq_true_eq] at hx ⊢
    exact h x hx)).length_le

theorem white_count_gray (catalog : List (Str × Str)) (st : DfsState) (u : Str)
    (hu : (map_find catalog u).isNone = false) (hw : color_of st.color u = Color.White) :
    white_count catalog { st with color := (u, Color.Gray) :: st.color } <
      white_count catalog st := by
  unfold white_count
  apply filter_length_lt _ _ _ u
  · intro x hx
    simp only [decide_eq_true_eq, color_of_cons] at hx ⊢
    split at hx
    · cases hx
    · exact hx
  · exact mem_keys_of_find catalog u hu
  · simpa using hw
  · simp [color_of_cons]

theorem visit_post_refl (catalog : List (Str × Str)) (edges : List (Str × List Str)) (u : Str)
    (st : DfsState) : visit_post catalog edges u st st :=
  ⟨le_rfl, fun _ => Iff.rfl, fun _ h => h, fun _ h => h,
    fun _ h => absurd h (lt_irrefl _), fun _ h => h⟩

/-- Two stretches of the loop of `dfs` on `u`, one after the other. -/
theorem visit_post_trans (catalog : List (Str × Str)) (edges : List (Str × List Str)) (u : Str)
    (st st1 st2 : DfsState) (h1 : visit_post catalog edges u st st1)
    (h2 : visit_post catalog edges u st1 st2) : visit_post catalog edges u st st2 := by
  obtain ⟨a1, b1, c1, d1, e1, f1⟩ := h1
  obtain ⟨a2, b2, c2, d2, e2, f2⟩ := h2
  refine ⟨le_trans a1 a2, fun x => (b2 x).trans (b1 x), fun x h => c2 x (c1 x h),
    fun x h => d1 x (d2 x h), ?_, ?_⟩
  · intro hpre hlt
    by_cases hs : st.errors < st1.errors
    · exact e1 hpre hs
    · exact e2 (fun g hg => hpre g ((b1 g).mp hg)) (by omega)
  · intro heq htopo
    exact f2 (by omega) (f1 (by omega) htopo)

/-- The loop of `dfs` on the gray token `u`, over a part `vs` of the list stored for
`u`, given what the recursive calls do. -/
theorem dfs_loop_spec (catalog : List (Str × Str)) (edges : List (Str × List Str)) (fuel : Nat)
    (u : Str)
    (hvisit : ∀ v st, (map_find catalog v).isNone = false → color_of st.color v = Color.White →
      white_count catalog st ≤ fuel →
      ∃ st2, dfs catalog edges fuel v st = some st2 ∧ color_of st2.color v = Color.Black ∧
        visit_post catalog edges v st st2) :
    ∀ (vs : List Str) (st : DfsState), (∀ v ∈ vs, v ∈ (map_find edges u).getD []) →
      color_of st.color u = Color.Gray → white_count catalog st ≤ fuel →
      ∃ st2, vs.foldl (dfs_edge_step catalog (dfs catalog edges fuel)) (some st) = some st2 ∧
        visit_post catalog edges u st st2 ∧
        (st2.errors = st.errors → ∀ v ∈ vs, (map_find catalog v).isNone = false →
          color_of st2.color v = Color.Black) := by
  intro vs
  induction vs with
  | nil =>
    intro st _ _ _
    exact ⟨st, rfl, visit_post_refl catalog edges u st, fun _ v hv => by cases hv⟩
  | cons v vs ih =>
    intro st hadj hgray hfuel
    have hv : v ∈ (map_find edges u).getD [] := hadj v (List.mem_cons_self _ _)
    have hadj2 : ∀ w ∈ vs, w ∈ (map_find edges u).getD [] :=
      fun w hw => hadj w (List.mem_cons_of_mem _ hw)
    simp only [List.foldl_cons]
    cases hcat : (map_find catalog v).isNone with
    | true =>
      have hstep : dfs_edge_step catalog (dfs catalog edges fuel) (some st) v = some st := by
        simp only [dfs_edge_step, hcat, if_true]
      rw [hstep]
      obtain ⟨st2, hf, hpost, hblack⟩ := ih st hadj2 hgray hfuel
      refine ⟨st2, hf, hpost, fun heq w hw hwc => ?_⟩
      rcases List.mem_cons.mp hw with rfl | hw2
      · rw [hcat] at hwc; cases hwc
      · exact hblack heq w hw2 hwc
    | false =>
      have hedge : dfs_edge catalog edges u v := ⟨hv, hcat⟩
      cases hc : color_of st.color v with
      | White =>
        obtain ⟨st1, hd, hb1, hp1⟩ := hvisit v st hcat hc hfuel
        have hstep : dfs_edge_step catalog (dfs catalog edges fuel) (some st) v = some st1 := by
          simp only [dfs_edge_step, hcat, Bool.false_eq_true, if_false, hc, hd]
        rw [hstep]
        obtain ⟨a1, b1, c1, d1, e1, f1⟩ := hp1
        obtain ⟨st2, hf, hpost, hblack⟩ := ih st1 hadj2 ((b1 u).mpr hgray)
          (le_trans (white_count_mono catalog st st1 d1) hfuel)
        have hp1u : visit_post catalog edges u st st1 :=
          ⟨a1, b1, c1, d1,
            fun hpre hlt => e1 (fun g hg => (hpre g hg).tail hedge) hlt, f1⟩
        refine ⟨st2, hf, visit_post_trans catalog edges u st st1 st2 hp1u hpost,
          fun heq w hw hwc => ?_⟩
        have he1 : st1.errors = st.errors := by have := hpost.1; omega
        rcases List.mem_cons.mp hw with rfl | hw2
        · exact hpost.2.2.1 w hb1
        · exact hblack (by omega) w hw2 hwc
      | Gray =>
        have hstep : dfs_edge_step catalog (dfs catalog edges fuel) (some st) v =
            some { st with errors := st.errors + 1 } := by
          simp only [dfs_edge_step, hcat, Bool.false_eq_true, if_false, hc]
        rw [hstep]
        obtain ⟨st2, hf, hpost, hblack⟩ := ih { st with errors := st.errors + 1 } hadj2 hgray hfuel
        have hp1u : visit_post catalog edges u st { st with errors := st.errors + 1 } :=
          ⟨Nat.le_succ _, fun _ => Iff.rfl, fun _ h => h, fun _ h => h,
            fun hpre _ => ⟨v, Relation.TransGen.tail' (hpre v hc) hedge⟩,
            fun heq _ => absurd heq (by simp)⟩
        refine ⟨st2, hf, visit_post_trans catalog edges u st _ st2 hp1u hpost,
          fun heq => ?_⟩
        have := hpost.1
        simp only at this
        omega
      | Black =>
        have hstep : dfs_edge_step catalog (dfs catalog edges fuel) (some st) v = some st := by
          simp only [dfs_edge_step, hcat, Bool.false_eq_true, if_false, hc]
        rw [hstep]
        obtain ⟨st2, hf, hpost, hblack⟩ := ih st hadj2 hgray hfuel
        refine ⟨st2, hf, hpost, fun heq w hw hwc => ?_⟩
        rcases List.mem_cons.mp hw with rfl | hw2
        · exact hpost.2.2.1 w hc
        · exact hblack heq w hw2 hwc

theorem le_sum_of_mem (l : List Nat) (x : Nat) (h : x ∈ l) : x ≤ l.sum := by
  induction l with
  | nil => cases h
  | cons a l ih =>
    simp only [List.sum_cons]
    rcases List.mem_cons.mp h with rfl | hl
    · omega
    · have := ih hl
      omega

/-- A call of `dfs` on a white token of the catalog, with a bound that is at least the
number of white tokens, returns; it leaves the token black. -/
theorem dfs_spec (catalog : List (Str × Str)) (edges : List (Str × List Str)) (fuel : Nat) :
    ∀ (u : Str) (st : DfsState), (map_find catalog u).isNone = false →
      color_of st.color u = Color.White → white_count catalog st ≤ fuel →
      ∃ st2, dfs catalog edges fuel u st = some st2 ∧ color_of st2.color u = Color.Black ∧
        visit_post catalog edges u st st2 := by
  induction fuel with
  | zero =>
    intro u st hu hw hfuel
    exfalso
    have hmem : u ∈ (catalog.map Prod.fst).filter
        (fun k => decide (color_of st.color k = Color.White)) :=
      List.mem_filter.mpr ⟨mem_keys_of_find catalog u hu, by simpa using hw⟩
    have := List.length_pos_of_mem hmem
    unfold white_count at hfuel
    omega
  | succ fuel ih =>
    intro u st hu hw hfuel
    have hlt := white_count_gray catalog st u hu hw
    have hg1 : color_of ({ st with color := (u, Color.Gray) :: st.color } : DfsState).color u =
        Color.Gray := by simp [color_of_cons]
    obtain ⟨st2, hf, hpost, hblack⟩ := dfs_loop_spec catalog edges fuel u ih
      ((map_find edges u).getD []) { st with color := (u, Color.Gray) :: st.color }
      (fun v hv => hv) hg1 (by omega)
    obtain ⟨a, b, c, d, e, f⟩ := hpost
    have hg2 : color_of st2.color u = Color.Gray := (b u).mpr hg1
    refine ⟨{ st2 with color := (u, Color.Black) :: st2.color }, ?_, by simp [color_of_cons], ?_⟩
    · simp only [dfs, hf]
    · refine ⟨a, ?_, ?_, ?_, ?_, ?_⟩
      · intro x
        simp only [color_of_cons]
        by_cases hx : u = x
        · subst hx
          simp [hw]
        · simp only [hx, if_false]
          rw [b x]
          simp only [color_of_cons, hx, if_false]
      · intro x hx
        have hne : u ≠ x := by
          intro h; subst h; rw [hw] at hx; cases hx
        simp only [color_of_cons, hne, if_false]
        apply c
        simp only [color_of_cons, hne, if_false]
        exact hx
      · intro x hx
        simp only [color_of_cons] at hx
        by_cases hne : u = x
        · simp [hne] at hx
        · simp only [hne, if_false] at hx
          have := d x hx
          simpa only [color_of_cons, hne, if_false] using this
      · intro hpre hlt2
        apply e _ hlt2
        intro g hg
        simp only [color_of_cons] at hg
        by_cases hne : u = g
        · subst hne
          exact Relation.ReflTransGen.refl
        · simp only [hne, if_false] at hg
          exact hpre g hg
      · intro heq htopo
        have htopo1 : topo_ranked catalog edges { st with color := (u, Color.Gray) :: st.color } := by
          obtain ⟨rank, hr⟩ := htopo
          refine ⟨rank, fun bk hb w hedge => ?_⟩
          simp only [color_of_cons] at hb
          by_cases hne : u = bk
          · simp [hne] at hb
          · simp only [hne, if_false] at hb
            obtain ⟨h1, h2⟩ := hr bk hb w hedge
            have hnw : u ≠ w := by
              intro h; subst h; rw [hw] at h1; cases h1
            exact ⟨by simp only [color_of_cons, hnw, if_false]; exact h1, h2⟩
        obtain ⟨rank, hr⟩ := f heq htopo1
        have hsucc := hblack heq
        refine ⟨fun x => if x = u then
            1 + (((map_find edges u).getD []).map rank).sum else rank x, fun bk hb w hedge => ?_⟩
        by_cases hbu : bk = u
        · subst hbu
          have hwb := hsucc w hedge.1 hedge.2
          have hnw : w ≠ bk := by
            intro h; subst h; rw [hg2] at hwb; cases hwb
          refine ⟨by simp only [color_of_cons, Ne.symm hnw, if_false]; exact hwb, ?_⟩
          simp only [hnw, if_false, if_true]
          have := le_sum_of_mem _ _ (List.mem_map_of_mem rank hedge.1)
          omega
        · have hb2 : color_of st2.color bk = Color.Black := by
            simpa only [color_of_cons, Ne.symm hbu, if_false] using hb
          obtain ⟨h1, h2⟩ := hr bk hb2 w hedge
          have hnw : w ≠ u := by
            intro h; subst h; rw [hg2] at h1; cases h1
          refine ⟨by simp only [color_of_cons, Ne.symm hnw, if_false]; exact h1, ?_⟩
          simp only [hnw, hbu, if_false]
          exact h2

/-- The last loop of `check_catalog_report`, started in a state without gray tokens and
with a bound that is at least the number of white tokens, returns; it leaves every
visited token black. -/
theorem dfs_roots_spec (catalog : List (Str × Str)) (edges : List (Str × List Str))
    (fuel : Nat) :
    ∀ (rs : List (Str × Str)) (st : DfsState),
      (∀ kv ∈ rs, (map_find catalog kv.1).isNone = false) →
      (∀ x, color_of st.color x ≠ Color.Gray) → white_count catalog st ≤ fuel →
      ∃ st2, rs.foldl (dfs_root_step catalog edges fuel) (some st) = some st2 ∧
        st.errors ≤ st2.errors ∧
        (∀ x, color_of st2.color x ≠ Color.Gray) ∧
        (∀ x, color_of st.color x = Color.Black → color_of st2.color x = Color.Black) ∧
        (∀ kv ∈ rs, color_of st2.color kv.1 = Color.Black) ∧
        (st.errors < st2.errors → ∃ c, Relation.TransGen (dfs_edge catalog edges) c c) ∧
        (st2.errors = st.errors → topo_ranked catalog edges st →
          topo_ranked catalog edges st2) := by
  intro rs
  induction rs with
  | nil =>
    intro st _ hng _
    exact ⟨st, rfl, le_refl _, hng, fun _ h => h, fun _ h => (by cases h),
      fun h => absurd h (lt_irrefl _), fun _ h => h⟩
  | cons kv rs ih =>
    intro st hcat hng hfuel
    have hcat2 : ∀ kv2 ∈ rs, (map_find catalog kv2.1).isNone = false :=
      fun kv2 h => hcat kv2 (List.mem_cons_of_mem _ h)
    by_cases hw : color_of st.color kv.1 = Color.White
    · obtain ⟨st1, hd, hb1, a, b, c, d, e, f⟩ :=
        dfs_spec catalog edges fuel kv.1 st (hcat kv (List.mem_cons_self _ _)) hw hfuel
      have hng1 : ∀ x, color_of st1.color x ≠ Color.Gray := fun x hx => hng x ((b x).mp hx)
      obtain ⟨st2, hfold, a2, g2, c2, r2, e2, f2⟩ := ih st1 hcat2 hng1
        (le_trans (white_count_mono catalog st st1 d) hfuel)
      refine ⟨st2, ?_, le_trans a a2, g2, fun x hx => c2 x (c x hx), ?_, ?_, ?_⟩
      · simp only [List.foldl_cons, dfs_root_step, hw, if_true, hd]
        exact hfold
      · intro kv2 hkv2
        rcases List.mem_cons.mp hkv2 with rfl | h
        · exact c2 _ hb1
        · exact r2 kv2 h
      · intro hlt
        by_cases h1 : st.errors < st1.errors
        · exact e (fun g hg => absurd hg (hng g)) h1
        · exact e2 (by omega)
      · intro heq htopo
        exact f2 (by omega) (f (by omega) htopo)
    · have hb : color_of st.color kv.1 = Color.Black := by
        have := hng kv.1
        cases hc : color_of st.color kv.1 with
        | White => exact absurd hc hw
        | Gray => exact absurd hc this
        | Black => rfl
      obtain ⟨st2, hfold, a2, g2, c2, r2, e2, f2⟩ := ih st hcat2 hng hfuel
      refine ⟨st2, ?_, a2, g2, c2, ?_, e2, f2⟩
      · simp only [List.foldl_cons, dfs_root_step, hw, if_false]
        exact hfold
      · intro kv2 hkv2
        rcases List.mem_cons.mp hkv2 with rfl | h
        · exact c2 _ hb
        · exact r2 kv2 h

theorem color_of_initial (catalog : List (Str × Str)) (x : Str) :
    color_of (catalog.map (fun kv => (kv.1, Color.White))) x = Color.White := by
  induction catalog with
  | nil => rfl
  | cons kv rest ih =>
    simp only [List.map_cons, color_of_cons]
    split
    · rfl
    · exact ih

/-- A ranking of the black tokens that covers every source of an edge excludes a cycle. -/
theorem topo_acyclic (catalog : List (Str × Str)) (edges : List (Str × List Str))
    (st : DfsState)
    (hkeys : ∀ b w, dfs_edge catalog edges b w → color_of st.color b = Color.Black)
    (h : topo_ranked catalog edges st) :
    ¬ ∃ c, Relation.TransGen (dfs_edge catalog edges) c c := by
  obtain ⟨rank, hr⟩ := h
  have key : ∀ a b, Relation.TransGen (dfs_edge catalog edges) a b → rank b < rank a := by
    intro a b hab
    induction hab with
    | single hedge => exact (hr a (hkeys _ _ hedge) _ hedge).2
    | tail _ hedge ih => exact lt_trans (hr _ (hkeys _ _ hedge) _ hedge).2 ih
  rintro ⟨c, hc⟩
  exact lt_irrefl _ (key c c hc)

theorem check_edges_keys (catalog : List (Str × Str)) (k : Str)
    (h : k ∈ (check_edges catalog).map Prod.fst) : k ∈ catalog.map Prod.fst := by
  unfold check_edges at h
  simp only [List.mem_map, List.mem_filterMap] at h ⊢
  obtain ⟨p, ⟨kv, hkv, hp⟩, rfl⟩ := h
  split at hp
  · cases hp
  · cases hp
    exact ⟨kv, hkv, rfl⟩

/-- The list that `edges` stores for a token: the distinct inline references of its
template (no list when there is none). -/
theorem check_edges_find (catalog : List (Str × Str)) (hnd : (catalog.map Prod.fst).Nodup)
    (u : Str) :
    (map_find (check_edges catalog) u).getD [] =
      ((map_find catalog u).map scan_inline_refs).getD [] := by
  induction catalog with
  | nil => rfl
  | cons kv rest ih =>
    obtain ⟨k, t⟩ := kv
    simp only [List.map_cons, List.nodup_cons] at hnd
    have hce : check_edges ((k, t) :: rest) =
        if (scan_inline_refs t).isEmpty then check_edges rest
        else (k, scan_inline_refs t) :: check_edges rest := by
      unfold check_edges
      by_cases he : (scan_inline_refs t).isEmpty = true
      · simp only [List.filterMap_cons, he, if_true]
      · simp only [List.filterMap_cons, he, Bool.false_eq_true, if_false]
    rw [hce]
    by_cases hk : k = u
    · subst hk
      have hnone : map_find (check_edges rest) k = none :=
        map_find_none_of_not_mem _ _ (fun h => hnd.1 (check_edges_keys rest k h))
      by_cases he : (scan_inline_refs t).isEmpty = true
      · simp only [he, if_true, hnone, map_find, Option.getD_none, Option.map_some',
          Option.getD_some]
        exact (List.isEmpty_iff.mp he).symm
      · simp only [he, Bool.false_eq_true, if_false, map_find, if_true, Option.getD_some,
          Option.map_some']
    · by_cases he : (scan_inline_refs t).isEmpty = true
      · simp only [he, if_true, map_find, hk, if_false]
        exact ih hnd.2
      · simp only [he, Bool.false_eq_true, if_false, map_find, hk]
        exact ih hnd.2

/-- The edges that `dfs` follows are the edges of the reference graph. -/
theorem dfs_edge_iff_ref_edge (s : CatalogSnapshot) (hnd : (s.catalog.map Prod.fst).Nodup)
    (u v : Str) : dfs_edge s.catalog (check_edges s.catalog) u v ↔ ref_edge s u v := by
  unfold dfs_edge ref_edge
  rw [check_edges_find s.catalog hnd u]
  cases hu : map_find s.catalog u with
  | none => simp
  | some t =>
    simp only [Option.map_some', Option.getD_some, mem_scan_inline_refs, Option.some.injEq,
      exists_eq_left']
    cases hv : map_find s.catalog v <;> simp

theorem sum_pos_iff {α : Type} (l : List α) (f : α → Nat) :
    0 < (l.map f).sum ↔ ∃ x ∈ l, 0 < f x := by
  induction l with
  | nil => simp
  | cons a l ih =>
    simp only [List.map_cons, List.sum_cons, List.mem_cons, exists_eq_or_imp]
    rw [← ih]
    omega

/-- The first loop counts an error exactly when some template refers to a token that
is absent from the catalog. -/
theorem check_missing_pos (s : CatalogSnapshot) :
    0 < check_missing s.catalog ↔ has_missing_ref s := by
  unfold check_missing has_missing_ref
  rw [sum_pos_iff]
  constructor
  · rintro ⟨kv, hkv, hpos⟩
    obtain ⟨r, hr⟩ := List.exists_mem_of_length_pos hpos
    obtain ⟨hr1, hr2⟩ := List.mem_filter.mp hr
    refine ⟨kv, hkv, r, (mem_scan_inline_refs _ _).mp hr1, ?_⟩
    cases hm : map_find s.catalog r with
    | none => rfl
    | some v => rw [hm] at hr2; cases hr2
  · rintro ⟨kv, hkv, r, hr1, hr2⟩
    refine ⟨kv, hkv, List.length_pos_of_mem (List.mem_filter.mpr
      ⟨(mem_scan_inline_refs _ _).mpr hr1, ?_⟩)⟩
    rw [hr2]
    rfl

/-- C22. `check_catalog_report` returns (the depth-first search never exhausts its
bound); it sets the code to 2 exactly when no snapshot is loaded or the catalog is
empty; for a non-empty catalog the code is 3 if and only if some template has an inline
reference to a token absent from the catalog or the reference graph has a directed
cycle, and 0 otherwise, whatever the number of placeholder-gap warnings. -/
theorem integrity_exit_code (eng : I18nEngine)
    (hnd : ∀ s, eng.active_snapshot = some s → (s.catalog.map Prod.fst).Nodup) :
    ∃ r, check_catalog_report eng = some r ∧
      (r.out_code = 2 ↔
        (eng.active_snapshot = none ∨ ∃ s, eng.active_snapshot = some s ∧ s.catalog = [])) ∧
      (∀ s, eng.active_snapshot = some s → s.catalog ≠ [] →
        (r.out_code = 3 ↔ (has_missing_ref s ∨ has_ref_cycle s)) ∧
        (¬ (has_missing_ref s ∨ has_ref_cycle s) → r.out_code = 0) ∧
        r.warnings = check_warnings s.catalog) := by
  unfold check_catalog_report
  cases hs : eng.active_snapshot with
  | none =>
    refine ⟨_, rfl, ?_, fun s h => by cases h⟩
    simp
  | some s =>
    have hnds := hnd s hs
    by_cases hemp : s.catalog = []
    · refine ⟨⟨2, 0, 0⟩, by simp only [hemp, List.isEmpty_nil, if_true], ?_, ?_⟩
      · simp [hemp]
      · intro s2 h2 hne
        cases h2
        exact absurd hemp hne
    · have hie : s.catalog.isEmpty = false := by
        cases hc : s.catalog with
        | nil => exact absurd hc hemp
        | cons a l => rfl
      obtain ⟨st2, hfold, hle, hng, _, hblack, hcyc, htopo⟩ :=
        dfs_roots_spec s.catalog (check_edges s.catalog) s.catalog.length s.catalog
          { color := s.catalog.map (fun kv => (kv.1, Color.White)),
            errors := check_missing s.catalog }
          (fun kv hkv => map_find_isSome_of_mem _ _ (List.mem_map_of_mem Prod.fst hkv))
          (fun x hx => by rw [color_of_initial] at hx; cases hx)
          (by
            unfold white_count
            exact le_trans (List.length_filter_le _ _) (by simp))
      have hedges : dfs_edge s.catalog (check_edges s.catalog) = ref_edge s := by
        funext u v
        exact propext (dfs_edge_iff_ref_edge s hnds u v)
      rw [hedges] at hcyc
      have hmain : 0 < st2.errors ↔ (has_missing_ref s ∨ has_ref_cycle s) := by
        rw [← check_missing_pos]
        constructor
        · intro hpos
          by_cases hm : 0 < check_missing s.catalog
          · exact Or.inl hm
          · exact Or.inr (hcyc (by simp only [] at hle ⊢; omega))
        · rintro (hm | hc)
          · simp only [] at hle
            omega
          · by_contra hz
            have heq : st2.errors = check_missing s.catalog := by
              simp only [] at hle
              omega
            have ht := htopo heq ⟨fun _ => 0, fun b hb => by
              rw [color_of_initial] at hb; cases hb⟩
            unfold has_ref_cycle at hc
            rw [← hedges] at hc
            refine topo_acyclic s.catalog (check_edges s.catalog) st2 ?_ ht hc
            intro b w hedge
            rw [hedges] at hedge
            obtain ⟨t, hbt, _, _⟩ := hedge
            obtain ⟨kv, hkv, hk⟩ := List.mem_map.mp
              (mem_keys_of_find s.catalog b (by rw [hbt]; rfl))
            rw [← hk]
            exact hblack kv hkv
      refine ⟨⟨if st2.errors > 0 then 3 else 0, check_warnings s.catalog, st2.errors⟩,
        by simp only [hie, Bool.false_eq_true, if_false, hfold], ?_, ?_⟩
      · by_cases hz : st2.errors > 0 <;> simp [hz, hemp]
      · intro s2 h2 hne
        cases h2
        refine ⟨?_, ?_, rfl⟩
        · rw [← hmain]
          by_cases hz : st2.errors > 0 <;> simp [hz]
        · rw [← hmain]
          intro hz
          simp only [gt_iff_lt, hz, if_false]

theorem integrity_exit_code_witness :
    (check_catalog_report I18nEngine.init = some ⟨2, 0, 0⟩ ∧
      check_catalog_report inline_ref_engine = some ⟨0, 0, 0⟩ ∧
      check_catalog_report placeholder_gap_engine = some ⟨0, 1, 0⟩ ∧
      check_catalog_report missing_ref_engine = some ⟨3, 0, 1⟩ ∧
      check_catalog_report mutual_cycle_engine = some ⟨3, 0, 1⟩ ∧
      mutual_cycle_engine.active_snapshot = some mutual_cycle_snapshot ∧
      mutual_cycle_snapshot.catalog ≠ [] ∧
      (mutual_cycle_snapshot.catalog.map Prod.fst).Nodup) ∧
    ∃ r, check_catalog_report mutual_cycle_engine = some r ∧
      (r.out_code = 2 ↔
        (mutual_cycle_engine.active_snapshot = none ∨
          ∃ s, mutual_cycle_engine.active_snapshot = some s ∧ s.catalog = [])) ∧
      (∀ s, mutual_cycle_engine.active_snapshot = some s → s.catalog ≠ [] →
        (r.out_code = 3 ↔ (has_missing_ref s ∨ has_ref_cycle s)) ∧
        (¬ (has_missing_ref s ∨ has_ref_cycle s) → r.out_code = 0) ∧
        r.warnings = check_warnings s.catalog) :=
  ⟨⟨by decide, by decide, by decide, by decide, by decide, by decide, by decide, by decide⟩,
    integrity_exit_code mutual_cycle_engine (fun s hs => by
      have h0 : mutual_cycle_engine.active_snapshot = some mutual_cycle_snapshot := by decide
      cases h0.symm.trans hs
      decide)⟩

/-! ## Checker and resolver agree on the inline references -/

theorem scan_inline_refs_sorted (text : Str) :
    (scan_inline_refs text).Pairwise (fun a b => a < b) := by
  haveI : IsTotal Str str_le := ⟨str_le_total⟩
  haveI : IsTrans Str str_le := ⟨str_le_trans⟩
  unfold scan_inline_refs
  have hs : ((scan_inline_refs_loop text text.length 0 []).insertionSort str_le).Pairwise
      str_le := List.sorted_insertionSort str_le _
  have hs2 := hs.sublist (List.dedup_sublist _)
  have hnd : (((scan_inline_refs_loop text text.length 0 []).insertionSort
      str_le).dedup).Pairwise (fun a b => a ≠ b) := List.nodup_dedup _
  refine (hs2.and hnd).imp ?_
  intro a b h
  rcases lt_trichotomy a b with h1 | h1 | h1
  · exact h1
  · exact absurd h1 h.2
  · exact absurd h1 h.1

/-- C40. For every template text, `scan_inline_refs` returns a strictly ascending (hence
duplicate-free) list whose members are exactly the tokens of the reference productions
of the left-to-right scan of the template; the loops of `translate_impl` and of
`resolve_plain_text` process exactly these productions in turn, looking up a token only
at a reference production; and at `@@` both scans emit no reference and continue two
bytes further. -/
theorem checker_resolver_agree (text : Str) :
    (scan_inline_refs text).Pairwise (fun a b => a < b) ∧
    (∀ tok, tok ∈ scan_inline_refs text ↔ tok ∈ item_refs (lex_template text)) ∧
    (∀ (state : CatalogSnapshot) (args : List Str) (depth : Nat) (seen : Seen),
      translate_impl_loop state text args depth 0 [] seen =
        (lex_template text).foldl (emit_item state args (depth + 1) depth) ([], seen)) ∧
    (∀ (state : CatalogSnapshot) (args : List Str) (depth : Nat) (seen : Seen),
      resolve_plain_text_loop state text args depth 0 [] seen =
        (lex_template text).foldl (emit_item state args (depth + 1) (depth + 1)) ([], seen)) ∧
    (∀ i, i + 1 < text.length → text.getD i 0 = 64 → text.getD (i + 1) 0 = 64 →
      lex_step text i = (Item.at_sign, i + 2) ∧
      ∀ fuel acc, scan_inline_refs_loop text (fuel + 1) i acc =
        scan_inline_refs_loop text fuel (i + 2) acc) := by
  refine ⟨scan_inline_refs_sorted text, ?_, ?_, ?_, ?_⟩
  · intro tok
    rw [mem_scan_inline_refs]
    simp only [item_refs, List.mem_filterMap]
    constructor
    · intro h
      exact ⟨_, h, rfl⟩
    · rintro ⟨item, hmem, hitem⟩
      cases item <;> simp at hitem
      subst hitem
      exact hmem
  · intro state args depth seen
    exact translate_impl_loop_eq state text args depth text.length 0 [] seen (by omega)
  · intro state args depth seen
    exact resolve_plain_text_loop_eq state text args depth text.length 0 [] seen (by omega)
  · intro i hi h0 h1
    constructor
    · rw [lex_step_at text i [] 2 h0 (try_parse_at_at text i h0 ⟨hi, h1⟩)]
      rw [if_pos ⟨hi, h1⟩]
    · intro fuel acc
      rw [scan_inline_refs_loop]
      have hi0 : i < text.length := by omega
      simp only [hi0, if_true, h0, ne_eq, not_true_eq_false, if_false, hi, h1, and_self]

theorem checker_resolver_agree_witness :
    scan_inline_refs (utf8 "@cccccc a@@abcdef @ABCDEF @cccccc %1") =
      [utf8 "abcdef", utf8 "cccccc"] ∧
    item_refs (lex_template (utf8 "@cccccc a@@abcdef @ABCDEF @cccccc %1")) =
      [utf8 "cccccc", utf8 "abcdef", utf8 "cccccc"] ∧
    ((scan_inline_refs (utf8 "@cccccc a@@abcdef @ABCDEF @cccccc %1")).Pairwise
      (fun a b => a < b)) ∧
    (∀ tok, tok ∈ scan_inline_refs (utf8 "@cccccc a@@abcdef @ABCDEF @cccccc %1") ↔
      tok ∈ item_refs (lex_template (utf8 "@cccccc a@@abcdef @ABCDEF @cccccc %1"))) :=
  ⟨by decide, by decide,
    (checker_resolver_agree (utf8 "@cccccc a@@abcdef @ABCDEF @cccccc %1")).1,
    (checker_resolver_agree (utf8 "@cccccc a@@abcdef @ABCDEF @cccccc %1")).2.1⟩

/-! ## Letter case of inline references -/

set_option maxRecDepth 100000 in
/-- C31, failing input. The catalogs `aaaaaa: @style_b`, `style_b: x` and
`aaaaaa: @STYLE_B`, `style_b: x` differ only in the letter case of the inline style
reference, and `translate` of `aaaaaa` gives `x` for the first and
`⟦MISSING:@STYLE_B⟧` for the second: `try_parse_inline_token` accepts `@STYLE_B` as a
reference and returns the token as written, while it lower-cases a hex token (the same
catalog with the hex reference `@BBBBBB` to `bbbbbb` gives `x`). -/
theorem style_reference_case_sensitive :
    (style_ref_engine.active_snapshot.map (fun s => s.catalog) =
        some [(utf8 "aaaaaa", utf8 "@style_b"), (utf8 "style_b", utf8 "x")] ∧
      style_ref_upper_engine.active_snapshot.map (fun s => s.catalog) =
        some [(utf8 "aaaaaa", utf8 "@STYLE_B"), (utf8 "style_b", utf8 "x")] ∧
      to_lower_ascii (utf8 "@STYLE_B") = utf8 "@style_b") ∧
    translate style_ref_engine (utf8 "aaaaaa") [] = utf8 "x" ∧
    translate style_ref_upper_engine (utf8 "aaaaaa") [] = utf8 "⟦MISSING:@STYLE_B⟧" ∧
    try_parse_inline_token (utf8 "@style_b") 0 = (true, utf8 "style_b", 8) ∧
    try_parse_inline_token (utf8 "@STYLE_B") 0 = (true, utf8 "STYLE_B", 8) ∧
    try_parse_inline_token (utf8 "@BBBBBB") 0 = (true, utf8 "bbbbbb", 7) ∧
    translate hex_ref_upper_engine (utf8 "aaaaaa") [] = utf8 "x" :=
  ⟨by decide, translate_fuel_sound 6 _ _ _ _ (by decide),
    translate_fuel_sound 6 _ _ _ _ (by decide), by decide, by decide, by decide,
    translate_fuel_sound 6 _ _ _ _ (by decide)⟩

/-! ## The binary reader and the end of the buffer -/

/-- C38, failing inputs. On a buffer of 20 bytes with version 2 the reader reads
`data[20]` (the first byte of `read_le_u32(data + 20)`), and on a buffer that ends right
after a base token it reads the variant length at `data[size]`: both reads are outside
the buffer, in strict and in non-strict mode. -/
theorem binary_reader_reads_past_end :
    truncated_v2_file.length = 20 ∧
    read_u8 truncated_v2_file 20 = .error .out_of_bounds ∧
    (∀ strict, build_snapshot_from_binary truncated_v2_file strict = .error .out_of_bounds) ∧
    base_token_end_file.length = 27 ∧
    read_u8 base_token_end_file 27 = .error .out_of_bounds ∧
    read_entry base_token_end_file 20 = .error .out_of_bounds ∧
    (∀ strict, build_snapshot_from_binary base_token_end_file strict =
      .error .out_of_bounds) := by
  refine ⟨by decide, by decide, ?_, by decide, by decide, by decide, ?_⟩
  · intro strict
    cases strict <;> decide
  · intro strict
    cases strict <;> decide

/-! ## The integrity report and the order of the catalog -/

set_option maxRecDepth 100000 in
/-- C37, failing input. The catalogs of `triangle_engine` and `triangle_reordered_engine`
hold the same three entries (`aaaaaa: @bbbbbb`, `bbbbbb: @aaaaaa @cccccc`,
`cccccc: @aaaaaa`) in two orders; no reference is missing in either; the depth-first
search that starts at `aaaaaa` meets a gray token twice, the one that starts at `bbbbbb`
once, so `check_catalog_report` counts 2 errors for the first and 1 for the second. -/
theorem integrity_errors_depend_on_order :
    triangle_engine.active_snapshot = some triangle_snapshot ∧
    triangle_reordered_engine.active_snapshot = some triangle_reordered_snapshot ∧
    triangle_snapshot.catalog =
      [(utf8 "aaaaaa", utf8 "@bbbbbb"), (utf8 "bbbbbb", utf8 "@aaaaaa @cccccc"),
        (utf8 "cccccc", utf8 "@aaaaaa")] ∧
    triangle_reordered_snapshot.catalog =
      [(utf8 "bbbbbb", utf8 "@aaaaaa @cccccc"), (utf8 "aaaaaa", utf8 "@bbbbbb"),
        (utf8 "cccccc", utf8 "@aaaaaa")] ∧
    triangle_snapshot.catalog.Perm triangle_reordered_snapshot.catalog ∧
    (triangle_snapshot.catalog.map Prod.fst).Nodup ∧
    check_missing triangle_snapshot.catalog = 0 ∧
    check_missing triangle_reordered_snapshot.catalog = 0 ∧
    check_catalog_report triangle_engine = some ⟨3, 0, 2⟩ ∧
    check_catalog_report triangle_reordered_engine = some ⟨3, 0, 1⟩ := by
  refine ⟨by decide, by decide, by decide, by decide, by decide, by decide, by decide,
    by decide, by decide, by decide⟩

/-! ## Meta directives after the entries -/

/-- One iteration of the line loop, for every continuation `rest`: the loop stops with
an error, or goes on with a state that does not depend on `rest`.  The meta phase is
over after a line that is neither blank, nor a comment, nor a meta line, and stays
over; the catalog and the plural variants change only through `text_entry_step`. -/
theorem text_loop_cons (strict : Bool) (line : Str) (line_no : Nat)
    (meta_phase seen_any_entry : Bool) (loaded : Nat) (snapshot : CatalogSnapshot) :
    (∃ e, ∀ rest,
      text_loop strict (line :: rest) line_no meta_phase seen_any_entry loaded snapshot =
        .error e) ∨
    ∃ mp sa ld snap,
      (∀ rest, text_loop strict (line :: rest) line_no meta_phase seen_any_entry loaded snapshot =
        text_loop strict rest (line_no + 1) mp sa ld snap) ∧
      (meta_phase = false → mp = false) ∧
      ((trim line).isEmpty = false → (trim line).head? ≠ some 35 →
        parse_meta_line (trim line) = none → mp = false) ∧
      ((snap.catalog = snapshot.catalog ∧ snap.plural_variants = snapshot.plural_variants ∧
          ld = loaded) ∨
        (text_entry_step strict line (line_no + 1) snapshot = .ok (some snap) ∧
          ld = loaded + 1)) := by
  have hentry : ∀ r : List Str → Except Str (Nat × CatalogSnapshot),
      (∀ rest, r rest = (match text_entry_step strict line (line_no + 1) snapshot with
        | .error e => .error e
        | .ok none => text_loop strict rest (line_no + 1) false seen_any_entry loaded snapshot
        | .ok (some snapshot) =>
          text_loop strict rest (line_no + 1) false true (loaded + 1) snapshot)) →
      (∃ e, ∀ rest, r rest = .error e) ∨
      ∃ mp sa ld snap, (∀ rest, r rest = text_loop strict rest (line_no + 1) mp sa ld snap) ∧
        (meta_phase = false → mp = false) ∧
        ((trim line).isEmpty = false → (trim line).head? ≠ some 35 →
          parse_meta_line (trim line) = none → mp = false) ∧
        ((snap.catalog = snapshot.catalog ∧ snap.plural_variants = snapshot.plural_variants ∧
            ld = loaded) ∨
          (text_entry_step strict line (line_no + 1) snapshot = .ok (some snap) ∧
            ld = loaded + 1)) := by
    intro r hr
    cases hs : text_entry_step strict line (line_no + 1) snapshot with
    | error e =>
      refine Or.inl ⟨e, fun rest => ?_⟩
      rw [hr rest, hs]
    | ok o =>
      cases o with
      | none =>
        refine Or.inr ⟨false, seen_any_entry, loaded, snapshot, fun rest => ?_, fun _ => rfl,
          fun _ _ _ => rfl, Or.inl ⟨rfl, rfl, rfl⟩⟩
        rw [hr rest, hs]
      | some snap =>
        refine Or.inr ⟨false, true, loaded + 1, snap, fun rest => ?_, fun _ => rfl,
          fun _ _ _ => rfl, Or.inr ⟨rfl, rfl⟩⟩
        rw [hr rest, hs]
  by_cases h1 : (trim line).isEmpty = true
  · refine Or.inr ⟨meta_phase, seen_any_entry, loaded, snapshot, fun rest => ?_, fun h => h,
      fun hc => ?_, Or.inl ⟨rfl, rfl, rfl⟩⟩
    · rw [text_loop]; simp only [h1, if_true]
    · rw [h1] at hc; cases hc
  by_cases h2 : (trim line).head? = some 35
  · refine Or.inr ⟨meta_phase, seen_any_entry, loaded, snapshot, fun rest => ?_, fun h => h,
      fun _ hc => absurd h2 hc, Or.inl ⟨rfl, rfl, rfl⟩⟩
    rw [text_loop]; simp only [h1, h2, if_true]; simp
  cases meta_phase with
  | false =>
    apply hentry
    intro rest
    rw [text_loop]
    simp only [h1, h2]
    simp
    try rfl
  | true =>
    obtain ⟨o, hm⟩ : ∃ o, parse_meta_line (trim line) = o := ⟨_, rfl⟩
    cases o with
    | none =>
      apply hentry
      intro rest
      rw [text_loop]
      simp only [h1, h2, hm]
      simp
      try rfl
    | some kv =>
      obtain ⟨key, value⟩ := kv
      have hgo : ∀ snap2 : CatalogSnapshot, snap2.catalog = snapshot.catalog →
          snap2.plural_variants = snapshot.plural_variants →
          (∀ rest, text_loop strict (line :: rest) line_no true seen_any_entry loaded snapshot =
            text_loop strict rest (line_no + 1) true seen_any_entry loaded snap2) →
          ((∃ e, ∀ rest,
            text_loop strict (line :: rest) line_no true seen_any_entry loaded snapshot =
              .error e) ∨
          ∃ mp sa ld snap,
            (∀ rest, text_loop strict (line :: rest) line_no true seen_any_entry loaded snapshot =
              text_loop strict rest (line_no + 1) mp sa ld snap) ∧
            (true = false → mp = false) ∧
            ((trim line).isEmpty = false → (trim line).head? ≠ some 35 →
              parse_meta_line (trim line) = none → mp = false) ∧
            ((snap.catalog = snapshot.catalog ∧
                snap.plural_variants = snapshot.plural_variants ∧ ld = loaded) ∨
              (text_entry_step strict line (line_no + 1) snapshot = .ok (some snap) ∧
                ld = loaded + 1))) := by
        intro snap2 hc hp hrest
        refine Or.inr ⟨true, seen_any_entry, loaded, snap2, hrest, fun h => (by cases h),
          fun _ _ hn => ?_, Or.inl ⟨hc, hp, rfl⟩⟩
        rw [hm] at hn; cases hn
      have hunf : ∀ rest,
          text_loop strict (line :: rest) line_no true seen_any_entry loaded snapshot =
            (if seen_any_entry = true then
              if strict = true then
                .error (utf8 "Meta-Zeile nach Einträgen in Zeile " ++ int_to_string (line_no + 1))
              else text_loop strict rest (line_no + 1) true seen_any_entry loaded snapshot
            else if key = utf8 "locale" then
              text_loop strict rest (line_no + 1) true seen_any_entry loaded
                { snapshot with meta_locale := value }
            else if key = utf8 "fallback" then
              text_loop strict rest (line_no + 1) true seen_any_entry loaded
                { snapshot with meta_fallback := value }
            else if key = utf8 "note" then
              text_loop strict rest (line_no + 1) true seen_any_entry loaded
                { snapshot with meta_note := value }
            else if key = utf8 "plural" then
              if (!(parse_plural_rule_name value).2 && strict) = true then
                .error (utf8 "Unbekannte Plural-Rule '" ++ value ++ utf8 "' in Zeile " ++
                  int_to_string (line_no + 1))
              else
                text_loop strict rest (line_no + 1) true seen_any_entry loaded
                  { snapshot with meta_plural := (parse_plural_rule_name value).1 }
            else if strict = true then
              .error (utf8 "Unbekannter Meta-Key '" ++ key ++ utf8 "' in Zeile " ++
                int_to_string (line_no + 1))
            else text_loop strict rest (line_no + 1) true seen_any_entry loaded snapshot) := by
        intro rest
        rw [text_loop]
        simp only [h1, h2, hm]
        simp only [if_true, if_false, Bool.false_eq_true]
        rfl
      by_cases c1 : seen_any_entry = true
      · by_cases c2 : strict = true
        · exact Or.inl ⟨_, fun rest => by rw [hunf rest, if_pos c1, if_pos c2]⟩
        · exact hgo snapshot rfl rfl (fun rest => by rw [hunf rest, if_pos c1, if_neg c2])
      by_cases c3 : key = utf8 "locale"
      · exact hgo { snapshot with meta_locale := value } rfl rfl
          (fun rest => by rw [hunf rest, if_neg c1, if_pos c3])
      by_cases c4 : key = utf8 "fallback"
      · exact hgo { snapshot with meta_fallback := value } rfl rfl
          (fun rest => by rw [hunf rest, if_neg c1, if_neg c3, if_pos c4])
      by_cases c5 : key = utf8 "note"
      · exact hgo { snapshot with meta_note := value } rfl rfl (fun rest => by
          rw [hunf rest, if_neg c1, if_neg c3, if_neg c4, if_pos c5])
      by_cases c6 : key = utf8 "plural"
      · by_cases c7 : (!(parse_plural_rule_name value).2 && strict) = true
        · exact Or.inl ⟨_, fun rest => by
            rw [hunf rest, if_neg c1, if_neg c3, if_neg c4, if_neg c5, if_pos c6, if_pos c7]⟩
        · exact hgo { snapshot with meta_plural := (parse_plural_rule_name value).1 } rfl rfl
            (fun rest => by
              rw [hunf rest, if_neg c1, if_neg c3, if_neg c4, if_neg c5, if_pos c6, if_neg c7])
      by_cases c8 : strict = true
      · exact Or.inl ⟨_, fun rest => by
          rw [hunf rest, if_neg c1, if_neg c3, if_neg c4, if_neg c5, if_neg c6, if_pos c8]⟩
      · exact hgo snapshot rfl rfl (fun rest => by
          rw [hunf rest, if_neg c1, if_neg c3, if_neg c4, if_neg c5, if_neg c6, if_neg c8])

theorem meta_line_head (m : Str) (kv : Str × Str) (hm : parse_meta_line (trim m) = some kv) :
    (trim m).head? = some 64 := by
  have h64 := parse_meta_line_head _ kv hm
  cases hr : trim m with
  | nil => rw [hr] at h64; simp [trim, List.rdropWhile] at h64
  | cons c r =>
    have hc : is_ws c = false := trim_head_not_ws m c (by rw [hr]; rfl)
    have := trim_head (c :: r) c rfl hc
    rw [← hr, h64] at this
    simp only [Option.some.injEq] at this
    subst this
    rfl

theorem parse_line_skip (line : Str) (h : parse_line line = .skip) :
    (trim line).isEmpty = true ∨ (trim line).head? = some 35 := by
  by_cases h1 : (trim line).isEmpty = true
  · exact Or.inl h1
  by_cases h2 : (trim line).head? = some 35
  · exact Or.inr h2
  exfalso
  unfold parse_line at h
  simp only [h1, h2, if_false, Bool.false_eq_true] at h
  split at h
  · cases h
  · split at h
    · cases h
    · split at h
      · cases h
      · split at h <;> cases h

/-- A meta line after the meta phase goes to `parse_line`, which rejects it. -/
theorem parse_line_meta (m : Str) (kv : Str × Str) (hm : parse_meta_line (trim m) = some kv) :
    ∃ msg, parse_line m = .err msg := by
  have h64 := meta_line_head m kv hm
  cases hp : parse_line m with
  | ok t l x => exact absurd hp (parse_line_at_sign m h64 t l x)
  | skip =>
    rcases parse_line_skip m hp with h | h
    · cases hr : trim m with
      | nil => rw [hr] at h64; cases h64
      | cons c r => rw [hr] at h; cases h
    · rw [h64] at h; cases h
  | err msg => exact ⟨msg, rfl⟩

/-- The iteration of the line loop on a meta line when the meta phase is over: fatal in
strict mode, skipped in non-strict mode. -/
theorem text_loop_late_meta (m : Str) (kv : Str × Str)
    (hm : parse_meta_line (trim m) = some kv) (rest : List Str) (line_no : Nat)
    (seen_any_entry : Bool) (loaded : Nat) (snapshot : CatalogSnapshot) :
    (∃ msg, parse_line m = .err msg ∧
      text_loop true (m :: rest) line_no false seen_any_entry loaded snapshot =
        .error (utf8 "Parse-Fehler in Zeile " ++ int_to_string (line_no + 1 : Nat) ++
          utf8 ": " ++ msg)) ∧
    text_loop false (m :: rest) line_no false seen_any_entry loaded snapshot =
      text_loop false rest (line_no + 1) false seen_any_entry loaded snapshot := by
  have h64 := meta_line_head m kv hm
  obtain ⟨msg, hmsg⟩ := parse_line_meta m kv hm
  have h1 : (trim m).isEmpty = false := by
    cases hr : trim m with
    | nil => rw [hr] at h64; cases h64
    | cons c r => rfl
  have h2 : ¬ (trim m).head? = some 35 := by rw [h64]; simp
  constructor
  · refine ⟨msg, hmsg, ?_⟩
    rw [text_loop]
    simp only [h1, h2, text_entry_step, hmsg]
    simp
    try rfl
  · rw [text_loop]
    simp only [h1, h2, text_entry_step, hmsg]
    simp

theorem text_loop_blank (strict : Bool) (rest : List Str) (line_no : Nat)
    (meta_phase seen_any_entry : Bool) (loaded : Nat) (snapshot : CatalogSnapshot) :
    text_loop strict ([] :: rest) line_no meta_phase seen_any_entry loaded snapshot =
      text_loop strict rest (line_no + 1) meta_phase seen_any_entry loaded snapshot := by
  rw [text_loop]
  have : (trim []).isEmpty = true := by decide
  simp only [this, if_true]

theorem text_loop_late_meta_strict (m : Str) (kv : Str × Str)
    (hm : parse_meta_line (trim m) = some kv) (post : List Str) :
    ∀ (pre : List Str) (line_no : Nat) (meta_phase seen_any_entry : Bool) (loaded : Nat)
      (snapshot : CatalogSnapshot),
      (meta_phase = false ∨ ∃ l ∈ pre, (trim l).isEmpty = false ∧ (trim l).head? ≠ some 35 ∧
        parse_meta_line (trim l) = none) →
      ∃ e, text_loop true (pre ++ m :: post) line_no meta_phase seen_any_entry loaded snapshot =
        .error e := by
  intro pre
  induction pre with
  | nil =>
    intro line_no meta_phase seen_any_entry loaded snapshot h
    rcases h with h | ⟨l, hl, _⟩
    · subst h
      obtain ⟨msg, _, he⟩ := (text_loop_late_meta m kv hm post line_no seen_any_entry loaded
        snapshot).1
      exact ⟨_, he⟩
    · cases hl
  | cons line pre ih =>
    intro line_no meta_phase seen_any_entry loaded snapshot h
    rcases text_loop_cons true line line_no meta_phase seen_any_entry loaded snapshot with
      ⟨e, he⟩ | ⟨mp, sa, ld, snap, hgo, hmp1, hmp2, _⟩
    · exact ⟨e, he _⟩
    · rw [List.cons_append, hgo]
      apply ih
      rcases h with h | ⟨l, hl, hl1, hl2, hl3⟩
      · exact Or.inl (hmp1 h)
      · rcases List.mem_cons.mp hl with rfl | hl
        · exact Or.inl (hmp2 hl1 hl2 hl3)
        · exact Or.inr ⟨l, hl, hl1, hl2, hl3⟩

theorem text_loop_late_meta_skipped (m : Str) (kv : Str × Str)
    (hm : parse_meta_line (trim m) = some kv) (post : List Str) :
    ∀ (pre : List Str) (line_no : Nat) (meta_phase seen_any_entry : Bool) (loaded : Nat)
      (snapshot : CatalogSnapshot),
      (meta_phase = false ∨ ∃ l ∈ pre, (trim l).isEmpty = false ∧ (trim l).head? ≠ some 35 ∧
        parse_meta_line (trim l) = none) →
      text_loop false (pre ++ m :: post) line_no meta_phase seen_any_entry loaded snapshot =
        text_loop false (pre ++ [] :: post) line_no meta_phase seen_any_entry loaded
          snapshot := by
  intro pre
  induction pre with
  | nil =>
    intro line_no meta_phase seen_any_entry loaded snapshot h
    rcases h with h | ⟨l, hl, _⟩
    · subst h
      rw [List.nil_append, List.nil_append, text_loop_blank,
        (text_loop_late_meta m kv hm post line_no seen_any_entry loaded snapshot).2]
    · cases hl
  | cons line pre ih =>
    intro line_no meta_phase seen_any_entry loaded snapshot h
    rcases text_loop_cons false line line_no meta_phase seen_any_entry loaded snapshot with
      ⟨e, he⟩ | ⟨mp, sa, ld, snap, hgo, hmp1, hmp2, _⟩
    · rw [List.cons_append, List.cons_append, he, he]
    · rw [List.cons_append, List.cons_append, hgo, hgo]
      apply ih
      rcases h with h | ⟨l, hl, hl1, hl2, hl3⟩
      · exact Or.inl (hmp1 h)
      · rcases List.mem_cons.mp hl with rfl | hl
        · exact Or.inl (hmp2 hl1 hl2 hl3)
        · exact Or.inr ⟨l, hl, hl1, hl2, hl3⟩

/-- C35. For every text source whose lines contain a meta line `@meta <key> = <value>`
after a line that is neither blank, nor a comment, nor a meta line:
`build_snapshot_from_text` fails in strict mode, and in non-strict mode it returns what
it returns for the source with the meta line replaced by a blank line (the line is
skipped, the metadata of the meta phase stay as they are). -/
theorem meta_after_entries (src : Str) (pre post : List Str) (l m : Str) (kv : Str × Str)
    (hlines : text_lines src = pre ++ m :: post) (hl : l ∈ pre)
    (hl1 : (trim l).isEmpty = false) (hl2 : (trim l).head? ≠ some 35)
    (hl3 : parse_meta_line (trim l) = none)
    (hm : parse_meta_line (trim m) = some kv) :
    (∃ e, build_snapshot_from_text src true = .error e) ∧
    (∀ src2, text_lines src2 = pre ++ [] :: post →
      build_snapshot_from_text src false = build_snapshot_from_text src2 false) := by
  constructor
  · obtain ⟨e, he⟩ := text_loop_late_meta_strict m kv hm post pre 0 true false 0 empty_snapshot
      (Or.inr ⟨l, hl, hl1, hl2, hl3⟩)
    refine ⟨e, ?_⟩
    unfold build_snapshot_from_text
    rw [hlines, he]
  · intro src2 h2
    unfold build_snapshot_from_text
    rw [hlines, h2, text_loop_late_meta_skipped m kv hm post pre 0 true false 0 empty_snapshot
      (Or.inr ⟨l, hl, hl1, hl2, hl3⟩)]

set_option maxRecDepth 100000 in
theorem meta_after_entries_witness :
    (text_lines (utf8 "@meta locale = de\nabcdef: x\n@meta locale = fr") =
        [utf8 "@meta locale = de", utf8 "abcdef: x"] ++ utf8 "@meta locale = fr" :: [] ∧
      text_lines (utf8 "@meta locale = de\nabcdef: x\n\n") =
        [utf8 "@meta locale = de", utf8 "abcdef: x"] ++ [] :: [] ∧
      parse_meta_line (trim (utf8 "@meta locale = fr")) = some (utf8 "locale", utf8 "fr") ∧
      build_snapshot_from_text (utf8 "@meta locale = de\nabcdef: x\n@meta locale = fr") true =
        .error (utf8 "Parse-Fehler in Zeile 3: Kein ':' gefunden.") ∧
      build_snapshot_from_text (utf8 "@meta locale = de\nabcdef: x\n@meta locale = fr") false =
        .ok { empty_snapshot with
          catalog := [(utf8 "abcdef", utf8 "x")], meta_locale := utf8 "de" }) ∧
    (∃ e, build_snapshot_from_text (utf8 "@meta locale = de\nabcdef: x\n@meta locale = fr")
        true = .error e) ∧
    (∀ src2, text_lines src2 = [utf8 "@meta locale = de", utf8 "abcdef: x"] ++ [] :: [] →
      build_snapshot_from_text (utf8 "@meta locale = de\nabcdef: x\n@meta locale = fr") false =
        build_snapshot_from_text src2 false) :=
  ⟨by decide,
    meta_after_entries (utf8 "@meta locale = de\nabcdef: x\n@meta locale = fr")
      [utf8 "@meta locale = de", utf8 "abcdef: x"] [] (utf8 "abcdef: x")
      (utf8 "@meta locale = fr") (utf8 "locale", utf8 "fr")
      (by decide) (by decide) (by decide) (by decide) (by decide) (by decide)⟩

/-! ## Binary loader: the stages of a successful load and the string table -/

/-- A successful call of `build_snapshot_from_binary` went through all its stages. -/
theorem build_binary_stages (data : List Nat) (strict : Bool) (s : CatalogSnapshot)
    (h : build_snapshot_from_binary data strict = .ok s) :
    ∃ (hd : BinHeader) (mdata : Str × Str × Str) (entries : List EntryInfo) (sb : Nat)
      (snap : CatalogSnapshot),
      read_header data = .ok hd ∧ read_metadata data hd = .ok mdata ∧
      read_entries data hd.entry_count (header_size_of hd.version + hd.metadata_size) [] =
        .ok (entries, sb) ∧
      sb + hd.string_table_size ≤ data.length ∧
      fill_entries data sb hd.string_table_size entries
        { empty_snapshot with
          meta_plural := plural_rule_of_byte hd.plural_rule
          meta_locale := mdata.1
          meta_fallback := mdata.2.1
          meta_note := mdata.2.2 } = .ok snap ∧
      snap.catalog ≠ [] ∧
      s = { snap with style_registry := some (populate_style_registry snap.catalog) } := by
  unfold build_snapshot_from_binary at h
  cases h1 : read_header data with
  | error e => rw [h1] at h; cases h
  | ok hd =>
    rw [h1] at h
    simp only [Except.bind] at h
    cases h2 : read_metadata data hd with
    | error e => rw [h2] at h; cases h
    | ok mdata =>
      rw [h2] at h
      simp only [] at h
      cases h3 : read_entries data hd.entry_count
          (header_size_of hd.version + hd.metadata_size) [] with
      | error e => rw [h3] at h; cases h
      | ok r =>
        obtain ⟨entries, sb⟩ := r
        rw [h3] at h
        simp only [] at h
        by_cases h4 : sb + hd.string_table_size > data.length
        · rw [if_pos h4] at h; cases h
        rw [if_neg h4] at h
        split at h
        · cases h
        cases h6 : fill_entries data sb hd.string_table_size entries
            { empty_snapshot with
              meta_plural := plural_rule_of_byte hd.plural_rule
              meta_locale := mdata.1
              meta_fallback := mdata.2.1
              meta_note := mdata.2.2 } with
        | error e => rw [h6] at h; cases h
        | ok snap =>
          rw [h6] at h
          simp only [] at h
          split at h
          · cases h
          · rename_i hne
            simp only [Except.ok.injEq] at h
            refine ⟨hd, mdata, entries, sb, snap, rfl, h2, h3, by omega, h6, ?_, h.symm⟩
            intro hc
            rw [hc] at hne
            exact hne rfl

theorem not_mem_keys_of_find {β : Type} (m : List (Str × β)) (k : Str)
    (h : (map_find m k).isSome = false) : k ∉ m.map Prod.fst := by
  intro hc
  have := map_find_isSome_of_mem m k hc
  cases hf : map_find m k with
  | none => rw [hf] at this; cases this
  | some v => rw [hf] at h; cases h

/-- The second loop of the binary loader, when it succeeds: every entry lies inside the
string table, the catalog grows by one pair per entry, in order, and the keys stay
distinct. -/
theorem fill_entries_ok (data : List Nat) (sb sts : Nat) :
    ∀ (es : List EntryInfo) (snap s : CatalogSnapshot),
      fill_entries data sb sts es snap = .ok s →
      (∀ e ∈ es, e.text_offset + e.text_length ≤ sts) ∧
      s.catalog = snap.catalog ++ es.map (fun e =>
        (entry_key e.base e.variant, substr data (sb + e.text_offset) e.text_length)) ∧
      ((snap.catalog.map Prod.fst).Nodup → (s.catalog.map Prod.fst).Nodup) := by
  intro es
  induction es with
  | nil =>
    intro snap s h
    simp only [fill_entries, Except.ok.injEq] at h
    subst h
    exact ⟨fun e he => (by cases he), (by simp), fun h => h⟩
  | cons e rest ih =>
    intro snap s h
    rw [fill_entries] at h
    by_cases hb : e.text_offset + e.text_length > sts
    · rw [if_pos hb] at h; cases h
    rw [if_neg hb] at h
    simp only [] at h
    by_cases hd : (map_find snap.catalog
        (if (!e.variant.isEmpty) = true then e.base ++ [123] ++ e.variant ++ [125]
          else e.base)).isSome = true
    · rw [if_pos hd] at h; cases h
    rw [if_neg hd] at h
    obtain ⟨h1, h2, h3⟩ := ih _ s h
    refine ⟨?_, ?_, ?_⟩
    · intro e2 he2
      rcases List.mem_cons.mp he2 with rfl | he2
      · omega
      · exact h1 e2 he2
    · rw [h2]
      simp only [List.map_cons, List.append_assoc, List.singleton_append, entry_key]
    · intro hnd
      apply h3
      simp only [List.map_append, List.map_cons, List.map_nil]
      rw [List.nodup_append]
      refine ⟨hnd, List.nodup_singleton _, ?_⟩
      intro k hk1 hk2
      simp only [List.mem_singleton] at hk2
      subst hk2
      exact not_mem_keys_of_find snap.catalog _ (by simpa using hd) hk1

/-- C36. When `build_snapshot_from_binary` succeeds, the string table lies inside the
input (`strings_base + string_table_size ≤ size`), every entry lies inside the string
table (`text_offset + text_length ≤ string_table_size`, as a sum of natural numbers),
and the catalog holds, under the key of each entry, exactly the `text_length` bytes of
the input from `strings_base + text_offset` on. -/
theorem string_table_bounds (data : List Nat) (strict : Bool) (s : CatalogSnapshot)
    (h : build_snapshot_from_binary data strict = .ok s) :
    ∃ (hd : BinHeader) (entries : List EntryInfo) (strings_base : Nat),
      read_header data = .ok hd ∧
      read_entries data hd.entry_count (header_size_of hd.version + hd.metadata_size) [] =
        .ok (entries, strings_base) ∧
      strings_base + hd.string_table_size ≤ data.length ∧
      s.catalog.length = entries.length ∧
      ∀ e ∈ entries,
        e.text_offset + e.text_length ≤ hd.string_table_size ∧
        ∃ template, map_find s.catalog (entry_key e.base e.variant) = some template ∧
          template.length = e.text_length ∧
          ∀ i, i < e.text_length →
            template[i]? = data[strings_base + e.text_offset + i]? := by
  obtain ⟨hd, mdata, entries, sb, snap, h1, _, h3, h4, h5, _, hs⟩ :=
    build_binary_stages data strict s h
  obtain ⟨hb, hcat, hnd⟩ := fill_entries_ok data sb hd.string_table_size entries _ snap h5
  have hcat2 : s.catalog = entries.map (fun e =>
      (entry_key e.base e.variant, substr data (sb + e.text_offset) e.text_length)) := by
    rw [hs]
    simp only []
    rw [hcat]
    rfl
  have hnd2 : (s.catalog.map Prod.fst).Nodup := by
    rw [hs]
    exact hnd List.nodup_nil
  refine ⟨hd, entries, sb, h1, h3, h4, by rw [hcat2, List.length_map], ?_⟩
  intro e he
  have hbe := hb e he
  refine ⟨hbe, substr data (sb + e.text_offset) e.text_length, ?_, ?_, ?_⟩
  · rw [map_find_some_iff s.catalog hnd2, hcat2]
    exact List.mem_map.mpr ⟨e, he, rfl⟩
  · exact substr_length data _ _ (by omega)
  · intro i hi
    unfold substr
    rw [List.getElem?_take_of_lt hi, List.getElem?_drop]

theorem string_table_bounds_witness :
    (small_binary_file.length = 38 ∧
      build_snapshot_from_binary small_binary_file false =
        .ok { empty_snapshot with catalog := [(utf8 "abcdef", utf8 "hi")] }) ∧
    ∃ (hd : BinHeader) (entries : List EntryInfo) (strings_base : Nat),
      read_header small_binary_file = .ok hd ∧
      read_entries small_binary_file hd.entry_count
        (header_size_of hd.version + hd.metadata_size) [] = .ok (entries, strings_base) ∧
      strings_base + hd.string_table_size ≤ small_binary_file.length ∧
      ({ empty_snapshot with catalog := [(utf8 "abcdef", utf8 "hi")] } :
        CatalogSnapshot).catalog.length = entries.length ∧
      ∀ e ∈ entries,
        e.text_offset + e.text_length ≤ hd.string_table_size ∧
        ∃ template, map_find ({ empty_snapshot with catalog := [(utf8 "abcdef", utf8 "hi")] } :
            CatalogSnapshot).catalog (entry_key e.base e.variant) = some template ∧
          template.length = e.text_length ∧
          ∀ i, i < e.text_length →
            template[i]? = small_binary_file[strings_base + e.text_offset + i]? :=
  ⟨by decide,
    string_table_bounds small_binary_file false
      { empty_snapshot with catalog := [(utf8 "abcdef", utf8 "hi")] } (by decide)⟩

/-! ## Shape of parsed style properties -/

theorem trim_head_last (s : Str) :
    (∀ c, (trim s).head? = some c → is_ws c = false) ∧
    (∀ c, (trim s).getLast? = some c → is_ws c = false) := by
  refine ⟨fun c h => trim_head_not_ws s c h, ?_⟩
  intro c h
  unfold trim at h
  have hne : (s.dropWhile is_ws).rdropWhile is_ws ≠ [] := by
    intro hc; rw [hc] at h; cases h
  have := List.rdropWhile_last_not is_ws (s.dropWhile is_ws) hne
  rw [List.getLast?_eq_getLast _ hne] at h
  simp only [Option.some.injEq] at h
  rw [h] at this
  simpa using this

/-- A string without white space at either end is its own trimmed form. -/
theorem trim_of_ends (x : Str) (hh : ∀ c, x.head? = some c → is_ws c = false)
    (hl : ∀ c, x.getLast? = some c → is_ws c = false) : trim x = x := by
  unfold trim
  have h1 : x.dropWhile is_ws = x := by
    cases x with
    | nil => rfl
    | cons a r =>
      have := hh a rfl
      simp [List.dropWhile, this]
  rw [h1]
  rw [List.rdropWhile_eq_self_iff]
  intro hne
  have := hl (x.getLast hne) (List.getLast?_eq_getLast _ hne)
  simp [this]

theorem trim_idem (s : Str) : trim (trim s) = trim s :=
  trim_of_ends (trim s) (trim_head_last s).1 (trim_head_last s).2

theorem is_ws_tolower (c : Nat) : is_ws (tolower c) = is_ws c := by
  unfold tolower
  split
  · rename_i hu
    unfold is_upper at hu
    simp only [Bool.and_eq_true, decide_eq_true_eq] at hu
    unfold is_ws
    have h1 : (c + 32 == 32) = false := by simp; omega
    have h2 : (c == 32) = false := by simp; omega
    have h3 : decide (c + 32 ≤ 13) = false := by simp
    have h4 : decide (c ≤ 13) = false := by simp; omega
    simp [h1, h2, h3, h4]
  · rfl

theorem trim_to_lower (s : Str) : trim (to_lower_ascii (trim s)) = to_lower_ascii (trim s) := by
  apply trim_of_ends
  · intro c hc
    unfold to_lower_ascii at hc
    rw [List.head?_map] at hc
    cases hh : (trim s).head? with
    | none => rw [hh] at hc; cases hc
    | some d =>
      rw [hh] at hc
      simp only [Option.map_some', Option.some.injEq] at hc
      rw [← hc, is_ws_tolower]
      exact (trim_head_last s).1 d hh
  · intro c hc
    unfold to_lower_ascii at hc
    rw [List.getLast?_map] at hc
    cases hh : (trim s).getLast? with
    | none => rw [hh] at hc; cases hc
    | some d =>
      rw [hh] at hc
      simp only [Option.map_some', Option.some.injEq] at hc
      rw [← hc, is_ws_tolower]
      exact (trim_head_last s).2 d hh

theorem mem_trim (s : Str) (c : Nat) (h : c ∈ trim s) : c ∈ s := by
  unfold trim at h
  exact (List.dropWhile_suffix is_ws).subset
    ((List.rdropWhile_prefix is_ws (s.dropWhile is_ws)).subset h)

/-- The three cases of `parse_style_segment`. -/
theorem parse_style_segment_cases (seg : Str) :
    (trim seg = [] → parse_style_segment seg = none) ∧
    ((58 : Nat) ∉ trim seg → trim seg ≠ [] →
      parse_style_segment seg =
        if (trim seg).head? = some 64 then some ⟨0, [], trim seg⟩ else none) ∧
    (∀ a b, trim seg = a ++ 58 :: b → (58 : Nat) ∉ a →
      parse_style_segment seg =
        if trim a = [] ∨ trim b = [] then none
        else some ⟨fnv1a32 (to_lower_ascii (trim a)), to_lower_ascii (trim a), trim b⟩) := by
  refine ⟨?_, ?_, ?_⟩
  · intro h
    unfold parse_style_segment
    simp only [h, List.isEmpty_nil, if_true]
  · intro hno hne
    unfold parse_style_segment
    have he : (trim seg).isEmpty = false := by
      cases ht : trim seg with
      | nil => exact absurd ht hne
      | cons c r => rfl
    simp only [he, Bool.false_eq_true, if_false, find_char_none_of_not_mem _ _ hno]
  · intro a b hab hno
    unfold parse_style_segment
    have he : (trim seg).isEmpty = false := by rw [hab]; cases a <;> rfl
    have hf : find_char (trim seg) 58 0 = some a.length := by
      rw [hab]; exact find_char_of_first a b 58 hno
    have hsub : substr (trim seg) 0 a.length = a := by
      rw [hab]; unfold substr; simp
    have hdrop : (trim seg).drop (a.length + 1) = b := by
      rw [hab]; simp
    simp only [he, Bool.false_eq_true, if_false, hf, hsub, hdrop, Bool.or_eq_true,
      List.isEmpty_iff]

theorem first_split (s : Str) (c : Nat) (h : c ∈ s) : ∃ a b, s = a ++ c :: b ∧ c ∉ a := by
  cases hf : find_char s c 0 with
  | none => exact absurd h (find_char_none s c hf)
  | some i =>
    exact ⟨s.take i, s.drop (i + 1), (find_char_some s c 0 i hf).2.2, find_char_first s c i hf⟩

/-- What `parse_style_segment` returns when it returns a property. -/
theorem parse_style_segment_some (seg : Str) (p : StyleProperty)
    (h : parse_style_segment seg = some p) :
    (p = ⟨0, [], trim seg⟩ ∧ (trim seg).head? = some 64 ∧ (58 : Nat) ∉ trim seg) ∨
    (∃ a b, trim seg = a ++ 58 :: b ∧ (58 : Nat) ∉ a ∧ trim a ≠ [] ∧ trim b ≠ [] ∧
      p = ⟨fnv1a32 (to_lower_ascii (trim a)), to_lower_ascii (trim a), trim b⟩) := by
  obtain ⟨h1, h2, h3⟩ := parse_style_segment_cases seg
  by_cases he : trim seg = []
  · rw [h1 he] at h; cases h
  by_cases hc : (58 : Nat) ∈ trim seg
  · obtain ⟨a, b, hab, hno⟩ := first_split _ _ hc
    rw [h3 a b hab hno] at h
    by_cases hd : trim a = [] ∨ trim b = []
    · rw [if_pos hd] at h; cases h
    · rw [if_neg hd] at h
      simp only [Option.some.injEq] at h
      simp only [not_or] at hd
      exact Or.inr ⟨a, b, hab, hno, hd.1, hd.2, h.symm⟩
  · rw [h2 hc he] at h
    by_cases h64 : (trim seg).head? = some 64
    · rw [if_pos h64] at h
      simp only [Option.some.injEq] at h
      exact Or.inl ⟨h.symm, h64, hc⟩
    · rw [if_neg h64] at h; cases h

theorem parse_style_segment_none (seg : Str) :
    parse_style_segment seg = none ↔ is_dropped_segment seg := by
  obtain ⟨h1, h2, h3⟩ := parse_style_segment_cases seg
  unfold is_dropped_segment
  constructor
  · intro h
    by_cases he : trim seg = []
    · exact Or.inl he
    by_cases hc : (58 : Nat) ∈ trim seg
    · obtain ⟨a, b, hab, hno⟩ := first_split _ _ hc
      rw [h3 a b hab hno] at h
      by_cases hd : trim a = [] ∨ trim b = []
      · exact Or.inr (Or.inr ⟨a, b, hab, hno, hd⟩)
      · rw [if_neg hd] at h; cases h
    · rw [h2 hc he] at h
      by_cases h64 : (trim seg).head? = some 64
      · rw [if_pos h64] at h; cases h
      · exact Or.inr (Or.inl ⟨hc, h64⟩)
  · rintro (he | ⟨hc, h64⟩ | ⟨a, b, hab, hno, hd⟩)
    · exact h1 he
    · by_cases he : trim seg = []
      · exact h1 he
      · rw [h2 hc he, if_neg h64]
    · rw [h3 a b hab hno, if_pos hd]

theorem split_on_aux_sep_nil (sep : Nat) (cur : Str) : split_on_aux sep [sep] cur = [cur] := by
  simp [split_on_aux]

theorem split_on_aux_sep_cons (sep c2 : Nat) (rest2 cur : Str) :
    split_on_aux sep (sep :: c2 :: rest2) cur = cur :: split_on_aux sep (c2 :: rest2) [] := by
  simp [split_on_aux]

theorem split_on_aux_other (sep c : Nat) (rest cur : Str) (h : c ≠ sep) :
    split_on_aux sep (c :: rest) cur = split_on_aux sep rest (cur ++ [c]) := by
  cases rest <;> simp [split_on_aux, h]

theorem split_on_aux_ne_nil (sep : Nat) : ∀ (s cur : Str), split_on_aux sep s cur ≠ [] := by
  intro s
  induction s with
  | nil => intro cur; simp [split_on_aux]
  | cons c rest ih =>
    intro cur
    by_cases hc : c = sep
    · subst hc
      cases rest with
      | nil => rw [split_on_aux_sep_nil]; simp
      | cons c2 rest2 => rw [split_on_aux_sep_cons]; simp
    · rw [split_on_aux_other _ _ _ _ hc]
      exact ih _

theorem intercalate_cons_of_ne_nil (sep x : Str) (l : List Str) (h : l ≠ []) :
    List.intercalate sep (x :: l) = x ++ sep ++ List.intercalate sep l := by
  cases l with
  | nil => exact absurd rfl h
  | cons y ys => simp [List.intercalate, List.intersperse]

/-- The pieces of `split_on_aux` contain no separator, and joined by the separator they
give back the text, up to one separator at the very end. -/
theorem split_on_aux_spec (sep : Nat) : ∀ (s cur : Str), sep ∉ cur →
    (∀ seg ∈ split_on_aux sep s cur, sep ∉ seg) ∧
    (List.intercalate [sep] (split_on_aux sep s cur) = cur ++ s ∨
      List.intercalate [sep] (split_on_aux sep s cur) ++ [sep] = cur ++ s) := by
  intro s
  induction s with
  | nil =>
    intro cur hcur
    simp only [split_on_aux, List.mem_singleton, forall_eq, List.append_nil]
    exact ⟨hcur, Or.inl (by simp [List.intercalate])⟩
  | cons c rest ih =>
    intro cur hcur
    by_cases hc : c = sep
    · subst hc
      cases rest with
      | nil =>
        rw [split_on_aux_sep_nil]
        simp only [List.mem_singleton, forall_eq]
        exact ⟨hcur, Or.inr (by simp [List.intercalate])⟩
      | cons c2 rest2 =>
        rw [split_on_aux_sep_cons]
        obtain ⟨ih1, ih2⟩ := ih [] (by simp)
        refine ⟨?_, ?_⟩
        · intro seg hseg
          rcases List.mem_cons.mp hseg with rfl | hseg
          · exact hcur
          · exact ih1 seg hseg
        · rw [intercalate_cons_of_ne_nil _ _ _ (split_on_aux_ne_nil c _ _)]
          rcases ih2 with h | h
          · left
            rw [h]; simp
          · right
            rw [List.append_assoc, h]; simp
    · rw [split_on_aux_other _ _ _ _ hc]
      obtain ⟨ih1, ih2⟩ := ih (cur ++ [c]) (by
        simp only [List.mem_append, List.mem_singleton, not_or]
        exact ⟨hcur, fun h => hc h.symm⟩)
      refine ⟨ih1, ?_⟩
      simpa using ih2

theorem split_on_spec (sep : Nat) (s : Str) :
    (∀ seg ∈ split_on sep s, sep ∉ seg) ∧
    (List.intercalate [sep] (split_on sep s) = s ∨
      List.intercalate [sep] (split_on sep s) ++ [sep] = s) := by
  cases s with
  | nil => exact ⟨fun seg h => (by cases h), Or.inl rfl⟩
  | cons c r =>
    have := split_on_aux_spec sep (c :: r) [] (by simp)
    simpa [split_on] using this

/-- The property of a segment without `;` is bare or named. -/
theorem parse_style_segment_shape (seg : Str) (p : StyleProperty)
    (h : parse_style_segment seg = some p) (hsemi : (59 : Nat) ∉ seg) :
    is_bare_property p ∨ is_named_property p := by
  rcases parse_style_segment_some seg p h with ⟨hp, h64, hno⟩ | ⟨a, b, hab, hno, ha, hb, hp⟩
  · left
    subst hp
    exact ⟨rfl, rfl, h64, hno, fun hc => hsemi (mem_trim seg 59 hc)⟩
  · right
    subst hp
    refine ⟨?_, to_lower_idem _, trim_to_lower a, hb, trim_idem b, rfl⟩
    intro hc
    apply ha
    unfold to_lower_ascii at hc
    simpa using hc

/-- C34. For every text: each property that `parse_style_properties` returns is bare
(empty name, hash 0, a value that starts with `@` and contains no `:` and no `;`) or
named (a non-empty, lower-case, trimmed name, a non-empty trimmed value, and the FNV-1a
hash of the name); the properties are those of the segments of the text between the
`;`, in the order of the segments; and a segment contributes nothing exactly when it is
empty after trimming, or has no `:` and does not start with `@`, or has an empty name
or an empty value. -/
theorem style_property_shape (text : Str) :
    (∀ p ∈ parse_style_properties text, is_bare_property p ∨ is_named_property p) ∧
    (∃ segs : List Str, (∀ seg ∈ segs, (59 : Nat) ∉ seg) ∧
      (List.intercalate [59] segs = text ∨ List.intercalate [59] segs ++ [59] = text) ∧
      parse_style_properties text = segs.filterMap parse_style_segment) ∧
    (∀ seg, parse_style_segment seg = none ↔ is_dropped_segment seg) := by
  obtain ⟨h1, h2⟩ := split_on_spec 59 text
  refine ⟨?_, ⟨split_on 59 text, h1, h2, rfl⟩, parse_style_segment_none⟩
  intro p hp
  unfold parse_style_properties at hp
  obtain ⟨seg, hseg, hsp⟩ := List.mem_filterMap.mp hp
  exact parse_style_segment_shape seg p hsp (h1 seg hseg)

theorem style_property_shape_witness :
    parse_style_properties (utf8 " Color : red ;; @abcdef ; x ; : y ; mass:2.5;") =
      [⟨fnv1a32 (utf8 "color"), utf8 "color", utf8 "red"⟩, ⟨0, [], utf8 "@abcdef"⟩,
        ⟨fnv1a32 (utf8 "mass"), utf8 "mass", utf8 "2.5"⟩] ∧
    ∀ p ∈ parse_style_properties (utf8 " Color : red ;; @abcdef ; x ; : y ; mass:2.5;"),
      is_bare_property p ∨ is_named_property p :=
  ⟨by decide, (style_property_shape (utf8 " Color : red ;; @abcdef ; x ; : y ; mass:2.5;")).1⟩

/-! ## Loader invariants: distinct keys, plural variants, style registry -/

theorem variant_valid_chars (v : Str) (h : is_variant_valid v = true) :
    ∀ c ∈ v, c ≠ 123 ∧ c ≠ 125 ∧ tolower c = c := by
  unfold is_variant_valid at h
  split at h
  · cases h
  · intro c hc
    have := List.all_eq_true.mp h c hc
    unfold is_lower is_digit at this
    simp only [Bool.or_eq_true, Bool.and_eq_true, decide_eq_true_eq, beq_iff_eq] at this
    unfold tolower is_upper
    refine ⟨by omega, by omega, ?_⟩
    split
    · rename_i hu
      simp only [Bool.and_eq_true, decide_eq_true_eq] at hu
      omega
    · rfl

theorem find_char_after (p r : Str) (c : Nat) (h : c ∉ r) (t : Str) :
    find_char (p ++ (r ++ c :: t)) c p.length = some (p.length + r.length) := by
  unfold find_char
  simp only [List.drop_left]
  rw [List.indexOf_append_of_not_mem h, List.indexOf_cons_self]
  simp

/-- A key put together from a lower-case base without `{` and a valid variant splits
into that base and that variant. -/
theorem parse_variant_suffix_key (b v : Str) (hno : (123 : Nat) ∉ b) (hb : b ≠ [])
    (hlow : to_lower_ascii b = b) (hv : is_variant_valid v = true) :
    parse_variant_suffix (b ++ [123] ++ v ++ [125]) = some (b, v) := by
  have hvc := variant_valid_chars v hv
  have hvl := is_variant_valid_length v hv
  have hvlow : to_lower_ascii v = v := by
    unfold to_lower_ascii
    conv_rhs => rw [← List.map_id v]
    exact List.map_congr_left (fun c hc => (hvc c hc).2.2)
  have h125 : (125 : Nat) ∉ v := fun hc => (hvc 125 hc).2.1 rfl
  have hkey : b ++ [123] ++ v ++ [125] = b ++ 123 :: (v ++ [125]) := by simp
  have hkey2 : b ++ [123] ++ v ++ [125] = (b ++ [123]) ++ (v ++ 125 :: []) := by simp
  have h1 : find_char (b ++ [123] ++ v ++ [125]) 123 0 = some b.length := by
    rw [hkey]; exact find_char_of_first b _ 123 hno
  have h2 : find_char (b ++ [123] ++ v ++ [125]) 125 (b.length + 1) =
      some (b.length + 1 + v.length) := by
    have := find_char_after (b ++ [123]) v 125 h125 []
    simp only [List.length_append, List.length_singleton] at this
    rw [hkey2]
    exact this
  have hlen : (b ++ [123] ++ v ++ [125]).length = b.length + 1 + v.length + 1 := by
    simp; omega
  have hs1 : substr (b ++ [123] ++ v ++ [125]) 0 b.length = b := by
    unfold substr; simp
  have hs2 : substr (b ++ [123] ++ v ++ [125]) (b.length + 1)
      (b.length + 1 + v.length - b.length - 1) = v := by
    unfold substr
    rw [hkey2]
    have e : b.length + 1 = (b ++ [123]).length := by simp
    rw [e, List.drop_left]
    have e2 : (b ++ [123]).length + v.length - b.length - 1 = v.length := by
      simp only [List.length_append, List.length_singleton]; omega
    rw [e2]
    simp
  have hve : v.isEmpty = false := by
    cases v with
    | nil => simp at hvl
    | cons _ _ => rfl
  have hbe : b.isEmpty = false := by
    cases b with
    | nil => exact absurd rfl hb
    | cons _ _ => rfl
  unfold parse_variant_suffix
  simp only [h1, h2, hlen, hs1, hs2, hlow, hvlow, hv, hve, hbe]
  simp

/-- A key has one reading as `base{variant}` at most, when the base has no `{` and the
variant is valid. -/
theorem key_decompose_unique (base variant b v : Str)
    (h : base ++ [123] ++ variant ++ [125] = b ++ [123] ++ v ++ [125])
    (hno : (123 : Nat) ∉ base) (hv : (123 : Nat) ∉ variant) : b = base ∧ v = variant := by
  have h1 : base ++ 123 :: (variant ++ [125]) = b ++ 123 :: (v ++ [125]) := by simpa using h
  by_cases hb : (123 : Nat) ∈ b
  · exfalso
    obtain ⟨a, r, hab, ha⟩ := first_split b 123 hb
    rw [hab] at h1
    have h2 : base ++ 123 :: (variant ++ [125]) = a ++ 123 :: (r ++ 123 :: (v ++ [125])) := by
      simpa using h1
    have hf1 := find_char_of_first base (variant ++ [125]) 123 hno
    have hf2 := find_char_of_first a (r ++ 123 :: (v ++ [125])) 123 ha
    rw [h2, hf2] at hf1
    simp only [Option.some.injEq] at hf1
    have h3 := List.append_inj h2 hf1.symm
    have h4 : variant ++ [125] = r ++ 123 :: (v ++ [125]) := by
      have := h3.2
      simpa using this
    have : (123 : Nat) ∈ variant ++ [125] := by rw [h4]; simp
    simp only [List.mem_append, List.mem_singleton] at this
    rcases this with h5 | h5
    · exact hv h5
    · cases h5
  · have hf1 := find_char_of_first base (variant ++ [125]) 123 hno
    have hf2 := find_char_of_first b (v ++ [125]) 123 hb
    rw [h1, hf2] at hf1
    simp only [Option.some.injEq] at hf1
    have h3 := List.append_inj h1 hf1.symm
    refine ⟨h3.1.symm, ?_⟩
    have h4 : variant ++ [125] = v ++ [125] := by
      have := h3.2
      simpa using this
    exact (List.append_cancel_right h4).symm

theorem map_find_append_isSome {β : Type} (m : List (Str × β)) (k k2 : Str) (v : β) :
    (map_find (m ++ [(k, v)]) k2).isSome = true ↔
      ((map_find m k2).isSome = true ∨ k2 = k) := by
  induction m with
  | nil =>
    simp only [List.nil_append, map_find]
    by_cases h : k = k2
    · simp [h]
    · have h2 : ¬ k2 = k := fun hc => h hc.symm
      simp [h, h2]
  | cons p m ih =>
    obtain ⟨k3, v3⟩ := p
    simp only [List.cons_append, map_find]
    by_cases h : k3 = k2
    · simp [h]
    · simp only [h, if_false]
      exact ih

theorem mem_set_insert (s : List Str) (x y : Str) : y ∈ set_insert s x ↔ y ∈ s ∨ y = x := by
  unfold set_insert
  split
  · rename_i h
    constructor
    · exact Or.inl
    · rintro (h1 | h1)
      · exact h1
      · rw [h1]; exact h
  · simp

/-- The lookup in the map after `plural_variants[base].insert(variant)`. -/
theorem map_find_plural_insert (pv : List (Str × List Str)) (b v b2 : Str) :
    map_find (plural_insert pv b v) b2 =
      if b2 = b then some (set_insert ((map_find pv b).getD []) v) else map_find pv b2 := by
  induction pv with
  | nil =>
    simp only [plural_insert, map_find, Option.getD_none]
    by_cases h : b2 = b
    · simp [h, set_insert]
    · have h2 : ¬ b = b2 := fun hc => h hc.symm
      simp [h, h2]
  | cons p m ih =>
    obtain ⟨b0, vs⟩ := p
    simp only [plural_insert]
    by_cases h0 : b0 = b
    · subst h0
      simp only [if_true, map_find, Option.getD_some]
      by_cases h : b2 = b0
      · simp [h]
      · have h2 : ¬ b0 = b2 := fun hc => h hc.symm
        simp [h, h2]
    · simp only [h0, if_false, map_find]
      by_cases h : b2 = b
      · subst h
        simp only [h0, if_false, if_true]
        rw [ih]
        simp
      · simp only [h, if_false]
        by_cases h3 : b0 = b2
        · simp [h3]
        · simp only [h3, if_false]
          rw [ih]
          simp [h]

/-- The invariant of the two maps: every recorded variant has its catalog entry, and
every catalog key `b{v}` has its variant recorded. -/
theorem plural_step (cat : List (Str × Str)) (pv : List (Str × List Str)) (key txt : Str)
    (o : Option (Str × Str))
    (hI1 : ∀ b vs v, map_find pv b = some vs → v ∈ vs →
      (map_find cat (b ++ [123] ++ v ++ [125])).isSome = true)
    (hI2 : ∀ b v, (map_find cat (b ++ [123] ++ v ++ [125])).isSome = true →
      ∃ vs, map_find pv b = some vs ∧ v ∈ vs)
    (hsome : ∀ b v, o = some (b, v) → key = b ++ [123] ++ v ++ [125])
    (hform : ∀ b v, key = b ++ [123] ++ v ++ [125] → o = some (b, v)) :
    (∀ b vs v, map_find (match o with
          | some (b0, v0) => plural_insert pv b0 v0
          | none => pv) b = some vs → v ∈ vs →
      (map_find (cat ++ [(key, txt)]) (b ++ [123] ++ v ++ [125])).isSome = true) ∧
    (∀ b v, (map_find (cat ++ [(key, txt)]) (b ++ [123] ++ v ++ [125])).isSome = true →
      ∃ vs, map_find (match o with
          | some (b0, v0) => plural_insert pv b0 v0
          | none => pv) b = some vs ∧ v ∈ vs) := by
  cases o with
  | none =>
    simp only []
    constructor
    · intro b vs v h1 h2
      exact (map_find_append_isSome cat key _ txt).mpr (Or.inl (hI1 b vs v h1 h2))
    · intro b v h
      rcases (map_find_append_isSome cat key _ txt).mp h with h1 | h1
      · exact hI2 b v h1
      · have := hform b v h1.symm
        cases this
  | some bv =>
    obtain ⟨b0, v0⟩ := bv
    have hkey := hsome b0 v0 rfl
    simp only []
    constructor
    · intro b vs v h1 h2
      rw [map_find_plural_insert] at h1
      apply (map_find_append_isSome cat key _ txt).mpr
      by_cases hb : b = b0
      · subst hb
        rw [if_pos rfl] at h1
        simp only [Option.some.injEq] at h1
        rw [← h1] at h2
        rcases (mem_set_insert _ _ _).mp h2 with h3 | h3
        · left
          cases hf : map_find pv b with
          | none => rw [hf] at h3; simp at h3
          | some vs0 =>
            rw [hf] at h3
            exact hI1 b vs0 v hf h3
        · right
          rw [h3, hkey]
      · rw [if_neg hb] at h1
        exact Or.inl (hI1 b vs v h1 h2)
    · intro b v h
      rw [map_find_plural_insert]
      rcases (map_find_append_isSome cat key _ txt).mp h with h1 | h1
      · obtain ⟨vs, hvs, hv⟩ := hI2 b v h1
        by_cases hb : b = b0
        · subst hb
          rw [if_pos rfl]
          refine ⟨_, rfl, (mem_set_insert _ _ _).mpr (Or.inl ?_)⟩
          rw [hvs]
          exact hv
        · rw [if_neg hb]
          exact ⟨vs, hvs, hv⟩
      · have := hform b v h1.symm
        simp only [Option.some.injEq, Prod.mk.injEq] at this
        obtain ⟨hb, hv⟩ := this
        subst hb hv
        rw [if_pos rfl]
        exact ⟨_, rfl, (mem_set_insert _ _ _).mpr (Or.inr rfl)⟩

/-- The token of a line that `parse_line` accepts is the lower-cased text of a token
without `{`, or the base and variant of `parse_variant_suffix` put together. -/
theorem parse_line_ok_cases (P : Str → Prop)
    (hplain : ∀ t0, (123 : Nat) ∉ t0 → P (to_lower_ascii t0))
    (hvar : ∀ t0 b v, parse_variant_suffix t0 = some (b, v) → P (b ++ [123] ++ v ++ [125]))
    (line tok lab txt : Str) (h : parse_line line = .ok tok lab txt) : P tok := by
  have htok : ∀ token label text : Str,
      (match
        (if (find_char token 123 0).isSome then
          match parse_variant_suffix token with
          | none => none
          | some (base_token, variant_token) =>
            some (base_token ++ [123] ++ variant_token ++ [125], base_token)
        else some (to_lower_ascii token, to_lower_ascii token) : Option (Str × Str)) with
      | none => ParsedLine.err (utf8 "Token-Variante ist ungültig.")
      | some (token, base_token) =>
        if !is_hex_token base_token && !is_style_token base_token then
          ParsedLine.err (utf8 "Token ist kein gültiger Hex-String (6–32 Zeichen).")
        else ParsedLine.ok token label text) = ParsedLine.ok tok lab txt →
      P tok := by
    intro token label text hq
    by_cases hf : (find_char token 123 0).isSome = true
    · rw [if_pos hf] at hq
      cases hv : parse_variant_suffix token with
      | none => rw [hv] at hq; cases hq
      | some bv =>
        obtain ⟨b, v⟩ := bv
        rw [hv] at hq
        simp only [] at hq
        split at hq
        · cases hq
        · simp only [ParsedLine.ok.injEq] at hq
          rw [← hq.1]
          exact hvar token b v hv
    · rw [if_neg hf] at hq
      simp only [] at hq
      split at hq
      · cases hq
      · simp only [ParsedLine.ok.injEq] at hq
        rw [← hq.1]
        have hnone : find_char token 123 0 = none := by
          cases hfc : find_char token 123 0 with
          | none => rfl
          | some i => rw [hfc] at hf; exact absurd rfl hf
        exact hplain token (find_char_none token 123 hnone)
  unfold parse_line at h
  simp only [] at h
  split at h
  · cases h
  split at h
  · cases h
  cases h1 : find_char (trim line) 58 0 with
  | none => rw [h1] at h; cases h
  | some colon =>
    rw [h1] at h
    simp only [] at h
    generalize trim (substr (trim line) 0 colon) = head at h
    cases h2 : find_char head 40 0 with
    | none =>
      rw [h2] at h
      exact htok head [] _ h
    | some po =>
      rw [h2] at h
      simp only [] at h
      cases h3 : find_char head 41 (po + 1) with
      | none => rw [h3] at h; cases h
      | some pc =>
        rw [h3] at h
        exact htok _ _ _ h

/-- For the token of an accepted line, `parse_variant_suffix` finds a variant exactly
when the token reads `b{v}`, and then it returns `b` and `v`. -/
theorem parse_line_key (line tok lab txt : Str) (h : parse_line line = .ok tok lab txt) :
    (∀ b v, parse_variant_suffix tok = some (b, v) → tok = b ++ [123] ++ v ++ [125]) ∧
    (∀ b v, tok = b ++ [123] ++ v ++ [125] → parse_variant_suffix tok = some (b, v)) := by
  refine parse_line_ok_cases
    (fun tok =>
      (∀ b v, parse_variant_suffix tok = some (b, v) → tok = b ++ [123] ++ v ++ [125]) ∧
      (∀ b v, tok = b ++ [123] ++ v ++ [125] → parse_variant_suffix tok = some (b, v)))
    ?_ ?_ line tok lab txt h
  · intro t0 hno
    have hno2 := to_lower_no_brace t0 hno
    have hnone : parse_variant_suffix (to_lower_ascii t0) = none := by
      unfold parse_variant_suffix
      rw [find_char_none_of_not_mem _ 123 hno2]
    constructor
    · intro b v hp
      rw [hnone] at hp; cases hp
    · intro b v hk
      exfalso
      apply hno2
      rw [hk]
      simp
  · intro t0 b v hp
    obtain ⟨ob, ov, _, hb, _, hvalid, hbne⟩ := parse_variant_suffix_some t0 b v hp
    have hno := parse_variant_suffix_base t0 b v hp
    have hlow : to_lower_ascii b = b := by rw [hb]; exact to_lower_idem ob
    have hkey := parse_variant_suffix_key b v hno hbne hlow hvalid
    constructor
    · intro b2 v2 h2
      rw [hkey] at h2
      simp only [Option.some.injEq, Prod.mk.injEq] at h2
      rw [← h2.1, ← h2.2]
    · intro b2 v2 h2
      have hv123 : (123 : Nat) ∉ v := fun hc => (variant_valid_chars v hvalid 123 hc).1 rfl
      obtain ⟨e1, e2⟩ := key_decompose_unique b v b2 v2 h2 hno hv123
      rw [hkey, e1, e2]

/-- A step of the text loader that adds an entry: the token is new, the catalog grows by
the pair, and the variant of the token, if any, is recorded. -/
theorem text_entry_step_full (strict : Bool) (line : Str) (line_no : Nat)
    (snapshot snap : CatalogSnapshot)
    (h : text_entry_step strict line line_no snapshot = .ok (some snap)) :
    ∃ tok lab txt, parse_line line = .ok tok lab txt ∧
      (map_find snapshot.catalog tok).isSome = false ∧
      snap.catalog = snapshot.catalog ++ [(tok, txt)] ∧
      snap.plural_variants = (match parse_variant_suffix tok with
        | some (b, v) => plural_insert snapshot.plural_variants b v
        | none => snapshot.plural_variants) := by
  unfold text_entry_step at h
  split at h
  · cases h
  · split at h <;> cases h
  · rename_i token label text hp
    simp only [] at h
    split at h
    · cases h
    · rename_i hnew
      simp only [Except.ok.injEq, Option.some.injEq] at h
      subst h
      refine ⟨token, label, text, hp, by simpa using hnew, rfl, ?_⟩
      simp only []
      cases hv : parse_variant_suffix token with
      | none => rfl
      | some bv =>
        obtain ⟨b, v⟩ := bv
        have := parse_variant_suffix_variant_ne token b v hv
        simp only [this, Bool.not_false, if_true]

/-- An invariant of the catalog and the plural variants that every added entry keeps
holds for what the line loop returns. -/
theorem text_loop_inv (strict : Bool) (P : List (Str × Str) → List (Str × List Str) → Prop)
    (hstep : ∀ line line_no snapshot snap, P snapshot.catalog snapshot.plural_variants →
      text_entry_step strict line line_no snapshot = .ok (some snap) →
      P snap.catalog snap.plural_variants) (lines : List Str) :
    ∀ (line_no : Nat) (meta_phase seen_any_entry : Bool) (loaded : Nat)
      (snapshot : CatalogSnapshot) (r : Nat × CatalogSnapshot),
      P snapshot.catalog snapshot.plural_variants →
      text_loop strict lines line_no meta_phase seen_any_entry loaded snapshot = .ok r →
      P r.2.catalog r.2.plural_variants := by
  induction lines with
  | nil =>
    intro _ _ _ _ snapshot r hs h
    simp only [text_loop, Except.ok.injEq] at h
    rw [← h]
    exact hs
  | cons line rest ih =>
    intro line_no meta_phase seen_any_entry loaded snapshot r hs h
    rcases text_loop_cons strict line line_no meta_phase seen_any_entry loaded snapshot with
      ⟨e, he⟩ | ⟨mp, sa, ld, snap, hgo, _, _, hcase⟩
    · rw [he] at h; cases h
    · rw [hgo] at h
      refine ih _ mp sa ld snap r ?_ h
      rcases hcase with ⟨hc, hp, _⟩ | ⟨hst, _⟩
      · rw [hc, hp]; exact hs
      · exact hstep line _ snapshot snap hs hst

/-- What every snapshot returned by `build_snapshot_from_text` satisfies: distinct
keys, consistent plural variants, and the style registry of its catalog. -/
theorem build_text_inv (src : Str) (strict : Bool) (s : CatalogSnapshot)
    (h : build_snapshot_from_text src strict = .ok s) :
    (s.catalog.map Prod.fst).Nodup ∧ plural_consistent s.catalog s.plural_variants ∧
      s.style_registry = some (populate_style_registry s.catalog) := by
  unfold build_snapshot_from_text at h
  cases hl : text_loop strict (text_lines src) 0 true false 0 empty_snapshot with
  | error e => rw [hl] at h; cases h
  | ok r =>
    rw [hl] at h
    simp only [] at h
    split at h
    · cases h
    · simp only [Except.ok.injEq] at h
      have hinv := text_loop_inv strict
        (fun cat pv => (cat.map Prod.fst).Nodup ∧ plural_consistent cat pv)
        (by
          intro line line_no snapshot snap hP hst
          obtain ⟨tok, lab, txt, hpl, hnew, hcat, hpv⟩ :=
            text_entry_step_full strict line line_no snapshot snap hst
          obtain ⟨hk1, hk2⟩ := parse_line_key line tok lab txt hpl
          rw [hcat, hpv]
          constructor
          · simp only [List.map_append, List.map_cons, List.map_nil]
            rw [List.nodup_append]
            refine ⟨hP.1, List.nodup_singleton _, ?_⟩
            intro k hka hkb
            simp only [List.mem_singleton] at hkb
            subst hkb
            exact not_mem_keys_of_find snapshot.catalog _ hnew hka
          · exact plural_step snapshot.catalog snapshot.plural_variants tok txt
              (parse_variant_suffix tok) hP.2.1 hP.2.2 hk1 hk2)
        (text_lines src) 0 true false 0 empty_snapshot r
        ⟨List.nodup_nil, fun b vs v hc => (by cases hc), fun b v hc => (by cases hc)⟩ hl
      rw [← h]
      exact ⟨hinv.1, hinv.2, rfl⟩

theorem read_entries_all (data : List Nat) (Q : EntryInfo → Prop)
    (hQ : ∀ offset e offset2, read_entry data offset = .ok (e, offset2) → Q e) (n : Nat) :
    ∀ (offset : Nat) (acc : List EntryInfo) (r : List EntryInfo × Nat),
      (∀ e ∈ acc, Q e) → read_entries data n offset acc = .ok r → ∀ e ∈ r.1, Q e := by
  induction n with
  | zero =>
    intro offset acc r hacc h
    simp only [read_entries, Except.ok.injEq] at h
    rw [← h]
    exact hacc
  | succ n ih =>
    intro offset acc r hacc h
    simp only [read_entries] at h
    cases he : read_entry data offset with
    | error e => rw [he] at h; cases h
    | ok eo =>
      obtain ⟨e, o⟩ := eo
      rw [he] at h
      simp only [] at h
      refine ih o (acc ++ [e]) r ?_ h
      intro e2 he2
      rcases List.mem_append.mp he2 with h1 | h1
      · exact hacc e2 h1
      · simp only [List.mem_singleton] at h1
        rw [h1]
        exact hQ offset e o he

/-- The second loop of the binary loader keeps the plural variants consistent with the
catalog, for entries with a hex base and an empty or valid variant. -/
theorem fill_entries_plural (data : List Nat) (sb sts : Nat) :
    ∀ (es : List EntryInfo) (snap s : CatalogSnapshot),
      (∀ e ∈ es, is_hex_token e.base = true ∧
        (e.variant = [] ∨ is_variant_valid e.variant = true)) →
      plural_consistent snap.catalog snap.plural_variants →
      fill_entries data sb sts es snap = .ok s →
      plural_consistent s.catalog s.plural_variants := by
  intro es
  induction es with
  | nil =>
    intro snap s _ hP h
    simp only [fill_entries, Except.ok.injEq] at h
    subst h
    exact hP
  | cons e rest ih =>
    intro snap s hes hP h
    rw [fill_entries] at h
    by_cases hb : e.text_offset + e.text_length > sts
    · rw [if_pos hb] at h; cases h
    rw [if_neg hb] at h
    simp only [] at h
    obtain ⟨hhex, hvar⟩ := hes e (List.mem_cons_self _ _)
    have hno : (123 : Nat) ∉ e.base := fun hc =>
      (xdigit_facts 123 (is_hex_token_all e.base hhex 123 hc)).2.2.2 rfl
    have hrest : ∀ e2 ∈ rest, is_hex_token e2.base = true ∧
        (e2.variant = [] ∨ is_variant_valid e2.variant = true) :=
      fun e2 he2 => hes e2 (List.mem_cons_of_mem _ he2)
    by_cases hve : e.variant = []
    · have hE : (!e.variant.isEmpty) = false := by rw [hve]; rfl
      simp only [hE, Bool.false_eq_true, if_false] at h
      by_cases hd : (map_find snap.catalog e.base).isSome = true
      · rw [if_pos hd] at h; cases h
      rw [if_neg hd] at h
      refine ih _ s hrest ?_ h
      exact plural_step snap.catalog snap.plural_variants e.base
        (substr data (sb + e.text_offset) e.text_length) none hP.1 hP.2
        (fun b v hc => (by cases hc))
        (fun b v hk => by
          exfalso
          apply hno
          rw [hk]
          simp)
    · have hvalid : is_variant_valid e.variant = true := by
        rcases hvar with h1 | h1
        · exact absurd h1 hve
        · exact h1
      have hv123 : (123 : Nat) ∉ e.variant := fun hc =>
        (variant_valid_chars e.variant hvalid 123 hc).1 rfl
      have hE : (!e.variant.isEmpty) = true := by
        cases hv : e.variant with
        | nil => exact absurd hv hve
        | cons _ _ => rfl
      simp only [hE, if_true] at h
      by_cases hd : (map_find snap.catalog
          (e.base ++ [123] ++ e.variant ++ [125])).isSome = true
      · rw [if_pos hd] at h; cases h
      rw [if_neg hd] at h
      refine ih _ s hrest ?_ h
      exact plural_step snap.catalog snap.plural_variants
        (e.base ++ [123] ++ e.variant ++ [125])
        (substr data (sb + e.text_offset) e.text_length) (some (e.base, e.variant)) hP.1 hP.2
        (fun b v hc => by
          simp only [Option.some.injEq, Prod.mk.injEq] at hc
          rw [hc.1, hc.2])
        (fun b v hk => by
          obtain ⟨e1, e2⟩ := key_decompose_unique e.base e.variant b v hk hno hv123
          rw [e1, e2])

/-- What every snapshot returned by `build_snapshot_from_binary` satisfies. -/
theorem build_binary_inv (data : List Nat) (strict : Bool) (s : CatalogSnapshot)
    (h : build_snapshot_from_binary data strict = .ok s) :
    (s.catalog.map Prod.fst).Nodup ∧ plural_consistent s.catalog s.plural_variants ∧
      s.style_registry = some (populate_style_registry s.catalog) := by
  obtain ⟨hd, mdata, entries, sb, snap, _, _, h3, _, h5, _, hs⟩ :=
    build_binary_stages data strict s h
  obtain ⟨_, _, hnd⟩ := fill_entries_ok data sb hd.string_table_size entries _ snap h5
  have hall := read_entries_all data
    (fun e => is_hex_token e.base = true ∧ (e.variant = [] ∨ is_variant_valid e.variant = true))
    (by
      intro offset e offset2 he
      obtain ⟨tl, vl, _, _, _, _, _, _, _, hvar, hvalid, hhex, _⟩ :=
        read_entry_ok data offset e offset2 he
      refine ⟨hhex, ?_⟩
      by_cases hv : vl > 0
      · exact Or.inr (hvalid hv)
      · left
        have : vl = 0 := by omega
        rw [hvar, this]
        rfl)
    hd.entry_count _ [] (entries, sb) (fun e he => (by cases he)) h3
  have hpl := fill_entries_plural data sb hd.string_table_size entries _ snap hall
    ⟨fun b vs v hc => (by cases hc), fun b v hc => (by cases hc)⟩ h5
  rw [hs]
  exact ⟨hnd List.nodup_nil, hpl, rfl⟩

/-- C32. In every snapshot returned by `build_snapshot_from_text` or by
`build_snapshot_from_binary`: for every base `b` and every variant `v` in
`plural_variants[b]` the catalog contains the key `b{v}`, and for every catalog key of
the form `b{v}` the variant `v` is in `plural_variants[b]`. -/
theorem plural_variants_invariant (s : CatalogSnapshot)
    (h : (∃ src strict, build_snapshot_from_text src strict = .ok s) ∨
      (∃ data strict, build_snapshot_from_binary data strict = .ok s)) :
    (∀ b vs v, map_find s.plural_variants b = some vs → v ∈ vs →
      (map_find s.catalog (b ++ [123] ++ v ++ [125])).isSome = true) ∧
    (∀ b v, (map_find s.catalog (b ++ [123] ++ v ++ [125])).isSome = true →
      ∃ vs, map_find s.plural_variants b = some vs ∧ v ∈ vs) := by
  rcases h with ⟨src, strict, h⟩ | ⟨data, strict, h⟩
  · exact (build_text_inv src strict s h).2.1
  · exact (build_binary_inv data strict s h).2.1

set_option maxRecDepth 100000 in
theorem plural_variants_invariant_witness :
    (build_snapshot_from_text (utf8 "abcdef{one}: x\nabcdef: y") true =
        .ok variant_pair_snapshot ∧
      build_snapshot_from_binary collision_file true = .ok collision_snapshot) ∧
    ((∀ b vs v, map_find variant_pair_snapshot.plural_variants b = some vs → v ∈ vs →
        (map_find variant_pair_snapshot.catalog (b ++ [123] ++ v ++ [125])).isSome = true) ∧
      (∀ b v, (map_find variant_pair_snapshot.catalog (b ++ [123] ++ v ++ [125])).isSome =
          true →
        ∃ vs, map_find variant_pair_snapshot.plural_variants b = some vs ∧ v ∈ vs)) ∧
    ((∀ b vs v, map_find collision_snapshot.plural_variants b = some vs → v ∈ vs →
        (map_find collision_snapshot.catalog (b ++ [123] ++ v ++ [125])).isSome = true) ∧
      (∀ b v, (map_find collision_snapshot.catalog (b ++ [123] ++ v ++ [125])).isSome = true →
        ∃ vs, map_find collision_snapshot.plural_variants b = some vs ∧ v ∈ vs)) :=
  ⟨by decide,
    plural_variants_invariant variant_pair_snapshot
      (Or.inl ⟨utf8 "abcdef{one}: x\nabcdef: y", true, by decide⟩),
    plural_variants_invariant collision_snapshot
      (Or.inr ⟨collision_file, true, by decide⟩)⟩

/-- C33. In every snapshot returned by a loader, a key `T` is present in the style
registry if and only if `T` is a catalog key that `is_style_token` accepts and
`parse_style_properties` of its template yields at least one property; and the
registered list is that parse result. -/
theorem style_registry_invariant (s : CatalogSnapshot)
    (h : (∃ src strict, build_snapshot_from_text src strict = .ok s) ∨
      (∃ data strict, build_snapshot_from_binary data strict = .ok s)) :
    ∃ registry, s.style_registry = some registry ∧
      ∀ T props, map_find registry T = some props ↔
        ∃ template, map_find s.catalog T = some template ∧ is_style_token T = true ∧
          parse_style_properties template ≠ [] ∧ props = parse_style_properties template := by
  have hinv : (s.catalog.map Prod.fst).Nodup ∧
      s.style_registry = some (populate_style_registry s.catalog) := by
    rcases h with ⟨src, strict, h⟩ | ⟨data, strict, h⟩
    · exact ⟨(build_text_inv src strict s h).1, (build_text_inv src strict s h).2.2⟩
    · exact ⟨(build_binary_inv data strict s h).1, (build_binary_inv data strict s h).2.2⟩
  refine ⟨_, hinv.2, ?_⟩
  intro T props
  rw [populate_find s.catalog hinv.1 T]
  cases hf : map_find s.catalog T with
  | none => simp
  | some template =>
    simp only [Option.some_bind, Option.some.injEq, exists_eq_left']
    by_cases hc : is_style_token T = true ∧ ¬ (parse_style_properties template).isEmpty = true
    · rw [if_pos hc]
      simp only [Option.some.injEq]
      constructor
      · intro hp
        refine ⟨hc.1, ?_, hp.symm⟩
        intro hn
        rw [hn] at hc
        exact hc.2 rfl
      · intro hp
        exact hp.2.2.symm
    · rw [if_neg hc]
      constructor
      · intro hp; cases hp
      · intro hp
        exfalso
        apply hc
        refine ⟨hp.1, ?_⟩
        intro hn
        exact hp.2.1 (List.isEmpty_iff.mp hn)

set_option maxRecDepth 100000 in
theorem style_registry_invariant_witness :
    (build_snapshot_from_text (utf8 "style_a: color: red\nstyle_b: x") true =
        .ok style_pair_snapshot ∧
      is_style_token (utf8 "style_b") = true ∧
      parse_style_properties (utf8 "x") = []) ∧
    ∃ registry, style_pair_snapshot.style_registry = some registry ∧
      ∀ T props, map_find registry T = some props ↔
        ∃ template, map_find style_pair_snapshot.catalog T = some template ∧
          is_style_token T = true ∧
          parse_style_properties template ≠ [] ∧ props = parse_style_properties template :=
  ⟨by decide,
    style_registry_invariant style_pair_snapshot
      (Or.inl ⟨utf8 "style_a: color: red\nstyle_b: x", true, by decide⟩)⟩

/-! ## Canonical style strings -/

/-- A value without `@` and `%` resolves to itself below the recursion cap. -/
theorem resolve_plain_text_plain (state : CatalogSnapshot) (raw : Str) (args : List Str)
    (seen : Seen) (depth : Nat) (hd : depth ≤ 32) (hraw : ∀ c ∈ raw, c ≠ 64 ∧ c ≠ 37) :
    resolve_plain_text state raw args seen depth = (raw, seen) := by
  rw [resolve_plain_text]
  rw [if_neg (by omega)]
  rw [resolve_plain_text_loop_eq state raw args depth raw.length 0 [] seen (by omega)]
  have := lex_template_plain raw hraw
  unfold lex_template at this
  rw [this, emit_fold_bytes]
  rfl

/-- The text that the loop of `try_build_style_string` appends for named properties
whose values resolve to themselves. -/
theorem try_build_style_loop_named (state : CatalogSnapshot) (args : List Str) (depth : Nat)
    (hd : depth < 32) :
    ∀ (props : List StyleProperty) (builder : Str) (seen : Seen),
      (∀ p ∈ props, p.prop_name ≠ [] ∧ ∀ c ∈ p.value, c ≠ 64 ∧ c ≠ 37) →
      try_build_style_loop state args depth props builder seen =
        (props.foldl (fun (bld : Str) (p : StyleProperty) =>
          space_guard bld ++ p.prop_name ++ [58, 32] ++ p.value ++ [59]) builder, seen) := by
  intro props
  induction props with
  | nil =>
    intro builder seen _
    rw [try_build_style_loop]
    rfl
  | cons p rest ih =>
    intro builder seen h
    obtain ⟨hn, hv⟩ := h p (List.mem_cons_self _ _)
    have hne : p.prop_name.isEmpty = false := by
      cases hp : p.prop_name with
      | nil => exact absurd hp hn
      | cons _ _ => rfl
    rw [try_build_style_loop]
    simp only [hne, Bool.false_eq_true, if_false]
    rw [resolve_plain_text_plain state p.value args seen (depth + 1) (by omega) hv]
    simp only [List.foldl_cons]
    exact ih _ seen (fun q hq => h q (List.mem_cons_of_mem _ hq))

theorem tolower_eq_of_not_letter (c d : Nat) (h : tolower c = d) (hd : d < 97 ∨ 122 < d) :
    c = d := by
  unfold tolower at h
  split at h
  · rename_i hu
    unfold is_upper at hu
    simp only [Bool.and_eq_true, decide_eq_true_eq] at hu
    omega
  · exact h

theorem to_lower_not_mem (s : Str) (d : Nat) (hd : d < 97 ∨ 122 < d) (h : d ∉ s) :
    d ∉ to_lower_ascii s := by
  unfold to_lower_ascii
  intro hc
  obtain ⟨c, hc1, hc2⟩ := List.mem_map.mp hc
  rw [tolower_eq_of_not_letter c d hc2 hd] at hc1
  exact h hc1

/-- A named property of a segment without `;` is canonical. -/
theorem parse_style_segment_canonical (seg : Str) (p : StyleProperty)
    (h : parse_style_segment seg = some p) (hsemi : (59 : Nat) ∉ seg)
    (hname : p.prop_name ≠ []) : is_canonical_property p := by
  rcases parse_style_segment_some seg p h with ⟨hp, _, _⟩ | ⟨a, b, hab, hno, ha, hb, hp⟩
  · rw [hp] at hname
    exact absurd rfl hname
  · have hseg : (59 : Nat) ∉ trim seg := fun hc => hsemi (mem_trim seg 59 hc)
    rw [hab] at hseg
    simp only [List.mem_append, List.mem_cons, not_or] at hseg
    subst hp
    refine ⟨hname, to_lower_idem _, trim_to_lower a, ?_, ?_, hb, trim_idem b, ?_, rfl⟩
    · exact to_lower_not_mem _ 58 (by omega) (fun hc => hno (mem_trim a 58 hc))
    · exact to_lower_not_mem _ 59 (by omega) (fun hc => hseg.1 (mem_trim a 59 hc))
    · exact fun hc => hseg.2.2 (mem_trim b 59 hc)

theorem space_guard_semicolon (builder : Str) (h : builder.getLast? = some 59) :
    space_guard builder = builder ++ [32] := by
  unfold space_guard
  have hne : builder.isEmpty = false := by
    cases builder with
    | nil => cases h
    | cons _ _ => rfl
  rw [if_pos]
  rw [hne, h]
  simp

theorem style_fold_from_semicolon : ∀ (props : List StyleProperty) (builder : Str),
    builder.getLast? = some 59 →
    props.foldl (fun (bld : Str) (p : StyleProperty) =>
      space_guard bld ++ p.prop_name ++ [58, 32] ++ p.value ++ [59]) builder =
      builder ++ (props.map (fun q => 32 :: style_segment q)).flatMap (fun g => g ++ [59]) := by
  intro props
  induction props with
  | nil => intro builder _; simp
  | cons p rest ih =>
    intro builder h
    simp only [List.foldl_cons]
    rw [ih _ (List.getLast?_concat _), space_guard_semicolon builder h]
    simp [style_segment]

/-- The style string of a non-empty list of named properties: the segments
`name: value`, each closed by `;`, with one blank between them. -/
theorem style_fold_closed (p : StyleProperty) (rest : List StyleProperty) :
    (p :: rest).foldl (fun (bld : Str) (p : StyleProperty) =>
      space_guard bld ++ p.prop_name ++ [58, 32] ++ p.value ++ [59]) [] =
      (style_segment p :: rest.map (fun q => 32 :: style_segment q)).flatMap
        (fun g => g ++ [59]) := by
  simp only [List.foldl_cons]
  rw [style_fold_from_semicolon rest _ (List.getLast?_concat _)]
  simp [style_segment, space_guard]

theorem split_on_aux_segment (seg : Str) : ∀ (cur rest : Str), (59 : Nat) ∉ seg →
    split_on_aux 59 (seg ++ 59 :: rest) cur = (cur ++ seg) :: split_on 59 rest := by
  induction seg with
  | nil =>
    intro cur rest _
    cases rest with
    | nil => simp [split_on_aux_sep_nil, split_on]
    | cons c r => simp [split_on_aux_sep_cons, split_on]
  | cons c seg ih =>
    intro cur rest h
    simp only [List.mem_cons, not_or] at h
    rw [List.cons_append, split_on_aux_other _ _ _ _ (fun hc => h.1 hc.symm),
      ih _ _ h.2]
    simp

/-- Splitting at `;` a text made of segments without `;`, each closed by `;`, gives
back the segments. -/
theorem split_on_segments : ∀ (segs : List Str), (∀ seg ∈ segs, (59 : Nat) ∉ seg) →
    split_on 59 (segs.flatMap (fun g => g ++ [59])) = segs := by
  intro segs
  induction segs with
  | nil => intro _; rfl
  | cons seg rest ih =>
    intro h
    have e : (seg :: rest).flatMap (fun g => g ++ [59]) =
        seg ++ 59 :: rest.flatMap (fun g => g ++ [59]) := by simp
    rw [e]
    have hs : split_on 59 (seg ++ 59 :: rest.flatMap (fun g => g ++ [59])) =
        split_on_aux 59 (seg ++ 59 :: rest.flatMap (fun g => g ++ [59])) [] := by
      cases seg <;> rfl
    rw [hs, split_on_aux_segment seg [] _ (h seg (List.mem_cons_self _ _)),
      ih (fun g hg => h g (List.mem_cons_of_mem _ hg))]
    simp

theorem trim_blank_cons (x : Str) : trim (32 :: x) = trim x := by
  unfold trim
  have : is_ws 32 = true := by decide
  simp [List.dropWhile, this]

theorem ends_of_trimmed (x : Str) (hne : x ≠ []) (ht : trim x = x) :
    (∃ c, x.head? = some c ∧ is_ws c = false) ∧ (∃ c, x.getLast? = some c ∧ is_ws c = false) := by
  obtain ⟨h1, h2⟩ := trim_head_last x
  rw [ht] at h1 h2
  cases x with
  | nil => exact absurd rfl hne
  | cons a r =>
    refine ⟨⟨a, rfl, h1 a rfl⟩, ?_⟩
    cases hl : (a :: r).getLast? with
    | none => simp at hl
    | some c => exact ⟨c, rfl, h2 c hl⟩

/-- The segment written for a canonical property is parsed back to the property, with
or without the separating blank in front. -/
theorem parse_style_segment_canonical_round (p : StyleProperty) (h : is_canonical_property p) :
    parse_style_segment (style_segment p) = some p ∧
    parse_style_segment (32 :: style_segment p) = some p := by
  obtain ⟨hn, hlow, htn, h58, _, hv, htv, _, hhash⟩ := h
  obtain ⟨⟨c1, hc1, hw1⟩, _⟩ := ends_of_trimmed p.prop_name hn htn
  obtain ⟨_, ⟨c2, hc2, hw2⟩⟩ := ends_of_trimmed p.value hv htv
  have htrim : trim (style_segment p) = p.prop_name ++ 58 :: (32 :: p.value) := by
    have e : style_segment p = p.prop_name ++ 58 :: (32 :: p.value) := by
      simp [style_segment]
    rw [e]
    apply trim_of_ends
    · intro c hc
      rw [List.head?_append_of_ne_nil _ hn, hc1] at hc
      simp only [Option.some.injEq] at hc
      rw [← hc]; exact hw1
    · intro c hc
      have e2 : p.prop_name ++ 58 :: (32 :: p.value) = (p.prop_name ++ [58, 32]) ++ p.value := by
        simp
      rw [e2, List.getLast?_append_of_ne_nil _ hv, hc2] at hc
      simp only [Option.some.injEq] at hc
      rw [← hc]; exact hw2
  have hres : ∀ seg, trim seg = p.prop_name ++ 58 :: (32 :: p.value) →
      parse_style_segment seg = some p := by
    intro seg hseg
    rw [(parse_style_segment_cases seg).2.2 p.prop_name (32 :: p.value) hseg h58]
    rw [trim_blank_cons, htn, htv, hlow, ← hhash]
    rw [if_neg (by simp [hn, hv])]
  exact ⟨hres _ htrim, hres _ (by rw [trim_blank_cons]; exact htrim)⟩

theorem style_segment_no_semicolon (p : StyleProperty) (h : is_canonical_property p) :
    (59 : Nat) ∉ style_segment p ∧ (59 : Nat) ∉ (32 :: style_segment p) := by
  obtain ⟨_, _, _, _, h1, _, _, h2, _⟩ := h
  unfold style_segment
  simp only [List.mem_append, List.mem_cons, not_or]
  refine ⟨⟨⟨h1, by decide, by decide, by simp⟩, h2⟩, by decide, ⟨h1, by decide, by decide, by simp⟩,
    h2⟩

theorem filterMap_map_some {α β : Type} (f : α → Option β) (g : β → α) (l : List β)
    (h : ∀ x ∈ l, f (g x) = some x) : (l.map g).filterMap f = l := by
  induction l with
  | nil => rfl
  | cons x l ih =>
    simp only [List.map_cons, List.filterMap_cons, h x (List.mem_cons_self _ _)]
    rw [ih (fun y hy => h y (List.mem_cons_of_mem _ hy))]

/-- The style string of canonical properties parses back to the properties. -/
theorem parse_canonical_string (p : StyleProperty) (rest : List StyleProperty)
    (h : ∀ q ∈ p :: rest, is_canonical_property q) :
    parse_style_properties
      ((style_segment p :: rest.map (fun q => 32 :: style_segment q)).flatMap
        (fun g => g ++ [59])) = p :: rest := by
  unfold parse_style_properties
  rw [split_on_segments]
  · simp only [List.filterMap_cons,
      (parse_style_segment_canonical_round p (h p (List.mem_cons_self _ _))).1]
    rw [filterMap_map_some parse_style_segment (fun q => 32 :: style_segment q) rest
      (fun q hq => (parse_style_segment_canonical_round q
        (h q (List.mem_cons_of_mem _ hq))).2)]
  · intro seg hseg
    rcases List.mem_cons.mp hseg with rfl | hseg
    · exact (style_segment_no_semicolon p (h p (List.mem_cons_self _ _))).1
    · obtain ⟨q, hq, rfl⟩ := List.mem_map.mp hseg
      exact (style_segment_no_semicolon q (h q (List.mem_cons_of_mem _ hq))).2

theorem rdropWhile_blank_semicolon (x : Str) (h : x.getLast? = some 59) :
    x.rdropWhile (fun c => c == 32) = x := by
  rw [List.rdropWhile_eq_self_iff]
  intro hne
  rw [List.getLast?_eq_getLast _ hne] at h
  simp only [Option.some.injEq] at h
  rw [h]
  decide

theorem flatMap_semicolon_last (g : Str) (gs : List Str) :
    ((g :: gs).flatMap (fun g => g ++ [59])).getLast? = some 59 := by
  induction gs generalizing g with
  | nil => simp
  | cons g2 gs ih =>
    have e : (g :: g2 :: gs).flatMap (fun g => g ++ [59]) =
        (g ++ [59]) ++ (g2 :: gs).flatMap (fun g => g ++ [59]) := by simp
    rw [e, List.getLast?_append_of_ne_nil]
    · exact ih g2
    · simp

/-- C39, amended. For every snapshot with distinct keys whose style registry is the one
derived from its catalog, every token whose registered properties are all named and
whose values contain no `@` and no `%`, and every call depth below 32: the style string
`S` that `try_build_style_string` builds satisfies
`parse_style_properties(S) = ` the registered list, and building the style string from
the re-parsed list yields `S` again. -/
theorem canonical_style_reparse (s : CatalogSnapshot) (registry : List (Str × List StyleProperty))
    (token : Str) (props : List StyleProperty) (args : List Str) (seen : Seen) (depth : Nat)
    (hnd : (s.catalog.map Prod.fst).Nodup)
    (hpop : registry = populate_style_registry s.catalog)
    (hr : s.style_registry = some registry) (hreg : map_find registry token = some props)
    (hnamed : ∀ p ∈ props, p.prop_name ≠ [] ∧ ∀ c ∈ p.value, c ≠ 64 ∧ c ≠ 37)
    (hd : depth < 32) :
    ∃ S, try_build_style_string s token args seen depth = (some S, seen) ∧
      parse_style_properties S = props ∧
      (try_build_style_loop s args depth (parse_style_properties S) [] seen).1.rdropWhile
        (fun c => c == 32) = S := by
  have hfind := populate_find s.catalog hnd token
  rw [← hpop, hreg] at hfind
  obtain ⟨template, htpl, hparse⟩ : ∃ template, map_find s.catalog token = some template ∧
      props = parse_style_properties template ∧ props ≠ [] := by
    cases hf : map_find s.catalog token with
    | none => rw [hf] at hfind; cases hfind
    | some template =>
      rw [hf] at hfind
      simp only [Option.some_bind] at hfind
      split at hfind
      · rename_i hc
        simp only [Option.some.injEq] at hfind
        refine ⟨template, rfl, hfind, ?_⟩
        rw [hfind]
        intro hn
        rw [hn] at hc
        exact hc.2 rfl
      · cases hfind
  have hcanon : ∀ p ∈ props, is_canonical_property p := by
    intro p hp
    have hp2 := hp
    rw [hparse.1] at hp2
    unfold parse_style_properties at hp2
    obtain ⟨seg, hseg, hsp⟩ := List.mem_filterMap.mp hp2
    exact parse_style_segment_canonical seg p hsp ((split_on_spec 59 template).1 seg hseg)
      (hnamed p hp).1
  cases hprops : props with
  | nil => exact absurd hprops hparse.2
  | cons p rest =>
    rw [hprops] at hnamed hcanon hreg
    have hloop := try_build_style_loop_named s args depth hd (p :: rest) [] seen hnamed
    rw [style_fold_closed] at hloop
    have hlast := flatMap_semicolon_last (style_segment p)
      (rest.map (fun q => 32 :: style_segment q))
    have hrd := rdropWhile_blank_semicolon _ hlast
    have hpc := parse_canonical_string p rest hcanon
    refine ⟨_, ?_, hpc, ?_⟩
    · rw [try_build_style_string]
      simp only [hr, hreg, List.isEmpty_cons, Bool.false_eq_true, if_false, hloop, hrd]
      rw [if_neg]
      intro hc
      rw [List.isEmpty_iff] at hc
      rw [hc] at hlast
      cases hlast
    · rw [hpc, hloop, hrd]

set_option maxRecDepth 100000 in
theorem canonical_style_reparse_witness :
    ((style_two_snapshot.catalog.map Prod.fst).Nodup ∧
      style_two_snapshot.style_registry =
        some (populate_style_registry style_two_snapshot.catalog) ∧
      map_find (populate_style_registry style_two_snapshot.catalog) (utf8 "style_a") =
        some style_two_props ∧
      (∀ p ∈ style_two_props, p.prop_name ≠ [] ∧ ∀ c ∈ p.value, c ≠ 64 ∧ c ≠ 37) ∧
      translate style_two_engine (utf8 "style_a") [] = utf8 "color: red; mass: 2;" ∧
      parse_style_properties (utf8 "color: red; mass: 2;") = style_two_props) ∧
    ∃ S, try_build_style_string style_two_snapshot (utf8 "style_a") [] [] 0 = (some S, []) ∧
      parse_style_properties S = style_two_props ∧
      (try_build_style_loop style_two_snapshot [] 0 (parse_style_properties S) [] []).1.rdropWhile
        (fun c => c == 32) = S :=
  ⟨⟨by decide, by decide, by decide, by decide, translate_fuel_sound 20 _ _ _ _ (by decide),
      by decide⟩,
    canonical_style_reparse style_two_snapshot
      (populate_style_registry style_two_snapshot.catalog) (utf8 "style_a") style_two_props
      [] [] 0 (by decide) rfl (by decide) (by decide) (by decide) (by decide)⟩

set_option maxRecDepth 100000 in
/-- C39, as stated, fails: at call depth 32, which `translate_impl` admits, the values
are resolved at depth 33 and come back as the recursion sentinel, so the style string
of `style_a` in `style_two_snapshot` (properties `color: red`, `mass: 2`, all named,
no `@` and no `%` in the values) is `color: ⟦RECURSION_LIMIT⟧; mass: ⟦RECURSION_LIMIT⟧;`,
which does not parse back to the registered properties. -/
theorem style_string_at_recursion_cap :
    (style_two_snapshot.catalog.map Prod.fst).Nodup ∧
    style_two_snapshot.style_registry =
      some (populate_style_registry style_two_snapshot.catalog) ∧
    map_find (populate_style_registry style_two_snapshot.catalog) (utf8 "style_a") =
      some style_two_props ∧
    (∀ p ∈ style_two_props, p.prop_name ≠ [] ∧ ∀ c ∈ p.value, c ≠ 64 ∧ c ≠ 37) ∧
    try_build_style_string style_two_snapshot (utf8 "style_a") [] [] 32 =
      (some (utf8 "color: ⟦RECURSION_LIMIT⟧; mass: ⟦RECURSION_LIMIT⟧;"), []) ∧
    translate_impl style_two_snapshot (utf8 "style_a") [] [] 32 =
      (utf8 "color: ⟦RECURSION_LIMIT⟧; mass: ⟦RECURSION_LIMIT⟧;", []) ∧
    parse_style_properties (utf8 "color: ⟦RECURSION_LIMIT⟧; mass: ⟦RECURSION_LIMIT⟧;") ≠
      style_two_props :=
  ⟨by decide, by decide, by decide, by decide,
    (fuel_sound 20).2.2.2.2.2.1 _ _ _ _ _ _ (by decide),
    (fuel_sound 20).2.1 _ _ _ _ _ _ (by decide), by decide⟩

end I18n
